import Mathlib

/-!
# Wave function collapse texture synthesiser: pattern encoder and collapse engine

A shallow embedding of `wfc.h`, `encoder.h` and `wfc.cpp`.

* `std::vector` is a `List`; an element read `v[i]` is `List.getD` (reads are
  in bounds on every path the theorems below look at).
* `size_t` is `Nat`; the two places where the code relies on unsigned
  wrap-around (the `-1ull` entries of `kDirDn`/`kDirDm` and the `-1` start
  value of `poss_idx`) are written with an explicit `% 2 ^ 64`.
* `double` is an arbitrary carrier `F` with an uninterpreted arithmetic
  `Arith F`; the discrete theorems hold for every such arithmetic, the
  numerical ones are stated over exact rationals (`ratArith`).
* `std::mt19937` is a stream `Nat → F` of draws together with a read position.
* A `Cell*` is the grid position of the cell it points to.
-/

namespace Wfc

/-! ## wfc.h -/

/-- The modulus of `size_t` arithmetic. -/
def SIZE_MOD : Nat := 2 ^ 64

/-- The value of `(size_t)-1`. -/
def NEG_ONE : Nat := 2 ^ 64 - 1

/-- The enumeration `Dir` of `wfc.h`, in declaration order. -/
inductive Dir where
  | kDown
  | kLeft
  | kUp
  | kRight
deriving DecidableEq

/-- The numeric value of a direction. -/
def Dir.toNat : Dir → Nat
  | .kDown => 0
  | .kLeft => 1
  | .kUp => 2
  | .kRight => 3

/-- The range `dir = 0, 1, 2, 3` of every `for (size_t dir = 0; dir < 4; ++dir)`. -/
def allDirs : List Dir := [Dir.kDown, Dir.kLeft, Dir.kUp, Dir.kRight]

/-- The table `kDirDn = {1, 0, -1ull, 0}`. -/
def kDirDn : Dir → Nat
  | .kDown => 1
  | .kLeft => 0
  | .kUp => NEG_ONE
  | .kRight => 0

/-- The table `kDirDm = {0, -1ull, 0, 1}`. -/
def kDirDm : Dir → Nat
  | .kDown => 0
  | .kLeft => NEG_ONE
  | .kUp => 0
  | .kRight => 1

/-- Unsigned addition `a + b` on `size_t`. -/
def addSz (a b : Nat) : Nat := (a + b) % SIZE_MOD

/-- Unsigned subtraction `a - b` on `size_t`. -/
def subSz (a b : Nat) : Nat := (a + (SIZE_MOD - b % SIZE_MOD)) % SIZE_MOD

/-- The operations on `double` that the program uses. -/
structure Arith (F : Type) where
  /-- The literal `0.0`. -/
  zero : F
  /-- Conversion of an unsigned integer to `double`. -/
  ofNat : Nat → F
  add : F → F → F
  sub : F → F → F
  mul : F → F → F
  div : F → F → F
  neg : F → F
  /-- The function `std::log`. -/
  log : F → F
  /-- The comparison `x <= y`. -/
  le : F → F → Bool
  /-- The comparison `x > y`. -/
  gt : F → F → Bool
  /-- The constant `std::numeric_limits<double>::max()`. -/
  dblMax : F
  /-- The literal `1e-12`. -/
  noiseScale : F

/-- Exact rational arithmetic, with a given function in place of `std::log`. -/
def ratArith (logf : ℚ → ℚ) : Arith ℚ where
  zero := 0
  ofNat := fun n => (n : ℚ)
  add := fun x y => x + y
  sub := fun x y => x - y
  mul := fun x y => x * y
  div := fun x y => x / y
  neg := fun x => -x
  log := logf
  le := fun x y => decide (x ≤ y)
  gt := fun x y => decide (x > y)
  dblMax := 2 ^ 1024 - 2 ^ 971
  noiseScale := 1 / 10 ^ 12

/-- The structure `Pattern`: `edges[i][dir]` and `probs[i]`. -/
structure Pattern (F : Type) where
  edges : List (Dir → List Nat)
  probs : List F

/-- The element `pat.edges[id][dir]`. -/
def Pattern.edgesAt {F : Type} (pat : Pattern F) (id : Nat) (dir : Dir) : List Nat :=
  (pat.edges.getD id (fun _ => [])) dir

/-- The type `Wave`. -/
abbrev Wave := List (List Nat)

/-! ## encoder.h -/

/-- The element `pattern[r][c]` of a vector of vectors. -/
def at2 {α : Type} [Inhabited α] (pattern : List (List α)) (r c : Nat) : α :=
  (pattern.getD r []).getD c default

/-- The lambda `flatten_submat` of `Fit`: the `k × k` window with top-left
corner `(i, j)`, rotated `rot` times, flattened row by row; `n` and `m` are
`pattern.size()` and `pattern[0].size()`. -/
def flatten_submat {α : Type} [Inhabited α] (pattern : List (List α)) (k : Nat)
    (i j rot : Nat) : List α :=
  let n := pattern.length
  let m := (pattern.getD 0 []).length
  match rot with
  | 0 =>
    (List.range k).foldl (fun res di =>
      (List.range k).foldl (fun res dj =>
        res ++ [at2 pattern ((i + di) % n) ((j + dj) % m)]) res) []
  | 1 =>
    (List.range k).foldl (fun res dj =>
      (List.range k).reverse.foldl (fun res di =>
        res ++ [at2 pattern ((i + di) % n) ((j + dj) % m)]) res) []
  | 2 =>
    (List.range k).reverse.foldl (fun res di =>
      (List.range k).reverse.foldl (fun res dj =>
        res ++ [at2 pattern ((i + di) % n) ((j + dj) % m)]) res) []
  | 3 =>
    (List.range k).reverse.foldl (fun res dj =>
      (List.range k).foldl (fun res di =>
        res ++ [at2 pattern ((i + di) % n) ((j + dj) % m)]) res) []
  | _ => []

/-- The locals `submat_to_id`, `occ_cnt` and the member `id_to_submat_` while
`Fit` counts windows. The `std::map` is an association list searched by key
equality. -/
structure FitState (α : Type) where
  submat_to_id : List (List α × Nat)
  id_to_submat : List (List α)
  occ_cnt : List Nat

/-- The call `submat_to_id.find(flat)`: the mapped id, or `none` for `end()`. -/
def mapFind {α : Type} [DecidableEq α] (m : List (List α × Nat)) (flat : List α) :
    Option Nat :=
  match m with
  | [] => none
  | e :: rest => if e.1 = flat then some e.2 else mapFind rest flat

/-- The statement `++v[i]` on a vector of counters. -/
def incrAt (v : List Nat) (i : Nat) : List Nat :=
  v.set i (v.getD i 0 + 1)

/-- The lambda `process` of `Fit`. -/
def process {α : Type} [DecidableEq α] (s : FitState α) (flat : List α) : FitState α :=
  match mapFind s.submat_to_id flat with
  | none =>
    let new_id := s.id_to_submat.length
    { submat_to_id := s.submat_to_id ++ [(flat, new_id)]
      id_to_submat := s.id_to_submat ++ [flat]
      occ_cnt := s.occ_cnt ++ [1] }
  | some id => { s with occ_cnt := incrAt s.occ_cnt id }

/-- The bound `upper_i` (with `wrap = vwrap`, `n = rows`) or `upper_j` (with
`wrap = hwrap`, `n = cols`). -/
def upperBound (wrap : Bool) (n k : Nat) : Nat :=
  if wrap then n else n - k + 1

/-- The body of the loops over `i` and `j`: the unrotated window and, when
`rotate` is set, rotations 1, 2, 3. -/
def processCorner {α : Type} [DecidableEq α] [Inhabited α] (pattern : List (List α))
    (k : Nat) (rotate : Bool) (s : FitState α) (i j : Nat) : FitState α :=
  let s1 := process s (flatten_submat pattern k i j 0)
  if rotate then
    [1, 2, 3].foldl (fun st rot => process st (flatten_submat pattern k i j rot)) s1
  else s1

/-- The loop "count all unique submatrices" of `Fit`. -/
def countWindows {α : Type} [DecidableEq α] [Inhabited α] (pattern : List (List α))
    (k : Nat) (hwrap vwrap rotate : Bool) : FitState α :=
  let n := pattern.length
  let m := (pattern.getD 0 []).length
  let upper_i := upperBound vwrap n k
  let upper_j := upperBound hwrap m k
  (List.range upper_i).foldl (fun st i =>
    (List.range upper_j).foldl (fun st j => processCorner pattern k rotate st i j) st)
    { submat_to_id := [], id_to_submat := [], occ_cnt := [] }

/-- The inner loop (over `j1`) of the lambda `check_compatible` for one `i1`:
`false` when the lambda returns `false` from inside it, `true` when the loop
is left by `break` or runs to its end. -/
def checkRow {α : Type} [DecidableEq α] [Inhabited α] (k : Nat) (p1 p2 : List α)
    (dir : Dir) (i1 : Nat) : List Nat → Bool
  | [] => true
  | j1 :: rest =>
    let i2 := subSz i1 (kDirDn dir)
    let j2 := subSz j1 (kDirDm dir)
    if i2 = NEG_ONE ∨ i2 = k then true
    else if j2 = NEG_ONE ∨ j2 = k then checkRow k p1 p2 dir i1 rest
    else if p1.getD (k * i1 + j1) default ≠ p2.getD (k * i2 + j2) default then false
    else checkRow k p1 p2 dir i1 rest

/-- The outer loop (over `i1`) of the lambda `check_compatible`. -/
def checkRows {α : Type} [DecidableEq α] [Inhabited α] (k : Nat) (p1 p2 : List α)
    (dir : Dir) : List Nat → Bool
  | [] => true
  | i1 :: rest =>
    if checkRow k p1 p2 dir i1 (List.range k) then checkRows k p1 p2 dir rest
    else false

/-- The lambda `check_compatible` of `Fit`. -/
def check_compatible {α : Type} [DecidableEq α] [Inhabited α] (k : Nat)
    (p1 p2 : List α) (dir : Dir) : Bool :=
  checkRows k p1 p2 dir (List.range k)

/-- The member variables of `MatrixEncoder`. -/
structure MatrixEncoder (α : Type) where
  id_to_submat_ : List (List α)
  k_ : Nat

/-- The loop over `p2` that fills `res.edges[p1][dir]`. -/
def edgeList {α : Type} [DecidableEq α] [Inhabited α] (k : Nat)
    (id_to_submat : List (List α)) (T p1 : Nat) (dir : Dir) : List Nat :=
  (List.range T).foldl (fun acc p2 =>
    if check_compatible k (id_to_submat.getD p1 []) (id_to_submat.getD p2 []) dir
    then acc ++ [p2] else acc) []

/-- The method `MatrixEncoder::Fit`: the returned pattern and the encoder
afterwards. The diagnostic written to `std::cerr` has no effect on either. -/
def Fit {F α : Type} [DecidableEq α] [Inhabited α] (A : Arith F)
    (pattern : List (List α)) (k : Nat) (hwrap vwrap rotate : Bool) :
    Pattern F × MatrixEncoder α :=
  if pattern.isEmpty then
    ({ edges := [], probs := [] }, { id_to_submat_ := [], k_ := k })
  else
    let n := pattern.length
    let m := (pattern.getD 0 []).length
    let st := countWindows pattern k hwrap vwrap rotate
    let upper_i := upperBound vwrap n k
    let upper_j := upperBound hwrap m k
    let T := st.occ_cnt.length
    let prob_scale := A.ofNat ((upper_i * upper_j) % SIZE_MOD)
    let probs := (List.range T).map (fun i => A.div (A.ofNat (st.occ_cnt.getD i 0)) prob_scale)
    let edges := (List.range T).map (fun p1 => fun dir => edgeList k st.id_to_submat T p1 dir)
    ({ edges := edges, probs := probs }, { id_to_submat_ := st.id_to_submat, k_ := k })

/-- The assignment `res[i][j] = v`. -/
def set2 {α : Type} (res : List (List α)) (i j : Nat) (v : α) : List (List α) :=
  res.set i ((res.getD i []).set j v)

/-- The element `id_to_submat_[id][idx]`. -/
def MatrixEncoder.pixel {α : Type} [Inhabited α] (enc : MatrixEncoder α) (id idx : Nat) : α :=
  (enc.id_to_submat_.getD id []).getD idx default

/-- The method `MatrixEncoder::Decode`. -/
def Decode {α : Type} [Inhabited α] (enc : MatrixEncoder α) (wave : Wave) : List (List α) :=
  let n := wave.length
  let m := (wave.getD 0 []).length
  let k_ := enc.k_
  let res0 : List (List α) := List.replicate (n + k_ - 1) (List.replicate (m + k_ - 1) default)
  let res1 := (List.range n).foldl (fun res i =>
    (List.range m).foldl (fun res j =>
      set2 res i j (enc.pixel (at2 wave i j) 0)) res) res0
  let res2 := (List.range (k_ - 1)).foldl (fun res di =>
    (List.range m).foldl (fun res j =>
      set2 res (n + di) j (enc.pixel (at2 wave (n - 1) j) (k_ * (di + 1)))) res) res1
  let res3 := (List.range n).foldl (fun res i =>
    (List.range (k_ - 1)).foldl (fun res dj =>
      set2 res i (m + dj) (enc.pixel (at2 wave i (m - 1)) (dj + 1))) res) res2
  let corner := (wave.getLastD []).getLastD 0
  (List.range (k_ - 1)).foldl (fun res di =>
    (List.range (k_ - 1)).foldl (fun res dj =>
      set2 res (n + di) (m + dj) (enc.pixel corner (k_ * (di + 1) + dj + 1))) res) res3

/-! ## wfc.cpp -/

/-- The function `InverseDir`. -/
def InverseDir : Dir → Dir
  | .kUp => .kDown
  | .kDown => .kUp
  | .kLeft => .kRight
  | .kRight => .kLeft

/-- The anonymous struct `entropy_` of a cell. -/
structure Entropy (F : Type) where
  val : F
  sum_plogp : F
  sum_p : F

/-- The member variables of `Cell`. The reference `pat_` is passed to every
function that reads it; `n_compatible_` holds `int32_t` values, kept as
integers; a neighbour pointer is the grid position it points to. -/
structure Cell (F : Type) where
  n_compatible_ : Dir → List Int
  possible_ : List Bool
  n_possible_ : Nat
  neighbors_ : Dir → Option (Nat × Nat)
  entropy_ : Entropy F
  observed_ : Bool

/-- The local `cells` of `Wfc::Observe`. -/
abbrev Grid (F : Type) := List (List (Cell F))

/-- The element of a vector after applying `f` to `v[i]` in place. -/
def modifyAt {β : Type} (f : β → β) : List β → Nat → List β
  | [], _ => []
  | x :: xs, 0 => f x :: xs
  | x :: xs, i + 1 => x :: modifyAt f xs i

/-- The cell `cells[p.1][p.2]`, when it exists. -/
def cellAt {F : Type} (cells : Grid F) (p : Nat × Nat) : Option (Cell F) :=
  match cells.get? p.1 with
  | some row => row.get? p.2
  | none => none

/-- An in-place update of the cell `cells[p.1][p.2]`. -/
def modifyCell {F : Type} (cells : Grid F) (p : Nat × Nat) (f : Cell F → Cell F) : Grid F :=
  modifyAt (fun row => modifyAt f row p.2) cells p.1

/-- The flag `cells[p].possible_[id]`. -/
def possibleAt {F : Type} (cells : Grid F) (p : Nat × Nat) (id : Nat) : Bool :=
  match cellAt cells p with
  | some c => c.possible_.getD id false
  | none => false

/-- The counter `cells[p].n_compatible_[dir][id]`. -/
def nCompatAt {F : Type} (cells : Grid F) (p : Nat × Nat) (dir : Dir) (id : Nat) : Int :=
  match cellAt cells p with
  | some c => (c.n_compatible_ dir).getD id 0
  | none => 0

/-- The counter `cells[p].n_possible_`. -/
def nPossibleAt {F : Type} (cells : Grid F) (p : Nat × Nat) : Nat :=
  match cellAt cells p with
  | some c => c.n_possible_
  | none => 0

/-- The method `IsObserved` of `cells[p]`. -/
def observedAt {F : Type} (cells : Grid F) (p : Nat × Nat) : Bool :=
  match cellAt cells p with
  | some c => c.observed_
  | none => false

/-- The pointer `cells[p].neighbors_[dir]`. -/
def neighborAt {F : Type} (cells : Grid F) (p : Nat × Nat) (dir : Dir) : Option (Nat × Nat) :=
  match cellAt cells p with
  | some c => c.neighbors_ dir
  | none => none

/-- The loop over `pat.probs` in the constructor of `Cell`. -/
def initEntropy {F : Type} (A : Arith F) (pat : Pattern F) : Entropy F :=
  pat.probs.foldl (fun e prob =>
    { e with
      sum_p := A.add e.sum_p prob
      sum_plogp := A.add e.sum_plogp (A.mul prob (A.log prob)) })
    { val := A.zero, sum_plogp := A.zero, sum_p := A.zero }

/-- The value `-sum_plogp / sum_p + log(sum_p)` stored in `entropy_.val`. -/
def entropyVal {F : Type} (A : Arith F) (e : Entropy F) : F :=
  A.add (A.div (A.neg e.sum_plogp) e.sum_p) (A.log e.sum_p)

/-- The constructor `Cell::Cell(pat)`. -/
def Cell.new {F : Type} (A : Arith F) (pat : Pattern F) : Cell F :=
  let e := initEntropy A pat
  { n_compatible_ := fun dir =>
      (List.range pat.edges.length).map (fun id =>
        (((pat.edgesAt id (InverseDir dir)).length : Nat) : Int))
    possible_ := List.replicate pat.edges.length true
    n_possible_ := pat.edges.length % 2 ^ 32
    neighbors_ := fun _ => none
    entropy_ := { e with val := entropyVal A e }
    observed_ := false }

/-- The loop of `Cell::RandomState`: `rest` are the indices `i` still to
visit; the loop stops as soon as `rnd > 0` fails. -/
def randomScan {F : Type} (A : Arith F) (pat : Pattern F) (possible : List Bool) :
    List Nat → Nat → F → Nat
  | [], poss_idx, _ => poss_idx
  | i :: rest, poss_idx, rnd =>
    if A.gt rnd A.zero then
      if possible.getD i false then
        randomScan A pat possible rest i (A.sub rnd (pat.probs.getD i A.zero))
      else randomScan A pat possible rest poss_idx rnd
    else poss_idx

/-- The value of `poss_idx` when `Cell::RandomState(rnd)` reaches its second
assertion. -/
def randomIdx {F : Type} (A : Arith F) (pat : Pattern F) (c : Cell F) (rnd : F) : Nat :=
  randomScan A pat c.possible_ (List.range c.possible_.length) NEG_ONE
    (A.mul rnd c.entropy_.sum_p)

/-- The method `Cell::RandomState`: `none` when one of its two assertions
fails. -/
def RandomState {F : Type} (A : Arith F) (pat : Pattern F) (c : Cell F) (rnd : F) :
    Option Nat :=
  if c.n_possible_ < 1 then none
  else if randomIdx A pat c rnd = NEG_ONE then none
  else some (randomIdx A pat c rnd)

/-- The statement `--n_compatible_[dir][id]`. -/
def decrCompat {F : Type} (c : Cell F) (dir : Dir) (id : Nat) : Cell F :=
  { c with
    n_compatible_ := fun d =>
      if d = dir then (c.n_compatible_ d).set id ((c.n_compatible_ d).getD id 0 - 1)
      else c.n_compatible_ d }

/-- The loop of `Cell::PropagateToNeighbor(dir, tile_id)` run by the cell at
`p` over the rest of `compat_list`; `rm` is `RemoveFromState`. The result is
`none` when `rm` did not finish, else the returned flag and the grid. -/
def propagateList {F : Type} (rm : Grid F → Nat × Nat → Nat → Option (Bool × Grid F))
    (p : Nat × Nat) (dir : Dir) : List Nat → Grid F → Option (Bool × Grid F)
  | [], cells => some (true, cells)
  | id :: rest, cells =>
    let cells1 := modifyCell cells p (fun c => decrCompat c dir id)
    if nCompatAt cells1 p dir id = 0 then
      if !possibleAt cells1 p id then propagateList rm p dir rest cells1
      else
        match rm cells1 p id with
        | none => none
        | some (false, cells2) => some (false, cells2)
        | some (true, cells2) => propagateList rm p dir rest cells2
    else propagateList rm p dir rest cells1

/-- The method `Cell::PropagateToNeighbor(dir, tile_id)` of the cell at `p`. -/
def PropagateToNeighbor {F : Type} (pat : Pattern F)
    (rm : Grid F → Nat × Nat → Nat → Option (Bool × Grid F))
    (cells : Grid F) (p : Nat × Nat) (dir : Dir) (tile_id : Nat) : Option (Bool × Grid F) :=
  propagateList rm p dir (pat.edgesAt tile_id dir) cells

/-- The loop of `Cell::PropagateToNeighbors(tile_id)` run by the cell at `p`
over the remaining directions. -/
def propagateDirs {F : Type} (pat : Pattern F)
    (rm : Grid F → Nat × Nat → Nat → Option (Bool × Grid F))
    (p : Nat × Nat) (tile_id : Nat) : List Dir → Grid F → Option (Bool × Grid F)
  | [], cells => some (true, cells)
  | dir :: rest, cells =>
    match neighborAt cells p dir with
    | some q =>
      match PropagateToNeighbor pat rm cells q dir tile_id with
      | none => none
      | some (false, cells2) => some (false, cells2)
      | some (true, cells2) => propagateDirs pat rm p tile_id rest cells2
    | none => propagateDirs pat rm p tile_id rest cells

/-- The method `Cell::PropagateToNeighbors(tile_id)` of the cell at `p`. -/
def PropagateToNeighbors {F : Type} (pat : Pattern F)
    (rm : Grid F → Nat × Nat → Nat → Option (Bool × Grid F))
    (cells : Grid F) (p : Nat × Nat) (tile_id : Nat) : Option (Bool × Grid F) :=
  propagateDirs pat rm p tile_id allDirs cells

/-- The statements `possible_[id] = false; --n_possible_;` (`n_possible_` is a
`uint32_t`). -/
def dropTile {F : Type} (c : Cell F) (id : Nat) : Cell F :=
  { c with
    possible_ := c.possible_.set id false
    n_possible_ := (c.n_possible_ + (2 ^ 32 - 1)) % 2 ^ 32 }

/-- The entropy update of `Cell::RemoveFromState(id)`. -/
def updateEntropy {F : Type} (A : Arith F) (pat : Pattern F) (c : Cell F) (id : Nat) : Cell F :=
  if c.n_possible_ ≠ 1 then
    let id_p := pat.probs.getD id A.zero
    let id_logp := A.log id_p
    let e := { c.entropy_ with
      sum_p := A.sub c.entropy_.sum_p id_p
      sum_plogp := A.sub c.entropy_.sum_plogp (A.mul id_p id_logp) }
    { c with entropy_ := { e with val := entropyVal A e } }
  else { c with entropy_ := { c.entropy_ with val := A.zero } }

/-- The method `Cell::RemoveFromState(id)` of the cell at `p`; the first
argument bounds the depth of the recursion through `PropagateToNeighbors`,
and the result is `none` when that depth is exceeded. The assertion
`possible_[id]` holds at both call sites, which test the flag first. -/
def RemoveFromState {F : Type} (A : Arith F) (pat : Pattern F) :
    Nat → Grid F → Nat × Nat → Nat → Option (Bool × Grid F)
  | 0 => fun _ _ _ => none
  | fuel + 1 => fun cells p id =>
    let cells1 := modifyCell cells p (fun c => dropTile c id)
    if nPossibleAt cells1 p = 0 then some (false, cells1)
    else
      let cells2 := modifyCell cells1 p (fun c => updateEntropy A pat c id)
      PropagateToNeighbors pat (RemoveFromState A pat fuel) cells2 p id

/-- The first loop of `Cell::Observe(id)`: the list `eliminated` and the
vector `possible_` after visiting the indices `rest`. -/
def eliminateLoop (id : Nat) : List Nat → List Nat × List Bool → List Nat × List Bool
  | [], st => st
  | i :: rest, (eliminated, possible) =>
    if possible.getD i false && (i != id) then
      eliminateLoop id rest (eliminated ++ [i], possible.set i false)
    else eliminateLoop id rest (eliminated, possible)

/-- The part of `Cell::Observe(id)` before propagation: the list `eliminated`
and the cell afterwards. -/
def observeCell {F : Type} (A : Arith F) (pat : Pattern F) (c : Cell F) (id : Nat) :
    List Nat × Cell F :=
  let r := eliminateLoop id (List.range c.possible_.length) ([], c.possible_)
  (r.1,
   { c with
     observed_ := true
     n_compatible_ := fun d => (c.n_compatible_ d).map (fun _ => 0)
     possible_ := r.2
     n_possible_ := 1
     entropy_ := { c.entropy_ with sum_p := pat.probs.getD id A.zero, val := A.zero } })

/-- The last loop of `Cell::Observe(id)`, over the rest of `eliminated`. -/
def observeLoop {F : Type} (pat : Pattern F)
    (rm : Grid F → Nat × Nat → Nat → Option (Bool × Grid F))
    (p : Nat × Nat) : List Nat → Grid F → Option (Bool × Grid F)
  | [], cells => some (true, cells)
  | id :: rest, cells =>
    match PropagateToNeighbors pat rm cells p id with
    | none => none
    | some (false, cells2) => some (false, cells2)
    | some (true, cells2) => observeLoop pat rm p rest cells2

/-- The method `Cell::Observe(id)` of the cell at `p`. The assertion
`!observed_` holds at the call site, which selects an unobserved cell. -/
def Cell.Observe {F : Type} (A : Arith F) (pat : Pattern F) (fuel : Nat)
    (cells : Grid F) (p : Nat × Nat) (id : Nat) : Option (Bool × Grid F) :=
  match cellAt cells p with
  | none => some (true, cells)
  | some c =>
    let r := observeCell A pat c id
    let cells1 := modifyCell cells p (fun _ => r.2)
    observeLoop pat (RemoveFromState A pat fuel) p r.1 cells1

/-- The inner loop (over `id`) of `Cell::PropagateInitial` for one `dir`. -/
def initialIds {F : Type} (rm : Grid F → Nat × Nat → Nat → Option (Bool × Grid F))
    (p : Nat × Nat) (dir : Dir) : List Nat → Grid F → Option (Bool × Grid F)
  | [], cells => some (true, cells)
  | id :: rest, cells =>
    if possibleAt cells p id && decide (nCompatAt cells p dir id ≤ 0) then
      match rm cells p id with
      | none => none
      | some (false, cells2) => some (false, cells2)
      | some (true, cells2) => initialIds rm p dir rest cells2
    else initialIds rm p dir rest cells

/-- The size `cells[p].n_compatible_[dir].size()`. -/
def nCompatSize {F : Type} (cells : Grid F) (p : Nat × Nat) (dir : Dir) : Nat :=
  match cellAt cells p with
  | some c => (c.n_compatible_ dir).length
  | none => 0

/-- The outer loop (over `dir`) of `Cell::PropagateInitial`. -/
def initialDirs {F : Type} (rm : Grid F → Nat × Nat → Nat → Option (Bool × Grid F))
    (p : Nat × Nat) : List Dir → Grid F → Option (Bool × Grid F)
  | [], cells => some (true, cells)
  | dir :: rest, cells =>
    if (neighborAt cells p (InverseDir dir)).isNone then initialDirs rm p rest cells
    else
      match initialIds rm p dir (List.range (nCompatSize cells p dir)) cells with
      | none => none
      | some (false, cells2) => some (false, cells2)
      | some (true, cells2) => initialDirs rm p rest cells2

/-- The method `Cell::PropagateInitial` of the cell at `p`. -/
def PropagateInitial {F : Type} (A : Arith F) (pat : Pattern F) (fuel : Nat)
    (cells : Grid F) (p : Nat × Nat) : Option (Bool × Grid F) :=
  initialDirs (RemoveFromState A pat fuel) p allDirs cells

/-- The body of the wiring loops of `Wfc::Observe` for one `(i, j, dir)`. -/
def wireOne {F : Type} (n m : Nat) (cells : Grid F) (i j : Nat) (dir : Dir) : Grid F :=
  let i2 := addSz i (kDirDn dir)
  let j2 := addSz j (kDirDm dir)
  if i2 = NEG_ONE ∨ i2 = n then cells
  else if j2 = NEG_ONE ∨ j2 = m then cells
  else modifyCell cells (i, j) (fun c =>
    { c with neighbors_ := fun d => if d = dir then some (i2, j2) else c.neighbors_ d })

/-- The wiring loops of `Wfc::Observe`. -/
def wire {F : Type} (n m : Nat) (cells : Grid F) : Grid F :=
  (List.range n).foldl (fun cells i =>
    (List.range m).foldl (fun cells j =>
      allDirs.foldl (fun cells dir => wireOne n m cells i j dir) cells) cells) cells

/-- The positions `(i, j)` in the order of the loops over `i < n`, `j < m`. -/
def positions (n m : Nat) : List (Nat × Nat) :=
  (List.range n).flatMap (fun i => (List.range m).map (fun j => (i, j)))

/-- The initial propagation loops of `Wfc::Observe` over the remaining
positions. -/
def initialAll {F : Type} (A : Arith F) (pat : Pattern F) (fuel : Nat) :
    List (Nat × Nat) → Grid F → Option (Bool × Grid F)
  | [], cells => some (true, cells)
  | p :: rest, cells =>
    match PropagateInitial A pat fuel cells p with
    | none => none
    | some (false, cells2) => some (false, cells2)
    | some (true, cells2) => initialAll A pat fuel rest cells2

/-- The locals `min_entropy`, `argmini`/`argminj` (`none` while
uninitialised) and the read position of the generator during the selection
scan. -/
structure Selection (F : Type) where
  min_entropy : F
  argmin : Option (Nat × Nat)
  rpos : Nat

/-- The body of the selection scan for the cell at `p`. -/
def selectStep {F : Type} (A : Arith F) (gen : Nat → F) (cells : Grid F)
    (st : Selection F) (p : Nat × Nat) : Selection F :=
  match cellAt cells p with
  | none => st
  | some c =>
    if !c.observed_ && A.le c.entropy_.val st.min_entropy then
      let noize := A.mul A.noiseScale (gen st.rpos)
      { min_entropy := A.add c.entropy_.val noize, argmin := some p, rpos := st.rpos + 1 }
    else st

/-- The selection scan of the main loop of `Wfc::Observe`. -/
def selectCell {F : Type} (A : Arith F) (gen : Nat → F) (cells : Grid F) (n m : Nat)
    (rpos : Nat) : Selection F :=
  (positions n m).foldl (selectStep A gen cells)
    { min_entropy := A.dblMax, argmin := none, rpos := rpos }

/-- What a call of `Collapse` does: it returns a wave, it returns
`std::nullopt`, it stops at a failed assertion or an uninitialised read, or
(in this embedding only) the recursion bound given to `RemoveFromState` was
too small. -/
inductive Outcome where
  | wave (w : Wave)
  | absent
  | aborted
  | outOfFuel
deriving DecidableEq

/-- The loop `while (unobserved--)` of `Wfc::Observe`. -/
def mainLoop {F : Type} (A : Arith F) (pat : Pattern F) (fuel : Nat) (gen : Nat → F)
    (n m : Nat) : Nat → Grid F → Wave → Nat → Outcome
  | 0, _, res, _ => Outcome.wave res
  | unobserved + 1, cells, res, rpos =>
    let sel := selectCell A gen cells n m rpos
    match sel.argmin with
    | none => Outcome.aborted
    | some p =>
      match cellAt cells p with
      | none => Outcome.aborted
      | some c =>
        match RandomState A pat c (gen sel.rpos) with
        | none => Outcome.aborted
        | some state =>
          match Cell.Observe A pat fuel cells p state with
          | none => Outcome.outOfFuel
          | some (false, _) => Outcome.absent
          | some (true, cells2) =>
            mainLoop A pat fuel gen n m unobserved cells2 (set2 res p.1 p.2 state)
              (sel.rpos + 1)

/-- The method `Wfc::Observe(n, m)`; `gen` is the stream of values that
`dist(gen)` returns. -/
def Wfc_Observe {F : Type} (A : Arith F) (pat : Pattern F) (fuel : Nat) (gen : Nat → F)
    (n m : Nat) : Outcome :=
  if n = 0 ∨ m = 0 then Outcome.aborted
  else
    let res : Wave := List.replicate n (List.replicate m 0)
    let cells0 : Grid F := List.replicate n (List.replicate m (Cell.new A pat))
    let cells1 := wire n m cells0
    match initialAll A pat fuel (positions n m) cells1 with
    | none => Outcome.outOfFuel
    | some (false, _) => Outcome.absent
    | some (true, cells2) => mainLoop A pat fuel gen n m (n * m) cells2 res 0

/-- The function `Collapse`. -/
def Collapse {F : Type} (A : Arith F) (pat : Pattern F) (fuel : Nat) (gen : Nat → F)
    (n m : Nat) : Outcome :=
  Wfc_Observe A pat fuel gen n m

end Wfc

namespace Wfc

/-! ## Definitions used to state the theorems -/

/-- A sequence of assignments `res[e.1][e.2.1] = e.2.2`, run from left to right. -/
def assignAll {α : Type} (res : List (List α)) (l : List (Nat × Nat × α)) : List (List α) :=
  l.foldl (fun r e => set2 r e.1 e.2.1 e.2.2) res

/-- A vector of vectors has `R` rows of `C` elements each. -/
def Rect {α : Type} (res : List (List α)) (R C : Nat) : Prop :=
  res.length = R ∧ ∀ row ∈ res, row.length = C

instance {α : Type} [DecidableEq α] (res : List (List α)) (R C : Nat) :
    Decidable (Rect res R C) := by
  unfold Rect
  infer_instance

/-- The assignments that `Decode` makes, in program order. -/
def decodeWrites {α : Type} [Inhabited α] (enc : MatrixEncoder α) (wave : Wave) :
    List (Nat × Nat × α) :=
  let n := wave.length
  let m := (wave.getD 0 []).length
  let k_ := enc.k_
  let corner := (wave.getLastD []).getLastD 0
  (List.range n).flatMap (fun i => (List.range m).map (fun j =>
      (i, j, enc.pixel (at2 wave i j) 0)))
  ++ (List.range (k_ - 1)).flatMap (fun di => (List.range m).map (fun j =>
      (n + di, j, enc.pixel (at2 wave (n - 1) j) (k_ * (di + 1)))))
  ++ (List.range n).flatMap (fun i => (List.range (k_ - 1)).map (fun dj =>
      (i, m + dj, enc.pixel (at2 wave i (m - 1)) (dj + 1))))
  ++ (List.range (k_ - 1)).flatMap (fun di => (List.range (k_ - 1)).map (fun dj =>
      (n + di, m + dj, enc.pixel corner (k_ * (di + 1) + dj + 1))))

/-- The row offset of a direction, as the data model gives it. -/
def dirDn : Dir → Int
  | .kDown => 1
  | .kLeft => 0
  | .kUp => -1
  | .kRight => 0

/-- The column offset of a direction, as the data model gives it. -/
def dirDm : Dir → Int
  | .kDown => 0
  | .kLeft => -1
  | .kUp => 0
  | .kRight => 1

/-- The element at local row `a`, column `b` of a flattened `k × k` window. -/
def windowAt {α : Type} [Inhabited α] (k : Nat) (w : List α) (a b : Nat) : α :=
  w.getD (k * a + b) default

/-- The overlap condition of the adjacency computation: the windows `p` and
`q` agree wherever `(a, b)` lies in `p` and `(a - dn, b - dm)` lies in `q`. -/
def Overlaps {α : Type} [Inhabited α] (k : Nat) (p q : List α) (dir : Dir) : Prop :=
  ∀ a b a2 b2 : Nat, a < k → b < k → a2 < k → b2 < k →
    (a : Int) - dirDn dir = a2 → (b : Int) - dirDm dir = b2 →
    windowAt k p a b = windowAt k q a2 b2

/-- The windows that `Fit` passes to `process` for the corner `(i, j)`, in
call order. -/
def cornerWindows {α : Type} [Inhabited α] (pattern : List (List α)) (k : Nat)
    (rotate : Bool) (i j : Nat) : List (List α) :=
  flatten_submat pattern k i j 0 ::
    (if rotate then [1, 2, 3].map (fun rot => flatten_submat pattern k i j rot) else [])

/-- All windows that `Fit` passes to `process`, in call order. -/
def extractions {α : Type} [Inhabited α] (pattern : List (List α)) (k : Nat)
    (hwrap vwrap rotate : Bool) : List (List α) :=
  (List.range (upperBound vwrap pattern.length k)).flatMap (fun i =>
    (List.range (upperBound hwrap (pattern.getD 0 []).length k)).flatMap (fun j =>
      cornerWindows pattern k rotate i j))

/-- The position of the first element of `l` equal to `w` (`l.length` when
there is none). -/
def firstIdx {β : Type} [DecidableEq β] (w : β) : List β → Nat
  | [] => 0
  | x :: xs => if x = w then 0 else firstIdx w xs + 1

/-- The state of the counting loop after the calls `process(w)` for `w` in
`seen`. -/
def FitInv {α : Type} [DecidableEq α] (s : FitState α) (seen : List (List α)) : Prop :=
  s.occ_cnt.length = s.id_to_submat.length ∧
  s.id_to_submat.Nodup ∧
  (∀ w, w ∈ s.id_to_submat ↔ w ∈ seen) ∧
  (∀ w i, mapFind s.submat_to_id w = some i ↔ s.id_to_submat[i]? = some w) ∧
  (∀ i, i < s.id_to_submat.length →
    s.occ_cnt.getD i 0 = seen.count (s.id_to_submat.getD i [])) ∧
  s.id_to_submat.Pairwise (fun u v => firstIdx u seen < firstIdx v seen) ∧
  s.occ_cnt.sum = seen.length

/-- Every pair of horizontally or vertically adjacent cells of an `H × W`
wave satisfies the adjacency relation of `pat`: for the cell `(i, j)` and its
neighbour `(i2, j2)` in direction `dir`, the tile of the neighbour is in
`edges[tile of (i, j)][dir]`. -/
def WaveValid {F : Type} (pat : Pattern F) (wave : Wave) (H W : Nat) : Prop :=
  ∀ i j i2 j2 : Nat, ∀ dir : Dir, i < H → j < W → i2 < H → j2 < W →
    (i2 : Int) = i + dirDn dir → (j2 : Int) = j + dirDm dir →
    at2 wave i2 j2 ∈ pat.edgesAt (at2 wave i j) dir

/-- The id that the counting loop of `Fit` assigned to the window `w`. -/
def assignedId {α : Type} [DecidableEq α] [Inhabited α] (pattern : List (List α)) (k : Nat)
    (hwrap vwrap rotate : Bool) (w : List α) : Nat :=
  (mapFind (countWindows pattern k hwrap vwrap rotate).submat_to_id w).getD 0

/-- The wave of the sample itself: cell `(i, j)` holds the id that `Fit`
assigned to the unrotated window with top-left corner `(i, j)`, for all
corners that `Fit` visits. -/
def sampleWave {α : Type} [DecidableEq α] [Inhabited α] (pattern : List (List α)) (k : Nat)
    (hwrap vwrap rotate : Bool) : Wave :=
  (List.range (upperBound vwrap pattern.length k)).map (fun i =>
    (List.range (upperBound hwrap (pattern.getD 0 []).length k)).map (fun j =>
      assignedId pattern k hwrap vwrap rotate (flatten_submat pattern k i j 0)))

/-- A grid has `n` rows of `m` cells each. -/
def GridRect {F : Type} (cells : Grid F) (n m : Nat) : Prop :=
  cells.length = n ∧ ∀ row ∈ cells, row.length = m

/-- The number of tile ids of a pattern. -/
def Pattern.T {F : Type} (pat : Pattern F) : Nat := pat.edges.length

/-- The edge lists of a pattern are symmetric. -/
def Pattern.Symmetric {F : Type} (pat : Pattern F) : Prop :=
  ∀ i j dir, j ∈ pat.edgesAt i dir ↔ i ∈ pat.edgesAt j (InverseDir dir)

/-- The edge lists of a pattern are duplicate-free. -/
def Pattern.DupFree {F : Type} (pat : Pattern F) : Prop :=
  ∀ i dir, (pat.edgesAt i dir).Nodup

/-- The number of entries `t` in the lists `edges[j][d]` of the tiles `j`
that are still possible in the cell at `p`: the support that the cell at `p`
gives to tile `t` in its neighbour in direction `d`. -/
def suppCount {F : Type} (pat : Pattern F) (cells : Grid F) (p : Nat × Nat) (d : Dir)
    (t : Nat) : Nat :=
  ((List.range pat.T).map (fun j =>
    if possibleAt cells p j then (pat.edgesAt j d).count t else 0)).sum

/-- The decrements that the removal of tile `j` from the cell at `p` owes to
its neighbours in the directions `dirs`. -/
def pendDirs {F : Type} (pat : Pattern F) (cells : Grid F) (p : Nat × Nat) (j : Nat)
    (dirs : List Dir) (q : Nat × Nat) (d : Dir) (t : Nat) : Nat :=
  if d ∈ dirs ∧ neighborAt cells p d = some q then (pat.edgesAt j d).count t else 0

/-- The decrements that a call of `PropagateToNeighbor(d, _)` in the cell at
`q0` still owes while its loop has the entries `rest` left. -/
def pendList (q0 : Nat × Nat) (d0 : Dir) (rest : List Nat) (q : Nat × Nat) (d : Dir)
    (t : Nat) : Nat :=
  if q = q0 ∧ d = d0 then rest.count t else 0

/-- The position that the wiring loops store in `cells[p].neighbors_[dir]`,
or `none` where they `continue`. -/
def nbrPos (n m : Nat) (p : Nat × Nat) (dir : Dir) : Option (Nat × Nat) :=
  if addSz p.1 (kDirDn dir) = NEG_ONE ∨ addSz p.1 (kDirDn dir) = n then none
  else if addSz p.2 (kDirDm dir) = NEG_ONE ∨ addSz p.2 (kDirDm dir) = m then none
  else some (addSz p.1 (kDirDn dir), addSz p.2 (kDirDm dir))

/-- The triples `(i, j, dir)` in the order of the wiring loops. -/
def wireTriples (n m : Nat) : List (Nat × Nat × Dir) :=
  (List.range n).flatMap (fun i => (List.range m).flatMap (fun j =>
    allDirs.map (fun dir => (i, j, dir))))

/-- The wiring steps for a list of triples. -/
def wireAll {F : Type} (n m : Nat) (l : List (Nat × Nat × Dir)) (cells : Grid F) : Grid F :=
  l.foldl (fun cells x => wireOne n m cells x.1 x.2.1 x.2.2) cells

/-- A cell agrees with `c0` in every member except `neighbors_`. -/
def CellLike {F : Type} (c0 c : Cell F) : Prop :=
  c.possible_ = c0.possible_ ∧ c.n_compatible_ = c0.n_compatible_ ∧
  c.n_possible_ = c0.n_possible_ ∧ c.entropy_ = c0.entropy_ ∧ c.observed_ = c0.observed_

/-- The position `q` lies in the `n × m` grid. -/
def InGrid (n m : Nat) (q : Nat × Nat) : Prop := q.1 < n ∧ q.2 < m

/-- The counters that have a neighbour behind them: the cell at `q` has a
neighbour in direction `InverseDir d`, and `t` is a tile id. -/
def Dmain {F : Type} (pat : Pattern F) (n m : Nat) (q : Nat × Nat) (d : Dir) (t : Nat) : Prop :=
  InGrid n m q ∧ (nbrPos n m q (InverseDir d)).isSome ∧ t < pat.T

/-- The neighbour pointers of the grid are those that the wiring loops set. -/
def Wired {F : Type} (cells : Grid F) (n m : Nat) : Prop :=
  ∀ q d, neighborAt cells q d = if q.1 < n ∧ q.2 < m then nbrPos n m q d else none

/-- The state of the grid during propagation. `E q d t` is the number of
decrements of `n_compatible_[d][t]` of the cell at `q` that are still owed;
`D q d t` marks the counters for which a still-possible tile is known to have
support. -/
structure Inv {F : Type} (pat : Pattern F) (cells : Grid F)
    (E : Nat × Nat → Dir → Nat → Nat) (D : Nat × Nat → Dir → Nat → Prop) : Prop where
  exact : ∀ p q d t, neighborAt cells p d = some q → observedAt cells q = false →
    t < pat.T → nCompatAt cells q d t = (suppCount pat cells p d t : Int) + (E q d t : Int)
  pos : ∀ q d t, D q d t → observedAt cells q = false → possibleAt cells q t = true →
    0 < nCompatAt cells q d t
  obs : ∀ q d t, observedAt cells q = true → nCompatAt cells q d t ≤ 0
  size : ∀ q d, (cellAt cells q).isSome → nCompatSize cells q d = pat.T
  geo : ∀ p q d, neighborAt cells p d = some q →
    neighborAt cells q (InverseDir d) = some p
  plen : ∀ q t, possibleAt cells q t = true → t < pat.T

/-- What propagation may change between two grids: possibilities are only
lost, never in an observed cell, and the cells keep their place, their
observed flag and their neighbours. -/
structure Frame {F : Type} (cells cells2 : Grid F) : Prop where
  mono : ∀ q t, possibleAt cells2 q t = true → possibleAt cells q t = true
  observed : ∀ q, observedAt cells2 q = observedAt cells q
  neighbors : ∀ q d, neighborAt cells2 q d = neighborAt cells q d
  keep : ∀ q t, observedAt cells q = true → possibleAt cells2 q t = possibleAt cells q t
  rect : ∀ n m, GridRect cells n m → GridRect cells2 n m

/-- Every tile still possible next to an observed cell is compatible with
the observed cell's tile. -/
def Linked {F : Type} (pat : Pattern F) (cells : Grid F) : Prop :=
  ∀ p q d i k, neighborAt cells p d = some q → observedAt cells p = true →
    possibleAt cells p i = true → possibleAt cells q k = true → k ∈ pat.edgesAt i d

/-- The state of the main loop of `Wfc::Observe` when `remaining` cells are
left to observe. -/
structure MainInv {F : Type} (pat : Pattern F) (n m : Nat) (cells : Grid F) (res : Wave)
    (remaining : Nat) : Prop where
  inv : Inv pat cells (fun _ _ _ => 0) (Dmain pat n m)
  link : Linked pat cells
  wired : Wired cells n m
  rect : GridRect cells n m
  resRect : Rect res n m
  resOk : ∀ q, InGrid n m q → observedAt cells q = true →
    possibleAt cells q (at2 res q.1 q.2) = true
  count : ((positions n m).filter (fun q => !observedAt cells q)).length = remaining

/-- Every cell of the grid of a one-tile pattern holds tile 0, and every
unobserved cell has `entropy_.sum_p = sp` and `entropy_.val = v`. -/
def SingleTileGrid {F : Type} (cells : Grid F) (sp v : F) : Prop :=
  ∀ p c, cellAt cells p = some c →
    c.possible_ = [true] ∧ c.n_possible_ = 1 ∧
    (c.observed_ = false → c.entropy_.sum_p = sp ∧ c.entropy_.val = v)

/-- The specification of a successful call of `RemoveFromState`, stated on
the grid right after `possible_[id] = false`. -/
def RmSpec {F : Type} (pat : Pattern F) (D : Nat × Nat → Dir → Nat → Prop)
    (rm : Grid F → Nat × Nat → Nat → Option (Bool × Grid F)) : Prop :=
  ∀ (cells : Grid F) (q : Nat × Nat) (id : Nat) (E0 E : Nat × Nat → Dir → Nat → Nat)
    (cells2 : Grid F),
    (∀ q2 d t, E0 q2 d t = E q2 d t + pendDirs pat cells q id allDirs q2 d t) →
    Inv pat (modifyCell cells q (fun c => dropTile c id)) E0 D →
    rm cells q id = some (true, cells2) →
    Inv pat cells2 E D ∧ Frame (modifyCell cells q (fun c => dropTile c id)) cells2

end Wfc

namespace Wfc

/-! ## Further definitions used to state the theorems -/

/-- A flattened `k × k` window turned by 90° clockwise: the element at local
`(a, b)` of the result is the element at local `(k - 1 - b, a)` of `w`. -/
def rotateCW {α : Type} [Inhabited α] (k : Nat) (w : List α) : List α :=
  (List.range k).flatMap (fun a => (List.range k).map (fun b => windowAt k w (k - 1 - b) a))

/-- The windows of the sample for the corners `(i, j)` with `i < Ui`, `j < Uj`
and the rotations `rot < R`, corner by corner in row-major order and, for
each corner, by ascending rotation. -/
def windowsOf {α : Type} [Inhabited α] (pattern : List (List α)) (k Ui Uj R : Nat) :
    List (List α) :=
  (List.range Ui).flatMap (fun i => (List.range Uj).flatMap (fun j =>
    (List.range R).map (fun rot => flatten_submat pattern k i j rot)))

/-- The `4 × 4` checkerboard sample of the colours `a` and `b`. -/
def checkerboard {α : Type} (a b : α) : List (List α) :=
  [[a, b, a, b], [b, a, b, a], [a, b, a, b], [b, a, b, a]]

/-- Every possible flag set in `cells2` is set in `cells`. -/
def Mono {F : Type} (cells cells2 : Grid F) : Prop :=
  ∀ q t, possibleAt cells2 q t = true → possibleAt cells q t = true

/-- A property `I` of the grid that the elementary updates of the engine
keep: a counter decrement, the entropy update, the removal of a possible
tile (when `S` fails, only a removal that leaves `n_possible_` nonzero), and
the first part of `Observe` for a possible tile. -/
structure StepClosed {F : Type} (A : Arith F) (pat : Pattern F) (I : Grid F → Prop)
    (S : Prop) : Prop where
  decr : ∀ cells q d id, I cells → I (modifyCell cells q (fun c => decrCompat c d id))
  ent : ∀ cells q id, I cells → I (modifyCell cells q (fun c => updateEntropy A pat c id))
  drop : ∀ cells q id, I cells → possibleAt cells q id = true →
    (S ∨ nPossibleAt (modifyCell cells q (fun c => dropTile c id)) q ≠ 0) →
    I (modifyCell cells q (fun c => dropTile c id))
  observe : ∀ cells p c id, I cells → cellAt cells p = some c →
    possibleAt cells p id = true →
    I (modifyCell cells p (fun _ => (observeCell A pat c id).2))

/-- What the generic argument needs of the function passed for
`RemoveFromState`: called on a possible tile it keeps `I` (when `S` fails,
only if it returns `true`). -/
def RmKeeps {F : Type} (I : Grid F → Prop) (S : Prop)
    (rm : Grid F → Nat × Nat → Nat → Option (Bool × Grid F)) : Prop :=
  ∀ cells q id b cells2, I cells → possibleAt cells q id = true →
    rm cells q id = some (b, cells2) → (S ∨ b = true) → I cells2

/-- In every cell `n_possible_` is the number of set possible flags, and the
vector `possible_` is shorter than `2 ^ 32` (the range of `n_possible_`). -/
def CountOk {F : Type} (cells : Grid F) : Prop :=
  ∀ q c, cellAt cells q = some c →
    c.n_possible_ = c.possible_.count true ∧ c.possible_.length < 2 ^ 32

/-- In every cell `n_possible_` is the number of set possible flags modulo
`2 ^ 32`, and at least one flag is set. -/
def Alive {F : Type} (cells : Grid F) : Prop :=
  ∀ q c, cellAt cells q = some c →
    c.n_possible_ = c.possible_.count true % 2 ^ 32 ∧ 0 < c.possible_.count true

/-- The number of pairs (cell, tile id) whose possible flag is set. -/
def totalPossible {F : Type} (cells : Grid F) : Nat :=
  (cells.map (fun row => (row.map (fun c => c.possible_.count true)).sum)).sum

/-- What the termination argument needs of the function passed for
`RemoveFromState`: on a grid with at most `N` set possible flags, called on a
possible tile, it returns, and fewer flags are set afterwards. -/
def RmTerm {F : Type} (rm : Grid F → Nat × Nat → Nat → Option (Bool × Grid F))
    (N : Nat) : Prop :=
  ∀ cells q id, possibleAt cells q id = true → totalPossible cells ≤ N →
    ∃ b cells2, rm cells q id = some (b, cells2) ∧
      totalPossible cells2 < totalPossible cells

/-- The neighbour pointers and the sizes of the counter vectors of `cells2`
are those of `cells`. -/
def SameShape {F : Type} (cells cells2 : Grid F) : Prop :=
  ∀ q d, neighborAt cells2 q d = neighborAt cells q d ∧
    nCompatSize cells2 q d = nCompatSize cells q d

/-- Every still-possible tile has a positive counter, on the counters marked
by `D`. -/
def PosOn {F : Type} (cells : Grid F) (D : Nat × Nat → Dir → Nat → Prop) : Prop :=
  ∀ q d t, D q d t → possibleAt cells q t = true → 0 < nCompatAt cells q d t

/-- What the argument for `PosOn` needs of the function passed for
`RemoveFromState`: when it returns `true`, positivity holds on `D`, provided
it held before on all counters of `D` other than those of the removed tile. -/
def RmPos {F : Type} (rm : Grid F → Nat × Nat → Nat → Option (Bool × Grid F)) : Prop :=
  ∀ (D : Nat × Nat → Dir → Nat → Prop) cells q id cells2,
    PosOn cells (fun q2 d t => D q2 d t ∧ ¬ (q2 = q ∧ t = id)) →
    rm cells q id = some (true, cells2) → PosOn cells2 D

/-- The grid states at which propagation is quiescent during a run of
`Wfc::Observe(n, m)`: the state after the initial propagation has succeeded,
and the state after a call of `Observe`, for an unobserved cell of the grid
and a tile possible in it, has returned `true`. -/
inductive Reach {F : Type} (A : Arith F) (pat : Pattern F) (fuel n m : Nat) : Grid F → Prop
  | init (cells : Grid F) :
    initialAll A pat fuel (positions n m)
      (wire n m (List.replicate n (List.replicate m (Cell.new A pat)))) = some (true, cells) →
    Reach A pat fuel n m cells
  | observe (cells cells2 : Grid F) (p : Nat × Nat) (id : Nat) :
    Reach A pat fuel n m cells → InGrid n m p → observedAt cells p = false →
    possibleAt cells p id = true →
    Cell.Observe A pat fuel cells p id = some (true, cells2) →
    Reach A pat fuel n m cells2

/-- The number of tiles `j` still possible in the cell at `p` with
`k ∈ edges[j][d]`. -/
def supporters {F : Type} (pat : Pattern F) (cells : Grid F) (p : Nat × Nat) (d : Dir)
    (k : Nat) : Nat :=
  ((List.range pat.T).filter (fun j =>
    possibleAt cells p j && decide (k ∈ pat.edgesAt j d))).length

/-- Some cell of the grid has `n_possible_ = 0`. -/
def Emptied {F : Type} (cells : Grid F) : Prop :=
  ∃ q c, cellAt cells q = some c ∧ c.n_possible_ = 0

/-- What the argument for `Emptied` needs of the function passed for
`RemoveFromState`: when it returns `false` for a possible tile, some cell of
the returned grid has `n_possible_ = 0`. -/
def RmFails {F : Type} (rm : Grid F → Nat × Nat → Nat → Option (Bool × Grid F)) : Prop :=
  ∀ cells q id cells2, possibleAt cells q id = true →
    rm cells q id = some (false, cells2) → Emptied cells2

/-! ### Sample inputs -/

/-- A sample pattern: the one that `Fit` returns for the `2 × 3` sample
`[[0, 0, 1], [0, 0, 1]]` with `k = 2`, no wrapping and no rotation. Its two
tiles are the windows `[0, 0, 0, 0]` and `[0, 1, 0, 1]`. -/
def stripPattern : Pattern ℚ :=
  (Fit (ratArith (fun _ => 0)) [[0, 0, 1], [0, 0, 1]] 2 false false false).1

/-- A sample grid: the `1 × 2` grid of `Wfc::Observe` for `stripPattern`, after
the wiring loops. -/
def stripGrid : Grid ℚ :=
  wire 1 2 (List.replicate 1 (List.replicate 2 (Cell.new (ratArith (fun _ => 0)) stripPattern)))

/-- A sample grid: `stripGrid` after the initial propagation loops. -/
def stripQuiet : Grid ℚ :=
  ((initialAll (ratArith (fun _ => 0)) stripPattern 8 (positions 1 2) stripGrid).getD
    (false, [])).2

/-- A sample pattern with two tiles in which tile 0 has no right neighbour,
tile 1 has no left neighbour, and tile 0 may stand to the right of tile 1. -/
def chainPattern : Pattern ℚ where
  edges := [fun d => match d with
              | Dir.kLeft => [1]
              | _ => [],
            fun d => match d with
              | Dir.kRight => [0]
              | _ => []]
  probs := [1 / 2, 1 / 2]

/-- A sample pattern with two tiles, all of whose edge lists are empty. -/
def isolatedPattern : Pattern ℚ where
  edges := [fun _ => [], fun _ => []]
  probs := [1 / 2, 1 / 2]

/-- A sample pattern with one tile, all of whose edge lists are empty. -/
def lonePattern : Pattern ℚ where
  edges := [fun _ => []]
  probs := [1]

/-- A sample grid: the `1 × 1` grid of `Wfc::Observe` for `lonePattern`, after
the wiring loops. -/
def loneGrid : Grid ℚ :=
  wire 1 1 (List.replicate 1 (List.replicate 1 (Cell.new (ratArith (fun _ => 0)) lonePattern)))

end Wfc

namespace Wfc

/-! ## Vectors -/

theorem getD_set_eq {β : Type} (l : List β) (i j : Nat) (v d : β) :
    (l.set i v).getD j d = if i = j ∧ i < l.length then v else l.getD j d := by
  rw [List.getD_eq_getElem?_getD, List.getD_eq_getElem?_getD, List.getElem?_set]
  by_cases h : i = j
  · subst h
    by_cases h2 : i < l.length
    · simp [h2]
    · simp [h2]
      rw [List.getElem?_eq_none (by omega)]
      rfl
  · simp [h]

theorem foldl_flatMap_eq {β γ δ : Type} (g : δ → γ → δ) (f : β → List γ) (l : List β) (init : δ) :
    l.foldl (fun acc x => (f x).foldl g acc) init = (l.flatMap f).foldl g init := by
  induction l generalizing init with
  | nil => rfl
  | cons x xs ih => simp [List.flatMap_cons, List.foldl_append, ih]

theorem foldl_map_eq {β γ δ : Type} (g : δ → γ → δ) (f : β → γ) (l : List β) (init : δ) :
    l.foldl (fun acc x => g acc (f x)) init = (l.map f).foldl g init := by
  induction l generalizing init with
  | nil => rfl
  | cons x xs ih => simp [ih]

/-! ## Assignments to a vector of vectors -/

theorem rect_set2 {α : Type} {res : List (List α)} {R C : Nat} (h : Rect res R C)
    (i j : Nat) (v : α) : Rect (set2 res i j v) R C := by
  obtain ⟨h1, h2⟩ := h
  refine ⟨by simp [set2, h1], ?_⟩
  intro row hrow
  unfold set2 at hrow
  by_cases hi : i < res.length
  · rcases List.mem_or_eq_of_mem_set hrow with h3 | h3
    · exact h2 row h3
    · subst h3
      rw [List.length_set, List.getD_eq_getElem?_getD, List.getElem?_eq_getElem hi]
      exact h2 _ (List.getElem_mem hi)
  · rw [List.set_eq_of_length_le (by omega)] at hrow
    exact h2 row hrow

theorem at2_set2 {α : Type} [Inhabited α] (res : List (List α)) (i j a b : Nat) (v : α) :
    at2 (set2 res i j v) a b =
      if a = i ∧ b = j ∧ i < res.length ∧ j < (res.getD i []).length then v
      else at2 res a b := by
  unfold at2 set2
  rw [getD_set_eq]
  by_cases h1 : i = a ∧ i < res.length
  · obtain ⟨rfl, h1⟩ := h1
    rw [if_pos ⟨rfl, h1⟩, getD_set_eq]
    by_cases h2 : j = b ∧ j < (res.getD i []).length
    · obtain ⟨rfl, h2⟩ := h2
      simp [h1, h2]
    · rw [if_neg h2, if_neg]
      rintro ⟨-, rfl, -, h3⟩
      exact h2 ⟨rfl, h3⟩
  · rw [if_neg h1, if_neg]
    rintro ⟨rfl, -, h3, -⟩
    exact h1 ⟨rfl, h3⟩

theorem rect_assignAll {α : Type} (l : List (Nat × Nat × α)) {res : List (List α)} {R C : Nat}
    (h : Rect res R C) : Rect (assignAll res l) R C := by
  induction l generalizing res with
  | nil => exact h
  | cons e es ih => exact ih (rect_set2 h _ _ _)

theorem rect_row_length {α : Type} {res : List (List α)} {R C : Nat} (h : Rect res R C)
    {i : Nat} (hi : i < R) : (res.getD i []).length = C := by
  obtain ⟨h1, h2⟩ := h
  rw [List.getD_eq_getElem?_getD, List.getElem?_eq_getElem (by omega)]
  exact h2 _ (List.getElem_mem _)

/-- A position that no assignment writes keeps its value. -/
theorem at2_assignAll_miss {α : Type} [Inhabited α] (l : List (Nat × Nat × α))
    (res : List (List α)) (a b : Nat)
    (h : ∀ e ∈ l, ¬ (e.1 = a ∧ e.2.1 = b)) :
    at2 (assignAll res l) a b = at2 res a b := by
  induction l generalizing res with
  | nil => rfl
  | cons e es ih =>
    have h1 := ih (set2 res e.1 e.2.1 e.2.2) (fun e' he' => h e' (List.mem_cons_of_mem _ he'))
    have h2 := h e (List.mem_cons_self _ _)
    show at2 (assignAll (set2 res e.1 e.2.1 e.2.2) es) a b = _
    rw [h1, at2_set2, if_neg]
    rintro ⟨rfl, rfl, -⟩
    exact h2 ⟨rfl, rfl⟩

/-- A position written by in-range assignments that all carry the same value
ends with that value. -/
theorem at2_assignAll_hit {α : Type} [Inhabited α] (l : List (Nat × Nat × α))
    (res : List (List α)) (R C : Nat) (hres : Rect res R C) (a b : Nat) (v : α)
    (ha : a < R) (hb : b < C)
    (hmem : ∃ e ∈ l, e.1 = a ∧ e.2.1 = b)
    (hval : ∀ e ∈ l, e.1 = a → e.2.1 = b → e.2.2 = v) :
    at2 (assignAll res l) a b = v := by
  induction l generalizing res with
  | nil => obtain ⟨e, he, -⟩ := hmem; cases he
  | cons e es ih =>
    show at2 (assignAll (set2 res e.1 e.2.1 e.2.2) es) a b = v
    by_cases hex : ∃ e' ∈ es, e'.1 = a ∧ e'.2.1 = b
    · exact ih _ (rect_set2 hres _ _ _) hex
        (fun e' he' => hval e' (List.mem_cons_of_mem _ he'))
    · rw [at2_assignAll_miss es _ a b (fun e' he' hc => hex ⟨e', he', hc⟩)]
      obtain ⟨e0, he0, h1, h2⟩ := hmem
      rcases List.mem_cons.1 he0 with rfl | he0
      · rw [at2_set2, if_pos]
        · exact hval e0 (List.mem_cons_self _ _) h1 h2
        · refine ⟨h1.symm, h2.symm, ?_, ?_⟩
          · rw [hres.1, h1]; exact ha
          · rw [h1, rect_row_length hres ha, h2]; exact hb
      · exact absurd ⟨e0, he0, h1, h2⟩ hex

theorem assignAll_append {α : Type} (res : List (List α)) (l1 l2 : List (Nat × Nat × α)) :
    assignAll (assignAll res l1) l2 = assignAll res (l1 ++ l2) := by
  simp [assignAll, List.foldl_append]

theorem nested_assign {α : Type} (rs cs : List Nat) (r c : Nat → Nat → Nat)
    (v : Nat → Nat → α) (res : List (List α)) :
    rs.foldl (fun res x => cs.foldl (fun res y => set2 res (r x y) (c x y) (v x y)) res) res
      = assignAll res (rs.flatMap (fun x => cs.map (fun y => (r x y, c x y, v x y)))) := by
  unfold assignAll
  rw [← foldl_flatMap_eq]
  congr 1
  funext acc x
  rw [← foldl_map_eq]

theorem Decode_eq_assignAll {α : Type} [Inhabited α] (enc : MatrixEncoder α) (wave : Wave) :
    Decode enc wave =
      assignAll (List.replicate (wave.length + enc.k_ - 1)
        (List.replicate ((wave.getD 0 []).length + enc.k_ - 1) default))
        (decodeWrites enc wave) := by
  unfold Decode decodeWrites
  simp only []
  rw [nested_assign (List.range wave.length) (List.range (wave.getD 0 []).length)
        (fun i _ => i) (fun _ j => j) (fun i j => enc.pixel (at2 wave i j) 0),
      nested_assign (List.range (enc.k_ - 1)) (List.range (wave.getD 0 []).length)
        (fun di _ => wave.length + di) (fun _ j => j)
        (fun di j => enc.pixel (at2 wave (wave.length - 1) j) (enc.k_ * (di + 1))),
      nested_assign (List.range wave.length) (List.range (enc.k_ - 1))
        (fun i _ => i) (fun _ dj => (wave.getD 0 []).length + dj)
        (fun i dj => enc.pixel (at2 wave i ((wave.getD 0 []).length - 1)) (dj + 1)),
      nested_assign (List.range (enc.k_ - 1)) (List.range (enc.k_ - 1))
        (fun di _ => wave.length + di) (fun _ dj => (wave.getD 0 []).length + dj)
        (fun di dj => enc.pixel ((wave.getLastD []).getLastD 0) (enc.k_ * (di + 1) + dj + 1)),
      assignAll_append, assignAll_append, assignAll_append]
  simp only [List.append_assoc]

theorem mem_decodeWrites {α : Type} [Inhabited α] (enc : MatrixEncoder α) (wave : Wave)
    (e : Nat × Nat × α) :
    e ∈ decodeWrites enc wave ↔
      (∃ i, i < wave.length ∧ ∃ j, j < (wave.getD 0 []).length ∧
        (i, j, enc.pixel (at2 wave i j) 0) = e) ∨
      (∃ di, di < enc.k_ - 1 ∧ ∃ j, j < (wave.getD 0 []).length ∧
        (wave.length + di, j,
          enc.pixel (at2 wave (wave.length - 1) j) (enc.k_ * (di + 1))) = e) ∨
      (∃ i, i < wave.length ∧ ∃ dj, dj < enc.k_ - 1 ∧
        (i, (wave.getD 0 []).length + dj,
          enc.pixel (at2 wave i ((wave.getD 0 []).length - 1)) (dj + 1)) = e) ∨
      (∃ di, di < enc.k_ - 1 ∧ ∃ dj, dj < enc.k_ - 1 ∧
        (wave.length + di, (wave.getD 0 []).length + dj,
          enc.pixel ((wave.getLastD []).getLastD 0) (enc.k_ * (di + 1) + dj + 1)) = e) := by
  unfold decodeWrites
  simp only [List.mem_append, List.mem_flatMap, List.mem_map, List.mem_range, or_assoc]


theorem rect_replicate {α : Type} (R C : Nat) (d : α) :
    Rect (List.replicate R (List.replicate C d)) R C := by
  refine ⟨by simp, ?_⟩
  intro row hrow
  rw [List.eq_of_mem_replicate hrow]
  simp

theorem getLastD_eq_getD {β : Type} (l : List β) (d : β) (h : 0 < l.length) :
    l.getLastD d = l.getD (l.length - 1) d := by
  cases l with
  | nil => simp at h
  | cons x xs =>
    rw [List.getLastD_cons, List.getD_eq_getElem?_getD, ← List.getLast?_eq_getElem?]
    simp [List.getLast?_eq_getLast, List.getLast_eq_getLastD]

/-- The shape and the four regions of the image that `Decode` returns. -/
theorem Decode_regions {α : Type} [Inhabited α] (enc : MatrixEncoder α) (wave : Wave)
    (H W : Nat) (hwave : Rect wave H W) (hH : 0 < H) (hW : 0 < W) (hk : 0 < enc.k_) :
    Rect (Decode enc wave) (H + enc.k_ - 1) (W + enc.k_ - 1) ∧
    (∀ i j, i < H → j < W →
      at2 (Decode enc wave) i j = enc.pixel (at2 wave i j) 0) ∧
    (∀ i dj, i < H → dj < enc.k_ - 1 →
      at2 (Decode enc wave) i (W + dj) = enc.pixel (at2 wave i (W - 1)) (dj + 1)) ∧
    (∀ di j, di < enc.k_ - 1 → j < W →
      at2 (Decode enc wave) (H + di) j
        = enc.pixel (at2 wave (H - 1) j) (enc.k_ * (di + 1))) ∧
    (∀ di dj, di < enc.k_ - 1 → dj < enc.k_ - 1 →
      at2 (Decode enc wave) (H + di) (W + dj)
        = enc.pixel (at2 wave (H - 1) (W - 1)) (enc.k_ * (di + 1) + dj + 1)) := by
  have hn : wave.length = H := hwave.1
  have hm : (wave.getD 0 []).length = W := rect_row_length hwave hH
  have hcorner : (wave.getLastD []).getLastD 0 = at2 wave (H - 1) (W - 1) := by
    have h1 : wave.getLastD [] = wave.getD (H - 1) [] := by
      rw [getLastD_eq_getD _ _ (by omega), hn]
    have h2 : (wave.getD (H - 1) []).length = W := rect_row_length hwave (by omega)
    rw [h1, getLastD_eq_getD _ _ (by omega), h2]
    rfl
  have hrect : Rect (List.replicate (H + enc.k_ - 1)
      (List.replicate (W + enc.k_ - 1) (default : α))) (H + enc.k_ - 1) (W + enc.k_ - 1) :=
    rect_replicate _ _ _
  rw [Decode_eq_assignAll, hn, hm]
  refine ⟨rect_assignAll _ hrect, ?_, ?_, ?_, ?_⟩
  · intro i j hi hj
    apply at2_assignAll_hit _ _ _ _ hrect i j _ (by omega) (by omega)
    · exact ⟨_, (mem_decodeWrites enc wave _).2 (Or.inl ⟨i, by omega, j, by omega, rfl⟩),
        rfl, rfl⟩
    · intro e he h1 h2
      rcases (mem_decodeWrites enc wave e).1 he with
        ⟨i', hi', j', hj', rfl⟩ | ⟨di', hdi', j', hj', rfl⟩ | ⟨i', hi', dj', hdj', rfl⟩ |
        ⟨di', hdi', dj', hdj', rfl⟩
      · simp only at h1 h2; subst h1; subst h2; rfl
      · simp only at h1 h2; omega
      · simp only at h1 h2; omega
      · simp only at h1 h2; omega
  · intro i dj hi hdj
    apply at2_assignAll_hit _ _ _ _ hrect i (W + dj) _ (by omega) (by omega)
    · exact ⟨_, (mem_decodeWrites enc wave _).2
        (Or.inr (Or.inr (Or.inl ⟨i, by omega, dj, by omega, rfl⟩))), rfl, by rw [hm]⟩
    · intro e he h1 h2
      rcases (mem_decodeWrites enc wave e).1 he with
        ⟨i', hi', j', hj', rfl⟩ | ⟨di', hdi', j', hj', rfl⟩ | ⟨i', hi', dj', hdj', rfl⟩ |
        ⟨di', hdi', dj', hdj', rfl⟩
      · simp only at h1 h2; omega
      · simp only at h1 h2; omega
      · simp only at h1 h2
        have : dj' = dj := by omega
        subst this; subst h1; rw [hm]
      · simp only at h1 h2; omega
  · intro di j hdi hj
    apply at2_assignAll_hit _ _ _ _ hrect (H + di) j _ (by omega) (by omega)
    · exact ⟨_, (mem_decodeWrites enc wave _).2
        (Or.inr (Or.inl ⟨di, by omega, j, by omega, rfl⟩)), by rw [hn], rfl⟩
    · intro e he h1 h2
      rcases (mem_decodeWrites enc wave e).1 he with
        ⟨i', hi', j', hj', rfl⟩ | ⟨di', hdi', j', hj', rfl⟩ | ⟨i', hi', dj', hdj', rfl⟩ |
        ⟨di', hdi', dj', hdj', rfl⟩
      · simp only at h1 h2; omega
      · simp only at h1 h2
        have : di' = di := by omega
        subst this; subst h2; rw [hn]
      · simp only at h1 h2; omega
      · simp only at h1 h2; omega
  · intro di dj hdi hdj
    apply at2_assignAll_hit _ _ _ _ hrect (H + di) (W + dj) _ (by omega) (by omega)
    · exact ⟨_, (mem_decodeWrites enc wave _).2
        (Or.inr (Or.inr (Or.inr ⟨di, by omega, dj, by omega, rfl⟩))),
        by rw [hn], by rw [hm]⟩
    · intro e he h1 h2
      rcases (mem_decodeWrites enc wave e).1 he with
        ⟨i', hi', j', hj', rfl⟩ | ⟨di', hdi', j', hj', rfl⟩ | ⟨i', hi', dj', hdj', rfl⟩ |
        ⟨di', hdi', dj', hdj', rfl⟩
      · simp only at h1 h2; omega
      · simp only at h1 h2; omega
      · simp only at h1 h2; omega
      · simp only at h1 h2
        have e1 : di' = di := by omega
        have e2 : dj' = dj := by omega
        subst e1; subst e2; rw [hcorner]

end Wfc

namespace Wfc

/-! ## Unsigned arithmetic of the direction tables -/

theorem subSz_dn (dir : Dir) (a k : Nat) (ha : a < k) (hk : k < 2 ^ 64) :
    ((subSz a (kDirDn dir) = NEG_ONE ∨ subSz a (kDirDn dir) = k) ∧
        ((a : Int) - dirDn dir < 0 ∨ (k : Int) ≤ (a : Int) - dirDn dir)) ∨
    (¬ (subSz a (kDirDn dir) = NEG_ONE ∨ subSz a (kDirDn dir) = k) ∧
        subSz a (kDirDn dir) < k ∧ (a : Int) - dirDn dir = subSz a (kDirDn dir)) := by
  cases dir <;> simp only [kDirDn, dirDn, subSz, NEG_ONE, SIZE_MOD] <;> norm_num at hk ⊢ <;> omega

theorem subSz_dm (dir : Dir) (b k : Nat) (hb : b < k) (hk : k < 2 ^ 64) :
    ((subSz b (kDirDm dir) = NEG_ONE ∨ subSz b (kDirDm dir) = k) ∧
        ((b : Int) - dirDm dir < 0 ∨ (k : Int) ≤ (b : Int) - dirDm dir)) ∨
    (¬ (subSz b (kDirDm dir) = NEG_ONE ∨ subSz b (kDirDm dir) = k) ∧
        subSz b (kDirDm dir) < k ∧ (b : Int) - dirDm dir = subSz b (kDirDm dir)) := by
  cases dir <;> simp only [kDirDm, dirDm, subSz, NEG_ONE, SIZE_MOD] <;> norm_num at hk ⊢ <;> omega

/-! ## The lambda `check_compatible` -/

theorem checkRow_true_iff {α : Type} [DecidableEq α] [Inhabited α] (k : Nat) (p1 p2 : List α)
    (dir : Dir) (i1 : Nat) (js : List Nat) :
    checkRow k p1 p2 dir i1 js = true ↔
      ((subSz i1 (kDirDn dir) = NEG_ONE ∨ subSz i1 (kDirDn dir) = k) ∨
        ∀ j1 ∈ js, ((subSz j1 (kDirDm dir) = NEG_ONE ∨ subSz j1 (kDirDm dir) = k) ∨
          p1.getD (k * i1 + j1) default
            = p2.getD (k * subSz i1 (kDirDn dir) + subSz j1 (kDirDm dir)) default)) := by
  induction js with
  | nil => simp [checkRow]
  | cons j1 rest ih =>
    unfold checkRow
    simp only []
    by_cases h1 : subSz i1 (kDirDn dir) = NEG_ONE ∨ subSz i1 (kDirDn dir) = k
    · rw [if_pos h1]
      exact ⟨fun _ => Or.inl h1, fun _ => rfl⟩
    · rw [if_neg h1]
      by_cases h2 : subSz j1 (kDirDm dir) = NEG_ONE ∨ subSz j1 (kDirDm dir) = k
      · rw [if_pos h2, ih]
        constructor
        · rintro (h | h)
          · exact Or.inl h
          · refine Or.inr (fun j hj => ?_)
            rcases List.mem_cons.1 hj with rfl | hj
            · exact Or.inl h2
            · exact h j hj
        · rintro (h | h)
          · exact Or.inl h
          · exact Or.inr (fun j hj => h j (List.mem_cons_of_mem _ hj))
      · rw [if_neg h2]
        by_cases h3 : p1.getD (k * i1 + j1) default
            = p2.getD (k * subSz i1 (kDirDn dir) + subSz j1 (kDirDm dir)) default
        · rw [if_neg (not_not.2 h3), ih]
          constructor
          · rintro (h | h)
            · exact Or.inl h
            · refine Or.inr (fun j hj => ?_)
              rcases List.mem_cons.1 hj with rfl | hj
              · exact Or.inr h3
              · exact h j hj
          · rintro (h | h)
            · exact Or.inl h
            · exact Or.inr (fun j hj => h j (List.mem_cons_of_mem _ hj))
        · rw [if_pos h3]
          constructor
          · intro h; cases h
          · rintro (h | h)
            · exact absurd h h1
            · rcases h j1 (List.mem_cons_self _ _) with h | h
              · exact absurd h h2
              · exact absurd h h3

theorem checkRows_true_iff {α : Type} [DecidableEq α] [Inhabited α] (k : Nat) (p1 p2 : List α)
    (dir : Dir) (is : List Nat) :
    checkRows k p1 p2 dir is = true ↔
      ∀ i1 ∈ is, checkRow k p1 p2 dir i1 (List.range k) = true := by
  induction is with
  | nil => simp [checkRows]
  | cons i1 rest ih =>
    unfold checkRows
    by_cases h : checkRow k p1 p2 dir i1 (List.range k) = true
    · rw [if_pos h, ih]; simp [h]
    · rw [if_neg h]; simp [h]

/-- The lambda `check_compatible` decides the overlap condition: its `break`
and `continue` leave out exactly the coordinates whose image lies outside the
other window. -/
theorem check_compatible_iff {α : Type} [DecidableEq α] [Inhabited α] (k : Nat)
    (hk : k < 2 ^ 64) (p1 p2 : List α) (dir : Dir) :
    check_compatible k p1 p2 dir = true ↔ Overlaps k p1 p2 dir := by
  unfold check_compatible
  rw [checkRows_true_iff]
  simp only [checkRow_true_iff, List.mem_range]
  constructor
  · intro h a b a2 b2 ha hb ha2 hb2 e1 e2
    rcases subSz_dn dir a k ha hk with ⟨-, hn⟩ | ⟨hi, -, hi2⟩
    · omega
    rcases subSz_dm dir b k hb hk with ⟨-, hn⟩ | ⟨hj, -, hj2⟩
    · omega
    rcases h a ha with h | h
    · exact absurd h hi
    rcases h b hb with h | h
    · exact absurd h hj
    have e3 : subSz a (kDirDn dir) = a2 := by omega
    have e4 : subSz b (kDirDm dir) = b2 := by omega
    rw [e3, e4] at h
    exact h
  · intro h a ha
    rcases subSz_dn dir a k ha hk with ⟨hi, -⟩ | ⟨-, hi, hi2⟩
    · exact Or.inl hi
    refine Or.inr (fun b hb => ?_)
    rcases subSz_dm dir b k hb hk with ⟨hj, -⟩ | ⟨-, hj, hj2⟩
    · exact Or.inl hj
    exact Or.inr (h a b _ _ ha hb hi hj hi2 hj2)

theorem dirDn_inverse (dir : Dir) : dirDn (InverseDir dir) = - dirDn dir := by
  cases dir <;> rfl

theorem dirDm_inverse (dir : Dir) : dirDm (InverseDir dir) = - dirDm dir := by
  cases dir <;> rfl

theorem InverseDir_inverse (dir : Dir) : InverseDir (InverseDir dir) = dir := by
  cases dir <;> rfl

theorem Overlaps_symm {α : Type} [Inhabited α] (k : Nat) (p q : List α) (dir : Dir)
    (h : Overlaps k p q dir) : Overlaps k q p (InverseDir dir) := by
  intro a b a2 b2 ha hb ha2 hb2 e1 e2
  rw [dirDn_inverse] at e1
  rw [dirDm_inverse] at e2
  exact (h a2 b2 a b ha2 hb2 ha hb (by omega) (by omega)).symm

/-! ## The edge lists that `Fit` builds -/

theorem foldl_push_filter {β : Type} (c : β → Bool) (l : List β) (init : List β) :
    l.foldl (fun acc x => if c x then acc ++ [x] else acc) init = init ++ l.filter c := by
  induction l generalizing init with
  | nil => simp
  | cons x xs ih =>
    simp only [List.foldl_cons, List.filter_cons]
    by_cases h : c x = true
    · simp [h, ih]
    · simp [h, ih]

theorem edgeList_eq_filter {α : Type} [DecidableEq α] [Inhabited α] (k : Nat)
    (ids : List (List α)) (T p1 : Nat) (dir : Dir) :
    edgeList k ids T p1 dir =
      (List.range T).filter (fun p2 =>
        check_compatible k (ids.getD p1 []) (ids.getD p2 []) dir) := by
  unfold edgeList
  rw [foldl_push_filter]
  simp

end Wfc

namespace Wfc

/-! ## The counting loop of `Fit` -/

theorem mapFind_append {α : Type} [DecidableEq α] (m : List (List α × Nat)) (flat : List α)
    (id : Nat) (w : List α) :
    mapFind (m ++ [(flat, id)]) w =
      match mapFind m w with
      | some i => some i
      | none => if flat = w then some id else none := by
  induction m with
  | nil => simp [mapFind]
  | cons e rest ih =>
    simp only [List.cons_append, mapFind]
    by_cases h : e.1 = w
    · simp [h]
    · simp [h, ih]

theorem sum_incrAt (v : List Nat) (i : Nat) (hi : i < v.length) :
    (incrAt v i).sum = v.sum + 1 := by
  unfold incrAt
  induction v generalizing i with
  | nil => simp at hi
  | cons x xs ih =>
    cases i with
    | zero => simp; omega
    | succ i =>
      simp only [List.length_cons, Nat.add_lt_add_iff_right] at hi
      have := ih i hi
      simp only [List.set_cons_succ, List.sum_cons, List.getD_cons_succ] at this ⊢
      omega

theorem firstIdx_append_of_mem {β : Type} [DecidableEq β] (w : β) (l1 l2 : List β)
    (h : w ∈ l1) : firstIdx w (l1 ++ l2) = firstIdx w l1 := by
  induction l1 with
  | nil => cases h
  | cons x xs ih =>
    show firstIdx w (x :: (xs ++ l2)) = firstIdx w (x :: xs)
    unfold firstIdx
    by_cases hx : x = w
    · simp [hx]
    · rw [if_neg hx, if_neg hx, ih]
      rcases List.mem_cons.1 h with h | h
      · exact absurd h.symm hx
      · exact h

theorem firstIdx_append_of_not_mem {β : Type} [DecidableEq β] (w : β) (l1 l2 : List β)
    (h : w ∉ l1) : firstIdx w (l1 ++ l2) = l1.length + firstIdx w l2 := by
  induction l1 with
  | nil => simp
  | cons x xs ih =>
    show firstIdx w (x :: (xs ++ l2)) = (x :: xs).length + firstIdx w l2
    have hx : ¬ x = w := fun hc => h (by rw [hc]; exact List.mem_cons_self _ _)
    rw [firstIdx, if_neg hx, ih (fun hc => h (List.mem_cons_of_mem _ hc)), List.length_cons]
    omega

theorem firstIdx_lt_length {β : Type} [DecidableEq β] (w : β) (l : List β) (h : w ∈ l) :
    firstIdx w l < l.length := by
  induction l with
  | nil => cases h
  | cons x xs ih =>
    simp only [firstIdx, List.length_cons]
    by_cases hx : x = w
    · simp [hx]
    · rw [if_neg hx]
      rcases List.mem_cons.1 h with h | h
      · exact absurd h.symm hx
      · have := ih h; omega

theorem FitInv_init {α : Type} [DecidableEq α] :
    FitInv ({ submat_to_id := [], id_to_submat := [], occ_cnt := [] } : FitState α) [] := by
  refine ⟨rfl, List.nodup_nil, fun w => Iff.rfl, ?_, ?_, List.Pairwise.nil, rfl⟩
  · intro w i; simp [mapFind]
  · intro i hi; simp at hi

theorem FitInv_process {α : Type} [DecidableEq α] (s : FitState α) (seen : List (List α))
    (flat : List α) (h : FitInv s seen) : FitInv (process s flat) (seen ++ [flat]) := by
  obtain ⟨hlen, hnd, hmem, hmap, hocc, hord, hsum⟩ := h
  unfold process
  cases hf : mapFind s.submat_to_id flat with
  | none =>
    have hnew : flat ∉ s.id_to_submat := by
      intro hin
      obtain ⟨i, hi⟩ := List.mem_iff_getElem?.1 hin
      rw [(hmap flat i).2 hi] at hf
      cases hf
    have hnew2 : flat ∉ seen := fun hin => hnew ((hmem flat).2 hin)
    refine ⟨by simp [hlen], ?_, ?_, ?_, ?_, ?_, by simp [hsum]⟩
    · refine List.Nodup.append hnd (List.nodup_singleton _) ?_
      intro x hx hx2
      rw [List.mem_singleton] at hx2
      subst hx2
      exact hnew hx
    · intro w
      simp only [List.mem_append, List.mem_singleton, hmem]
    · intro w i
      simp only []
      rw [mapFind_append]
      by_cases hi : i < s.id_to_submat.length
      · rw [List.getElem?_append_left hi, ← hmap]
        cases hw : mapFind s.submat_to_id w with
        | some i2 => simp
        | none =>
          simp only []
          constructor
          · intro h2
            split at h2
            · cases h2; omega
            · cases h2
          · intro h2; cases h2
      · rw [List.getElem?_append_right (by omega)]
        cases hw : mapFind s.submat_to_id w with
        | some i2 =>
          have h3 := (hmap w i2).1 hw
          have h4 : i2 < s.id_to_submat.length := by
            by_contra hc
            rw [List.getElem?_eq_none (by omega)] at h3
            cases h3
          have h5 : w ≠ flat := by
            rintro rfl
            rw [hf] at hw; cases hw
          simp only [Option.some.injEq]
          constructor
          · intro h6; omega
          · intro h6
            exfalso
            by_cases h7 : i - s.id_to_submat.length = 0
            · rw [h7] at h6
              simp only [List.getElem?_cons_zero, Option.some.injEq] at h6
              exact h5 h6.symm
            · obtain ⟨n, hn⟩ := Nat.exists_eq_succ_of_ne_zero h7
              rw [hn] at h6
              simp at h6
        | none =>
          simp only []
          by_cases h7 : i - s.id_to_submat.length = 0
          · rw [h7]
            simp only [List.getElem?_cons_zero, Option.some.injEq]
            have : i = s.id_to_submat.length := by omega
            constructor
            · intro h2
              split at h2
              · assumption
              · cases h2
            · intro h2
              rw [if_pos h2, this]
          · obtain ⟨n, hn⟩ := Nat.exists_eq_succ_of_ne_zero h7
            rw [hn]
            simp only [List.getElem?_cons_succ, List.getElem?_nil]
            constructor
            · intro h2
              split at h2
              · cases h2; omega
              · cases h2
            · intro h2; cases h2
    · intro i hi
      simp only [List.length_append, List.length_singleton] at hi
      simp only []
      by_cases hi2 : i < s.id_to_submat.length
      · rw [List.getD_append _ _ _ _ (by omega), List.getD_append _ _ _ _ hi2, hocc i hi2,
          List.count_append, List.count_singleton]
        have : s.id_to_submat.getD i [] ≠ flat := by
          intro hc
          apply hnew
          rw [← hc, List.getD_eq_getElem?_getD, List.getElem?_eq_getElem hi2]
          exact List.getElem_mem _
        have hb : (flat == s.id_to_submat.getD i []) = false := by
          simpa using Ne.symm this
        rw [hb]; simp
      · have hi3 : i = s.id_to_submat.length := by omega
        subst hi3
        rw [List.getD_eq_getElem?_getD, List.getD_eq_getElem?_getD,
          List.getElem?_append_right (by omega), List.getElem?_append_right (by omega)]
        simp [hlen, List.count_append, List.count_eq_zero.2 hnew2]
    · simp only []
      rw [List.pairwise_append]
      refine ⟨?_, List.pairwise_singleton _ _, ?_⟩
      · refine hord.imp_of_mem ?_
        intro u v hu hv huv
        rw [firstIdx_append_of_mem _ _ _ ((hmem u).1 hu),
          firstIdx_append_of_mem _ _ _ ((hmem v).1 hv)]
        exact huv
      · intro u hu v hv
        rw [List.mem_singleton] at hv
        subst hv
        rw [firstIdx_append_of_mem _ _ _ ((hmem u).1 hu), firstIdx_append_of_not_mem _ _ _ hnew2]
        have := firstIdx_lt_length _ _ ((hmem u).1 hu)
        omega
  | some id =>
    have hid := (hmap flat id).1 hf
    have hid2 : id < s.id_to_submat.length := by
      by_contra hc
      rw [List.getElem?_eq_none (by omega)] at hid
      cases hid
    have hin : flat ∈ s.id_to_submat := List.mem_iff_getElem?.2 ⟨id, hid⟩
    have hin2 : flat ∈ seen := (hmem flat).1 hin
    refine ⟨by simp [incrAt, hlen], hnd, ?_, hmap, ?_, ?_, ?_⟩
    · intro w
      simp only [List.mem_append, List.mem_singleton, hmem]
      constructor
      · exact Or.inl
      · rintro (h | rfl)
        · exact h
        · exact hin2
    · intro i hi
      simp only [incrAt]
      rw [getD_set_eq, List.count_append, List.count_singleton]
      by_cases hii : id = i
      · subst hii
        rw [if_pos ⟨rfl, by omega⟩, hocc id hi]
        have : s.id_to_submat.getD id [] = flat := by
          rw [List.getD_eq_getElem?_getD, hid]; rfl
        rw [this]; simp
      · rw [if_neg (fun hc => hii hc.1), hocc i hi]
        have : s.id_to_submat.getD i [] ≠ flat := by
          intro hc
          apply hii
          have h1 : s.id_to_submat[i]? = some flat := by
            rw [← hc, List.getD_eq_getElem?_getD, List.getElem?_eq_getElem hi]; rfl
          exact (List.getElem?_inj hi hnd (h1.trans hid.symm)).symm
        have hb : (flat == s.id_to_submat.getD i []) = false := by
          simpa using Ne.symm this
        rw [hb]; simp
    · refine hord.imp_of_mem ?_
      intro u v hu hv huv
      rw [firstIdx_append_of_mem _ _ _ ((hmem u).1 hu),
        firstIdx_append_of_mem _ _ _ ((hmem v).1 hv)]
      exact huv
    · simp only [List.length_append, List.length_singleton]
      rw [sum_incrAt _ _ (by omega), hsum]

theorem FitInv_foldl {α : Type} [DecidableEq α] (l : List (List α)) (s : FitState α)
    (seen : List (List α)) (h : FitInv s seen) :
    FitInv (l.foldl process s) (seen ++ l) := by
  induction l generalizing s seen with
  | nil => simpa using h
  | cons w ws ih =>
    have := ih (process s w) (seen ++ [w]) (FitInv_process s seen w h)
    simpa using this

theorem countWindows_eq_foldl {α : Type} [DecidableEq α] [Inhabited α]
    (pattern : List (List α)) (k : Nat) (hwrap vwrap rotate : Bool) :
    countWindows pattern k hwrap vwrap rotate =
      (extractions pattern k hwrap vwrap rotate).foldl process
        { submat_to_id := [], id_to_submat := [], occ_cnt := [] } := by
  unfold countWindows extractions
  simp only []
  rw [← foldl_flatMap_eq]
  congr 1
  funext st i
  rw [← foldl_flatMap_eq]
  congr 1
  funext st j
  unfold processCorner cornerWindows
  cases rotate <;> simp

theorem countWindows_inv {α : Type} [DecidableEq α] [Inhabited α]
    (pattern : List (List α)) (k : Nat) (hwrap vwrap rotate : Bool) :
    FitInv (countWindows pattern k hwrap vwrap rotate)
      (extractions pattern k hwrap vwrap rotate) := by
  rw [countWindows_eq_foldl]
  simpa using FitInv_foldl (extractions pattern k hwrap vwrap rotate) _ [] FitInv_init

end Wfc

namespace Wfc

/-! ## The lambda `flatten_submat` -/

theorem foldl_push_flatMap {β γ δ : Type} (f : β → γ → δ) (l1 : List β) (l2 : List γ)
    (init : List δ) :
    l1.foldl (fun res x => l2.foldl (fun res y => res ++ [f x y]) res) init
      = init ++ l1.flatMap (fun x => l2.map (f x)) := by
  have inner : ∀ (x : β) (l : List γ) (acc : List δ),
      l.foldl (fun res y => res ++ [f x y]) acc = acc ++ l.map (f x) := by
    intro x l
    induction l with
    | nil => intro acc; simp
    | cons y ys ih => intro acc; simp [ih]
  induction l1 generalizing init with
  | nil => simp
  | cons x xs ih =>
    rw [List.foldl_cons, ih, inner, List.flatMap_cons, List.append_assoc]

theorem length_flatMap_const {β δ : Type} (g : β → List δ) (k : Nat)
    (hg : ∀ x, (g x).length = k) (l : List β) : (l.flatMap g).length = k * l.length := by
  induction l with
  | nil => simp
  | cons x xs ih =>
    simp only [List.flatMap_cons, List.length_append, hg, ih, List.length_cons]
    ring

theorem getD_flatMap_block {β δ : Type} (g : β → List δ) (k : Nat)
    (hg : ∀ x, (g x).length = k) (l : List β) (a b : Nat) (ha : a < l.length) (hb : b < k)
    (d : δ) (x0 : β) :
    (l.flatMap g).getD (k * a + b) d = (g (l.getD a x0)).getD b d := by
  induction l generalizing a with
  | nil => simp at ha
  | cons x xs ih =>
    rw [List.flatMap_cons]
    cases a with
    | zero =>
      simp only [Nat.mul_zero, Nat.zero_add, List.getD_cons_zero]
      exact List.getD_append _ _ _ _ (by rw [hg]; exact hb)
    | succ a =>
      simp only [List.length_cons, Nat.add_lt_add_iff_right] at ha
      rw [List.getD_cons_succ, ← ih a ha]
      rw [List.getD_eq_getElem?_getD, List.getD_eq_getElem?_getD,
        List.getElem?_append_right (by rw [hg]; nlinarith)]
      congr 2
      rw [hg]
      have : k * (a + 1) = k * a + k := by ring
      omega

theorem flatten_submat_zero {α : Type} [Inhabited α] (pattern : List (List α)) (k i j : Nat) :
    flatten_submat pattern k i j 0 =
      (List.range k).flatMap (fun di => (List.range k).map (fun dj =>
        at2 pattern ((i + di) % pattern.length) ((j + dj) % (pattern.getD 0 []).length))) := by
  unfold flatten_submat
  simp only []
  rw [foldl_push_flatMap (fun di dj =>
    at2 pattern ((i + di) % pattern.length) ((j + dj) % (pattern.getD 0 []).length))]
  simp

/-- The unrotated window holds the sample, read modulo its size. -/
theorem windowAt_flatten_zero {α : Type} [Inhabited α] (pattern : List (List α))
    (k i j a b : Nat) (ha : a < k) (hb : b < k) :
    windowAt k (flatten_submat pattern k i j 0) a b =
      at2 pattern ((i + a) % pattern.length) ((j + b) % (pattern.getD 0 []).length) := by
  unfold windowAt
  rw [flatten_submat_zero,
    getD_flatMap_block _ k (fun x => by simp) _ a b (by simpa using ha) hb default 0]
  rw [List.getD_eq_getElem?_getD, List.getD_eq_getElem?_getD, List.getElem?_range ha]
  simp only [Option.getD_some]
  rw [List.getElem?_map, List.getElem?_range hb]
  rfl

/-! ## The result of `Fit` -/

theorem Fit_k {F α : Type} [DecidableEq α] [Inhabited α] (A : Arith F)
    (pattern : List (List α)) (k : Nat) (hwrap vwrap rotate : Bool) :
    (Fit A pattern k hwrap vwrap rotate).2.k_ = k := by
  unfold Fit
  split <;> rfl

theorem Fit_ids {F α : Type} [DecidableEq α] [Inhabited α] (A : Arith F)
    (pattern : List (List α)) (k : Nat) (hwrap vwrap rotate : Bool) (hne : pattern ≠ []) :
    (Fit A pattern k hwrap vwrap rotate).2.id_to_submat_
      = (countWindows pattern k hwrap vwrap rotate).id_to_submat := by
  unfold Fit
  rw [if_neg (by simpa using hne)]

theorem Fit_edges_length {F α : Type} [DecidableEq α] [Inhabited α] (A : Arith F)
    (pattern : List (List α)) (k : Nat) (hwrap vwrap rotate : Bool) :
    (Fit A pattern k hwrap vwrap rotate).1.edges.length
      = (Fit A pattern k hwrap vwrap rotate).2.id_to_submat_.length := by
  unfold Fit
  split
  · rfl
  · simp only [List.length_map, List.length_range]
    exact (countWindows_inv pattern k hwrap vwrap rotate).1

theorem Fit_edgesAt {F α : Type} [DecidableEq α] [Inhabited α] (A : Arith F)
    (pattern : List (List α)) (k : Nat) (hwrap vwrap rotate : Bool) (p : Nat) (dir : Dir) :
    (Fit A pattern k hwrap vwrap rotate).1.edgesAt p dir =
      if p < (Fit A pattern k hwrap vwrap rotate).1.edges.length then
        (List.range (Fit A pattern k hwrap vwrap rotate).1.edges.length).filter (fun q =>
          check_compatible k
            ((Fit A pattern k hwrap vwrap rotate).2.id_to_submat_.getD p [])
            ((Fit A pattern k hwrap vwrap rotate).2.id_to_submat_.getD q []) dir)
      else [] := by
  unfold Pattern.edgesAt
  unfold Fit
  split
  · simp
  · simp only [List.length_map, List.length_range]
    by_cases hp : p < (countWindows pattern k hwrap vwrap rotate).occ_cnt.length
    · rw [if_pos hp, List.getD_eq_getElem?_getD, List.getElem?_map, List.getElem?_range hp]
      simp only [Option.map_some', Option.getD_some]
      exact edgeList_eq_filter _ _ _ _ _
    · rw [if_neg hp, List.getD_eq_getElem?_getD, List.getElem?_eq_none (by simpa using hp)]
      rfl

/-- Membership in an edge list of the pattern that `Fit` returns. -/
theorem mem_Fit_edgesAt {F α : Type} [DecidableEq α] [Inhabited α] (A : Arith F)
    (pattern : List (List α)) (k : Nat) (hk : k < 2 ^ 64) (hwrap vwrap rotate : Bool)
    (p q : Nat) (dir : Dir) :
    q ∈ (Fit A pattern k hwrap vwrap rotate).1.edgesAt p dir ↔
      p < (Fit A pattern k hwrap vwrap rotate).1.edges.length ∧
      q < (Fit A pattern k hwrap vwrap rotate).1.edges.length ∧
      Overlaps k ((Fit A pattern k hwrap vwrap rotate).2.id_to_submat_.getD p [])
        ((Fit A pattern k hwrap vwrap rotate).2.id_to_submat_.getD q []) dir := by
  rw [Fit_edgesAt]
  by_cases hp : p < (Fit A pattern k hwrap vwrap rotate).1.edges.length
  · rw [if_pos hp, List.mem_filter, List.mem_range, check_compatible_iff k hk]
    simp [hp]
  · rw [if_neg hp]
    simp [hp]

theorem mem_extractions {α : Type} [Inhabited α] (pattern : List (List α)) (k : Nat)
    (hwrap vwrap rotate : Bool) (w : List α) :
    w ∈ extractions pattern k hwrap vwrap rotate ↔
      ∃ i j rot, i < upperBound vwrap pattern.length k ∧
        j < upperBound hwrap (pattern.getD 0 []).length k ∧
        rot < (if rotate then 4 else 1) ∧ w = flatten_submat pattern k i j rot := by
  unfold extractions cornerWindows
  simp only [List.mem_flatMap, List.mem_range, List.mem_cons]
  constructor
  · rintro ⟨i, hi, j, hj, h | h⟩
    · exact ⟨i, j, 0, hi, hj, by split <;> omega, h⟩
    · cases rotate with
      | false => simp at h
      | true =>
        simp only [if_true, List.map_cons, List.map_nil, List.mem_cons, List.mem_nil_iff,
          or_false] at h
        rcases h with h | h | h
        · exact ⟨i, j, 1, hi, hj, by simp, h⟩
        · exact ⟨i, j, 2, hi, hj, by simp, h⟩
        · exact ⟨i, j, 3, hi, hj, by simp, h⟩
  · rintro ⟨i, j, rot, hi, hj, hrot, h⟩
    refine ⟨i, hi, j, hj, ?_⟩
    cases rotate with
    | false =>
      simp only [Bool.false_eq_true, if_false] at hrot
      have : rot = 0 := by omega
      subst this
      exact Or.inl h
    | true =>
      simp only [if_true] at hrot
      have : rot = 0 ∨ rot = 1 ∨ rot = 2 ∨ rot = 3 := by omega
      rcases this with rfl | rfl | rfl | rfl
      · exact Or.inl h
      · exact Or.inr (by simp [h])
      · exact Or.inr (by simp [h])
      · exact Or.inr (by simp [h])

theorem length_extractions {α : Type} [Inhabited α] (pattern : List (List α)) (k : Nat)
    (hwrap vwrap rotate : Bool) :
    (extractions pattern k hwrap vwrap rotate).length =
      upperBound vwrap pattern.length k * upperBound hwrap (pattern.getD 0 []).length k
        * (if rotate then 4 else 1) := by
  unfold extractions
  rw [length_flatMap_const _
    (upperBound hwrap (pattern.getD 0 []).length k * (if rotate then 4 else 1))]
  · simp only [List.length_range]; ring
  · intro i
    rw [length_flatMap_const _ (if rotate then 4 else 1)]
    · simp only [List.length_range]; ring
    · intro j
      unfold cornerWindows
      cases rotate <;> simp

end Wfc

namespace Wfc

/-! ## Pixels of a decoded image -/

theorem pixel_eq_windowAt {α : Type} [Inhabited α] (enc : MatrixEncoder α) (t a b : Nat) :
    enc.pixel t (enc.k_ * a + b) = windowAt enc.k_ (enc.id_to_submat_.getD t []) a b := rfl

/-- Every pixel of the decoded image, read off the window of the nearest wave
cell up and to the left. -/
theorem Decode_pixel {α : Type} [Inhabited α] (enc : MatrixEncoder α) (wave : Wave)
    (H W : Nat) (hwave : Rect wave H W) (hH : 0 < H) (hW : 0 < W) (hk : 0 < enc.k_)
    (x y : Nat) (hx : x < H + enc.k_ - 1) (hy : y < W + enc.k_ - 1) :
    at2 (Decode enc wave) x y =
      windowAt enc.k_ (enc.id_to_submat_.getD (at2 wave (min x (H - 1)) (min y (W - 1))) [])
        (x - min x (H - 1)) (y - min y (W - 1)) := by
  obtain ⟨-, h1, h2, h3, h4⟩ := Decode_regions enc wave H W hwave hH hW hk
  by_cases hxH : x < H
  · have e1 : min x (H - 1) = x := by omega
    by_cases hyW : y < W
    · have e2 : min y (W - 1) = y := by omega
      rw [h1 x y hxH hyW, e1, e2, ← pixel_eq_windowAt]
      simp
    · have e2 : min y (W - 1) = W - 1 := by omega
      obtain ⟨dj, rfl⟩ : ∃ dj, y = W + dj := ⟨y - W, by omega⟩
      rw [h2 x dj hxH (by omega), e1, e2, ← pixel_eq_windowAt]
      congr 1
      simp only [Nat.sub_self, Nat.mul_zero, Nat.zero_add]
      omega
  · have e1 : min x (H - 1) = H - 1 := by omega
    obtain ⟨di, rfl⟩ : ∃ di, x = H + di := ⟨x - H, by omega⟩
    have e3 : H + di - (H - 1) = di + 1 := by omega
    by_cases hyW : y < W
    · have e2 : min y (W - 1) = y := by omega
      rw [h3 di y (by omega) hyW, e1, e2, ← pixel_eq_windowAt, e3]
      simp
    · have e2 : min y (W - 1) = W - 1 := by omega
      obtain ⟨dj, rfl⟩ : ∃ dj, y = W + dj := ⟨y - W, by omega⟩
      have e4 : W + dj - (W - 1) = dj + 1 := by omega
      rw [h4 di dj (by omega) (by omega), e1, e2, ← pixel_eq_windowAt, e3, e4]
      rfl

/-! ## Windows of neighbouring cells of a valid wave -/

section chain

variable {F α : Type} [DecidableEq α] [Inhabited α] (A : Arith F)
  (pattern : List (List α)) (k : Nat) (hwrap vwrap rotate : Bool)

theorem window_right (hk : k < 2 ^ 64) (wave : Wave) (H W : Nat)
    (hvalid : WaveValid (Fit A pattern k hwrap vwrap rotate).1 wave H W)
    (i j c : Nat) (hi : i < H) (hj : j + c < W) (a b : Nat) (ha : a < k) (hb : b + c < k) :
    windowAt k ((Fit A pattern k hwrap vwrap rotate).2.id_to_submat_.getD
        (at2 wave i (j + c)) []) a b
      = windowAt k ((Fit A pattern k hwrap vwrap rotate).2.id_to_submat_.getD
        (at2 wave i j) []) a (b + c) := by
  induction c generalizing b with
  | zero => rfl
  | succ c ih =>
    have h1 := hvalid i (j + c) i (j + c + 1) Dir.kRight hi (by omega) hi (by omega)
      (by simp [dirDn]) (by simp [dirDm])
    have h2 := ((mem_Fit_edgesAt A pattern k hk hwrap vwrap rotate _ _ _).1 h1).2.2
    have h3 := h2 a (b + 1) a b ha (by omega) ha (by omega) (by simp [dirDn])
      (by simp [dirDm])
    rw [show j + (c + 1) = j + c + 1 by omega, ← h3, ih (by omega) (b + 1) (by omega)]
    congr 1
    omega

theorem window_down (hk : k < 2 ^ 64) (wave : Wave) (H W : Nat)
    (hvalid : WaveValid (Fit A pattern k hwrap vwrap rotate).1 wave H W)
    (i j c : Nat) (hi : i + c < H) (hj : j < W) (a b : Nat) (ha : a + c < k) (hb : b < k) :
    windowAt k ((Fit A pattern k hwrap vwrap rotate).2.id_to_submat_.getD
        (at2 wave (i + c) j) []) a b
      = windowAt k ((Fit A pattern k hwrap vwrap rotate).2.id_to_submat_.getD
        (at2 wave i j) []) (a + c) b := by
  induction c generalizing a with
  | zero => rfl
  | succ c ih =>
    have h1 := hvalid (i + c) j (i + c + 1) j Dir.kDown (by omega) hj (by omega) hj
      (by simp [dirDn]) (by simp [dirDm])
    have h2 := ((mem_Fit_edgesAt A pattern k hk hwrap vwrap rotate _ _ _).1 h1).2.2
    have h3 := h2 (a + 1) b a b (by omega) hb (by omega) hb (by simp [dirDn])
      (by simp [dirDm])
    rw [show i + (c + 1) = i + c + 1 by omega, ← h3, ih (by omega) (a + 1) (by omega)]
    congr 1
    omega

/-- In the image decoded from a valid wave, the `k × k` window whose top-left
corner is a wave cell is the stored window of that cell's tile. -/
theorem Decode_window (hk : k < 2 ^ 64) (wave : Wave) (H W : Nat)
    (hwave : Rect wave H W)
    (hvalid : WaveValid (Fit A pattern k hwrap vwrap rotate).1 wave H W)
    (i j a b : Nat) (hi : i < H) (hj : j < W) (ha : a < k) (hb : b < k) :
    at2 (Decode (Fit A pattern k hwrap vwrap rotate).2 wave) (i + a) (j + b)
      = windowAt k ((Fit A pattern k hwrap vwrap rotate).2.id_to_submat_.getD
          (at2 wave i j) []) a b := by
  have hkk := Fit_k A pattern k hwrap vwrap rotate
  have h0 := Decode_pixel (Fit A pattern k hwrap vwrap rotate).2 wave H W hwave
    (by omega) (by omega) (by rw [hkk]; omega) (i + a) (j + b)
    (by rw [hkk]; omega) (by rw [hkk]; omega)
  rw [hkk] at h0
  rw [h0]
  obtain ⟨c1, hc1⟩ : ∃ c1, min (i + a) (H - 1) = i + c1 := ⟨min (i + a) (H - 1) - i, by omega⟩
  obtain ⟨c2, hc2⟩ : ∃ c2, min (j + b) (W - 1) = j + c2 := ⟨min (j + b) (W - 1) - j, by omega⟩
  rw [hc1, hc2,
    window_right A pattern k hwrap vwrap rotate hk wave H W hvalid (i + c1) j c2
      (by omega) (by omega) _ _ (by omega) (by omega),
    window_down A pattern k hwrap vwrap rotate hk wave H W hvalid i j c1
      (by omega) (by omega) _ _ (by omega) (by omega)]
  congr 1 <;> omega

end chain

/-! ## The wave of the sample -/

theorem getD_eq_getElem_of_lt {β : Type} (l : List β) (i : Nat) (d : β) (h : i < l.length) :
    l.getD i d = l[i] := by
  rw [List.getD_eq_getElem?_getD, List.getElem?_eq_getElem h]; rfl

theorem getD_map_range {β : Type} (f : Nat → β) (n i : Nat) (d : β) (h : i < n) :
    ((List.range n).map f).getD i d = f i := by
  rw [List.getD_eq_getElem?_getD, List.getElem?_map, List.getElem?_range h]; rfl

theorem rect_ext {α : Type} [Inhabited α] (l1 l2 : List (List α)) (R C : Nat)
    (h1 : Rect l1 R C) (h2 : Rect l2 R C)
    (h : ∀ x y, x < R → y < C → at2 l1 x y = at2 l2 x y) : l1 = l2 := by
  apply List.ext_getElem (h1.1.trans h2.1.symm)
  intro x hx1 hx2
  have r1 : (l1[x]).length = C := h1.2 _ (List.getElem_mem _)
  have r2 : (l2[x]).length = C := h2.2 _ (List.getElem_mem _)
  apply List.ext_getElem (r1.trans r2.symm)
  intro y hy1 hy2
  have := h x y (by rw [← h1.1]; exact hx1) (by rw [← r1]; exact hy1)
  unfold at2 at this
  rw [getD_eq_getElem_of_lt l1 x [] hx1, getD_eq_getElem_of_lt l2 x [] hx2,
    getD_eq_getElem_of_lt _ y _ hy1, getD_eq_getElem_of_lt _ y _ hy2] at this
  exact this

section sample

variable {α : Type} [DecidableEq α] [Inhabited α]
  (pattern : List (List α)) (k : Nat) (hwrap vwrap rotate : Bool)

theorem rect_sampleWave :
    Rect (sampleWave pattern k hwrap vwrap rotate)
      (upperBound vwrap pattern.length k)
      (upperBound hwrap (pattern.getD 0 []).length k) := by
  unfold sampleWave
  refine ⟨by simp, ?_⟩
  intro row hrow
  rw [List.mem_map] at hrow
  obtain ⟨i, -, rfl⟩ := hrow
  simp

theorem at2_sampleWave (i j : Nat) (hi : i < upperBound vwrap pattern.length k)
    (hj : j < upperBound hwrap (pattern.getD 0 []).length k) :
    at2 (sampleWave pattern k hwrap vwrap rotate) i j
      = assignedId pattern k hwrap vwrap rotate (flatten_submat pattern k i j 0) := by
  unfold at2 sampleWave
  rw [getD_map_range _ _ _ _ hi, getD_map_range _ _ _ _ hj]

/-- The id assigned to an extracted window indexes that window. -/
theorem assignedId_spec (w : List α) (hw : w ∈ extractions pattern k hwrap vwrap rotate) :
    assignedId pattern k hwrap vwrap rotate w
        < (countWindows pattern k hwrap vwrap rotate).id_to_submat.length ∧
    (countWindows pattern k hwrap vwrap rotate).id_to_submat.getD
        (assignedId pattern k hwrap vwrap rotate w) [] = w := by
  obtain ⟨-, -, hmem, hmap, -⟩ := countWindows_inv pattern k hwrap vwrap rotate
  obtain ⟨i, hi⟩ := List.mem_iff_getElem?.1 ((hmem w).2 hw)
  have h1 := (hmap w i).2 hi
  have h2 : assignedId pattern k hwrap vwrap rotate w = i := by
    unfold assignedId; rw [h1]; rfl
  rw [h2]
  constructor
  · by_contra hc
    rw [List.getElem?_eq_none (by omega)] at hi
    cases hi
  · rw [List.getD_eq_getElem?_getD, hi]; rfl

end sample

/-! ## The pattern that `Fit` returns is a legal input of the engine -/

theorem Fit_Symmetric {F α : Type} [DecidableEq α] [Inhabited α] (A : Arith F)
    (pattern : List (List α)) (k : Nat) (hwrap vwrap rotate : Bool) (hk : k < 2 ^ 64) :
    (Fit A pattern k hwrap vwrap rotate).1.Symmetric := by
  intro i j dir
  rw [mem_Fit_edgesAt A pattern k hk, mem_Fit_edgesAt A pattern k hk]
  constructor
  · rintro ⟨h1, h2, h3⟩
    exact ⟨h2, h1, Overlaps_symm k _ _ dir h3⟩
  · rintro ⟨h1, h2, h3⟩
    refine ⟨h2, h1, ?_⟩
    have := Overlaps_symm k _ _ _ h3
    rwa [InverseDir_inverse] at this

theorem Fit_DupFree {F α : Type} [DecidableEq α] [Inhabited α] (A : Arith F)
    (pattern : List (List α)) (k : Nat) (hwrap vwrap rotate : Bool) :
    (Fit A pattern k hwrap vwrap rotate).1.DupFree := by
  intro i dir
  rw [Fit_edgesAt]
  split
  · exact (List.nodup_range _).filter _
  · exact List.nodup_nil

end Wfc

namespace Wfc

/-! ## Reading and updating cells of the grid -/

theorem modifyAt_length {β : Type} (f : β → β) (l : List β) (i : Nat) :
    (modifyAt f l i).length = l.length := by
  induction l generalizing i with
  | nil => rfl
  | cons x xs ih =>
    cases i with
    | zero => rfl
    | succ i => simp [modifyAt, ih]

theorem modifyAt_get? {β : Type} (f : β → β) (l : List β) (i j : Nat) :
    (modifyAt f l i).get? j = if j = i then (l.get? i).map f else l.get? j := by
  induction l generalizing i j with
  | nil => simp [modifyAt]
  | cons x xs ih =>
    cases i with
    | zero =>
      cases j with
      | zero => simp [modifyAt]
      | succ j => simp [modifyAt]
    | succ i =>
      cases j with
      | zero => simp [modifyAt]
      | succ j =>
        simp only [modifyAt, List.get?_cons_succ, ih, Nat.add_right_cancel_iff]

theorem cellAt_modifyCell {F : Type} (cells : Grid F) (p q : Nat × Nat) (f : Cell F → Cell F) :
    cellAt (modifyCell cells p f) q = if q = p then (cellAt cells p).map f else cellAt cells q := by
  unfold cellAt modifyCell
  rw [modifyAt_get?]
  by_cases h1 : q.1 = p.1
  · rw [if_pos h1]
    cases hrow : cells.get? p.1 with
    | none =>
      simp only [Option.map_none']
      rw [h1, hrow]
      split <;> rfl
    | some row =>
      simp only [Option.map_some']
      rw [modifyAt_get?]
      by_cases h2 : q.2 = p.2
      · rw [if_pos h2, if_pos (Prod.ext h1 h2)]
      · rw [if_neg h2, if_neg (fun h => h2 (by rw [h])), h1, hrow]
  · rw [if_neg h1, if_neg (fun h => h1 (by rw [h]))]

theorem GridRect_modifyCell {F : Type} {cells : Grid F} {n m : Nat} (h : GridRect cells n m)
    (p : Nat × Nat) (f : Cell F → Cell F) : GridRect (modifyCell cells p f) n m := by
  obtain ⟨h1, h2⟩ := h
  refine ⟨by unfold modifyCell; rw [modifyAt_length, h1], ?_⟩
  intro row hrow
  obtain ⟨i, hi⟩ := List.mem_iff_get?.1 hrow
  unfold modifyCell at hi
  rw [modifyAt_get?] at hi
  by_cases hip : i = p.1
  · rw [if_pos hip] at hi
    cases hrow2 : cells.get? p.1 with
    | none => rw [hrow2] at hi; cases hi
    | some row2 =>
      rw [hrow2] at hi
      simp only [Option.map_some', Option.some.injEq] at hi
      rw [← hi, modifyAt_length]
      exact h2 row2 (List.mem_iff_get?.2 ⟨_, hrow2⟩)
  · rw [if_neg hip] at hi
    exact h2 row (List.mem_iff_get?.2 ⟨_, hi⟩)

theorem cellAt_isSome_iff {F : Type} {cells : Grid F} {n m : Nat} (h : GridRect cells n m)
    (p : Nat × Nat) : (cellAt cells p).isSome ↔ p.1 < n ∧ p.2 < m := by
  obtain ⟨h1, h2⟩ := h
  unfold cellAt
  cases hrow : cells.get? p.1 with
  | none =>
    simp only [Option.isSome_none, Bool.false_eq_true, false_iff, not_and]
    intro hlt
    rw [List.get?_eq_none] at hrow
    omega
  | some row =>
    have hlen := h2 row (List.mem_iff_get?.2 ⟨_, hrow⟩)
    have hlt : p.1 < n := by
      by_contra hc
      rw [List.get?_eq_none.2 (by omega)] at hrow
      cases hrow
    simp only [hlt, true_and]
    cases hc : row.get? p.2 with
    | none =>
      rw [List.get?_eq_none] at hc
      simp; omega
    | some c =>
      simp only [Option.isSome_some, true_iff]
      by_contra hc2
      rw [List.get?_eq_none.2 (by omega)] at hc
      cases hc

end Wfc

namespace Wfc

/-! ## The effect of each cell update on what the engine reads -/

section updates

variable {F : Type} (cells : Grid F) (p q : Nat × Nat)

/-! ### `--n_compatible_[dir][id]` -/

theorem possibleAt_decr (dir : Dir) (id t : Nat) :
    possibleAt (modifyCell cells p (fun c => decrCompat c dir id)) q t = possibleAt cells q t := by
  unfold possibleAt
  rw [cellAt_modifyCell]
  by_cases h : q = p
  · subst h; rw [if_pos rfl]; cases cellAt cells q <;> rfl
  · rw [if_neg h]

theorem observedAt_decr (dir : Dir) (id : Nat) :
    observedAt (modifyCell cells p (fun c => decrCompat c dir id)) q = observedAt cells q := by
  unfold observedAt
  rw [cellAt_modifyCell]
  by_cases h : q = p
  · subst h; rw [if_pos rfl]; cases cellAt cells q <;> rfl
  · rw [if_neg h]

theorem neighborAt_decr (dir : Dir) (id : Nat) (d : Dir) :
    neighborAt (modifyCell cells p (fun c => decrCompat c dir id)) q d = neighborAt cells q d := by
  unfold neighborAt
  rw [cellAt_modifyCell]
  by_cases h : q = p
  · subst h; rw [if_pos rfl]; cases cellAt cells q <;> rfl
  · rw [if_neg h]

theorem nPossibleAt_decr (dir : Dir) (id : Nat) :
    nPossibleAt (modifyCell cells p (fun c => decrCompat c dir id)) q = nPossibleAt cells q := by
  unfold nPossibleAt
  rw [cellAt_modifyCell]
  by_cases h : q = p
  · subst h; rw [if_pos rfl]; cases cellAt cells q <;> rfl
  · rw [if_neg h]

theorem nCompatSize_decr (dir : Dir) (id : Nat) (d : Dir) :
    nCompatSize (modifyCell cells p (fun c => decrCompat c dir id)) q d
      = nCompatSize cells q d := by
  unfold nCompatSize
  rw [cellAt_modifyCell]
  by_cases h : q = p
  · subst h
    rw [if_pos rfl]
    cases cellAt cells q with
    | none => rfl
    | some c =>
      simp only [Option.map_some', decrCompat]
      split
      · rename_i hd; subst hd; simp
      · rfl
  · rw [if_neg h]

theorem nCompatAt_decr (dir : Dir) (id : Nat) (d : Dir) (t : Nat) :
    nCompatAt (modifyCell cells p (fun c => decrCompat c dir id)) q d t
      = nCompatAt cells q d t
        - (if q = p ∧ d = dir ∧ t = id ∧ id < nCompatSize cells p dir then 1 else 0) := by
  unfold nCompatAt nCompatSize
  rw [cellAt_modifyCell]
  by_cases h : q = p
  · subst h
    rw [if_pos rfl]
    cases cellAt cells q with
    | none => simp
    | some c =>
      simp only [Option.map_some', decrCompat, true_and]
      by_cases hd : d = dir
      · subst hd
        rw [if_pos rfl, getD_set_eq]
        by_cases ht : id = t ∧ id < (c.n_compatible_ d).length
        · obtain ⟨rfl, ht⟩ := ht
          rw [if_pos ⟨rfl, ht⟩, if_pos ⟨rfl, rfl, ht⟩]
        · rw [if_neg ht, if_neg]
          · simp
          · rintro ⟨-, rfl, h3⟩
            exact ht ⟨rfl, h3⟩
      · rw [if_neg hd, if_neg]
        · simp
        · rintro ⟨h1, -⟩
          exact hd h1
  · rw [if_neg h, if_neg (fun hc => h hc.1)]
    simp

/-! ### `possible_[id] = false; --n_possible_;` -/

theorem possibleAt_drop (id t : Nat) :
    possibleAt (modifyCell cells p (fun c => dropTile c id)) q t
      = if q = p ∧ t = id then false else possibleAt cells q t := by
  unfold possibleAt
  rw [cellAt_modifyCell]
  by_cases h : q = p
  · subst h
    rw [if_pos rfl]
    cases cellAt cells q with
    | none => simp
    | some c =>
      simp only [Option.map_some', dropTile, true_and]
      rw [getD_set_eq]
      by_cases ht : id = t ∧ id < c.possible_.length
      · obtain ⟨rfl, ht⟩ := ht
        rw [if_pos ⟨rfl, ht⟩, if_pos rfl]
      · rw [if_neg ht]
        by_cases ht2 : t = id
        · subst ht2
          rw [if_pos rfl]
          have : ¬ t < c.possible_.length := fun hc => ht ⟨rfl, hc⟩
          rw [List.getD_eq_getElem?_getD, List.getElem?_eq_none (by omega)]
          rfl
        · rw [if_neg ht2]
  · rw [if_neg h, if_neg (fun hc => h hc.1)]

theorem observedAt_drop (id : Nat) :
    observedAt (modifyCell cells p (fun c => dropTile c id)) q = observedAt cells q := by
  unfold observedAt
  rw [cellAt_modifyCell]
  by_cases h : q = p
  · subst h; rw [if_pos rfl]; cases cellAt cells q <;> rfl
  · rw [if_neg h]

theorem neighborAt_drop (id : Nat) (d : Dir) :
    neighborAt (modifyCell cells p (fun c => dropTile c id)) q d = neighborAt cells q d := by
  unfold neighborAt
  rw [cellAt_modifyCell]
  by_cases h : q = p
  · subst h; rw [if_pos rfl]; cases cellAt cells q <;> rfl
  · rw [if_neg h]

theorem nCompatAt_drop (id : Nat) (d : Dir) (t : Nat) :
    nCompatAt (modifyCell cells p (fun c => dropTile c id)) q d t = nCompatAt cells q d t := by
  unfold nCompatAt
  rw [cellAt_modifyCell]
  by_cases h : q = p
  · subst h; rw [if_pos rfl]; cases cellAt cells q <;> rfl
  · rw [if_neg h]

theorem nCompatSize_drop (id : Nat) (d : Dir) :
    nCompatSize (modifyCell cells p (fun c => dropTile c id)) q d = nCompatSize cells q d := by
  unfold nCompatSize
  rw [cellAt_modifyCell]
  by_cases h : q = p
  · subst h; rw [if_pos rfl]; cases cellAt cells q <;> rfl
  · rw [if_neg h]

/-! ### The entropy update -/

theorem updateEntropy_fields (A : Arith F) (pat : Pattern F) (c : Cell F) (id : Nat) :
    (updateEntropy A pat c id).possible_ = c.possible_ ∧
    (updateEntropy A pat c id).n_compatible_ = c.n_compatible_ ∧
    (updateEntropy A pat c id).n_possible_ = c.n_possible_ ∧
    (updateEntropy A pat c id).neighbors_ = c.neighbors_ ∧
    (updateEntropy A pat c id).observed_ = c.observed_ := by
  unfold updateEntropy
  split <;> exact ⟨rfl, rfl, rfl, rfl, rfl⟩

theorem possibleAt_ent (A : Arith F) (pat : Pattern F) (id t : Nat) :
    possibleAt (modifyCell cells p (fun c => updateEntropy A pat c id)) q t
      = possibleAt cells q t := by
  unfold possibleAt
  rw [cellAt_modifyCell]
  by_cases h : q = p
  · subst h
    rw [if_pos rfl]
    cases cellAt cells q with
    | none => rfl
    | some c => simp only [Option.map_some', (updateEntropy_fields A pat c id).1]
  · rw [if_neg h]

theorem observedAt_ent (A : Arith F) (pat : Pattern F) (id : Nat) :
    observedAt (modifyCell cells p (fun c => updateEntropy A pat c id)) q
      = observedAt cells q := by
  unfold observedAt
  rw [cellAt_modifyCell]
  by_cases h : q = p
  · subst h
    rw [if_pos rfl]
    cases cellAt cells q with
    | none => rfl
    | some c => simp only [Option.map_some', (updateEntropy_fields A pat c id).2.2.2.2]
  · rw [if_neg h]

theorem neighborAt_ent (A : Arith F) (pat : Pattern F) (id : Nat) (d : Dir) :
    neighborAt (modifyCell cells p (fun c => updateEntropy A pat c id)) q d
      = neighborAt cells q d := by
  unfold neighborAt
  rw [cellAt_modifyCell]
  by_cases h : q = p
  · subst h
    rw [if_pos rfl]
    cases cellAt cells q with
    | none => rfl
    | some c => simp only [Option.map_some', (updateEntropy_fields A pat c id).2.2.2.1]
  · rw [if_neg h]

theorem nCompatAt_ent (A : Arith F) (pat : Pattern F) (id : Nat) (d : Dir) (t : Nat) :
    nCompatAt (modifyCell cells p (fun c => updateEntropy A pat c id)) q d t
      = nCompatAt cells q d t := by
  unfold nCompatAt
  rw [cellAt_modifyCell]
  by_cases h : q = p
  · subst h
    rw [if_pos rfl]
    cases cellAt cells q with
    | none => rfl
    | some c => simp only [Option.map_some', (updateEntropy_fields A pat c id).2.1]
  · rw [if_neg h]

theorem nCompatSize_ent (A : Arith F) (pat : Pattern F) (id : Nat) (d : Dir) :
    nCompatSize (modifyCell cells p (fun c => updateEntropy A pat c id)) q d
      = nCompatSize cells q d := by
  unfold nCompatSize
  rw [cellAt_modifyCell]
  by_cases h : q = p
  · subst h
    rw [if_pos rfl]
    cases cellAt cells q with
    | none => rfl
    | some c => simp only [Option.map_some', (updateEntropy_fields A pat c id).2.1]
  · rw [if_neg h]

end updates

end Wfc

namespace Wfc

/-! ## Support counts -/

theorem sum_map_range_change (T : Nat) (f g : Nat → Nat) (id : Nat)
    (h : ∀ j, j ≠ id → g j = f j) (h0 : g id = 0) :
    ((List.range T).map g).sum + (if id < T then f id else 0) = ((List.range T).map f).sum := by
  induction T with
  | zero => simp
  | succ T ih =>
    rw [List.range_succ, List.map_append, List.map_append, List.sum_append, List.sum_append]
    simp only [List.map_cons, List.map_nil, List.sum_cons, List.sum_nil, Nat.add_zero]
    by_cases h1 : id < T
    · rw [if_pos h1] at ih
      rw [if_pos (by omega), h T (by omega)]
      omega
    · rw [if_neg h1] at ih
      by_cases h2 : id = T
      · subst h2
        rw [if_pos (by omega), h0]
        omega
      · rw [if_neg (by omega), h T (by omega)]
        omega

theorem sum_map_range_congr (T : Nat) (f g : Nat → Nat) (h : ∀ j, j < T → g j = f j) :
    ((List.range T).map g).sum = ((List.range T).map f).sum := by
  congr 1
  apply List.map_congr_left
  intro j hj
  exact h j (List.mem_range.1 hj)

section supp

variable {F : Type} (pat : Pattern F) (cells : Grid F)

theorem suppCount_congr (cells2 : Grid F) (p : Nat × Nat) (d : Dir) (t : Nat)
    (h : ∀ j, possibleAt cells2 p j = possibleAt cells p j) :
    suppCount pat cells2 p d t = suppCount pat cells p d t := by
  unfold suppCount
  apply sum_map_range_congr
  intro j _
  rw [h j]

theorem suppCount_drop (q : Nat × Nat) (id : Nat) (p : Nat × Nat) (d : Dir) (t : Nat)
    (hposs : possibleAt cells q id = true) (hid : id < pat.T) :
    suppCount pat (modifyCell cells q (fun c => dropTile c id)) p d t
      + (if p = q then (pat.edgesAt id d).count t else 0) = suppCount pat cells p d t := by
  by_cases hpq : p = q
  · subst hpq
    rw [if_pos rfl]
    unfold suppCount
    have := sum_map_range_change pat.T
      (fun j => if possibleAt cells p j then (pat.edgesAt j d).count t else 0)
      (fun j => if possibleAt (modifyCell cells p (fun c => dropTile c id)) p j
        then (pat.edgesAt j d).count t else 0) id
      (by
        intro j hj
        simp only [possibleAt_drop, true_and, if_neg hj])
      (by simp [possibleAt_drop])
    rw [if_pos hid] at this
    simp only [hposs, if_true] at this
    exact this
  · rw [if_neg hpq, Nat.add_zero]
    apply suppCount_congr
    intro j
    rw [possibleAt_drop, if_neg (fun hc => hpq hc.1)]

end supp

end Wfc

namespace Wfc

/-! ## The invariant under the single cell updates -/

theorem isSome_modifyCell {F : Type} (cells : Grid F) (p q : Nat × Nat) (f : Cell F → Cell F) :
    (cellAt (modifyCell cells p f) q).isSome = (cellAt cells q).isSome := by
  rw [cellAt_modifyCell]
  by_cases h : q = p
  · subst h; rw [if_pos rfl]; cases cellAt cells q <;> rfl
  · rw [if_neg h]

theorem isSome_of_neighborAt {F : Type} {cells : Grid F} {q p : Nat × Nat} {d : Dir}
    (h : neighborAt cells q d = some p) : (cellAt cells q).isSome := by
  unfold neighborAt at h
  cases hc : cellAt cells q with
  | none => rw [hc] at h; cases h
  | some c => rfl

theorem Frame.refl {F : Type} (cells : Grid F) : Frame cells cells :=
  ⟨fun _ _ h => h, fun _ => rfl, fun _ _ => rfl, fun _ _ _ => rfl, fun _ _ h => h⟩

theorem Frame.trans {F : Type} {c1 c2 c3 : Grid F} (h12 : Frame c1 c2) (h23 : Frame c2 c3) :
    Frame c1 c3 where
  mono := fun q t h => h12.mono q t (h23.mono q t h)
  observed := fun q => (h23.observed q).trans (h12.observed q)
  neighbors := fun q d => (h23.neighbors q d).trans (h12.neighbors q d)
  keep := fun q t h =>
    (h23.keep q t (by rw [h12.observed q]; exact h)).trans (h12.keep q t h)
  rect := fun n m h => h23.rect n m (h12.rect n m h)

section single

variable {F : Type} {pat : Pattern F} {cells : Grid F}
  {E0 E : Nat × Nat → Dir → Nat → Nat} {D D2 : Nat × Nat → Dir → Nat → Prop}

theorem Inv.congr (h : Inv pat cells E0 D) (hE : ∀ q d t, E0 q d t = E q d t)
    (hD : ∀ q d t, D2 q d t → D q d t) : Inv pat cells E D2 where
  exact := fun p q d t h1 h2 h3 => by rw [← hE]; exact h.exact p q d t h1 h2 h3
  pos := fun q d t h1 h2 h3 => h.pos q d t (hD q d t h1) h2 h3
  obs := h.obs
  size := h.size
  geo := h.geo
  plen := h.plen

/-- Widening `D` to counters that are positive wherever it matters. -/
theorem Inv.widen (h : Inv pat cells E D)
    (hnew : ∀ q d t, D2 q d t → ¬ D q d t → observedAt cells q = false →
      possibleAt cells q t = true → 0 < nCompatAt cells q d t) : Inv pat cells E D2 where
  exact := h.exact
  pos := fun q d t h1 h2 h3 => by
    by_cases hd : D q d t
    · exact h.pos q d t hd h2 h3
    · exact hnew q d t h1 hd h2 h3
  obs := h.obs
  size := h.size
  geo := h.geo
  plen := h.plen

theorem Frame_decr (cells : Grid F) (q : Nat × Nat) (d : Dir) (id : Nat) :
    Frame cells (modifyCell cells q (fun c => decrCompat c d id)) where
  mono := fun q2 t h => by rwa [possibleAt_decr] at h
  observed := fun q2 => observedAt_decr _ _ _ _ _
  neighbors := fun q2 d2 => neighborAt_decr _ _ _ _ _ _
  keep := fun q2 t _ => possibleAt_decr _ _ _ _ _ _
  rect := fun _ _ h => GridRect_modifyCell h _ _

theorem Frame_ent (A : Arith F) (pat : Pattern F) (cells : Grid F) (q : Nat × Nat) (id : Nat) :
    Frame cells (modifyCell cells q (fun c => updateEntropy A pat c id)) where
  mono := fun q2 t h => by rwa [possibleAt_ent] at h
  observed := fun q2 => observedAt_ent _ _ _ _ _ _
  neighbors := fun q2 d2 => neighborAt_ent _ _ _ _ _ _ _
  keep := fun q2 t _ => possibleAt_ent _ _ _ _ _ _ _
  rect := fun _ _ h => GridRect_modifyCell h _ _

theorem Frame_drop (cells : Grid F) (q : Nat × Nat) (id : Nat)
    (hq : observedAt cells q = false) :
    Frame cells (modifyCell cells q (fun c => dropTile c id)) where
  mono := fun q2 t h => by
    rw [possibleAt_drop] at h
    split at h
    · cases h
    · exact h
  observed := fun q2 => observedAt_drop _ _ _ _
  neighbors := fun q2 d2 => neighborAt_drop _ _ _ _ _
  keep := fun q2 t h => by
    rw [possibleAt_drop, if_neg]
    rintro ⟨rfl, -⟩
    rw [hq] at h
    cases h
  rect := fun _ _ h => GridRect_modifyCell h _ _

/-- The invariant after `--n_compatible_[d][id]` in the cell at `q`: one owed
decrement is paid; nothing is known about the decremented counter. -/
theorem Inv_decr (h : Inv pat cells E0 D) (q : Nat × Nat) (d : Dir) (id : Nat)
    (hid : id < pat.T) (hq : (cellAt cells q).isSome)
    (hE : ∀ q2 d2 t, E0 q2 d2 t = E q2 d2 t + (if q2 = q ∧ d2 = d ∧ t = id then 1 else 0)) :
    Inv pat (modifyCell cells q (fun c => decrCompat c d id)) E
      (fun q2 d2 t => D q2 d2 t ∧ ¬ (q2 = q ∧ d2 = d ∧ t = id)) where
  exact := fun p q2 d2 t h1 h2 h3 => by
    rw [neighborAt_decr] at h1
    rw [observedAt_decr] at h2
    rw [nCompatAt_decr, h.size q d hq, h.exact p q2 d2 t h1 h2 h3, hE,
      suppCount_congr pat cells _ p d2 t (fun j => possibleAt_decr _ _ _ _ _ _)]
    by_cases hc : q2 = q ∧ d2 = d ∧ t = id
    · rw [if_pos hc, if_pos ⟨hc.1, hc.2.1, hc.2.2, hid⟩]
      push_cast
      ring
    · rw [if_neg hc, if_neg (fun hc2 => hc ⟨hc2.1, hc2.2.1, hc2.2.2.1⟩)]
      push_cast
      ring
  pos := fun q2 d2 t h1 h2 h3 => by
    rw [observedAt_decr] at h2
    rw [possibleAt_decr] at h3
    rw [nCompatAt_decr, if_neg (fun hc => h1.2 ⟨hc.1, hc.2.1, hc.2.2.1⟩)]
    simpa using h.pos q2 d2 t h1.1 h2 h3
  obs := fun q2 d2 t h1 => by
    rw [observedAt_decr] at h1
    rw [nCompatAt_decr]
    have := h.obs q2 d2 t h1
    split <;> omega
  size := fun q2 d2 h1 => by
    rw [isSome_modifyCell] at h1
    rw [nCompatSize_decr]
    exact h.size q2 d2 h1
  geo := fun p q2 d2 h1 => by
    rw [neighborAt_decr] at h1 ⊢
    exact h.geo p q2 d2 h1
  plen := fun q2 t h1 => by
    rw [possibleAt_decr] at h1
    exact h.plen q2 t h1

/-- The invariant after `possible_[id] = false` in the cell at `q`: the
neighbours of `q` are owed the decrements for the entries of `edges[id]`. -/
theorem Inv_drop (h : Inv pat cells E D) (q : Nat × Nat) (id : Nat)
    (hposs : possibleAt cells q id = true)
    (hD : ∀ q2 d2 t, D2 q2 d2 t → (q2 = q ∧ t = id) ∨ D q2 d2 t)
    (hE : ∀ q2 d2 t, E0 q2 d2 t = E q2 d2 t + pendDirs pat cells q id allDirs q2 d2 t) :
    Inv pat (modifyCell cells q (fun c => dropTile c id)) E0 D2 where
  exact := fun p q2 d2 t h1 h2 h3 => by
    rw [neighborAt_drop] at h1
    rw [observedAt_drop] at h2
    rw [nCompatAt_drop, h.exact p q2 d2 t h1 h2 h3, hE,
      ← suppCount_drop pat cells q id p d2 t hposs (h.plen q id hposs)]
    unfold pendDirs
    have hmem : d2 ∈ allDirs := by cases d2 <;> simp [allDirs]
    by_cases hpq : p = q
    · subst hpq
      rw [if_pos rfl, if_pos ⟨hmem, h1⟩]
      push_cast
      ring
    · rw [if_neg hpq, if_neg]
      · push_cast
        ring
      · rintro ⟨-, h4⟩
        have e1 := h.geo p q2 d2 h1
        have e2 := h.geo q q2 d2 h4
        rw [e1] at e2
        exact hpq (Option.some.inj e2)
  pos := fun q2 d2 t h1 h2 h3 => by
    rw [observedAt_drop] at h2
    rw [possibleAt_drop] at h3
    rw [nCompatAt_drop]
    by_cases hc : q2 = q ∧ t = id
    · rw [if_pos hc] at h3
      cases h3
    · rw [if_neg hc] at h3
      rcases hD q2 d2 t h1 with h4 | h4
      · exact absurd h4 hc
      · exact h.pos q2 d2 t h4 h2 h3
  obs := fun q2 d2 t h1 => by
    rw [observedAt_drop] at h1
    rw [nCompatAt_drop]
    exact h.obs q2 d2 t h1
  size := fun q2 d2 h1 => by
    rw [isSome_modifyCell] at h1
    rw [nCompatSize_drop]
    exact h.size q2 d2 h1
  geo := fun p q2 d2 h1 => by
    rw [neighborAt_drop] at h1 ⊢
    exact h.geo p q2 d2 h1
  plen := fun q2 t h1 => by
    rw [possibleAt_drop] at h1
    split at h1
    · cases h1
    · exact h.plen q2 t h1

theorem Inv_ent (A : Arith F) (h : Inv pat cells E D) (q : Nat × Nat) (id : Nat) :
    Inv pat (modifyCell cells q (fun c => updateEntropy A pat c id)) E D where
  exact := fun p q2 d2 t h1 h2 h3 => by
    rw [neighborAt_ent] at h1
    rw [observedAt_ent] at h2
    rw [nCompatAt_ent, h.exact p q2 d2 t h1 h2 h3,
      suppCount_congr pat cells _ p d2 t (fun j => possibleAt_ent _ _ _ _ _ _ _)]
  pos := fun q2 d2 t h1 h2 h3 => by
    rw [observedAt_ent] at h2
    rw [possibleAt_ent] at h3
    rw [nCompatAt_ent]
    exact h.pos q2 d2 t h1 h2 h3
  obs := fun q2 d2 t h1 => by
    rw [observedAt_ent] at h1
    rw [nCompatAt_ent]
    exact h.obs q2 d2 t h1
  size := fun q2 d2 h1 => by
    rw [isSome_modifyCell] at h1
    rw [nCompatSize_ent]
    exact h.size q2 d2 h1
  geo := fun p q2 d2 h1 => by
    rw [neighborAt_ent] at h1 ⊢
    exact h.geo p q2 d2 h1
  plen := fun q2 t h1 => by
    rw [possibleAt_ent] at h1
    exact h.plen q2 t h1

end single

end Wfc

namespace Wfc

/-! ## The invariant along the recursion of `RemoveFromState` -/

theorem pendList_nil (q0 : Nat × Nat) (d0 : Dir) (q : Nat × Nat) (d : Dir) (t : Nat) :
    pendList q0 d0 [] q d t = 0 := by
  simp [pendList]

theorem pendList_cons (q0 : Nat × Nat) (d0 : Dir) (id : Nat) (rest : List Nat)
    (q : Nat × Nat) (d : Dir) (t : Nat) :
    pendList q0 d0 (id :: rest) q d t
      = pendList q0 d0 rest q d t + (if q = q0 ∧ d = d0 ∧ t = id then 1 else 0) := by
  unfold pendList
  by_cases hc : q = q0 ∧ d = d0
  · by_cases ht : t = id
    · subst ht
      simp [hc]
    · have ht2 : id ≠ t := fun h => ht h.symm
      simp [hc, ht, List.count_cons_of_ne ht2]
  · rw [if_neg hc, if_neg hc, if_neg (fun h => hc ⟨h.1, h.2.1⟩)]

theorem pendDirs_nil {F : Type} (pat : Pattern F) (cells : Grid F) (p : Nat × Nat) (j : Nat)
    (q : Nat × Nat) (d : Dir) (t : Nat) : pendDirs pat cells p j [] q d t = 0 := by
  simp [pendDirs]

theorem pendDirs_cons_none {F : Type} (pat : Pattern F) (cells : Grid F) (p : Nat × Nat)
    (j : Nat) (d0 : Dir) (rest : List Dir) (hn : neighborAt cells p d0 = none)
    (q : Nat × Nat) (d : Dir) (t : Nat) :
    pendDirs pat cells p j (d0 :: rest) q d t = pendDirs pat cells p j rest q d t := by
  unfold pendDirs
  by_cases hc : d = d0
  · subst hc
    simp [hn]
  · simp [hc]

theorem pendDirs_cons_some {F : Type} (pat : Pattern F) (cells : Grid F) (p : Nat × Nat)
    (j : Nat) (d0 : Dir) (rest : List Dir) (q0 : Nat × Nat)
    (hn : neighborAt cells p d0 = some q0) (hd : d0 ∉ rest)
    (q : Nat × Nat) (d : Dir) (t : Nat) :
    pendDirs pat cells p j (d0 :: rest) q d t
      = pendDirs pat cells p j rest q d t + pendList q0 d0 (pat.edgesAt j d0) q d t := by
  unfold pendDirs pendList
  by_cases hc : d = d0
  · subst hc
    by_cases hq : q = q0
    · subst hq
      simp [hn, hd]
    · have hq2 : ¬ q0 = q := fun h => hq h.symm
      simp [hn, hd, hq, hq2]
  · simp [hc]

section propagate

variable {F : Type} {pat : Pattern F} {D : Nat × Nat → Dir → Nat → Prop}
  {rm : Grid F → Nat × Nat → Nat → Option (Bool × Grid F)}

/-- A successful run of the loop of `PropagateToNeighbor` pays the decrements
owed for the rest of the compatibility list. -/
theorem propagateList_inv (hrm : RmSpec pat D rm) (q : Nat × Nat) (d : Dir) :
    ∀ (rest : List Nat) (cells : Grid F) (E0 E : Nat × Nat → Dir → Nat → Nat)
      (cells2 : Grid F),
      (∀ t ∈ rest, t < pat.T) →
      (∃ p, neighborAt cells p d = some q) →
      (∀ q2 d2 t, E0 q2 d2 t = E q2 d2 t + pendList q d rest q2 d2 t) →
      Inv pat cells E0 D →
      propagateList rm q d rest cells = some (true, cells2) →
      Inv pat cells2 E D ∧ Frame cells cells2 := by
  intro rest
  induction rest with
  | nil =>
    intro cells E0 E cells2 _ _ hE hinv hrun
    simp only [propagateList, Option.some.injEq, Prod.mk.injEq, true_and] at hrun
    subst hrun
    exact ⟨hinv.congr (fun q2 d2 t => by rw [hE, pendList_nil]; rfl) (fun _ _ _ h => h),
      Frame.refl _⟩
  | cons id rest ih =>
    intro cells E0 E cells2 hlt hnb hE hinv hrun
    obtain ⟨p, hp⟩ := hnb
    have hq : (cellAt cells q).isSome := isSome_of_neighborAt (hinv.geo p q d hp)
    have hid : id < pat.T := hlt id (List.mem_cons_self _ _)
    have hlt2 : ∀ t ∈ rest, t < pat.T := fun t ht => hlt t (List.mem_cons_of_mem _ ht)
    -- the grid after the decrement
    have hinv1 : Inv pat (modifyCell cells q (fun c => decrCompat c d id))
        (fun q2 d2 t => E q2 d2 t + pendList q d rest q2 d2 t)
        (fun q2 d2 t => D q2 d2 t ∧ ¬ (q2 = q ∧ d2 = d ∧ t = id)) :=
      Inv_decr hinv q d id hid hq (by
        intro q2 d2 t
        rw [hE, pendList_cons]
        omega)
    have hframe1 := Frame_decr cells q d id
    have hnb1 : ∃ p, neighborAt (modifyCell cells q (fun c => decrCompat c d id)) p d
        = some q := ⟨p, by rw [neighborAt_decr]; exact hp⟩
    unfold propagateList at hrun
    simp only [] at hrun
    by_cases hz : nCompatAt (modifyCell cells q (fun c => decrCompat c d id)) q d id = 0
    · rw [if_pos hz] at hrun
      by_cases hposs : possibleAt (modifyCell cells q (fun c => decrCompat c d id)) q id = true
      · rw [if_neg (by simp [hposs])] at hrun
        -- the cell is unobserved: the counters of an observed cell never reach zero
        have hunobs : observedAt (modifyCell cells q (fun c => decrCompat c d id)) q
            = false := by
          cases ho : observedAt (modifyCell cells q (fun c => decrCompat c d id)) q with
          | false => rfl
          | true =>
            exfalso
            rw [observedAt_decr] at ho
            have h1 := hinv.obs q d id ho
            rw [nCompatAt_decr, hinv.size q d hq, if_pos ⟨rfl, rfl, rfl, hid⟩] at hz
            omega
        cases hr : rm (modifyCell cells q (fun c => decrCompat c d id)) q id with
        | none => rw [hr] at hrun; cases hrun
        | some r =>
          obtain ⟨b, cells3⟩ := r
          rw [hr] at hrun
          cases b with
          | false => simp at hrun
          | true =>
            simp only [] at hrun
            have hdrop : Inv pat
                (modifyCell (modifyCell cells q (fun c => decrCompat c d id)) q
                  (fun c => dropTile c id))
                (fun q2 d2 t => (E q2 d2 t + pendList q d rest q2 d2 t)
                  + pendDirs pat (modifyCell cells q (fun c => decrCompat c d id)) q id
                      allDirs q2 d2 t) D :=
              Inv_drop hinv1 q id hposs
              (by
                intro q2 d2 t hD
                by_cases hc : q2 = q ∧ t = id
                · exact Or.inl hc
                · exact Or.inr ⟨hD, fun h => hc ⟨h.1, h.2.2⟩⟩)
              (fun _ _ _ => rfl)
            obtain ⟨hinv3, hframe3⟩ := hrm _ q id _ _ cells3 (fun _ _ _ => rfl) hdrop hr
            have hframe13 := (hframe1.trans (Frame_drop _ q id hunobs)).trans hframe3
            obtain ⟨hinv4, hframe4⟩ := ih cells3 _ E cells2 hlt2
              ⟨p, by rw [hframe13.neighbors]; exact hp⟩ (fun _ _ _ => rfl) hinv3 hrun
            exact ⟨hinv4, hframe13.trans hframe4⟩
      · rw [if_pos (by simpa using hposs)] at hrun
        have hinv2 : Inv pat (modifyCell cells q (fun c => decrCompat c d id))
            (fun q2 d2 t => E q2 d2 t + pendList q d rest q2 d2 t) D :=
          hinv1.widen (by
            intro q2 d2 t _ hnD _ hpo
            exfalso
            by_cases hc : q2 = q ∧ d2 = d ∧ t = id
            · obtain ⟨rfl, rfl, rfl⟩ := hc
              exact hposs hpo
            · apply hnD
              exact ⟨by assumption, hc⟩)
        obtain ⟨hinv4, hframe4⟩ := ih _ _ E cells2 hlt2 hnb1 (fun _ _ _ => rfl) hinv2 hrun
        exact ⟨hinv4, hframe1.trans hframe4⟩
    · rw [if_neg hz] at hrun
      have hinv2 : Inv pat (modifyCell cells q (fun c => decrCompat c d id))
          (fun q2 d2 t => E q2 d2 t + pendList q d rest q2 d2 t) D :=
        hinv1.widen (by
          intro q2 d2 t hD hnD hob _
          by_cases hc : q2 = q ∧ d2 = d ∧ t = id
          · obtain ⟨rfl, rfl, rfl⟩ := hc
            obtain ⟨p1, hp1⟩ := hnb1
            have := hinv1.exact p1 q2 d2 t hp1 hob hid
            omega
          · exact absurd ⟨hD, hc⟩ hnD)
      obtain ⟨hinv4, hframe4⟩ := ih _ _ E cells2 hlt2 hnb1 (fun _ _ _ => rfl) hinv2 hrun
      exact ⟨hinv4, hframe1.trans hframe4⟩

/-- A successful run of the loop of `PropagateToNeighbors` pays the
decrements owed to the neighbours in the remaining directions. -/
theorem propagateDirs_inv (hrm : RmSpec pat D rm)
    (hids : ∀ j d t, t ∈ pat.edgesAt j d → t < pat.T) (p : Nat × Nat) (id : Nat) :
    ∀ (dirs : List Dir) (cells : Grid F) (E0 E : Nat × Nat → Dir → Nat → Nat)
      (cells2 : Grid F),
      dirs.Nodup →
      (∀ q2 d2 t, E0 q2 d2 t = E q2 d2 t + pendDirs pat cells p id dirs q2 d2 t) →
      Inv pat cells E0 D →
      propagateDirs pat rm p id dirs cells = some (true, cells2) →
      Inv pat cells2 E D ∧ Frame cells cells2 := by
  intro dirs
  induction dirs with
  | nil =>
    intro cells E0 E cells2 _ hE hinv hrun
    simp only [propagateDirs, Option.some.injEq, Prod.mk.injEq, true_and] at hrun
    subst hrun
    exact ⟨hinv.congr (fun q2 d2 t => by rw [hE, pendDirs_nil]; rfl) (fun _ _ _ h => h),
      Frame.refl _⟩
  | cons d rest ih =>
    intro cells E0 E cells2 hnd hE hinv hrun
    have hd : d ∉ rest := (List.nodup_cons.1 hnd).1
    have hnd2 : rest.Nodup := (List.nodup_cons.1 hnd).2
    unfold propagateDirs at hrun
    cases hn : neighborAt cells p d with
    | none =>
      rw [hn] at hrun
      simp only [] at hrun
      refine ih cells E0 E cells2 hnd2 ?_ hinv hrun
      intro q2 d2 t
      rw [hE, pendDirs_cons_none pat cells p id d rest hn]
    | some q =>
      rw [hn] at hrun
      simp only [] at hrun
      cases hr : PropagateToNeighbor pat rm cells q d id with
      | none => rw [hr] at hrun; cases hrun
      | some r =>
        obtain ⟨b, cells3⟩ := r
        rw [hr] at hrun
        cases b with
        | false => simp at hrun
        | true =>
          simp only [] at hrun
          unfold PropagateToNeighbor at hr
          obtain ⟨hinv3, hframe3⟩ := propagateList_inv hrm q d (pat.edgesAt id d) cells E0
            (fun q2 d2 t => E q2 d2 t + pendDirs pat cells p id rest q2 d2 t) cells3
            (fun t ht => hids id d t ht) ⟨p, hn⟩
            (by
              intro q2 d2 t
              rw [hE, pendDirs_cons_some pat cells p id d rest q hn hd]
              simp only []
              omega)
            hinv hr
          obtain ⟨hinv4, hframe4⟩ := ih cells3 _ E cells2 hnd2
            (by
              intro q2 d2 t
              unfold pendDirs
              rw [hframe3.neighbors])
            hinv3 hrun
          exact ⟨hinv4, hframe3.trans hframe4⟩

/-- Every successful call of `RemoveFromState` meets its specification. -/
theorem RemoveFromState_spec (A : Arith F)
    (hids : ∀ j d t, t ∈ pat.edgesAt j d → t < pat.T) :
    ∀ fuel : Nat, RmSpec pat D (RemoveFromState A pat fuel) := by
  intro fuel
  induction fuel with
  | zero =>
    intro cells q id E0 E cells2 _ _ hrun
    simp [RemoveFromState] at hrun
  | succ fuel ih =>
    intro cells q id E0 E cells2 hE hinv hrun
    unfold RemoveFromState at hrun
    simp only [] at hrun
    split at hrun
    · simp at hrun
    · unfold PropagateToNeighbors at hrun
      obtain ⟨hinv2, hframe2⟩ := propagateDirs_inv ih hids q id allDirs _ E0 E cells2
        (by decide)
        (by
          intro q2 d2 t
          rw [hE]
          unfold pendDirs
          simp only [neighborAt_ent, neighborAt_drop])
        (Inv_ent A hinv q id) hrun
      exact ⟨hinv2, (Frame_ent A pat _ q id).trans hframe2⟩

end propagate

end Wfc

namespace Wfc

/-! ## Symmetric duplicate-free patterns -/

section pattern

variable {F : Type} {pat : Pattern F}

theorem edgesAt_eq_nil_of_le (i : Nat) (dir : Dir) (h : pat.T ≤ i) : pat.edgesAt i dir = [] := by
  unfold Pattern.edgesAt
  rw [List.getD_eq_getElem?_getD, List.getElem?_eq_none h]
  rfl

theorem lt_T_of_mem_edgesAt {i t : Nat} {dir : Dir} (h : t ∈ pat.edgesAt i dir) : i < pat.T := by
  by_contra hc
  rw [edgesAt_eq_nil_of_le i dir (by omega)] at h
  cases h

theorem Pattern.Symmetric.ids_lt (hs : pat.Symmetric) :
    ∀ j d t, t ∈ pat.edgesAt j d → t < pat.T :=
  fun j d t h => lt_T_of_mem_edgesAt ((hs j t d).1 h)

theorem sum_map_range_add (T : Nat) (f g : Nat → Nat) :
    ((List.range T).map (fun j => f j + g j)).sum
      = ((List.range T).map f).sum + ((List.range T).map g).sum := by
  induction T with
  | zero => simp
  | succ T ih =>
    simp only [List.range_succ, List.map_append, List.sum_append, List.map_cons, List.map_nil,
      List.sum_cons, List.sum_nil, ih]
    omega

theorem sum_map_range_indicator (T x : Nat) :
    ((List.range T).map (fun j => if x = j then 1 else 0)).sum = if x < T then 1 else 0 := by
  induction T with
  | zero => simp
  | succ T ih =>
    simp only [List.range_succ, List.map_append, List.sum_append, List.map_cons, List.map_nil,
      List.sum_cons, List.sum_nil, ih]
    split_ifs <;> omega


theorem sum_count_range (T : Nat) (L : List Nat) (h : ∀ x ∈ L, x < T) :
    ((List.range T).map (fun j => L.count j)).sum = L.length := by
  induction L with
  | nil => simp
  | cons x xs ih =>
    have e : (fun j => (x :: xs).count j) = (fun j => xs.count j + (if x = j then 1 else 0)) := by
      funext j
      rw [List.count_cons]
      simp
    rw [e, sum_map_range_add, ih (fun y hy => h y (List.mem_cons_of_mem _ hy)),
      sum_map_range_indicator, if_pos (h x (List.mem_cons_self _ _)), List.length_cons]

theorem count_edges_symm (hs : pat.Symmetric) (hd : pat.DupFree) (j t : Nat) (d : Dir) :
    (pat.edgesAt j d).count t = (pat.edgesAt t (InverseDir d)).count j := by
  by_cases h : t ∈ pat.edgesAt j d
  · rw [List.count_eq_one_of_mem (hd j d) h,
      List.count_eq_one_of_mem (hd t (InverseDir d)) ((hs j t d).1 h)]
  · rw [List.count_eq_zero.2 h, List.count_eq_zero.2 (fun hc => h ((hs j t d).2 hc))]

/-- The start value of a counter is the support that a cell with every tile
possible gives. -/
theorem initial_count (hs : pat.Symmetric) (hd : pat.DupFree) (t : Nat) (d : Dir) :
    ((List.range pat.T).map (fun j => (pat.edgesAt j d).count t)).sum
      = (pat.edgesAt t (InverseDir d)).length := by
  have e : (fun j => (pat.edgesAt j d).count t)
      = (fun j => (pat.edgesAt t (InverseDir d)).count j) := by
    funext j
    exact count_edges_symm hs hd j t d
  rw [e]
  apply sum_count_range
  intro x hx
  exact lt_T_of_mem_edgesAt ((hs t x (InverseDir d)).1 hx)

end pattern

/-! ## The wiring loops -/

theorem nbrPos_eq_some_iff (n m : Nat) (hn : n < 2 ^ 64) (hm : m < 2 ^ 64) (p q : Nat × Nat)
    (dir : Dir) (hp1 : p.1 < n) (hp2 : p.2 < m) :
    nbrPos n m p dir = some q ↔
      ((q.1 : Int) = p.1 + dirDn dir ∧ (q.2 : Int) = p.2 + dirDm dir ∧ q.1 < n ∧ q.2 < m) := by
  obtain ⟨p1, p2⟩ := p
  obtain ⟨q1, q2⟩ := q
  simp only at hp1 hp2
  unfold nbrPos
  cases dir <;>
    simp only [kDirDn, kDirDm, dirDn, dirDm, addSz, NEG_ONE, SIZE_MOD] <;>
    norm_num at hn hm ⊢ <;>
    omega

end Wfc

namespace Wfc

/-! ## The grid after the wiring loops -/

section wiring

variable {F : Type}

theorem wireOne_eq (n m : Nat) (cells : Grid F) (i j : Nat) (dir : Dir) :
    wireOne n m cells i j dir =
      match nbrPos n m (i, j) dir with
      | none => cells
      | some q => modifyCell cells (i, j) (fun c =>
          { c with neighbors_ := fun d => if d = dir then some q else c.neighbors_ d }) := by
  unfold wireOne nbrPos
  simp only []
  split_ifs <;> rfl

theorem wire_eq_wireAll (n m : Nat) (cells : Grid F) :
    wire n m cells = wireAll n m (wireTriples n m) cells := by
  unfold wire wireAll wireTriples
  rw [← foldl_flatMap_eq]
  congr 1
  funext acc i
  rw [← foldl_flatMap_eq]
  congr 1

theorem mem_wireTriples (n m : Nat) (x : Nat × Nat × Dir) :
    x ∈ wireTriples n m ↔ x.1 < n ∧ x.2.1 < m := by
  obtain ⟨i, j, d⟩ := x
  unfold wireTriples
  simp only [List.mem_flatMap, List.mem_range, List.mem_map, Prod.mk.injEq]
  constructor
  · rintro ⟨i2, hi, j2, hj, d2, -, rfl, rfl, rfl⟩
    exact ⟨hi, hj⟩
  · rintro ⟨hi, hj⟩
    exact ⟨i, hi, j, hj, d, by cases d <;> simp [allDirs], rfl, rfl, rfl⟩

theorem GridRect_wireOne {cells : Grid F} {n m : Nat} (n2 m2 : Nat) (h : GridRect cells n m)
    (i j : Nat) (dir : Dir) : GridRect (wireOne n2 m2 cells i j dir) n m := by
  rw [wireOne_eq]
  split
  · exact h
  · exact GridRect_modifyCell h _ _

theorem cellAt_wireOne (n m : Nat) (cells : Grid F) (i j : Nat) (dir : Dir) (q : Nat × Nat) :
    cellAt (wireOne n m cells i j dir) q =
      (cellAt cells q).map (fun c =>
        if q = (i, j) then
          match nbrPos n m (i, j) dir with
          | none => c
          | some q2 =>
            { c with neighbors_ := fun d => if d = dir then some q2 else c.neighbors_ d }
        else c) := by
  rw [wireOne_eq]
  cases hn : nbrPos n m (i, j) dir with
  | none =>
    simp only []
    cases cellAt cells q with
    | none => rfl
    | some c => simp
  | some q2 =>
    simp only []
    rw [cellAt_modifyCell]
    by_cases hq : q = (i, j)
    · subst hq
      rw [if_pos rfl]
      cases cellAt cells (i, j) with
      | none => rfl
      | some c => simp
    · rw [if_neg hq]
      cases cellAt cells q with
      | none => rfl
      | some c => simp [hq]

theorem isSome_wireAll (n m : Nat) :
    ∀ (l : List (Nat × Nat × Dir)) (cells : Grid F) (q : Nat × Nat),
      (cellAt (wireAll n m l cells) q).isSome = (cellAt cells q).isSome := by
  intro l
  induction l with
  | nil => intro cells q; rfl
  | cons x rest ih =>
    intro cells q
    show (cellAt (wireAll n m rest (wireOne n m cells x.1 x.2.1 x.2.2)) q).isSome = _
    rw [ih, cellAt_wireOne]
    cases cellAt cells q <;> rfl

/-- The cells after a run of wiring steps: only `neighbors_` has changed, and
`neighbors_[d]` of the cell at `q` is set once `(q, d)` has been visited. -/
theorem cellAt_wireAll (n m : Nat) (c0 : Cell F) :
    ∀ (l : List (Nat × Nat × Dir)) (cells : Grid F) (q : Nat × Nat),
      (∀ c, cellAt cells q = some c → CellLike c0 c) →
      (∃ c, cellAt (wireAll n m l cells) q = some c ∧ CellLike c0 c ∧
          ∀ d, c.neighbors_ d =
            if (q.1, q.2, d) ∈ l ∧ (nbrPos n m q d).isSome then nbrPos n m q d
            else neighborAt cells q d) ∨
      (cellAt (wireAll n m l cells) q = none ∧ cellAt cells q = none) := by
  intro l
  induction l with
  | nil =>
    intro cells q hlike
    cases hc : cellAt cells q with
    | none => exact Or.inr ⟨hc, rfl⟩
    | some c =>
      refine Or.inl ⟨c, hc, hlike c hc, ?_⟩
      intro d
      simp [neighborAt, hc]
  | cons x rest ih =>
    intro cells q hlike
    obtain ⟨i, j, dir⟩ := x
    have hstep := cellAt_wireOne n m cells i j dir q
    have hlike2 : ∀ c, cellAt (wireOne n m cells i j dir) q = some c → CellLike c0 c := by
      intro c hc
      rw [hstep] at hc
      cases hc0 : cellAt cells q with
      | none => rw [hc0] at hc; cases hc
      | some c1 =>
        rw [hc0] at hc
        simp only [Option.map_some', Option.some.injEq] at hc
        have h1 := hlike c1 hc0
        subst hc
        split
        · split
          · exact h1
          · exact h1
        · exact h1
    rcases ih (wireOne n m cells i j dir) q hlike2 with ⟨c, hc, hl, hnb⟩ | ⟨h1, h2⟩
    · refine Or.inl ⟨c, hc, hl, ?_⟩
      intro d
      rw [hnb d]
      have hq : (q.1, q.2) = q := rfl
      by_cases hin : (q.1, q.2, d) ∈ rest ∧ (nbrPos n m q d).isSome
      · rw [if_pos hin, if_pos ⟨List.mem_cons_of_mem _ hin.1, hin.2⟩]
      · rw [if_neg hin]
        unfold neighborAt
        rw [hstep]
        cases hc0 : cellAt cells q with
        | none =>
          exfalso
          have h5 := isSome_wireAll n m rest (wireOne n m cells i j dir) q
          rw [hc, hstep, hc0] at h5
          cases h5
        | some c1 =>
          simp only [Option.map_some']
          by_cases hx : q = (i, j) ∧ d = dir
          · obtain ⟨rfl, rfl⟩ := hx
            simp only [if_true]
            cases hnp : nbrPos n m (i, j) d with
            | none => simp [hnp]
            | some q2 => simp [hnp]
          · have hx2 : ¬ ((q.1, q.2, d) = (i, j, dir)) := by
              intro h
              simp only [Prod.mk.injEq] at h
              exact hx ⟨Prod.ext h.1 h.2.1, h.2.2⟩
            have hin2 : ¬ ((q.1, q.2, d) ∈ (i, j, dir) :: rest ∧ (nbrPos n m q d).isSome) := by
              rintro ⟨h3, h4⟩
              rcases List.mem_cons.1 h3 with h5 | h5
              · exact hx2 h5
              · exact hin ⟨h5, h4⟩
            rw [if_neg hin2]
            by_cases hq2 : q = (i, j)
            · rw [if_pos hq2]
              have hd : ¬ d = dir := fun h => hx ⟨hq2, h⟩
              cases nbrPos n m (i, j) dir with
              | none => rfl
              | some q2 => simp [hd]
            · rw [if_neg hq2]
    · refine Or.inr ⟨h1, ?_⟩
      rw [hstep] at h2
      cases hc0 : cellAt cells q with
      | none => rfl
      | some c1 => rw [hc0] at h2; cases h2

theorem GridRect_wireAll (n2 m2 : Nat) :
    ∀ (l : List (Nat × Nat × Dir)) (cells : Grid F) (n m : Nat),
      GridRect cells n m → GridRect (wireAll n2 m2 l cells) n m := by
  intro l
  induction l with
  | nil => intro cells n m h; exact h
  | cons x rest ih =>
    intro cells n m h
    exact ih _ n m (GridRect_wireOne n2 m2 h _ _ _)

theorem GridRect_replicate (n m : Nat) (c0 : Cell F) :
    GridRect (List.replicate n (List.replicate m c0)) n m := by
  refine ⟨by simp, ?_⟩
  intro row hrow
  rw [List.eq_of_mem_replicate hrow]
  simp

theorem cellAt_replicate (n m : Nat) (c0 : Cell F) (q : Nat × Nat) :
    cellAt (List.replicate n (List.replicate m c0)) q
      = if q.1 < n ∧ q.2 < m then some c0 else none := by
  unfold cellAt
  by_cases h1 : q.1 < n
  · rw [List.get?_eq_getElem?, List.getElem?_replicate, if_pos h1]
    simp only []
    rw [List.get?_eq_getElem?, List.getElem?_replicate]
    simp [h1]
  · rw [List.get?_eq_getElem?, List.getElem?_replicate, if_neg h1]
    simp [h1]

/-- The grid that `Wfc::Observe` has built when initial propagation starts. -/
theorem wire_cells (n m : Nat) (c0 : Cell F) (hc0 : ∀ d, c0.neighbors_ d = none)
    (q : Nat × Nat) :
    (q.1 < n ∧ q.2 < m ∧
      ∃ c, cellAt (wire n m (List.replicate n (List.replicate m c0))) q = some c ∧
        CellLike c0 c ∧ ∀ d, c.neighbors_ d = nbrPos n m q d) ∨
    (¬ (q.1 < n ∧ q.2 < m) ∧
      cellAt (wire n m (List.replicate n (List.replicate m c0))) q = none) := by
  rw [wire_eq_wireAll]
  have hlike : ∀ c, cellAt (List.replicate n (List.replicate m c0)) q = some c →
      CellLike c0 c := by
    intro c hc
    rw [cellAt_replicate] at hc
    split at hc
    · cases hc; exact ⟨rfl, rfl, rfl, rfl, rfl⟩
    · cases hc
  rcases cellAt_wireAll n m c0 (wireTriples n m) _ q hlike with ⟨c, hc, hl, hnb⟩ | ⟨h1, h2⟩
  · have hin : q.1 < n ∧ q.2 < m := by
      have h := GridRect_wireAll n m (wireTriples n m) _ n m (GridRect_replicate n m c0)
      exact (cellAt_isSome_iff h q).1 (by rw [hc]; rfl)
    refine Or.inl ⟨hin.1, hin.2, c, hc, hl, ?_⟩
    intro d
    rw [hnb d]
    have hmem : (q.1, q.2, d) ∈ wireTriples n m := (mem_wireTriples n m _).2 hin
    cases hnp : nbrPos n m q d with
    | none =>
      simp only [Option.isSome_none, Bool.false_eq_true, and_false, if_false]
      unfold neighborAt
      rw [cellAt_replicate, if_pos hin]
      exact hc0 d
    | some q2 => simp [hmem]
  · refine Or.inr ⟨?_, h1⟩
    intro hin
    rw [cellAt_replicate, if_pos hin] at h2
    cases h2

end wiring

end Wfc

namespace Wfc

/-! ## The grid when initial propagation starts -/

section initial

variable {F : Type} (A : Arith F) (pat : Pattern F) (n m : Nat)

theorem Cell_new_neighbors (d : Dir) : (Cell.new A pat).neighbors_ d = none := rfl

/-- What the engine reads in the freshly wired grid. -/
theorem wire_reads (q : Nat × Nat) :
    (∀ t, possibleAt (wire n m (List.replicate n (List.replicate m (Cell.new A pat)))) q t
      = decide (q.1 < n ∧ q.2 < m ∧ t < pat.T)) ∧
    observedAt (wire n m (List.replicate n (List.replicate m (Cell.new A pat)))) q = false ∧
    (∀ d t, nCompatAt (wire n m (List.replicate n (List.replicate m (Cell.new A pat)))) q d t
      = if q.1 < n ∧ q.2 < m ∧ t < pat.T then
          ((pat.edgesAt t (InverseDir d)).length : Int) else 0) ∧
    (∀ d, nCompatSize (wire n m (List.replicate n (List.replicate m (Cell.new A pat)))) q d
      = if q.1 < n ∧ q.2 < m then pat.T else 0) ∧
    (∀ d, neighborAt (wire n m (List.replicate n (List.replicate m (Cell.new A pat)))) q d
      = if q.1 < n ∧ q.2 < m then nbrPos n m q d else none) := by
  rcases wire_cells n m (Cell.new A pat) (Cell_new_neighbors A pat) q with
    ⟨h1, h2, c, hc, ⟨e1, e2, -, -, e5⟩, hnb⟩ | ⟨hout, hc⟩
  · refine ⟨?_, ?_, ?_, ?_, ?_⟩
    · intro t
      unfold possibleAt
      rw [hc]
      simp only [e1, Cell.new]
      rw [List.getD_eq_getElem?_getD, List.getElem?_replicate]
      unfold Pattern.T
      by_cases ht : t < pat.edges.length
      · simp [h1, h2, ht]
      · simp [h1, h2, ht]
    · unfold observedAt
      rw [hc]
      simp only [e5, Cell.new]
    · intro d t
      unfold nCompatAt
      rw [hc]
      simp only [e2, Cell.new]
      unfold Pattern.T
      by_cases ht : t < pat.edges.length
      · rw [if_pos ⟨h1, h2, ht⟩, getD_map_range _ _ _ _ ht]
      · rw [if_neg (fun h => ht h.2.2), List.getD_eq_getElem?_getD,
          List.getElem?_eq_none (by simpa using ht)]
        rfl
    · intro d
      unfold nCompatSize
      rw [hc]
      simp only [e2, Cell.new, List.length_map, List.length_range, if_pos (And.intro h1 h2)]
      rfl
    · intro d
      unfold neighborAt
      rw [hc]
      simp only [hnb, if_pos (And.intro h1 h2)]
  · refine ⟨?_, ?_, ?_, ?_, ?_⟩
    · intro t
      unfold possibleAt
      rw [hc]
      have : ¬ (q.1 < n ∧ q.2 < m ∧ t < pat.T) := fun h => hout ⟨h.1, h.2.1⟩
      simp [this]
    · unfold observedAt; rw [hc]
    · intro d t
      unfold nCompatAt
      rw [hc, if_neg (fun h => hout ⟨h.1, h.2.1⟩)]
    · intro d
      unfold nCompatSize
      rw [hc, if_neg hout]
    · intro d
      unfold neighborAt
      rw [hc, if_neg hout]

theorem nbrPos_inverse (hn : n < 2 ^ 64) (hm : m < 2 ^ 64) (p q : Nat × Nat) (d : Dir)
    (hp : p.1 < n ∧ p.2 < m) (h : nbrPos n m p d = some q) :
    (q.1 < n ∧ q.2 < m) ∧ nbrPos n m q (InverseDir d) = some p ∧ q ≠ p := by
  have h1 := (nbrPos_eq_some_iff n m hn hm p q d hp.1 hp.2).1 h
  refine ⟨⟨h1.2.2.1, h1.2.2.2⟩, ?_, ?_⟩
  · rw [nbrPos_eq_some_iff n m hn hm q p _ h1.2.2.1 h1.2.2.2, dirDn_inverse, dirDm_inverse]
    exact ⟨by omega, by omega, hp.1, hp.2⟩
  · rintro rfl
    obtain ⟨e1, e2, -, -⟩ := h1
    cases d <;> simp [dirDn, dirDm] at e1 e2

theorem GridRect_wire {cells : Grid F} {n2 m2 : Nat} (h : GridRect cells n2 m2) :
    GridRect (wire n m cells) n2 m2 := by
  rw [wire_eq_wireAll]
  exact GridRect_wireAll n m _ _ n2 m2 h

theorem Wired_wire :
    Wired (wire n m (List.replicate n (List.replicate m (Cell.new A pat)))) n m :=
  fun q d => (wire_reads A pat n m q).2.2.2.2 d

/-- The invariant holds in the freshly wired grid, with nothing owed. -/
theorem Inv_wire (hs : pat.Symmetric) (hd : pat.DupFree) (hn : n < 2 ^ 64) (hm : m < 2 ^ 64) :
    Inv pat (wire n m (List.replicate n (List.replicate m (Cell.new A pat))))
      (fun _ _ _ => 0) (fun _ _ _ => False) where
  exact := fun p q d t h1 _ h3 => by
    have hp := (wire_reads A pat n m p)
    have hq := (wire_reads A pat n m q)
    rw [hp.2.2.2.2 d] at h1
    have hpin : p.1 < n ∧ p.2 < m := by
      by_contra hc
      rw [if_neg hc] at h1
      cases h1
    rw [if_pos hpin] at h1
    have hqin := (nbrPos_inverse n m hn hm p q d hpin h1).1
    rw [hq.2.2.1 d t, if_pos ⟨hqin.1, hqin.2, h3⟩]
    unfold suppCount
    rw [← initial_count hs hd t d]
    simp only [Nat.cast_zero, add_zero, Nat.cast_inj]
    apply sum_map_range_congr
    intro j hj
    rw [hp.1 j]
    simp [hpin, hj]
  pos := fun _ _ _ h => h.elim
  obs := fun q d t h => by
    rw [(wire_reads A pat n m q).2.1] at h
    cases h
  size := fun q d h => by
    have hin := (cellAt_isSome_iff (GridRect_wire n m (GridRect_replicate n m _)) q).1 h
    rw [(wire_reads A pat n m q).2.2.2.1 d, if_pos hin]
  geo := fun p q d h1 => by
    rw [(wire_reads A pat n m p).2.2.2.2 d] at h1
    have hpin : p.1 < n ∧ p.2 < m := by
      by_contra hc
      rw [if_neg hc] at h1
      cases h1
    rw [if_pos hpin] at h1
    have h2 := nbrPos_inverse n m hn hm p q d hpin h1
    rw [(wire_reads A pat n m q).2.2.2.2 _, if_pos h2.1]
    exact h2.2.1
  plen := fun q t h => by
    rw [(wire_reads A pat n m q).1 t] at h
    simp only [decide_eq_true_eq] at h
    exact h.2.2

end initial

end Wfc

namespace Wfc

/-! ## Initial propagation -/

section initialPropagation

variable {F : Type} {pat : Pattern F}
  {rm : Grid F → Nat × Nat → Nat → Option (Bool × Grid F)}

theorem Wired.frame {cells cells2 : Grid F} {n m : Nat} (h : Wired cells n m)
    (hf : Frame cells cells2) : Wired cells2 n m :=
  fun q d => by rw [hf.neighbors, h q d]

/-- After the loop over `id` of `PropagateInitial` for direction `d`, every
visited tile that is still possible has a positive counter. -/
theorem initialIds_inv (hrm : ∀ D, RmSpec pat D rm) (q : Nat × Nat) (d : Dir) :
    ∀ (ids : List Nat) (cells : Grid F) (D : Nat × Nat → Dir → Nat → Prop) (cells2 : Grid F),
      Inv pat cells (fun _ _ _ => 0) D →
      observedAt cells q = false →
      initialIds rm q d ids cells = some (true, cells2) →
      Inv pat cells2 (fun _ _ _ => 0) (fun q2 d2 t => D q2 d2 t ∨ (q2 = q ∧ d2 = d ∧ t ∈ ids)) ∧
        Frame cells cells2 := by
  intro ids
  induction ids with
  | nil =>
    intro cells D cells2 hinv _ hrun
    simp only [initialIds, Option.some.injEq, Prod.mk.injEq, true_and] at hrun
    subst hrun
    refine ⟨hinv.congr (fun _ _ _ => rfl) ?_, Frame.refl _⟩
    rintro q2 d2 t (h | ⟨-, -, h⟩)
    · exact h
    · cases h
  | cons id rest ih =>
    intro cells D cells2 hinv hun hrun
    unfold initialIds at hrun
    by_cases htest : (possibleAt cells q id && decide (nCompatAt cells q d id ≤ 0)) = true
    · rw [if_pos htest] at hrun
      simp only [Bool.and_eq_true, decide_eq_true_eq] at htest
      cases hr : rm cells q id with
      | none => rw [hr] at hrun; cases hrun
      | some r =>
        obtain ⟨b, cells3⟩ := r
        rw [hr] at hrun
        cases b with
        | false => simp at hrun
        | true =>
          simp only [] at hrun
          have hdrop : Inv pat (modifyCell cells q (fun c => dropTile c id))
              (fun q2 d2 t => pendDirs pat cells q id allDirs q2 d2 t) D :=
            Inv_drop hinv q id htest.1 (fun _ _ _ h => Or.inr h) (fun _ _ _ => by simp)
          obtain ⟨hinv3, hframe3⟩ := hrm D cells q id _ (fun _ _ _ => 0) cells3
            (fun _ _ _ => by simp) hdrop hr
          have hframe13 := (Frame_drop cells q id hun).trans hframe3
          have hinv3b : Inv pat cells3 (fun _ _ _ => 0)
              (fun q2 d2 t => D q2 d2 t ∨ (q2 = q ∧ d2 = d ∧ t = id)) :=
            hinv3.widen (by
              rintro q2 d2 t (h | ⟨rfl, rfl, rfl⟩) hnD _ hpo
              · exact absurd h hnD
              · exfalso
                have := hframe3.mono _ _ hpo
                rw [possibleAt_drop, if_pos ⟨rfl, rfl⟩] at this
                cases this)
          obtain ⟨hinv4, hframe4⟩ := ih cells3 _ cells2 hinv3b
            (by rw [hframe13.observed]; exact hun) hrun
          refine ⟨hinv4.congr (fun _ _ _ => rfl) ?_, hframe13.trans hframe4⟩
          rintro q2 d2 t (h | ⟨h1, h2, h3⟩)
          · exact Or.inl (Or.inl h)
          · rcases List.mem_cons.1 h3 with h4 | h4
            · exact Or.inl (Or.inr ⟨h1, h2, h4⟩)
            · exact Or.inr ⟨h1, h2, h4⟩
    · rw [if_neg htest] at hrun
      have hinv2 : Inv pat cells (fun _ _ _ => 0)
          (fun q2 d2 t => D q2 d2 t ∨ (q2 = q ∧ d2 = d ∧ t = id)) :=
        hinv.widen (by
          rintro q2 d2 t (h | ⟨rfl, rfl, rfl⟩) hnD _ hpo
          · exact absurd h hnD
          · by_contra hc
            apply htest
            simp only [Bool.and_eq_true, decide_eq_true_eq]
            exact ⟨hpo, by omega⟩)
      obtain ⟨hinv4, hframe4⟩ := ih cells _ cells2 hinv2 hun hrun
      refine ⟨hinv4.congr (fun _ _ _ => rfl) ?_, hframe4⟩
      rintro q2 d2 t (h | ⟨h1, h2, h3⟩)
      · exact Or.inl (Or.inl h)
      · rcases List.mem_cons.1 h3 with h4 | h4
        · exact Or.inl (Or.inr ⟨h1, h2, h4⟩)
        · exact Or.inr ⟨h1, h2, h4⟩

/-- After the loop over `dir` of `PropagateInitial`, the same holds for every
visited direction in which the cell has a neighbour behind it. -/
theorem initialDirs_inv (hrm : ∀ D, RmSpec pat D rm) (n m : Nat) (q : Nat × Nat)
    (hq : InGrid n m q) :
    ∀ (dirs : List Dir) (cells : Grid F) (D : Nat × Nat → Dir → Nat → Prop) (cells2 : Grid F),
      Inv pat cells (fun _ _ _ => 0) D →
      Wired cells n m →
      observedAt cells q = false →
      initialDirs rm q dirs cells = some (true, cells2) →
      Inv pat cells2 (fun _ _ _ => 0)
        (fun q2 d2 t => D q2 d2 t ∨ (q2 = q ∧ d2 ∈ dirs ∧ Dmain pat n m q2 d2 t)) ∧
        Frame cells cells2 := by
  intro dirs
  induction dirs with
  | nil =>
    intro cells D cells2 hinv _ _ hrun
    simp only [initialDirs, Option.some.injEq, Prod.mk.injEq, true_and] at hrun
    subst hrun
    refine ⟨hinv.congr (fun _ _ _ => rfl) ?_, Frame.refl _⟩
    rintro q2 d2 t (h | ⟨-, h, -⟩)
    · exact h
    · cases h
  | cons d rest ih =>
    intro cells D cells2 hinv hw hun hrun
    unfold initialDirs at hrun
    have hnb : neighborAt cells q (InverseDir d) = nbrPos n m q (InverseDir d) := by
      rw [hw q _]
      exact if_pos hq
    by_cases hnone : (neighborAt cells q (InverseDir d)).isNone = true
    · rw [if_pos hnone] at hrun
      obtain ⟨hinv4, hframe4⟩ := ih cells D cells2 hinv hw hun hrun
      refine ⟨hinv4.congr (fun _ _ _ => rfl) ?_, hframe4⟩
      rintro q2 d2 t (h | ⟨h1, h2, h3⟩)
      · exact Or.inl h
      · rcases List.mem_cons.1 h2 with h4 | h4
        · exfalso
          subst h4; subst h1
          rw [hnb] at hnone
          have := h3.2.1
          rw [Option.isNone_iff_eq_none] at hnone
          rw [hnone] at this
          cases this
        · exact Or.inr ⟨h1, h4, h3⟩
    · rw [if_neg hnone] at hrun
      have hsome : (cellAt cells q).isSome := by
        cases hc : neighborAt cells q (InverseDir d) with
        | none => rw [hc] at hnone; simp at hnone
        | some p => exact isSome_of_neighborAt hc
      rw [hinv.size q d hsome] at hrun
      cases hr : initialIds rm q d (List.range pat.T) cells with
      | none => rw [hr] at hrun; cases hrun
      | some r =>
        obtain ⟨b, cells3⟩ := r
        rw [hr] at hrun
        cases b with
        | false => simp at hrun
        | true =>
          simp only [] at hrun
          obtain ⟨hinv3, hframe3⟩ := initialIds_inv hrm q d _ cells D cells3 hinv hun hr
          obtain ⟨hinv4, hframe4⟩ := ih cells3 _ cells2 hinv3 (hw.frame hframe3)
            (by rw [hframe3.observed]; exact hun) hrun
          refine ⟨hinv4.congr (fun _ _ _ => rfl) ?_, hframe3.trans hframe4⟩
          rintro q2 d2 t (h | ⟨h1, h2, h3⟩)
          · exact Or.inl (Or.inl h)
          · rcases List.mem_cons.1 h2 with h4 | h4
            · exact Or.inl (Or.inr ⟨h1, h4, List.mem_range.2 h3.2.2⟩)
            · exact Or.inr ⟨h1, h4, h3⟩

/-- After the initial propagation loops, the same holds for every visited
cell. -/
theorem initialAll_inv (A : Arith F) (hids : ∀ j d t, t ∈ pat.edgesAt j d → t < pat.T)
    (fuel n m : Nat) :
    ∀ (ps : List (Nat × Nat)) (cells : Grid F) (D : Nat × Nat → Dir → Nat → Prop)
      (cells2 : Grid F),
      (∀ p ∈ ps, InGrid n m p) →
      Inv pat cells (fun _ _ _ => 0) D →
      Wired cells n m →
      (∀ q, observedAt cells q = false) →
      initialAll A pat fuel ps cells = some (true, cells2) →
      Inv pat cells2 (fun _ _ _ => 0)
        (fun q2 d2 t => D q2 d2 t ∨ (q2 ∈ ps ∧ Dmain pat n m q2 d2 t)) ∧
        Frame cells cells2 := by
  intro ps
  induction ps with
  | nil =>
    intro cells D cells2 _ hinv _ _ hrun
    simp only [initialAll, Option.some.injEq, Prod.mk.injEq, true_and] at hrun
    subst hrun
    refine ⟨hinv.congr (fun _ _ _ => rfl) ?_, Frame.refl _⟩
    rintro q2 d2 t (h | ⟨h, -⟩)
    · exact h
    · cases h
  | cons p rest ih =>
    intro cells D cells2 hin hinv hw hun hrun
    unfold initialAll at hrun
    cases hr : PropagateInitial A pat fuel cells p with
    | none => rw [hr] at hrun; cases hrun
    | some r =>
      obtain ⟨b, cells3⟩ := r
      rw [hr] at hrun
      cases b with
      | false => simp at hrun
      | true =>
        simp only [] at hrun
        unfold PropagateInitial at hr
        obtain ⟨hinv3, hframe3⟩ := initialDirs_inv
          (fun D => RemoveFromState_spec A hids fuel) n m p (hin p (List.mem_cons_self _ _))
          allDirs cells D cells3 hinv hw (hun p) hr
        obtain ⟨hinv4, hframe4⟩ := ih cells3 _ cells2
          (fun p2 hp2 => hin p2 (List.mem_cons_of_mem _ hp2)) hinv3 (hw.frame hframe3)
          (fun q => by rw [hframe3.observed]; exact hun q) hrun
        refine ⟨hinv4.congr (fun _ _ _ => rfl) ?_, hframe3.trans hframe4⟩
        rintro q2 d2 t (h | ⟨h1, h2⟩)
        · exact Or.inl (Or.inl h)
        · rcases List.mem_cons.1 h1 with h4 | h4
          · exact Or.inl (Or.inr ⟨h4, by cases d2 <;> simp [allDirs], h2⟩)
          · exact Or.inr ⟨h4, h2⟩

theorem mem_positions (n m : Nat) (p : Nat × Nat) : p ∈ positions n m ↔ InGrid n m p := by
  obtain ⟨i, j⟩ := p
  unfold positions InGrid
  simp only [List.mem_flatMap, List.mem_range, List.mem_map, Prod.mk.injEq]
  constructor
  · rintro ⟨i2, hi, j2, hj, rfl, rfl⟩
    exact ⟨hi, hj⟩
  · rintro ⟨hi, hj⟩
    exact ⟨i, hi, j, hj, rfl, rfl⟩

/-- The grid after a successful initial propagation. -/
theorem initial_phase (A : Arith F) (hs : pat.Symmetric) (hd : pat.DupFree)
    (fuel n m : Nat) (hn : n < 2 ^ 64) (hm : m < 2 ^ 64) (cells2 : Grid F)
    (hrun : initialAll A pat fuel (positions n m)
      (wire n m (List.replicate n (List.replicate m (Cell.new A pat)))) = some (true, cells2)) :
    Inv pat cells2 (fun _ _ _ => 0) (Dmain pat n m) ∧ Wired cells2 n m ∧
      GridRect cells2 n m ∧ (∀ q, observedAt cells2 q = false) := by
  obtain ⟨hinv, hframe⟩ := initialAll_inv A hs.ids_lt fuel n m (positions n m) _ _ cells2
    (fun p hp => (mem_positions n m p).1 hp) (Inv_wire A pat n m hs hd hn hm)
    (Wired_wire A pat n m) (fun q => (wire_reads A pat n m q).2.1) hrun
  refine ⟨hinv.congr (fun _ _ _ => rfl) ?_, (Wired_wire A pat n m).frame hframe,
    hframe.rect n m (GridRect_wire n m (GridRect_replicate n m _)), ?_⟩
  · intro q d t h
    exact Or.inr ⟨(mem_positions n m q).2 h.1, h⟩
  · intro q
    rw [hframe.observed]
    exact (wire_reads A pat n m q).2.1

end initialPropagation

end Wfc

namespace Wfc

/-! ## The first part of `Cell::Observe` -/

theorem eliminateLoop_spec (id : Nat) :
    ∀ (l : List Nat) (el : List Nat) (poss : List Bool), l.Nodup →
      (eliminateLoop id l (el, poss)).1
          = el ++ l.filter (fun i => poss.getD i false && (i != id)) ∧
      ∀ t, (eliminateLoop id l (el, poss)).2.getD t false
          = if t ∈ l ∧ t ≠ id then false else poss.getD t false := by
  intro l
  induction l with
  | nil =>
    intro el poss _
    simp [eliminateLoop]
  | cons i rest ih =>
    intro el poss hnd
    have hi : i ∉ rest := (List.nodup_cons.1 hnd).1
    have hnd2 : rest.Nodup := (List.nodup_cons.1 hnd).2
    unfold eliminateLoop
    by_cases htest : (poss.getD i false && (i != id)) = true
    · rw [if_pos htest]
      obtain ⟨h1, h2⟩ := ih (el ++ [i]) (poss.set i false) hnd2
      have hfilter : rest.filter (fun j => (poss.set i false).getD j false && (j != id))
          = rest.filter (fun j => poss.getD j false && (j != id)) := by
        apply List.filter_congr
        intro j hj
        rw [getD_set_eq, if_neg]
        rintro ⟨rfl, -⟩
        exact hi hj
      constructor
      · rw [h1, hfilter, List.filter_cons, if_pos htest]
        simp
      · intro t
        rw [h2 t, getD_set_eq]
        simp only [Bool.and_eq_true, bne_iff_ne, ne_eq] at htest
        by_cases ht : t = i
        · subst ht
          have hlt : t < poss.length := by
            by_contra hc
            rw [List.getD_eq_getElem?_getD, List.getElem?_eq_none (by omega)] at htest
            exact absurd htest.1 (by simp)
          rw [if_neg (fun h => hi h.1), if_pos ⟨rfl, hlt⟩,
            if_pos ⟨List.mem_cons_self _ _, htest.2⟩]
        · have ht2 : ¬ (i = t ∧ i < poss.length) := fun h => ht h.1.symm
          rw [if_neg ht2]
          simp only [List.mem_cons, ht, false_or]
    · rw [if_neg htest]
      obtain ⟨h1, h2⟩ := ih el poss hnd2
      constructor
      · rw [h1, List.filter_cons, if_neg htest]
      · intro t
        rw [h2 t]
        by_cases ht : t = i
        · subst ht
          simp only [List.mem_cons, true_or, true_and]
          simp only [Bool.and_eq_true, bne_iff_ne, ne_eq, not_and, not_not] at htest
          by_cases h3 : t = id
          · simp [h3]
          · have : poss.getD t false = false := by
              cases hp : poss.getD t false with
              | false => rfl
              | true => exact absurd (htest hp) h3
            rw [this]
            simp
        · simp only [List.mem_cons, ht, false_or]

section observe

variable {F : Type} (A : Arith F) (pat : Pattern F) (cells : Grid F) (p : Nat × Nat)
  (c : Cell F) (id : Nat)

theorem observeCell_eliminated :
    (observeCell A pat c id).1
      = (List.range c.possible_.length).filter (fun i => c.possible_.getD i false && (i != id)) := by
  unfold observeCell
  simp only []
  rw [(eliminateLoop_spec id _ [] c.possible_ (List.nodup_range _)).1]
  rfl

theorem observeCell_possible (t : Nat) :
    (observeCell A pat c id).2.possible_.getD t false
      = (c.possible_.getD t false && decide (t = id)) := by
  unfold observeCell
  simp only []
  rw [(eliminateLoop_spec id _ [] c.possible_ (List.nodup_range _)).2 t]
  by_cases ht : t = id
  · simp [ht]
  · by_cases hlt : t < c.possible_.length
    · simp [ht, hlt]
    · simp only [List.mem_range, hlt, false_and, if_false]
      rw [List.getD_eq_getElem?_getD, List.getElem?_eq_none (by omega)]
      rfl

variable (hc : cellAt cells p = some c)
include hc

theorem possibleAt_observe (q : Nat × Nat) (t : Nat) :
    possibleAt (modifyCell cells p (fun _ => (observeCell A pat c id).2)) q t
      = if q = p then (possibleAt cells p t && decide (t = id)) else possibleAt cells q t := by
  unfold possibleAt
  rw [cellAt_modifyCell]
  by_cases h : q = p
  · subst h
    rw [if_pos rfl, if_pos rfl, hc]
    simp only [Option.map_some']
    exact observeCell_possible A pat c id t
  · rw [if_neg h, if_neg h]

theorem observedAt_observe (q : Nat × Nat) :
    observedAt (modifyCell cells p (fun _ => (observeCell A pat c id).2)) q
      = if q = p then true else observedAt cells q := by
  unfold observedAt
  rw [cellAt_modifyCell]
  by_cases h : q = p
  · subst h
    rw [if_pos rfl, if_pos rfl, hc]
    rfl
  · rw [if_neg h, if_neg h]

theorem neighborAt_observe (q : Nat × Nat) (d : Dir) :
    neighborAt (modifyCell cells p (fun _ => (observeCell A pat c id).2)) q d
      = neighborAt cells q d := by
  unfold neighborAt
  rw [cellAt_modifyCell]
  by_cases h : q = p
  · subst h
    rw [if_pos rfl, hc]
    rfl
  · rw [if_neg h]

theorem nCompatAt_observe (q : Nat × Nat) (d : Dir) (t : Nat) :
    nCompatAt (modifyCell cells p (fun _ => (observeCell A pat c id).2)) q d t
      = if q = p then 0 else nCompatAt cells q d t := by
  unfold nCompatAt
  rw [cellAt_modifyCell]
  by_cases h : q = p
  · subst h
    rw [if_pos rfl, if_pos rfl, hc]
    simp only [Option.map_some', observeCell]
    rw [List.getD_eq_getElem?_getD, List.getElem?_map]
    cases (c.n_compatible_ d)[t]? <;> rfl
  · rw [if_neg h, if_neg h]

theorem nCompatSize_observe (q : Nat × Nat) (d : Dir) :
    nCompatSize (modifyCell cells p (fun _ => (observeCell A pat c id).2)) q d
      = nCompatSize cells q d := by
  unfold nCompatSize
  rw [cellAt_modifyCell]
  by_cases h : q = p
  · subst h
    rw [if_pos rfl, hc]
    simp [observeCell]
  · rw [if_neg h]

theorem eliminated_eq :
    (observeCell A pat c id).1
      = (List.range c.possible_.length).filter (fun i => possibleAt cells p i && (i != id)) := by
  rw [observeCell_eliminated]
  apply List.filter_congr
  intro i _
  unfold possibleAt
  rw [hc]

end observe

/-! ## Sums over the eliminated tiles -/

theorem sum_map_filter_range (N : Nat) (c : Nat → Bool) (f : Nat → Nat) :
    (((List.range N).filter c).map f).sum
      = ((List.range N).map (fun j => if c j then f j else 0)).sum := by
  induction N with
  | zero => simp
  | succ N ih =>
    rw [List.range_succ, List.filter_append, List.map_append, List.map_append, List.sum_append,
      List.sum_append, ih]
    congr 1
    by_cases h : c N = true
    · simp [h]
    · simp [h]

theorem sum_range_extend (N k : Nat) (c : Nat → Bool) (f : Nat → Nat)
    (h : ∀ j, c j = true → j < N) :
    ((List.range (N + k)).map (fun j => if c j then f j else 0)).sum
      = ((List.range N).map (fun j => if c j then f j else 0)).sum := by
  induction k with
  | zero => rfl
  | succ k ih =>
    rw [← Nat.add_assoc, List.range_succ, List.map_append, List.sum_append, ih]
    have : c (N + k) = false := by
      cases hc : c (N + k) with
      | false => rfl
      | true => have := h _ hc; omega
    simp [this]

theorem sum_range_indep (N1 N2 : Nat) (c : Nat → Bool) (f : Nat → Nat)
    (h1 : ∀ j, c j = true → j < N1) (h2 : ∀ j, c j = true → j < N2) :
    ((List.range N1).map (fun j => if c j then f j else 0)).sum
      = ((List.range N2).map (fun j => if c j then f j else 0)).sum := by
  rcases Nat.le_total N1 N2 with h | h
  · obtain ⟨k, rfl⟩ := Nat.exists_eq_add_of_le h
    exact (sum_range_extend N1 k c f h1).symm
  · obtain ⟨k, rfl⟩ := Nat.exists_eq_add_of_le h
    exact sum_range_extend N2 k c f h2

theorem sum_map_pendDirs {F : Type} (pat : Pattern F) (cells : Grid F) (p : Nat × Nat)
    (l : List Nat) (q : Nat × Nat) (d : Dir) (t : Nat) :
    (l.map (fun j => pendDirs pat cells p j allDirs q d t)).sum
      = if neighborAt cells p d = some q then (l.map (fun j => (pat.edgesAt j d).count t)).sum
        else 0 := by
  have hmem : d ∈ allDirs := by cases d <;> simp [allDirs]
  unfold pendDirs
  by_cases h : neighborAt cells p d = some q
  · simp [h, hmem]
  · simp [h]

end Wfc

namespace Wfc

/-! ## The invariant through `Cell::Observe` -/

section observeInv

variable {F : Type} {pat : Pattern F} {D : Nat × Nat → Dir → Nat → Prop}

theorem pendDirs_congr (cells cells2 : Grid F) (p : Nat × Nat) (j : Nat) (dirs : List Dir)
    (h : ∀ d, neighborAt cells2 p d = neighborAt cells p d) (q : Nat × Nat) (d : Dir) (t : Nat) :
    pendDirs pat cells2 p j dirs q d t = pendDirs pat cells p j dirs q d t := by
  unfold pendDirs
  rw [h d]

theorem possibleAt_lt_length {cells : Grid F} {p : Nat × Nat} {c : Cell F}
    (hc : cellAt cells p = some c) {j : Nat} (h : possibleAt cells p j = true) :
    j < c.possible_.length := by
  unfold possibleAt at h
  rw [hc] at h
  by_contra hlt
  have h2 : c.possible_.getD j false = true := h
  rw [List.getD_eq_getElem?_getD, List.getElem?_eq_none (by omega)] at h2
  cases h2

/-- The support of a cell splits into the tile that is kept and the tiles
that `Observe` eliminates. -/
theorem suppCount_split (A : Arith F) (cells : Grid F) (p : Nat × Nat) (c : Cell F) (id : Nat)
    (hc : cellAt cells p = some c) (hplen : ∀ t, possibleAt cells p t = true → t < pat.T)
    (d : Dir) (t : Nat) :
    suppCount pat cells p d t
      = suppCount pat (modifyCell cells p (fun _ => (observeCell A pat c id).2)) p d t
        + ((observeCell A pat c id).1.map (fun j => (pat.edgesAt j d).count t)).sum := by
  rw [eliminated_eq A pat cells p c id hc, sum_map_filter_range,
    sum_range_indep c.possible_.length pat.T
      (fun i => possibleAt cells p i && (i != id)) _
      (fun j hj => by
        simp only [Bool.and_eq_true] at hj
        exact possibleAt_lt_length hc hj.1)
      (fun j hj => by
        simp only [Bool.and_eq_true] at hj
        exact hplen j hj.1)]
  unfold suppCount
  rw [← sum_map_range_add]
  apply sum_map_range_congr
  intro j _
  rw [possibleAt_observe A pat cells p c id hc, if_pos rfl]
  by_cases hj : j = id
  · subst hj
    cases possibleAt cells p j <;> simp
  · cases possibleAt cells p j <;> simp [hj]

/-- The invariant right after the first part of `Observe`: the neighbours
are owed the decrements of every eliminated tile. -/
theorem Inv_observe (A : Arith F) {cells : Grid F} (hinv : Inv pat cells (fun _ _ _ => 0) D)
    (p : Nat × Nat) (c : Cell F) (id : Nat) (hc : cellAt cells p = some c) :
    Inv pat (modifyCell cells p (fun _ => (observeCell A pat c id).2))
      (fun q d t => ((observeCell A pat c id).1.map
        (fun j => pendDirs pat cells p j allDirs q d t)).sum) D where
  exact := fun p2 q d t h1 h2 h3 => by
    rw [neighborAt_observe A pat cells p c id hc] at h1
    rw [observedAt_observe A pat cells p c id hc] at h2
    have hqp : q ≠ p := by
      rintro rfl
      rw [if_pos rfl] at h2
      cases h2
    rw [if_neg hqp] at h2
    rw [nCompatAt_observe A pat cells p c id hc, if_neg hqp, hinv.exact p2 q d t h1 h2 h3,
      sum_map_pendDirs]
    by_cases hp : p2 = p
    · subst hp
      rw [if_pos h1, suppCount_split A cells p2 c id hc (hinv.plen p2) d t]
      push_cast
      ring
    · have hne : ¬ neighborAt cells p d = some q := by
        intro h4
        have e1 := hinv.geo p2 q d h1
        have e2 := hinv.geo p q d h4
        rw [e1] at e2
        exact hp (Option.some.inj e2)
      rw [if_neg hne, suppCount_congr pat cells
        (modifyCell cells p (fun _ => (observeCell A pat c id).2)) p2 d t (fun j => by
          rw [possibleAt_observe A pat cells p c id hc, if_neg hp])]
  pos := fun q d t h1 h2 h3 => by
    rw [observedAt_observe A pat cells p c id hc] at h2
    have hqp : q ≠ p := by
      rintro rfl
      rw [if_pos rfl] at h2
      cases h2
    rw [if_neg hqp] at h2
    rw [possibleAt_observe A pat cells p c id hc, if_neg hqp] at h3
    rw [nCompatAt_observe A pat cells p c id hc, if_neg hqp]
    exact hinv.pos q d t h1 h2 h3
  obs := fun q d t h1 => by
    rw [nCompatAt_observe A pat cells p c id hc]
    rw [observedAt_observe A pat cells p c id hc] at h1
    by_cases hqp : q = p
    · rw [if_pos hqp]
    · rw [if_neg hqp] at h1 ⊢
      exact hinv.obs q d t h1
  size := fun q d h1 => by
    rw [isSome_modifyCell] at h1
    rw [nCompatSize_observe A pat cells p c id hc]
    exact hinv.size q d h1
  geo := fun p2 q d h1 => by
    rw [neighborAt_observe A pat cells p c id hc] at h1 ⊢
    exact hinv.geo p2 q d h1
  plen := fun q t h1 => by
    rw [possibleAt_observe A pat cells p c id hc] at h1
    by_cases hqp : q = p
    · rw [if_pos hqp] at h1
      simp only [Bool.and_eq_true] at h1
      exact hinv.plen p t h1.1
    · rw [if_neg hqp] at h1
      exact hinv.plen q t h1

/-- A successful run of the last loop of `Observe` pays what is owed for the
rest of `eliminated`. -/
theorem observeLoop_inv {rm : Grid F → Nat × Nat → Nat → Option (Bool × Grid F)}
    (hrm : RmSpec pat D rm) (hids : ∀ j d t, t ∈ pat.edgesAt j d → t < pat.T)
    (p : Nat × Nat) :
    ∀ (rest : List Nat) (cells : Grid F) (E0 : Nat × Nat → Dir → Nat → Nat) (cells2 : Grid F),
      (∀ q d t, E0 q d t = (rest.map (fun j => pendDirs pat cells p j allDirs q d t)).sum) →
      Inv pat cells E0 D →
      observeLoop pat rm p rest cells = some (true, cells2) →
      Inv pat cells2 (fun _ _ _ => 0) D ∧ Frame cells cells2 := by
  intro rest
  induction rest with
  | nil =>
    intro cells E0 cells2 hE hinv hrun
    simp only [observeLoop, Option.some.injEq, Prod.mk.injEq, true_and] at hrun
    subst hrun
    exact ⟨hinv.congr (fun q d t => by rw [hE]; rfl) (fun _ _ _ h => h), Frame.refl _⟩
  | cons j rest ih =>
    intro cells E0 cells2 hE hinv hrun
    unfold observeLoop at hrun
    cases hr : PropagateToNeighbors pat rm cells p j with
    | none => rw [hr] at hrun; cases hrun
    | some r =>
      obtain ⟨b, cells3⟩ := r
      rw [hr] at hrun
      cases b with
      | false => simp at hrun
      | true =>
        simp only [] at hrun
        unfold PropagateToNeighbors at hr
        obtain ⟨hinv3, hframe3⟩ := propagateDirs_inv hrm hids p j allDirs cells E0
          (fun q d t => (rest.map (fun j => pendDirs pat cells p j allDirs q d t)).sum) cells3
          (by decide)
          (by
            intro q d t
            rw [hE, List.map_cons, List.sum_cons]
            simp only []
            omega)
          hinv hr
        obtain ⟨hinv4, hframe4⟩ := ih cells3 _ cells2
          (by
            intro q d t
            show (rest.map (fun j => pendDirs pat cells p j allDirs q d t)).sum
              = (rest.map (fun j => pendDirs pat cells3 p j allDirs q d t)).sum
            congr 1
            apply List.map_congr_left
            intro j2 _
            exact (pendDirs_congr cells cells3 p j2 allDirs
              (fun d2 => hframe3.neighbors p d2) q d t).symm)
          hinv3 hrun
        exact ⟨hinv4, hframe3.trans hframe4⟩

/-- A successful `Observe(id)` of an unobserved cell in which `id` is
possible: the invariant holds again with nothing owed, the observed cell
holds exactly `id`, and every tile left next to an observed cell is
compatible with it. -/
theorem Observe_step (A : Arith F) (hs : pat.Symmetric) (fuel : Nat) {cells : Grid F}
    (hinv : Inv pat cells (fun _ _ _ => 0) D) (hlink : Linked pat cells)
    (p : Nat × Nat) (id : Nat) (hin : (cellAt cells p).isSome)
    (hun : observedAt cells p = false) (hposs : possibleAt cells p id = true)
    (hself : ∀ q d, neighborAt cells p d = some q → q ≠ p)
    (hD : ∀ q d k, neighborAt cells p d = some q → k < pat.T → D q d k)
    (cells2 : Grid F) (hrun : Cell.Observe A pat fuel cells p id = some (true, cells2)) :
    Inv pat cells2 (fun _ _ _ => 0) D ∧ Linked pat cells2 ∧
    (∀ q, observedAt cells2 q = if q = p then true else observedAt cells q) ∧
    (∀ q d, neighborAt cells2 q d = neighborAt cells q d) ∧
    (∀ n m, GridRect cells n m → GridRect cells2 n m) ∧
    possibleAt cells2 p id = true ∧
    (∀ q t, observedAt cells q = true → possibleAt cells2 q t = possibleAt cells q t) := by
  obtain ⟨c, hc⟩ := Option.isSome_iff_exists.1 hin
  unfold Cell.Observe at hrun
  rw [hc] at hrun
  obtain ⟨hinv2, hframe⟩ := observeLoop_inv (RemoveFromState_spec A hs.ids_lt fuel) hs.ids_lt p
    (observeCell A pat c id).1 _ _ cells2
    (by
      intro q d t
      congr 1
      apply List.map_congr_left
      intro j _
      exact (pendDirs_congr cells _ p j allDirs
        (fun d2 => neighborAt_observe A pat cells p c id hc p d2) q d t).symm)
    (Inv_observe A hinv p c id hc) hrun
  have hobs : ∀ q, observedAt cells2 q = if q = p then true else observedAt cells q := by
    intro q
    rw [hframe.observed, observedAt_observe A pat cells p c id hc]
  have hnbr : ∀ q d, neighborAt cells2 q d = neighborAt cells q d := by
    intro q d
    rw [hframe.neighbors, neighborAt_observe A pat cells p c id hc]
  have hp2 : ∀ t, possibleAt cells2 p t = (possibleAt cells p t && decide (t = id)) := by
    intro t
    rw [hframe.keep p t (by rw [observedAt_observe A pat cells p c id hc, if_pos rfl]),
      possibleAt_observe A pat cells p c id hc, if_pos rfl]
  have hmono : ∀ q t, possibleAt cells2 q t = true → possibleAt cells q t = true := by
    intro q t h
    have h1 := hframe.mono q t h
    rw [possibleAt_observe A pat cells p c id hc] at h1
    by_cases hqp : q = p
    · subst hqp
      rw [if_pos rfl] at h1
      simp only [Bool.and_eq_true] at h1
      exact h1.1
    · rw [if_neg hqp] at h1
      exact h1
  refine ⟨hinv2, ?_, hobs, hnbr, ?_, ?_, ?_⟩
  · intro p2 q d i k h1 h2 h3 h4
    rw [hnbr] at h1
    rw [hobs] at h2
    by_cases hpp : p2 = p
    · subst hpp
      rw [hp2] at h3
      simp only [Bool.and_eq_true, decide_eq_true_eq] at h3
      obtain ⟨h3a, rfl⟩ := h3
      have hqp : q ≠ p2 := hself q d h1
      cases hoq : observedAt cells q with
      | true =>
        have e1 := hinv.geo p2 q d h1
        have := hlink q p2 (InverseDir d) k i e1 hoq (hmono q k h4) h3a
        exact (hs i k d).2 this
      | false =>
        have hoq2 : observedAt cells2 q = false := by rw [hobs, if_neg hqp]; exact hoq
        have hk : k < pat.T := hinv2.plen q k h4
        have hpos := hinv2.pos q d k (hD q d k h1 hk) hoq2 h4
        have hex := hinv2.exact p2 q d k (by rw [hnbr]; exact h1) hoq2 hk
        by_contra hnot
        have hzero : suppCount pat cells2 p2 d k = 0 := by
          unfold suppCount
          apply List.sum_eq_zero
          intro x hx
          rw [List.mem_map] at hx
          obtain ⟨j, -, rfl⟩ := hx
          rw [hp2]
          by_cases hj : j = i
          · subst hj
            rw [List.count_eq_zero.2 hnot]
            simp
          · simp [hj]
        rw [hzero] at hex
        simp only [Nat.cast_zero, add_zero] at hex
        omega
    · rw [if_neg hpp] at h2
      exact hlink p2 q d i k h1 h2 (hmono p2 i h3) (hmono q k h4)
  · intro n m h
    exact hframe.rect n m (GridRect_modifyCell h _ _)
  · rw [hp2, hposs]
    simp
  · intro q t hq
    have hqp : q ≠ p := by
      rintro rfl
      rw [hun] at hq
      cases hq
    rw [hframe.keep q t (by
      rw [observedAt_observe A pat cells p c id hc, if_neg hqp]; exact hq),
      possibleAt_observe A pat cells p c id hc, if_neg hqp]

end observeInv

end Wfc

namespace Wfc

/-! ## Selection and sampling -/

section select

variable {F : Type} (A : Arith F) (gen : Nat → F) (cells : Grid F)

theorem selectStep_argmin (st : Selection F) (q p : Nat × Nat)
    (h : (selectStep A gen cells st q).argmin = some p) :
    st.argmin = some p ∨ (p = q ∧ ∃ c, cellAt cells p = some c ∧ c.observed_ = false) := by
  unfold selectStep at h
  cases hc : cellAt cells q with
  | none => rw [hc] at h; exact Or.inl h
  | some c =>
    rw [hc] at h
    simp only [] at h
    split at h
    · rename_i htest
      simp only [Option.some.injEq] at h
      subst h
      simp only [Bool.and_eq_true, Bool.not_eq_true'] at htest
      exact Or.inr ⟨rfl, c, hc, htest.1⟩
    · exact Or.inl h

theorem foldl_selectStep_argmin (l : List (Nat × Nat)) (st : Selection F) (p : Nat × Nat)
    (h : (l.foldl (selectStep A gen cells) st).argmin = some p) :
    st.argmin = some p ∨ (p ∈ l ∧ ∃ c, cellAt cells p = some c ∧ c.observed_ = false) := by
  induction l generalizing st with
  | nil => exact Or.inl h
  | cons q rest ih =>
    rcases ih (selectStep A gen cells st q) h with h1 | ⟨h1, h2⟩
    · rcases selectStep_argmin A gen cells st q p h1 with h3 | ⟨rfl, h3⟩
      · exact Or.inl h3
      · exact Or.inr ⟨List.mem_cons_self _ _, h3⟩
    · exact Or.inr ⟨List.mem_cons_of_mem _ h1, h2⟩

/-- The selection scan only ever selects an unobserved cell of the grid. -/
theorem selectCell_argmin (n m rpos : Nat) (p : Nat × Nat)
    (h : (selectCell A gen cells n m rpos).argmin = some p) :
    InGrid n m p ∧ ∃ c, cellAt cells p = some c ∧ c.observed_ = false := by
  unfold selectCell at h
  rcases foldl_selectStep_argmin A gen cells _ _ p h with h1 | ⟨h1, h2⟩
  · cases h1
  · exact ⟨(mem_positions n m p).1 h1, h2⟩

theorem randomScan_result (pat : Pattern F) (possible : List Bool) :
    ∀ (l : List Nat) (poss_idx : Nat) (rnd : F),
      randomScan A pat possible l poss_idx rnd = poss_idx ∨
      possible.getD (randomScan A pat possible l poss_idx rnd) false = true := by
  intro l
  induction l with
  | nil => intro poss_idx rnd; exact Or.inl rfl
  | cons i rest ih =>
    intro poss_idx rnd
    unfold randomScan
    split
    · split
      · rename_i hposs
        rcases ih i (A.sub rnd (pat.probs.getD i A.zero)) with h | h
        · rw [h]; exact Or.inr hposs
        · exact Or.inr h
      · exact ih poss_idx rnd
    · exact Or.inl rfl

/-- The tile that `RandomState` returns is possible in the cell. -/
theorem RandomState_possible (pat : Pattern F) (c : Cell F) (rnd : F) (s : Nat)
    (h : RandomState A pat c rnd = some s) : c.possible_.getD s false = true := by
  unfold RandomState at h
  split at h
  · cases h
  · split at h
    · cases h
    · rename_i hne
      simp only [Option.some.injEq] at h
      subst h
      unfold randomIdx at hne ⊢
      rcases randomScan_result A pat c.possible_ (List.range c.possible_.length) NEG_ONE
        (A.mul rnd c.entropy_.sum_p) with h1 | h1
      · exact absurd h1 hne
      · exact h1

end select

/-! ## Counting the unobserved cells -/

theorem filter_length_flip {β : Type} [DecidableEq β] (l : List β) (hnd : l.Nodup) (p : β)
    (hp : p ∈ l) (f g : β → Bool) (hf : f p = true)
    (hg : ∀ q, g q = if q = p then false else f q) :
    (l.filter g).length + 1 = (l.filter f).length := by
  induction l with
  | nil => cases hp
  | cons x xs ih =>
    have hx : x ∉ xs := (List.nodup_cons.1 hnd).1
    have hnd2 : xs.Nodup := (List.nodup_cons.1 hnd).2
    by_cases hxp : x = p
    · subst hxp
      have hsame : xs.filter g = xs.filter f := by
        apply List.filter_congr
        intro q hq
        rw [hg q, if_neg]
        rintro rfl
        exact hx hq
      rw [List.filter_cons, List.filter_cons, hf, hg x, if_pos rfl, hsame]
      simp
    · have hp2 : p ∈ xs := by
        rcases List.mem_cons.1 hp with h | h
        · exact absurd h.symm hxp
        · exact h
      have := ih hnd2 hp2
      rw [List.filter_cons, List.filter_cons, hg x, if_neg hxp]
      by_cases hfx : f x = true
      · simp only [hfx, if_true, List.length_cons]
        omega
      · simp only [hfx, if_false]
        exact this

theorem nodup_positions (n m : Nat) : (positions n m).Nodup := by
  unfold positions
  rw [List.nodup_flatMap]
  constructor
  · intro i _
    apply List.Nodup.map
    · intro a b h
      simp only [Prod.mk.injEq, true_and] at h
      exact h
    · exact List.nodup_range m
  · apply List.Pairwise.imp_of_mem _ (List.nodup_range n)
    intro a b _ _ hab
    intro x hxa hxb
    simp only [List.mem_map, List.mem_range] at hxa hxb
    obtain ⟨j1, -, rfl⟩ := hxa
    obtain ⟨j2, -, h⟩ := hxb
    simp only [Prod.mk.injEq] at h
    exact hab h.1.symm

theorem length_positions (n m : Nat) : (positions n m).length = n * m := by
  unfold positions
  rw [length_flatMap_const _ m (fun i => by simp)]
  simp [Nat.mul_comm]

end Wfc

namespace Wfc

/-! ## The main loop of `Wfc::Observe` -/

section main

variable {F : Type} (A : Arith F) (pat : Pattern F) (fuel : Nat) (gen : Nat → F) (n m : Nat)

theorem observedAt_eq_field {cells : Grid F} {p : Nat × Nat} {c : Cell F}
    (hc : cellAt cells p = some c) : observedAt cells p = c.observed_ := by
  unfold observedAt; rw [hc]

theorem possibleAt_eq_field {cells : Grid F} {p : Nat × Nat} {c : Cell F}
    (hc : cellAt cells p = some c) (t : Nat) :
    possibleAt cells p t = c.possible_.getD t false := by
  unfold possibleAt; rw [hc]

/-- One successful pass of the main loop keeps its invariant. -/
theorem MainInv_step (hs : pat.Symmetric) (hn : n < 2 ^ 64) (hm : m < 2 ^ 64)
    {cells : Grid F} {res : Wave} {remaining : Nat}
    (h : MainInv pat n m cells res (remaining + 1))
    (p : Nat × Nat) (c : Cell F) (state : Nat) (hp : InGrid n m p)
    (hc : cellAt cells p = some c) (hun : c.observed_ = false)
    (hposs : c.possible_.getD state false = true) (cells2 : Grid F)
    (hrun : Cell.Observe A pat fuel cells p state = some (true, cells2)) :
    MainInv pat n m cells2 (set2 res p.1 p.2 state) remaining := by
  have hnbr : ∀ q d, neighborAt cells p d = some q →
      InGrid n m q ∧ nbrPos n m q (InverseDir d) = some p ∧ q ≠ p := by
    intro q d hq
    rw [h.wired p d] at hq
    have hq2 : nbrPos n m p d = some q := by
      rw [← hq]; exact (if_pos hp).symm
    exact nbrPos_inverse n m hn hm p q d hp hq2
  obtain ⟨hinv2, hlink2, hobs2, hnb2, hrect2, hp2, hkeep2⟩ :=
    Observe_step A hs fuel h.inv h.link p state (by rw [hc]; rfl)
      (by rw [observedAt_eq_field hc]; exact hun)
      (by rw [possibleAt_eq_field hc]; exact hposs)
      (fun q d hq => (hnbr q d hq).2.2)
      (fun q d k hq hk => ⟨(hnbr q d hq).1, by rw [(hnbr q d hq).2.1]; rfl, hk⟩)
      cells2 hrun
  refine ⟨hinv2, hlink2, ?_, hrect2 n m h.rect, rect_set2 h.resRect _ _ _, ?_, ?_⟩
  · intro q d
    rw [hnb2, h.wired q d]
  · intro q hq hoq
    rw [at2_set2]
    by_cases hqp : q = p
    · subst hqp
      rw [if_pos ⟨rfl, rfl, by rw [h.resRect.1]; exact hq.1,
        by rw [rect_row_length h.resRect hq.1]; exact hq.2⟩]
      exact hp2
    · rw [if_neg (fun hc2 => hqp (Prod.ext hc2.1 hc2.2.1))]
      rw [hobs2, if_neg hqp] at hoq
      rw [hkeep2 q _ hoq]
      exact h.resOk q hq hoq
  · have := filter_length_flip (positions n m) (nodup_positions n m) p
      ((mem_positions n m p).2 hp) (fun q => !observedAt cells q)
      (fun q => !observedAt cells2 q)
      (by simp only [observedAt_eq_field hc, hun, Bool.not_false])
      (by
        intro q
        show (!observedAt cells2 q) = if q = p then false else !observedAt cells q
        rw [hobs2]
        by_cases hqp : q = p
        · simp [hqp]
        · simp [hqp])
    rw [h.count] at this
    omega

/-- A wave returned by the main loop is valid. -/
theorem mainLoop_valid (hs : pat.Symmetric) (hn : n < 2 ^ 64) (hm : m < 2 ^ 64) :
    ∀ (remaining : Nat) (cells : Grid F) (res : Wave) (rpos : Nat) (w : Wave),
      MainInv pat n m cells res remaining →
      mainLoop A pat fuel gen n m remaining cells res rpos = Outcome.wave w →
      Rect w n m ∧ WaveValid pat w n m := by
  intro remaining
  induction remaining with
  | zero =>
    intro cells res rpos w h hrun
    simp only [mainLoop, Outcome.wave.injEq] at hrun
    subst hrun
    refine ⟨h.resRect, ?_⟩
    have hall : ∀ q, InGrid n m q → observedAt cells q = true := by
      intro q hq
      have h0 := h.count
      rw [List.length_eq_zero, List.filter_eq_nil_iff] at h0
      have := h0 q ((mem_positions n m q).2 hq)
      simpa using this
    intro i j i2 j2 dir hi hj hi2 hj2 e1 e2
    have hnb : neighborAt cells (i, j) dir = some (i2, j2) := by
      rw [h.wired (i, j) dir, if_pos ⟨hi, hj⟩]
      exact (nbrPos_eq_some_iff n m hn hm (i, j) (i2, j2) dir hi hj).2 ⟨e1, e2, hi2, hj2⟩
    exact h.link (i, j) (i2, j2) dir _ _ hnb (hall _ ⟨hi, hj⟩)
      (h.resOk (i, j) ⟨hi, hj⟩ (hall _ ⟨hi, hj⟩))
      (h.resOk (i2, j2) ⟨hi2, hj2⟩ (hall _ ⟨hi2, hj2⟩))
  | succ remaining ih =>
    intro cells res rpos w h hrun
    unfold mainLoop at hrun
    simp only [] at hrun
    cases hsel : (selectCell A gen cells n m rpos).argmin with
    | none => rw [hsel] at hrun; cases hrun
    | some p =>
      rw [hsel] at hrun
      simp only [] at hrun
      obtain ⟨hp, c, hc, hun⟩ := selectCell_argmin A gen cells n m rpos p hsel
      rw [hc] at hrun
      simp only [] at hrun
      cases hrs : RandomState A pat c (gen (selectCell A gen cells n m rpos).rpos) with
      | none => rw [hrs] at hrun; cases hrun
      | some state =>
        rw [hrs] at hrun
        simp only [] at hrun
        cases hob : Cell.Observe A pat fuel cells p state with
        | none => rw [hob] at hrun; cases hrun
        | some r =>
          obtain ⟨b, cells2⟩ := r
          rw [hob] at hrun
          cases b with
          | false => cases hrun
          | true =>
            simp only [] at hrun
            exact ih cells2 _ _ w
              (MainInv_step A pat fuel n m hs hn hm h p c state hp hc hun
                (RandomState_possible A pat c _ state hrs) cells2 hob)
              hrun

/-- A wave returned by `Collapse` is valid. -/
theorem Collapse_wave (hs : pat.Symmetric) (hd : pat.DupFree) (hn : n < 2 ^ 64)
    (hm : m < 2 ^ 64) (w : Wave) (hrun : Collapse A pat fuel gen n m = Outcome.wave w) :
    Rect w n m ∧ WaveValid pat w n m := by
  unfold Collapse Wfc_Observe at hrun
  split at hrun
  · cases hrun
  · simp only [] at hrun
    cases hinit : initialAll A pat fuel (positions n m)
        (wire n m (List.replicate n (List.replicate m (Cell.new A pat)))) with
    | none => rw [hinit] at hrun; cases hrun
    | some r =>
      obtain ⟨b, cells2⟩ := r
      rw [hinit] at hrun
      cases b with
      | false => cases hrun
      | true =>
        simp only [] at hrun
        obtain ⟨hinv, hw, hrect, hun⟩ := initial_phase A hs hd fuel n m hn hm cells2 hinit
        refine mainLoop_valid A pat fuel gen n m hs hn hm (n * m) cells2 _ 0 w ?_ hrun
        refine ⟨hinv, ?_, hw, hrect, rect_replicate n m 0, ?_, ?_⟩
        · intro p q d i k _ h2
          rw [hun p] at h2
          cases h2
        · intro q _ h2
          rw [hun q] at h2
          cases h2
        · rw [List.filter_eq_self.2 (fun q _ => by simp [hun q]), length_positions]

end main

end Wfc

namespace Wfc

/-! ## Runs in which nothing is ever eliminated -/

section quiet

variable {F : Type} (A : Arith F) (pat : Pattern F)

theorem initialIds_quiet (rm : Grid F → Nat × Nat → Nat → Option (Bool × Grid F))
    (cells : Grid F) (p : Nat × Nat) (d : Dir) :
    ∀ ids : List Nat, (∀ id ∈ ids, 0 < nCompatAt cells p d id) →
      initialIds rm p d ids cells = some (true, cells) := by
  intro ids
  induction ids with
  | nil => intro _; rfl
  | cons id rest ih =>
    intro h
    unfold initialIds
    have h1 := h id (List.mem_cons_self _ _)
    rw [if_neg (by
      simp only [Bool.and_eq_true, decide_eq_true_eq, not_and, not_le]
      intro _; exact h1)]
    exact ih (fun id2 h2 => h id2 (List.mem_cons_of_mem _ h2))

theorem initialDirs_quiet (rm : Grid F → Nat × Nat → Nat → Option (Bool × Grid F))
    (cells : Grid F) (p : Nat × Nat)
    (h : ∀ d id, id < nCompatSize cells p d → 0 < nCompatAt cells p d id) :
    ∀ dirs : List Dir, initialDirs rm p dirs cells = some (true, cells) := by
  intro dirs
  induction dirs with
  | nil => rfl
  | cons d rest ih =>
    unfold initialDirs
    split
    · exact ih
    · rw [initialIds_quiet rm cells p d _ (fun id hid => h d id (List.mem_range.1 hid))]
      exact ih

/-- Initial propagation changes nothing when every counter is positive. -/
theorem initialAll_quiet (fuel : Nat) (cells : Grid F)
    (h : ∀ p d id, id < nCompatSize cells p d → 0 < nCompatAt cells p d id) :
    ∀ ps : List (Nat × Nat), initialAll A pat fuel ps cells = some (true, cells) := by
  intro ps
  induction ps with
  | nil => rfl
  | cons p rest ih =>
    unfold initialAll PropagateInitial
    rw [initialDirs_quiet _ cells p (h p) allDirs]
    exact ih

end quiet

/-! ## The selection scan finds a cell -/

section selectSome

variable {F : Type} (A : Arith F) (gen : Nat → F) (cells : Grid F)

theorem selectStep_keeps (st : Selection F) (q : Nat × Nat) (h : st.argmin ≠ none) :
    (selectStep A gen cells st q).argmin ≠ none := by
  unfold selectStep
  cases cellAt cells q with
  | none => exact h
  | some c =>
    simp only []
    split
    · simp
    · exact h

theorem foldl_selectStep_keeps (l : List (Nat × Nat)) (st : Selection F)
    (h : st.argmin ≠ none) : (l.foldl (selectStep A gen cells) st).argmin ≠ none := by
  induction l generalizing st with
  | nil => exact h
  | cons q rest ih => exact ih _ (selectStep_keeps A gen cells st q h)

theorem foldl_selectStep_some (l : List (Nat × Nat)) (st : Selection F)
    (hst : st.min_entropy = A.dblMax)
    (h : ∃ q ∈ l, ∃ c, cellAt cells q = some c ∧ c.observed_ = false ∧
      A.le c.entropy_.val A.dblMax = true) :
    (l.foldl (selectStep A gen cells) st).argmin ≠ none := by
  induction l generalizing st with
  | nil => obtain ⟨q, hq, -⟩ := h; cases hq
  | cons q rest ih =>
    by_cases hch : selectStep A gen cells st q = st
    · obtain ⟨q0, hq0, c, hc, hun, hle⟩ := h
      rcases List.mem_cons.1 hq0 with rfl | hq0
      · exfalso
        unfold selectStep at hch
        rw [hc] at hch
        simp only [hun, Bool.not_false, Bool.true_and, hst, hle, if_true] at hch
        have := congrArg Selection.rpos hch
        simp at this
      · simp only [List.foldl_cons, hch]
        exact ih st hst ⟨q0, hq0, c, hc, hun, hle⟩
    · show (rest.foldl (selectStep A gen cells) (selectStep A gen cells st q)).argmin ≠ none
      apply foldl_selectStep_keeps
      unfold selectStep at hch ⊢
      cases hc : cellAt cells q with
      | none => rw [hc] at hch; exact absurd rfl hch
      | some c =>
        rw [hc] at hch
        simp only [] at hch ⊢
        split
        · simp
        · rename_i hno
          rw [if_neg hno] at hch
          exact absurd rfl hch

end selectSome

end Wfc

namespace Wfc

/-! ## One-tile patterns -/

theorem set_replicate_self {β : Type} (m j : Nat) (v : β) :
    (List.replicate m v).set j v = List.replicate m v := by
  apply List.ext_getElem?
  intro k
  rw [List.getElem?_set, List.getElem?_replicate]
  by_cases hjk : j = k
  · subst hjk
    simp
  · simp [hjk]

theorem set2_replicate_self {β : Type} (n m i j : Nat) (v : β) :
    set2 (List.replicate n (List.replicate m v)) i j v
      = List.replicate n (List.replicate m v) := by
  unfold set2
  by_cases hi : i < n
  · rw [List.getD_eq_getElem?_getD, List.getElem?_replicate, if_pos hi]
    simp only [Option.getD_some]
    rw [set_replicate_self, set_replicate_self]
  · rw [List.set_eq_of_length_le (by simp; omega)]

/-! ### Initial propagation that removes nothing -/

section idle

variable {F : Type} (rm : Grid F → Nat × Nat → Nat → Option (Bool × Grid F))
  (cells : Grid F) (p : Nat × Nat)

theorem initialIds_idle (d : Dir) :
    ∀ ids : List Nat,
      (∀ id ∈ ids, possibleAt cells p id = true → 0 < nCompatAt cells p d id) →
      initialIds rm p d ids cells = some (true, cells) := by
  intro ids
  induction ids with
  | nil => intro _; rfl
  | cons id rest ih =>
    intro h
    rw [initialIds, if_neg (by
      intro hc
      simp only [Bool.and_eq_true, decide_eq_true_eq] at hc
      have := h id (List.mem_cons_self _ _) hc.1
      omega)]
    exact ih (fun id2 hid2 => h id2 (List.mem_cons_of_mem _ hid2))

theorem initialDirs_idle
    (h : ∀ d id, (neighborAt cells p (InverseDir d)).isSome = true →
      id < nCompatSize cells p d → possibleAt cells p id = true →
      0 < nCompatAt cells p d id) :
    ∀ dirs : List Dir, initialDirs rm p dirs cells = some (true, cells) := by
  intro dirs
  induction dirs with
  | nil => rfl
  | cons d rest ih =>
    rw [initialDirs]
    by_cases hn : (neighborAt cells p (InverseDir d)).isNone = true
    · rw [if_pos hn]
      exact ih
    · rw [if_neg hn]
      have hs : (neighborAt cells p (InverseDir d)).isSome = true := by
        cases hx : neighborAt cells p (InverseDir d) with
        | none => rw [hx] at hn; exact absurd rfl hn
        | some q => rfl
      rw [initialIds_idle rm cells p d _
        (fun id hid hp => h d id hs (List.mem_range.1 hid) hp)]
      exact ih

end idle

theorem initialAll_idle {F : Type} (A : Arith F) (pat : Pattern F) (fuel : Nat)
    (cells : Grid F)
    (h : ∀ p d id, (neighborAt cells p (InverseDir d)).isSome = true →
      id < nCompatSize cells p d → possibleAt cells p id = true →
      0 < nCompatAt cells p d id) :
    ∀ ps : List (Nat × Nat), initialAll A pat fuel ps cells = some (true, cells) := by
  intro ps
  induction ps with
  | nil => rfl
  | cons p rest ih =>
    rw [initialAll]
    unfold PropagateInitial
    rw [initialDirs_idle _ cells p (h p) allDirs]
    exact ih

/-- A cell of the `n × m` grid has a vertical neighbour only if `2 ≤ n`, and a
horizontal neighbour only if `2 ≤ m`. -/
theorem nbrPos_some_dim (n m : Nat) (hn : n < 2 ^ 64) (hm : m < 2 ^ 64) (p q : Nat × Nat)
    (d : Dir) (hp : p.1 < n ∧ p.2 < m) (h : nbrPos n m p d = some q) :
    ((d = Dir.kUp ∨ d = Dir.kDown) → 2 ≤ n) ∧ ((d = Dir.kLeft ∨ d = Dir.kRight) → 2 ≤ m) := by
  obtain ⟨h1, h2, h3, h4⟩ := (nbrPos_eq_some_iff n m hn hm p q d hp.1 hp.2).1 h
  cases d <;> simp [dirDn, dirDm] at h1 h2 ⊢ <;> omega

section single

variable {F : Type} (A : Arith F) (pat : Pattern F)

theorem Cell_new_single (hT : pat.edges.length = 1) :
    (Cell.new A pat).possible_ = [true] ∧
    (Cell.new A pat).n_possible_ = 1 ∧
    (Cell.new A pat).entropy_.sum_p = (initEntropy A pat).sum_p ∧
    (Cell.new A pat).entropy_.val = entropyVal A (initEntropy A pat) ∧
    (Cell.new A pat).observed_ = false := by
  refine ⟨?_, ?_, rfl, rfl, rfl⟩
  · simp [Cell.new, hT]
  · simp [Cell.new, hT]

theorem randomIdx_single (c : Cell F) (r : F) (h1 : c.possible_ = [true]) :
    randomIdx A pat c r
      = if A.gt (A.mul r c.entropy_.sum_p) A.zero = true then 0 else NEG_ONE := by
  unfold randomIdx
  rw [h1]
  show randomScan A pat [true] [0] NEG_ONE (A.mul r c.entropy_.sum_p) = _
  rw [randomScan]
  split
  · rw [if_pos (by rfl)]
    rfl
  · rfl

theorem RandomState_single (c : Cell F) (r : F) (h1 : c.possible_ = [true])
    (h2 : c.n_possible_ = 1) (hdraw : A.gt (A.mul r c.entropy_.sum_p) A.zero = true) :
    RandomState A pat c r = some 0 := by
  unfold RandomState
  rw [if_neg (by omega), randomIdx_single A pat c r h1, if_pos hdraw,
    if_neg (by simp [NEG_ONE])]

theorem RandomState_single_eq (c : Cell F) (r : F) (s : Nat) (h1 : c.possible_ = [true])
    (h : RandomState A pat c r = some s) : s = 0 := by
  unfold RandomState at h
  rw [randomIdx_single A pat c r h1] at h
  by_cases hg : A.gt (A.mul r c.entropy_.sum_p) A.zero = true
  · rw [if_pos hg] at h
    split at h
    · cases h
    · rw [if_neg (by simp [NEG_ONE])] at h
      simp only [Option.some.injEq] at h
      exact h.symm
  · rw [if_neg hg] at h
    split at h
    · cases h
    · rw [if_pos rfl] at h
      cases h

theorem observeCell_single (c : Cell F) (h1 : c.possible_ = [true]) :
    (observeCell A pat c 0).1 = [] ∧
    (observeCell A pat c 0).2.possible_ = [true] ∧
    (observeCell A pat c 0).2.n_possible_ = 1 ∧
    (observeCell A pat c 0).2.observed_ = true := by
  unfold observeCell
  simp only [h1]
  refine ⟨?_, ?_, ?_, ?_⟩
  · simp [eliminateLoop, List.range_succ]
  · simp [eliminateLoop, List.range_succ]
  · trivial
  · trivial

theorem SingleTileGrid_observe (sp v : F) (cells : Grid F) (p : Nat × Nat) (c : Cell F)
    (hc : cellAt cells p = some c) (h : SingleTileGrid cells sp v) :
    SingleTileGrid (modifyCell cells p (fun _ => (observeCell A pat c 0).2)) sp v := by
  intro q c2 hc2
  rw [cellAt_modifyCell] at hc2
  by_cases hqp : q = p
  · rw [if_pos hqp, hc] at hc2
    simp only [Option.map_some', Option.some.injEq] at hc2
    subst hc2
    obtain ⟨-, e2, e3, e4⟩ := observeCell_single A pat c (h p c hc).1
    refine ⟨e2, e3, ?_⟩
    intro hun
    rw [e4] at hun
    cases hun
  · rw [if_neg hqp] at hc2
    exact h q c2 hc2

theorem Observe_single (fuel : Nat) (cells : Grid F) (p : Nat × Nat) (c : Cell F)
    (hc : cellAt cells p = some c) (h1 : c.possible_ = [true]) :
    Cell.Observe A pat fuel cells p 0
      = some (true, modifyCell cells p (fun _ => (observeCell A pat c 0).2)) := by
  obtain ⟨e1, -⟩ := observeCell_single A pat c h1
  unfold Cell.Observe
  rw [hc]
  simp only [e1]
  rfl

theorem count_unobserved_observe (n m : Nat) (cells : Grid F) (p : Nat × Nat) (c : Cell F)
    (hc : cellAt cells p = some c) (hun : c.observed_ = false) (hpin : InGrid n m p)
    (remaining : Nat)
    (hcount : ((positions n m).filter (fun q => !observedAt cells q)).length
      = remaining + 1) :
    ((positions n m).filter (fun q => !observedAt
      (modifyCell cells p (fun _ => (observeCell A pat c 0).2)) q)).length = remaining := by
  have := filter_length_flip (positions n m) (nodup_positions n m) p
    ((mem_positions n m p).2 hpin) (fun q => !observedAt cells q)
    (fun q => !observedAt
      (modifyCell cells p (fun _ => (observeCell A pat c 0).2)) q)
    (by simp only [observedAt_eq_field hc, hun, Bool.not_false])
    (by
      intro q
      show (!observedAt _ q) = if q = p then false else !observedAt cells q
      rw [observedAt_observe A pat cells p c 0 hc]
      by_cases hqp : q = p
      · simp [hqp]
      · simp [hqp])
  rw [hcount] at this
  omega

/-- The main loop on the grid of a one-tile pattern returns the wave of zeros
or stops at a failed assertion or an uninitialised read; it never returns
absent. -/
theorem mainLoop_single_cases (sp v : F) (fuel : Nat) (gen : Nat → F) (n m : Nat) :
    ∀ (remaining : Nat) (cells : Grid F) (rpos : Nat),
      SingleTileGrid cells sp v →
      ((positions n m).filter (fun q => !observedAt cells q)).length = remaining →
      mainLoop A pat fuel gen n m remaining cells
          (List.replicate n (List.replicate m 0)) rpos
        = Outcome.wave (List.replicate n (List.replicate m 0)) ∨
      mainLoop A pat fuel gen n m remaining cells
          (List.replicate n (List.replicate m 0)) rpos = Outcome.aborted := by
  intro remaining
  induction remaining with
  | zero => intro cells rpos _ _; exact Or.inl rfl
  | succ remaining ih =>
    intro cells rpos hgrid hcount
    rw [mainLoop]
    cases hp : (selectCell A gen cells n m rpos).argmin with
    | none => exact Or.inr rfl
    | some p =>
      obtain ⟨hpin, c, hc, hun⟩ := selectCell_argmin A gen cells n m rpos p hp
      obtain ⟨g1, g2, -⟩ := hgrid p c hc
      simp only [hc]
      cases hrs : RandomState A pat c (gen (selectCell A gen cells n m rpos).rpos) with
      | none => exact Or.inr rfl
      | some s =>
        have hs : s = 0 := RandomState_single_eq A pat c _ s g1 hrs
        subst hs
        simp only [Observe_single A pat fuel cells p c hc g1, set2_replicate_self]
        exact ih _ _ (SingleTileGrid_observe A pat sp v cells p c hc hgrid)
          (count_unobserved_observe A pat n m cells p c hc hun hpin remaining hcount)

/-- The main loop on the grid of a one-tile pattern returns the wave of zeros
when the entropy of the unobserved cells compares `<= DBL_MAX` and every
scaled draw is greater than 0. -/
theorem mainLoop_single (sp v : F) (hsel : A.le v A.dblMax = true) (fuel : Nat)
    (gen : Nat → F) (hdraw : ∀ i, A.gt (A.mul (gen i) sp) A.zero = true) (n m : Nat) :
    ∀ (remaining : Nat) (cells : Grid F) (rpos : Nat),
      GridRect cells n m → SingleTileGrid cells sp v →
      ((positions n m).filter (fun q => !observedAt cells q)).length = remaining →
      mainLoop A pat fuel gen n m remaining cells
          (List.replicate n (List.replicate m 0)) rpos
        = Outcome.wave (List.replicate n (List.replicate m 0)) := by
  intro remaining
  induction remaining with
  | zero => intro cells rpos _ _ _; rfl
  | succ remaining ih =>
    intro cells rpos hrect hgrid hcount
    -- some cell is unobserved, so the selection scan selects one
    have hex : ∃ q ∈ positions n m, ∃ c, cellAt cells q = some c ∧ c.observed_ = false ∧
        A.le c.entropy_.val A.dblMax = true := by
      have hne : (positions n m).filter (fun q => !observedAt cells q) ≠ [] := by
        intro h0
        rw [h0] at hcount
        cases hcount
      obtain ⟨q, hq⟩ := List.exists_mem_of_ne_nil _ hne
      rw [List.mem_filter] at hq
      obtain ⟨hq1, hq2⟩ := hq
      have hin := (mem_positions n m q).1 hq1
      obtain ⟨c, hc⟩ := Option.isSome_iff_exists.1 ((cellAt_isSome_iff hrect q).2 hin)
      have hunq : c.observed_ = false := by
        rw [observedAt_eq_field hc] at hq2
        simpa using hq2
      refine ⟨q, hq1, c, hc, hunq, ?_⟩
      rw [((hgrid q c hc).2.2 hunq).2]
      exact hsel
    have hselect : (selectCell A gen cells n m rpos).argmin ≠ none :=
      foldl_selectStep_some A gen cells _ _ rfl hex
    obtain ⟨p, hp⟩ := Option.ne_none_iff_exists'.1 hselect
    obtain ⟨hpin, c, hc, hun⟩ := selectCell_argmin A gen cells n m rpos p hp
    obtain ⟨g1, g2, g3⟩ := hgrid p c hc
    have hrs : RandomState A pat c (gen (selectCell A gen cells n m rpos).rpos) = some 0 :=
      RandomState_single A pat c _ g1 g2 (by rw [(g3 hun).1]; exact hdraw _)
    rw [mainLoop]
    simp only [hp, hc, hrs, Observe_single A pat fuel cells p c hc g1, set2_replicate_self]
    exact ih _ _ (GridRect_modifyCell hrect _ _)
      (SingleTileGrid_observe A pat sp v cells p c hc hgrid)
      (count_unobserved_observe A pat n m cells p c hc hun hpin remaining hcount)

/-- The initial propagation changes nothing in the grid of a one-tile pattern
whose tile has a neighbour in every direction in which the grid has adjacent
cells. -/
theorem initialAll_single (hT : pat.edges.length = 1) (fuel n m : Nat) (hn : n < 2 ^ 64)
    (hm : m < 2 ^ 64)
    (hrow : 2 ≤ m → pat.edgesAt 0 Dir.kLeft ≠ [] ∧ pat.edgesAt 0 Dir.kRight ≠ [])
    (hcol : 2 ≤ n → pat.edgesAt 0 Dir.kUp ≠ [] ∧ pat.edgesAt 0 Dir.kDown ≠ []) :
    initialAll A pat fuel (positions n m)
        (wire n m (List.replicate n (List.replicate m (Cell.new A pat))))
      = some (true, wire n m (List.replicate n (List.replicate m (Cell.new A pat)))) := by
  apply initialAll_idle
  intro p d id hsome hid _
  have hr := wire_reads A pat n m p
  rw [hr.2.2.2.1 d] at hid
  by_cases hin : p.1 < n ∧ p.2 < m
  · rw [if_pos hin] at hid
    have hid0 : id = 0 := by
      unfold Pattern.T at hid
      omega
    subst hid0
    rw [hr.2.2.1 d 0, if_pos ⟨hin.1, hin.2, by unfold Pattern.T; omega⟩]
    rw [hr.2.2.2.2 (InverseDir d), if_pos hin] at hsome
    obtain ⟨q, hq⟩ := Option.isSome_iff_exists.1 hsome
    obtain ⟨h1, h2⟩ := nbrPos_some_dim n m hn hm p q (InverseDir d) hin hq
    have hne : pat.edgesAt 0 (InverseDir d) ≠ [] := by
      cases d
      · exact (hcol (h1 (Or.inl rfl))).1
      · exact (hrow (h2 (Or.inr rfl))).2
      · exact (hcol (h1 (Or.inr rfl))).2
      · exact (hrow (h2 (Or.inl rfl))).1
    have hlen : 0 < (pat.edgesAt 0 (InverseDir d)).length := List.length_pos.2 hne
    exact_mod_cast hlen
  · rw [if_neg hin] at hid
    omega

theorem SingleTileGrid_wire (hT : pat.edges.length = 1) (n m : Nat) :
    SingleTileGrid (wire n m (List.replicate n (List.replicate m (Cell.new A pat))))
      (initEntropy A pat).sum_p (entropyVal A (initEntropy A pat)) := by
  intro p c hc
  rcases wire_cells n m (Cell.new A pat) (Cell_new_neighbors _ pat) p with
    ⟨-, -, c2, hc2, ⟨e1, -, e3, e4, -⟩, -⟩ | ⟨-, hnone⟩
  · rw [hc2] at hc
    cases hc
    obtain ⟨f1, f2, f3, f4, -⟩ := Cell_new_single A pat hT
    exact ⟨e1.trans f1, e3.trans f2, fun _ => ⟨by rw [e4]; exact f3, by rw [e4]; exact f4⟩⟩
  · rw [hnone] at hc
    cases hc

theorem count_unobserved_wire (n m : Nat) :
    ((positions n m).filter (fun q => !observedAt
      (wire n m (List.replicate n (List.replicate m (Cell.new A pat)))) q)).length
      = n * m := by
  rw [List.filter_eq_self.2 (fun q _ => by
    simp [(wire_reads A pat n m q).2.1]), length_positions]

/-- A one-tile pattern whose tile has a neighbour in every direction in which
the grid has adjacent cells never collapses to absent. -/
theorem Collapse_single_cases (hT : pat.edges.length = 1) (fuel : Nat) (gen : Nat → F)
    (n m : Nat) (hn : n < 2 ^ 64) (hm : m < 2 ^ 64)
    (hrow : 2 ≤ m → pat.edgesAt 0 Dir.kLeft ≠ [] ∧ pat.edgesAt 0 Dir.kRight ≠ [])
    (hcol : 2 ≤ n → pat.edgesAt 0 Dir.kUp ≠ [] ∧ pat.edgesAt 0 Dir.kDown ≠ []) :
    Collapse A pat fuel gen n m = Outcome.wave (List.replicate n (List.replicate m 0)) ∨
    Collapse A pat fuel gen n m = Outcome.aborted := by
  unfold Collapse Wfc_Observe
  split
  · exact Or.inr rfl
  · simp only []
    rw [initialAll_single A pat hT fuel n m hn hm hrow hcol]
    simp only []
    exact mainLoop_single_cases A pat _ _ fuel gen n m (n * m) _ 0
      (SingleTileGrid_wire A pat hT n m) (count_unobserved_wire A pat n m)

/-- A one-tile pattern whose tile has a neighbour in every direction in which
the grid has adjacent cells collapses to the wave of zeros. -/
theorem Collapse_single (hT : pat.edges.length = 1) (fuel : Nat) (gen : Nat → F)
    (hsel : A.le (entropyVal A (initEntropy A pat)) A.dblMax = true)
    (hdraw : ∀ i, A.gt (A.mul (gen i) (initEntropy A pat).sum_p) A.zero = true)
    (n m : Nat) (hn0 : 0 < n) (hm0 : 0 < m) (hn : n < 2 ^ 64) (hm : m < 2 ^ 64)
    (hrow : 2 ≤ m → pat.edgesAt 0 Dir.kLeft ≠ [] ∧ pat.edgesAt 0 Dir.kRight ≠ [])
    (hcol : 2 ≤ n → pat.edgesAt 0 Dir.kUp ≠ [] ∧ pat.edgesAt 0 Dir.kDown ≠ []) :
    Collapse A pat fuel gen n m = Outcome.wave (List.replicate n (List.replicate m 0)) := by
  unfold Collapse Wfc_Observe
  rw [if_neg (by omega)]
  simp only []
  rw [initialAll_single A pat hT fuel n m hn hm hrow hcol]
  simp only []
  exact mainLoop_single A pat _ _ hsel fuel gen hdraw n m (n * m) _ 0
    (GridRect_wire n m (GridRect_replicate n m _))
    (SingleTileGrid_wire A pat hT n m) (count_unobserved_wire A pat n m)

end single

end Wfc

namespace Wfc

/-! ## The rotations of `flatten_submat` -/

theorem reverse_range_eq_map (k : Nat) :
    (List.range k).reverse = (List.range k).map (fun b => k - 1 - b) := by
  apply List.ext_getElem
  · simp
  · intro i h1 h2
    simp only [List.length_reverse, List.length_range] at h1
    simp only [List.getElem_reverse, List.getElem_range, List.getElem_map, List.length_range]

theorem flatMap_map_congr {β : Type} (k : Nat) (f g : Nat → Nat → β)
    (h : ∀ a b, a < k → b < k → f a b = g a b) :
    (List.range k).flatMap (fun a => (List.range k).map (fun b => f a b))
      = (List.range k).flatMap (fun a => (List.range k).map (fun b => g a b)) := by
  apply List.flatMap_congr
  intro a ha
  apply List.map_congr_left
  intro b hb
  exact h a b (List.mem_range.1 ha) (List.mem_range.1 hb)

theorem windowAt_flatMap_map {β : Type} [Inhabited β] (k : Nat) (f : Nat → Nat → β)
    (a b : Nat) (ha : a < k) (hb : b < k) :
    windowAt k ((List.range k).flatMap (fun a => (List.range k).map (fun b => f a b))) a b
      = f a b := by
  unfold windowAt
  rw [getD_flatMap_block _ k (fun x => by simp) _ a b (by simpa using ha) hb default 0,
    getD_map_range _ _ _ _ hb]
  congr 1
  rw [List.getD_eq_getElem?_getD, List.getElem?_range ha]
  rfl

section rotations

variable {α : Type} [Inhabited α] (pattern : List (List α)) (k i j : Nat)

theorem flatten_submat_one :
    flatten_submat pattern k i j 1 =
      (List.range k).flatMap (fun a => (List.range k).map (fun b =>
        at2 pattern ((i + (k - 1 - b)) % pattern.length)
          ((j + a) % (pattern.getD 0 []).length))) := by
  unfold flatten_submat
  simp only []
  rw [foldl_push_flatMap (fun dj di =>
    at2 pattern ((i + di) % pattern.length) ((j + dj) % (pattern.getD 0 []).length))]
  simp [reverse_range_eq_map, List.map_map, Function.comp_def]

theorem flatten_submat_two :
    flatten_submat pattern k i j 2 =
      (List.range k).flatMap (fun a => (List.range k).map (fun b =>
        at2 pattern ((i + (k - 1 - a)) % pattern.length)
          ((j + (k - 1 - b)) % (pattern.getD 0 []).length))) := by
  unfold flatten_submat
  simp only []
  rw [foldl_push_flatMap (fun di dj =>
    at2 pattern ((i + di) % pattern.length) ((j + dj) % (pattern.getD 0 []).length))]
  simp [reverse_range_eq_map, List.map_map, Function.comp_def, List.flatMap_map]

theorem flatten_submat_three :
    flatten_submat pattern k i j 3 =
      (List.range k).flatMap (fun a => (List.range k).map (fun b =>
        at2 pattern ((i + b) % pattern.length)
          ((j + (k - 1 - a)) % (pattern.getD 0 []).length))) := by
  unfold flatten_submat
  simp only []
  rw [foldl_push_flatMap (fun dj di =>
    at2 pattern ((i + di) % pattern.length) ((j + dj) % (pattern.getD 0 []).length))]
  simp [reverse_range_eq_map, List.map_map, Function.comp_def, List.flatMap_map]

theorem rotateCW_flatMap_map (f : Nat → Nat → α) :
    rotateCW k ((List.range k).flatMap (fun a => (List.range k).map (fun b => f a b)))
      = (List.range k).flatMap (fun a => (List.range k).map (fun b => f (k - 1 - b) a)) := by
  unfold rotateCW
  apply flatMap_map_congr
  intro a b ha hb
  exact windowAt_flatMap_map k f (k - 1 - b) a (by omega) ha

theorem rotateCW_flatten_zero :
    rotateCW k (flatten_submat pattern k i j 0) = flatten_submat pattern k i j 1 := by
  rw [flatten_submat_zero, flatten_submat_one, rotateCW_flatMap_map]

theorem rotateCW_flatten_one :
    rotateCW k (flatten_submat pattern k i j 1) = flatten_submat pattern k i j 2 := by
  rw [flatten_submat_one, flatten_submat_two, rotateCW_flatMap_map]

theorem rotateCW_flatten_two :
    rotateCW k (flatten_submat pattern k i j 2) = flatten_submat pattern k i j 3 := by
  rw [flatten_submat_two, flatten_submat_three, rotateCW_flatMap_map]
  apply flatMap_map_congr
  intro a b ha hb
  rw [show k - 1 - (k - 1 - b) = b from by omega]

theorem rotateCW_flatten_three :
    rotateCW k (flatten_submat pattern k i j 3) = flatten_submat pattern k i j 0 := by
  rw [flatten_submat_three, flatten_submat_zero, rotateCW_flatMap_map]
  apply flatMap_map_congr
  intro a b ha hb
  rw [show k - 1 - (k - 1 - b) = b from by omega]

theorem windowAt_flatten_rot (a b : Nat) (ha : a < k) (hb : b < k) :
    windowAt k (flatten_submat pattern k i j 1) a b
        = windowAt k (flatten_submat pattern k i j 0) (k - 1 - b) a ∧
    windowAt k (flatten_submat pattern k i j 2) a b
        = windowAt k (flatten_submat pattern k i j 0) (k - 1 - a) (k - 1 - b) ∧
    windowAt k (flatten_submat pattern k i j 3) a b
        = windowAt k (flatten_submat pattern k i j 0) b (k - 1 - a) := by
  have h1 : k - 1 - a < k := by omega
  have h2 : k - 1 - b < k := by omega
  refine ⟨?_, ?_, ?_⟩
  · rw [flatten_submat_one, flatten_submat_zero, windowAt_flatMap_map k _ a b ha hb,
      windowAt_flatMap_map k _ (k - 1 - b) a h2 ha]
  · rw [flatten_submat_two, flatten_submat_zero, windowAt_flatMap_map k _ a b ha hb,
      windowAt_flatMap_map k _ (k - 1 - a) (k - 1 - b) h1 h2]
  · rw [flatten_submat_three, flatten_submat_zero, windowAt_flatMap_map k _ a b ha hb,
      windowAt_flatMap_map k _ b (k - 1 - a) hb h1]

end rotations

end Wfc

namespace Wfc

/-! ## `Fit` on a constant sample -/

theorem nodup_singleton_of_mem {β : Type} (l : List β) (w : β) (hn : l.Nodup)
    (hm : ∀ x, x ∈ l ↔ x = w) : l = [w] := by
  cases l with
  | nil => exact absurd ((hm w).2 rfl) (List.not_mem_nil w)
  | cons x xs =>
    have hx : x = w := (hm x).1 (List.mem_cons_self x xs)
    cases xs with
    | nil => rw [hx]
    | cons y ys =>
      have hy : y = w := (hm y).1 (List.mem_cons_of_mem _ (List.mem_cons_self y ys))
      have := (List.nodup_cons.1 hn).1
      rw [hx, hy] at this
      exact absurd (List.mem_cons_self w ys) this

theorem rect_row0_length {α : Type} (pattern : List (List α)) (rows cols : Nat)
    (hrect : Rect pattern rows cols) (hr : 0 < rows) :
    (pattern.getD 0 []).length = cols := by
  obtain ⟨h1, h2⟩ := hrect
  cases pattern with
  | nil => simp at h1; omega
  | cons r rs => exact h2 r (List.mem_cons_self r rs)

section constant

variable {α : Type} [Inhabited α] (pattern : List (List α)) (k rows cols : Nat) (v : α)

theorem flatten_submat_const (hrect : Rect pattern rows cols) (hr : 0 < rows) (hc : 0 < cols)
    (hconst : ∀ r c, r < rows → c < cols → at2 pattern r c = v)
    (i j rot : Nat) (hrot : rot < 4) :
    flatten_submat pattern k i j rot =
      (List.range k).flatMap (fun _ => (List.range k).map (fun _ => v)) := by
  have hn : pattern.length = rows := hrect.1
  have hm : (pattern.getD 0 []).length = cols := rect_row0_length pattern rows cols hrect hr
  have key : ∀ x y, at2 pattern ((i + x) % pattern.length)
      ((j + y) % (pattern.getD 0 []).length) = v := by
    intro x y
    rw [hn, hm]
    exact hconst _ _ (Nat.mod_lt _ hr) (Nat.mod_lt _ hc)
  have h4 : rot = 0 ∨ rot = 1 ∨ rot = 2 ∨ rot = 3 := by omega
  rcases h4 with h | h | h | h <;> subst h
  · rw [flatten_submat_zero]
    exact flatMap_map_congr k _ _ (fun a b _ _ => key _ _)
  · rw [flatten_submat_one]
    exact flatMap_map_congr k _ _ (fun a b _ _ => key _ _)
  · rw [flatten_submat_two]
    exact flatMap_map_congr k _ _ (fun a b _ _ => key _ _)
  · rw [flatten_submat_three]
    exact flatMap_map_congr k _ _ (fun a b _ _ => key _ _)

end constant

theorem Fit_const_ids {F α : Type} [DecidableEq α] [Inhabited α] (A : Arith F)
    (pattern : List (List α)) (k rows cols : Nat) (v : α) (hwrap vwrap rotate : Bool)
    (hrect : Rect pattern rows cols) (hkr : k ≤ rows) (hkc : k ≤ cols) (hk1 : 1 ≤ k)
    (hconst : ∀ r c, r < rows → c < cols → at2 pattern r c = v) :
    (Fit A pattern k hwrap vwrap rotate).2.id_to_submat_ =
      [(List.range k).flatMap (fun _ => (List.range k).map (fun _ => v))] := by
  have hr : 0 < rows := by omega
  have hc : 0 < cols := by omega
  have hne : pattern ≠ [] := by
    intro h
    have := hrect.1
    rw [h] at this
    simp at this
    omega
  rw [Fit_ids A pattern k hwrap vwrap rotate hne]
  obtain ⟨-, hnd, hmem, -⟩ := countWindows_inv pattern k hwrap vwrap rotate
  apply nodup_singleton_of_mem _ _ hnd
  intro w
  rw [hmem, mem_extractions]
  have hn : pattern.length = rows := hrect.1
  have hm : (pattern.getD 0 []).length = cols := rect_row0_length pattern rows cols hrect hr
  constructor
  · rintro ⟨i, j, rot, -, -, hrot, rfl⟩
    apply flatten_submat_const pattern k rows cols v hrect hr hc hconst
    split at hrot <;> omega
  · intro hw
    refine ⟨0, 0, 0, ?_, ?_, ?_, ?_⟩
    · unfold upperBound
      split <;> omega
    · unfold upperBound
      split <;> omega
    · split <;> omega
    · rw [hw]
      exact (flatten_submat_const pattern k rows cols v hrect hr hc hconst 0 0 0 (by omega)).symm

theorem Overlaps_const {α : Type} [Inhabited α] (k : Nat) (v : α) (dir : Dir) :
    Overlaps k ((List.range k).flatMap (fun _ => (List.range k).map (fun _ => v)))
      ((List.range k).flatMap (fun _ => (List.range k).map (fun _ => v))) dir := by
  intro a b a2 b2 ha hb ha2 hb2 _ _
  rw [windowAt_flatMap_map k (fun _ _ => v) a b ha hb,
    windowAt_flatMap_map k (fun _ _ => v) a2 b2 ha2 hb2]

theorem Fit_const {F α : Type} [DecidableEq α] [Inhabited α] (A : Arith F)
    (pattern : List (List α)) (k rows cols : Nat) (v : α) (hwrap vwrap rotate : Bool)
    (hrect : Rect pattern rows cols) (hkr : k ≤ rows) (hkc : k ≤ cols) (hk1 : 1 ≤ k)
    (hk : k < 2 ^ 64)
    (hconst : ∀ r c, r < rows → c < cols → at2 pattern r c = v) :
    (Fit A pattern k hwrap vwrap rotate).1.edges.length = 1 ∧
    ∀ dir, (Fit A pattern k hwrap vwrap rotate).1.edgesAt 0 dir = [0] := by
  have hids := Fit_const_ids A pattern k rows cols v hwrap vwrap rotate hrect hkr hkc hk1 hconst
  have hlen : (Fit A pattern k hwrap vwrap rotate).1.edges.length = 1 := by
    rw [Fit_edges_length, hids]
    rfl
  refine ⟨hlen, fun dir => ?_⟩
  rw [Fit_edgesAt, hlen, if_pos (by omega), hids]
  have : check_compatible k
      ((List.range k).flatMap (fun _ => (List.range k).map (fun _ => v)))
      ((List.range k).flatMap (fun _ => (List.range k).map (fun _ => v))) dir = true :=
    (check_compatible_iff k hk _ _ dir).2 (Overlaps_const k v dir)
  rw [show List.range 1 = [0] from rfl]
  simp only [List.filter_cons, List.filter_nil, List.getD_cons_zero, this, if_true]

end Wfc
namespace Wfc

theorem checker_ids {α : Type} [DecidableEq α] [Inhabited α] (a b : α) (h : a ≠ b) :
    (countWindows (checkerboard a b) 2 false false false).id_to_submat
      = [[a, b, b, a], [b, a, a, b]] := by
  have h2 : b ≠ a := Ne.symm h
  simp [countWindows, upperBound, checkerboard, processCorner, process, flatten_submat, at2,
    mapFind, List.range_succ, h, h2, incrAt]

theorem checker_compat {α : Type} [DecidableEq α] [Inhabited α] (a b : α) (h : a ≠ b)
    (dir : Dir) :
    check_compatible 2 [a, b, b, a] [a, b, b, a] dir = false ∧
    check_compatible 2 [a, b, b, a] [b, a, a, b] dir = true ∧
    check_compatible 2 [b, a, a, b] [a, b, b, a] dir = true ∧
    check_compatible 2 [b, a, a, b] [b, a, a, b] dir = false := by
  have h2 : b ≠ a := Ne.symm h
  cases dir <;>
    simp [check_compatible, checkRows, checkRow, subSz, kDirDn, kDirDm, NEG_ONE, SIZE_MOD,
      List.range_succ, h, h2]

theorem Fit_checkerboard {F α : Type} [DecidableEq α] [Inhabited α] (A : Arith F) (a b : α)
    (h : a ≠ b) :
    (Fit A (checkerboard a b) 2 false false false).1.edges.length = 2 ∧
    ∀ dir, (Fit A (checkerboard a b) 2 false false false).1.edgesAt 0 dir = [1] ∧
      (Fit A (checkerboard a b) 2 false false false).1.edgesAt 1 dir = [0] := by
  have hids : (Fit A (checkerboard a b) 2 false false false).2.id_to_submat_
      = [[a, b, b, a], [b, a, a, b]] := by
    rw [Fit_ids A _ 2 false false false (by simp [checkerboard]), checker_ids a b h]
  have hlen : (Fit A (checkerboard a b) 2 false false false).1.edges.length = 2 := by
    rw [Fit_edges_length, hids]
    rfl
  refine ⟨hlen, fun dir => ?_⟩
  obtain ⟨c00, c01, c10, c11⟩ := checker_compat a b h dir
  rw [Fit_edgesAt, Fit_edgesAt, hlen, if_pos (by omega), if_pos (by omega), hids]
  rw [show List.range 2 = [0, 1] from rfl]
  simp [List.filter_cons, c00, c01, c10, c11]

end Wfc

namespace Wfc

/-! ## Properties kept by every elementary update -/

section closed

variable {F : Type} {A : Arith F} {pat : Pattern F} {I : Grid F → Prop} {S : Prop}

theorem propagateList_closed (hI : StepClosed A pat I S)
    {rm : Grid F → Nat × Nat → Nat → Option (Bool × Grid F)} (hrm : RmKeeps I S rm)
    (p : Nat × Nat) (dir : Dir) :
    ∀ (l : List Nat) (cells : Grid F) (b : Bool) (cells2 : Grid F), I cells →
      propagateList rm p dir l cells = some (b, cells2) → (S ∨ b = true) → I cells2 := by
  intro l
  induction l with
  | nil =>
    intro cells b cells2 h hrun _
    simp only [propagateList, Option.some.injEq, Prod.mk.injEq] at hrun
    rw [← hrun.2]
    exact h
  | cons id rest ih =>
    intro cells b cells2 h hrun hb
    have h1 := hI.decr cells p dir id h
    simp only [propagateList] at hrun
    split at hrun
    · split at hrun
      · exact ih _ b cells2 h1 hrun hb
      · rename_i hposs
        have hposs2 : possibleAt (modifyCell cells p (fun c => decrCompat c dir id)) p id
            = true := by simpa using hposs
        split at hrun
        · cases hrun
        · rename_i c2 hr
          simp only [Option.some.injEq, Prod.mk.injEq] at hrun
          rw [← hrun.2]
          exact hrm _ p id false c2 h1 hposs2 hr (by rw [← hrun.1] at hb; exact hb)
        · rename_i c2 hr
          exact ih c2 b cells2 (hrm _ p id true c2 h1 hposs2 hr (Or.inr rfl)) hrun hb
    · exact ih _ b cells2 h1 hrun hb

theorem propagateDirs_closed (hI : StepClosed A pat I S)
    {rm : Grid F → Nat × Nat → Nat → Option (Bool × Grid F)} (hrm : RmKeeps I S rm)
    (p : Nat × Nat) (tile_id : Nat) :
    ∀ (l : List Dir) (cells : Grid F) (b : Bool) (cells2 : Grid F), I cells →
      propagateDirs pat rm p tile_id l cells = some (b, cells2) → (S ∨ b = true) →
      I cells2 := by
  intro l
  induction l with
  | nil =>
    intro cells b cells2 h hrun _
    simp only [propagateDirs, Option.some.injEq, Prod.mk.injEq] at hrun
    rw [← hrun.2]
    exact h
  | cons dir rest ih =>
    intro cells b cells2 h hrun hb
    simp only [propagateDirs] at hrun
    split at hrun
    · rename_i q hq
      split at hrun
      · cases hrun
      · rename_i c2 hr
        simp only [Option.some.injEq, Prod.mk.injEq] at hrun
        rw [← hrun.2]
        exact propagateList_closed hI hrm q dir _ cells false c2 h hr
          (by rw [← hrun.1] at hb; exact hb)
      · rename_i c2 hr
        exact ih c2 b cells2
          (propagateList_closed hI hrm q dir _ cells true c2 h hr (Or.inr rfl)) hrun hb
    · exact ih cells b cells2 h hrun hb

theorem RemoveFromState_closed (hI : StepClosed A pat I S) :
    ∀ fuel, RmKeeps I S (RemoveFromState A pat fuel) := by
  intro fuel
  induction fuel with
  | zero =>
    intro cells q id b cells2 _ _ hrun _
    simp [RemoveFromState] at hrun
  | succ fuel ih =>
    intro cells q id b cells2 h hposs hrun hb
    simp only [RemoveFromState] at hrun
    split at hrun
    · rename_i hz
      simp only [Option.some.injEq, Prod.mk.injEq] at hrun
      rw [← hrun.2]
      refine hI.drop cells q id h hposs (Or.inl ?_)
      rcases hb with hs | hb
      · exact hs
      · rw [← hrun.1] at hb
        cases hb
    · rename_i hz
      have h1 := hI.drop cells q id h hposs (Or.inr hz)
      have h2 := hI.ent _ q id h1
      exact propagateDirs_closed hI ih q id allDirs _ b cells2 h2 hrun hb

theorem observeLoop_closed (hI : StepClosed A pat I S)
    {rm : Grid F → Nat × Nat → Nat → Option (Bool × Grid F)} (hrm : RmKeeps I S rm)
    (p : Nat × Nat) :
    ∀ (l : List Nat) (cells : Grid F) (b : Bool) (cells2 : Grid F), I cells →
      observeLoop pat rm p l cells = some (b, cells2) → (S ∨ b = true) → I cells2 := by
  intro l
  induction l with
  | nil =>
    intro cells b cells2 h hrun _
    simp only [observeLoop, Option.some.injEq, Prod.mk.injEq] at hrun
    rw [← hrun.2]
    exact h
  | cons id rest ih =>
    intro cells b cells2 h hrun hb
    simp only [observeLoop] at hrun
    split at hrun
    · cases hrun
    · rename_i c2 hr
      simp only [Option.some.injEq, Prod.mk.injEq] at hrun
      rw [← hrun.2]
      exact propagateDirs_closed hI hrm p id allDirs cells false c2 h hr
        (by rw [← hrun.1] at hb; exact hb)
    · rename_i c2 hr
      exact ih c2 b cells2
        (propagateDirs_closed hI hrm p id allDirs cells true c2 h hr (Or.inr rfl)) hrun hb

theorem Observe_closed (hI : StepClosed A pat I S) (fuel : Nat) (cells : Grid F)
    (p : Nat × Nat) (id : Nat) (b : Bool) (cells2 : Grid F) (h : I cells)
    (hposs : possibleAt cells p id = true)
    (hrun : Cell.Observe A pat fuel cells p id = some (b, cells2)) (hb : S ∨ b = true) :
    I cells2 := by
  unfold Cell.Observe at hrun
  split at hrun
  · simp only [Option.some.injEq, Prod.mk.injEq] at hrun
    rw [← hrun.2]
    exact h
  · rename_i c hc
    exact observeLoop_closed hI (RemoveFromState_closed hI fuel) p _ _ b cells2
      (hI.observe cells p c id h hc hposs) hrun hb

theorem initialIds_closed
    {rm : Grid F → Nat × Nat → Nat → Option (Bool × Grid F)} (hrm : RmKeeps I S rm)
    (p : Nat × Nat) (dir : Dir) :
    ∀ (l : List Nat) (cells : Grid F) (b : Bool) (cells2 : Grid F), I cells →
      initialIds rm p dir l cells = some (b, cells2) → (S ∨ b = true) → I cells2 := by
  intro l
  induction l with
  | nil =>
    intro cells b cells2 h hrun _
    simp only [initialIds, Option.some.injEq, Prod.mk.injEq] at hrun
    rw [← hrun.2]
    exact h
  | cons id rest ih =>
    intro cells b cells2 h hrun hb
    simp only [initialIds] at hrun
    split at hrun
    · rename_i hc
      have hposs : possibleAt cells p id = true := by
        simp only [Bool.and_eq_true] at hc
        exact hc.1
      split at hrun
      · cases hrun
      · rename_i c2 hr
        simp only [Option.some.injEq, Prod.mk.injEq] at hrun
        rw [← hrun.2]
        exact hrm cells p id false c2 h hposs hr (by rw [← hrun.1] at hb; exact hb)
      · rename_i c2 hr
        exact ih c2 b cells2 (hrm cells p id true c2 h hposs hr (Or.inr rfl)) hrun hb
    · exact ih cells b cells2 h hrun hb

theorem initialDirs_closed
    {rm : Grid F → Nat × Nat → Nat → Option (Bool × Grid F)} (hrm : RmKeeps I S rm)
    (p : Nat × Nat) :
    ∀ (l : List Dir) (cells : Grid F) (b : Bool) (cells2 : Grid F), I cells →
      initialDirs rm p l cells = some (b, cells2) → (S ∨ b = true) → I cells2 := by
  intro l
  induction l with
  | nil =>
    intro cells b cells2 h hrun _
    simp only [initialDirs, Option.some.injEq, Prod.mk.injEq] at hrun
    rw [← hrun.2]
    exact h
  | cons dir rest ih =>
    intro cells b cells2 h hrun hb
    simp only [initialDirs] at hrun
    split at hrun
    · exact ih cells b cells2 h hrun hb
    · split at hrun
      · cases hrun
      · rename_i c2 hr
        simp only [Option.some.injEq, Prod.mk.injEq] at hrun
        rw [← hrun.2]
        exact initialIds_closed hrm p dir _ cells false c2 h hr
          (by rw [← hrun.1] at hb; exact hb)
      · rename_i c2 hr
        exact ih c2 b cells2
          (initialIds_closed hrm p dir _ cells true c2 h hr (Or.inr rfl)) hrun hb

theorem PropagateInitial_closed (hI : StepClosed A pat I S) (fuel : Nat) (cells : Grid F)
    (p : Nat × Nat) (b : Bool) (cells2 : Grid F) (h : I cells)
    (hrun : PropagateInitial A pat fuel cells p = some (b, cells2)) (hb : S ∨ b = true) :
    I cells2 :=
  initialDirs_closed (RemoveFromState_closed hI fuel) p allDirs cells b cells2 h hrun hb

theorem initialAll_closed (hI : StepClosed A pat I S) (fuel : Nat) :
    ∀ (l : List (Nat × Nat)) (cells : Grid F) (b : Bool) (cells2 : Grid F), I cells →
      initialAll A pat fuel l cells = some (b, cells2) → (S ∨ b = true) → I cells2 := by
  intro l
  induction l with
  | nil =>
    intro cells b cells2 h hrun _
    simp only [initialAll, Option.some.injEq, Prod.mk.injEq] at hrun
    rw [← hrun.2]
    exact h
  | cons p rest ih =>
    intro cells b cells2 h hrun hb
    simp only [initialAll] at hrun
    split at hrun
    · cases hrun
    · rename_i c2 hr
      simp only [Option.some.injEq, Prod.mk.injEq] at hrun
      rw [← hrun.2]
      exact PropagateInitial_closed hI fuel cells p false c2 h hr
        (by rw [← hrun.1] at hb; exact hb)
    · rename_i c2 hr
      exact ih c2 b cells2
        (PropagateInitial_closed hI fuel cells p true c2 h hr (Or.inr rfl)) hrun hb

end closed

end Wfc

namespace Wfc

/-! ## Counting the possible flags of a cell -/

theorem count_set_false (l : List Bool) (i : Nat) (h : l.getD i false = true) :
    (l.set i false).count true + 1 = l.count true := by
  induction l generalizing i with
  | nil => simp at h
  | cons x xs ih =>
    cases i with
    | zero =>
      simp only [List.getD_cons_zero] at h
      subst h
      simp
    | succ i =>
      simp only [List.getD_cons_succ] at h
      have := ih i h
      cases x <;> simp [List.count_cons] <;> omega

theorem count_le_length_true (l : List Bool) : l.count true ≤ l.length :=
  List.count_le_length true l

theorem count_eq_zero_of_all_false (l : List Bool) (h : ∀ t, l.getD t false = false) :
    l.count true = 0 := by
  induction l with
  | nil => rfl
  | cons x xs ih =>
    have h0 := h 0
    simp only [List.getD_cons_zero] at h0
    subst h0
    have := ih (fun t => by simpa using h (t + 1))
    simpa using this

theorem count_eq_one_of_single (l : List Bool) (id : Nat)
    (h : ∀ t, l.getD t false = decide (t = id)) : l.count true = 1 := by
  induction l generalizing id with
  | nil =>
    have := h id
    simp at this
  | cons x xs ih =>
    cases id with
    | zero =>
      have h0 := h 0
      simp only [List.getD_cons_zero, decide_True] at h0
      subst h0
      have := count_eq_zero_of_all_false xs (fun t => by simpa using h (t + 1))
      simp [this]
    | succ id =>
      have h0 := h 0
      simp only [List.getD_cons_zero] at h0
      have hx : x = false := by simpa using h0
      subst hx
      have := ih id (fun t => by simpa using h (t + 1))
      simpa using this

theorem exists_possible_of_count_pos (l : List Bool) (h : 0 < l.count true) :
    ∃ t, l.getD t false = true := by
  by_contra hne
  have : ∀ t, l.getD t false = false := by
    intro t
    by_contra ht
    exact hne ⟨t, by simpa using ht⟩
  rw [count_eq_zero_of_all_false l this] at h
  omega

theorem eliminateLoop_length (id : Nat) :
    ∀ (l : List Nat) (el : List Nat) (poss : List Bool),
      (eliminateLoop id l (el, poss)).2.length = poss.length := by
  intro l
  induction l with
  | nil => intro el poss; rfl
  | cons i rest ih =>
    intro el poss
    simp only [eliminateLoop]
    split
    · rw [ih]
      simp
    · rw [ih]

section cellFacts

variable {F : Type} (A : Arith F) (pat : Pattern F) (c : Cell F) (id : Nat)

theorem observeCell_length :
    (observeCell A pat c id).2.possible_.length = c.possible_.length := by
  unfold observeCell
  exact eliminateLoop_length id _ [] c.possible_

theorem observeCell_count (h : c.possible_.getD id false = true) :
    (observeCell A pat c id).2.possible_.count true = 1 := by
  apply count_eq_one_of_single _ id
  intro t
  rw [observeCell_possible]
  by_cases ht : t = id
  · subst ht
    rw [h]
    simp
  · simp [ht]

theorem observeCell_n_possible : (observeCell A pat c id).2.n_possible_ = 1 := rfl

end cellFacts

theorem possibleAt_eq_of_cellAt {F : Type} {cells : Grid F} {q : Nat × Nat} {c : Cell F}
    (hc : cellAt cells q = some c) (t : Nat) :
    possibleAt cells q t = c.possible_.getD t false := by
  unfold possibleAt
  rw [hc]

theorem nPossibleAt_eq_of_cellAt {F : Type} {cells : Grid F} {q : Nat × Nat} {c : Cell F}
    (hc : cellAt cells q = some c) : nPossibleAt cells q = c.n_possible_ := by
  unfold nPossibleAt
  rw [hc]

/-- A property of single cells that holds for every cell of an updated grid. -/
theorem cells_modifyCell {F : Type} (P : Cell F → Prop) (cells : Grid F) (p : Nat × Nat)
    (f : Cell F → Cell F) (h : ∀ q c, cellAt cells q = some c → P c)
    (hf : ∀ c, cellAt cells p = some c → P (f c)) :
    ∀ q c, cellAt (modifyCell cells p f) q = some c → P c := by
  intro q c hc
  rw [cellAt_modifyCell] at hc
  split at hc
  · cases hcp : cellAt cells p with
    | none => rw [hcp] at hc; cases hc
    | some c0 =>
      rw [hcp] at hc
      simp only [Option.map_some', Option.some.injEq] at hc
      rw [← hc]
      exact hf c0 hcp
  · exact h q c hc

section instances

variable {F : Type} (A : Arith F) (pat : Pattern F)

theorem Mono_closed (cells0 : Grid F) : StepClosed A pat (fun cells => Mono cells0 cells) True where
  decr := by
    intro cells q d id h q2 t ht
    rw [possibleAt_decr] at ht
    exact h q2 t ht
  ent := by
    intro cells q id h q2 t ht
    rw [possibleAt_ent] at ht
    exact h q2 t ht
  drop := by
    intro cells q id h _ _ q2 t ht
    rw [possibleAt_drop] at ht
    split at ht
    · cases ht
    · exact h q2 t ht
  observe := by
    intro cells p c id h hc _ q2 t ht
    rw [possibleAt_observe A pat cells p c id hc] at ht
    split at ht
    · rename_i hq
      rw [hq]
      simp only [Bool.and_eq_true] at ht
      exact h p t ht.1
    · exact h q2 t ht

theorem Observe_mono (fuel : Nat) (cells : Grid F) (p : Nat × Nat) (id : Nat) (b : Bool)
    (cells2 : Grid F) (hrun : Cell.Observe A pat fuel cells p id = some (b, cells2)) :
    Mono cells cells2 := by
  unfold Cell.Observe at hrun
  split at hrun
  · simp only [Option.some.injEq, Prod.mk.injEq] at hrun
    rw [← hrun.2]
    exact fun _ _ h => h
  · rename_i c hc
    refine observeLoop_closed (Mono_closed A pat cells)
      (RemoveFromState_closed (Mono_closed A pat cells) fuel) p _ _ b cells2 ?_ hrun
      (Or.inl trivial)
    intro q t ht
    rw [possibleAt_observe A pat cells p c id hc] at ht
    split at ht
    · rename_i hq
      rw [hq]
      simp only [Bool.and_eq_true] at ht
      exact ht.1
    · exact ht

theorem RemoveFromState_mono (fuel : Nat) (cells : Grid F) (p : Nat × Nat) (id : Nat)
    (b : Bool) (cells2 : Grid F)
    (hrun : RemoveFromState A pat fuel cells p id = some (b, cells2)) :
    Mono cells cells2 := by
  have hdrop : Mono cells (modifyCell cells p (fun c => dropTile c id)) := by
    intro q t ht
    rw [possibleAt_drop] at ht
    split at ht
    · cases ht
    · exact ht
  cases fuel with
  | zero => simp [RemoveFromState] at hrun
  | succ fuel =>
    simp only [RemoveFromState] at hrun
    split at hrun
    · simp only [Option.some.injEq, Prod.mk.injEq] at hrun
      rw [← hrun.2]
      exact hdrop
    · refine propagateDirs_closed (Mono_closed A pat cells)
        (RemoveFromState_closed (Mono_closed A pat cells) fuel) p id allDirs _ b cells2 ?_ hrun
        (Or.inl trivial)
      intro q t ht
      rw [possibleAt_ent] at ht
      exact hdrop q t ht

theorem eq_some_of_map_fst {β : Type} (o : Option (Bool × β)) (d : Bool × β) (b : Bool)
    (h : o.map Prod.fst = some b) : o = some (b, (o.getD d).2) := by
  cases o with
  | none => cases h
  | some r =>
    obtain ⟨b2, x⟩ := r
    simp only [Option.map_some', Option.some.injEq] at h
    subst h
    rfl

theorem CountOk_closed : StepClosed A pat (fun cells : Grid F => CountOk cells) True where
  decr := by
    intro cells q d id h
    exact cells_modifyCell _ cells q _ h (fun c hc => h q c hc)
  ent := by
    intro cells q id h
    refine cells_modifyCell _ cells q _ h (fun c hc => ?_)
    have := h q c hc
    unfold updateEntropy
    split <;> exact this
  drop := by
    intro cells q id h hposs _
    refine cells_modifyCell _ cells q _ h (fun c hc => ?_)
    obtain ⟨h1, h2⟩ := h q c hc
    rw [possibleAt_eq_of_cellAt hc] at hposs
    have hcount := count_set_false c.possible_ id hposs
    have hle := count_le_length_true c.possible_
    refine ⟨?_, ?_⟩
    · show (c.n_possible_ + (2 ^ 32 - 1)) % 2 ^ 32 = (c.possible_.set id false).count true
      omega
    · show (c.possible_.set id false).length < 2 ^ 32
      rw [List.length_set]
      exact h2
  observe := by
    intro cells p c id h hc hposs
    refine cells_modifyCell _ cells p _ h (fun c2 hc2 => ?_)
    rw [possibleAt_eq_of_cellAt hc] at hposs
    refine ⟨?_, ?_⟩
    · rw [observeCell_count A pat c id hposs]
      rfl
    · rw [observeCell_length]
      exact (h p c hc).2

theorem Alive_closed : StepClosed A pat (fun cells : Grid F => Alive cells) False where
  decr := by
    intro cells q d id h
    exact cells_modifyCell _ cells q _ h (fun c hc => h q c hc)
  ent := by
    intro cells q id h
    refine cells_modifyCell _ cells q _ h (fun c hc => ?_)
    have := h q c hc
    unfold updateEntropy
    split <;> exact this
  drop := by
    intro cells q id h hposs hnz
    have hnz2 : nPossibleAt (modifyCell cells q (fun c => dropTile c id)) q ≠ 0 := by
      rcases hnz with hf | hnz
      · exact hf.elim
      · exact hnz
    refine cells_modifyCell _ cells q _ h (fun c hc => ?_)
    obtain ⟨h1, h2⟩ := h q c hc
    rw [possibleAt_eq_of_cellAt hc] at hposs
    have hcount := count_set_false c.possible_ id hposs
    have hcell : cellAt (modifyCell cells q (fun c => dropTile c id)) q
        = some (dropTile c id) := by
      rw [cellAt_modifyCell, if_pos rfl, hc]
      rfl
    rw [nPossibleAt_eq_of_cellAt hcell] at hnz2
    have hnz3 : (c.n_possible_ + (2 ^ 32 - 1)) % 2 ^ 32 ≠ 0 := hnz2
    have hgoal : (c.n_possible_ + (2 ^ 32 - 1)) % 2 ^ 32
        = (c.possible_.set id false).count true % 2 ^ 32 := by omega
    refine ⟨hgoal, ?_⟩
    show 0 < (c.possible_.set id false).count true
    rw [hgoal] at hnz3
    omega
  observe := by
    intro cells p c id h hc hposs
    refine cells_modifyCell _ cells p _ h (fun c2 hc2 => ?_)
    rw [possibleAt_eq_of_cellAt hc] at hposs
    rw [observeCell_count A pat c id hposs]
    exact ⟨rfl, by omega⟩

end instances

end Wfc

namespace Wfc

/-! ## The number of set possible flags bounds the recursion -/

theorem modifyAt_sum {β : Type} (g : β → Nat) (f : β → β) :
    ∀ (l : List β) (i : Nat) (x : β), l.get? i = some x →
      ((modifyAt f l i).map g).sum + g x = (l.map g).sum + g (f x) := by
  intro l
  induction l with
  | nil => intro i x h; simp at h
  | cons y ys ih =>
    intro i x h
    cases i with
    | zero =>
      simp only [List.get?_cons_zero, Option.some.injEq] at h
      subst h
      simp only [modifyAt, List.map_cons, List.sum_cons]
      omega
    | succ i =>
      simp only [List.get?_cons_succ] at h
      have := ih i x h
      simp only [modifyAt, List.map_cons, List.sum_cons]
      omega

theorem modifyAt_of_none {β : Type} (f : β → β) :
    ∀ (l : List β) (i : Nat), l.get? i = none → modifyAt f l i = l := by
  intro l
  induction l with
  | nil => intro i _; rfl
  | cons y ys ih =>
    intro i h
    cases i with
    | zero => simp at h
    | succ i =>
      simp only [List.get?_cons_succ] at h
      simp only [modifyAt, ih i h]

theorem modifyAt_of_fix {β : Type} (f : β → β) :
    ∀ (l : List β) (i : Nat) (x : β), l.get? i = some x → f x = x → modifyAt f l i = l := by
  intro l
  induction l with
  | nil => intro i x _ _; rfl
  | cons y ys ih =>
    intro i x h hx
    cases i with
    | zero =>
      simp only [List.get?_cons_zero, Option.some.injEq] at h
      subst h
      simp only [modifyAt, hx]
    | succ i =>
      simp only [List.get?_cons_succ] at h
      simp only [modifyAt, ih i x h hx]

theorem modifyCell_of_none {F : Type} (cells : Grid F) (p : Nat × Nat) (f : Cell F → Cell F)
    (h : cellAt cells p = none) : modifyCell cells p f = cells := by
  unfold modifyCell
  unfold cellAt at h
  cases hrow : cells.get? p.1 with
  | none => exact modifyAt_of_none _ cells p.1 hrow
  | some row =>
    rw [hrow] at h
    exact modifyAt_of_fix _ cells p.1 row hrow (modifyAt_of_none f row p.2 h)

theorem totalPossible_modifyCell {F : Type} (cells : Grid F) (p : Nat × Nat)
    (f : Cell F → Cell F) (c : Cell F) (h : cellAt cells p = some c) :
    totalPossible (modifyCell cells p f) + c.possible_.count true
      = totalPossible cells + (f c).possible_.count true := by
  unfold cellAt at h
  cases hrow : cells.get? p.1 with
  | none => rw [hrow] at h; cases h
  | some row =>
    rw [hrow] at h
    have h1 := modifyAt_sum (fun c : Cell F => c.possible_.count true) f row p.2 c h
    have h2 := modifyAt_sum
      (fun row : List (Cell F) => (row.map (fun c => c.possible_.count true)).sum)
      (fun row => modifyAt f row p.2) cells p.1 row hrow
    unfold totalPossible modifyCell
    simp only [] at h1 h2
    omega

theorem totalPossible_same {F : Type} (cells : Grid F) (p : Nat × Nat) (f : Cell F → Cell F)
    (hf : ∀ c, (f c).possible_ = c.possible_) :
    totalPossible (modifyCell cells p f) = totalPossible cells := by
  cases hc : cellAt cells p with
  | none => rw [modifyCell_of_none cells p f hc]
  | some c =>
    have := totalPossible_modifyCell cells p f c hc
    rw [hf c] at this
    omega

section total

variable {F : Type} (A : Arith F) (pat : Pattern F) (cells : Grid F) (p : Nat × Nat)

theorem totalPossible_decr (dir : Dir) (id : Nat) :
    totalPossible (modifyCell cells p (fun c => decrCompat c dir id)) = totalPossible cells :=
  totalPossible_same cells p _ (fun _ => rfl)

theorem totalPossible_ent (id : Nat) :
    totalPossible (modifyCell cells p (fun c => updateEntropy A pat c id))
      = totalPossible cells := by
  apply totalPossible_same
  intro c
  unfold updateEntropy
  split <;> rfl

theorem totalPossible_drop (id : Nat) (h : possibleAt cells p id = true) :
    totalPossible (modifyCell cells p (fun c => dropTile c id)) + 1 = totalPossible cells := by
  cases hc : cellAt cells p with
  | none =>
    unfold possibleAt at h
    rw [hc] at h
    cases h
  | some c =>
    rw [possibleAt_eq_of_cellAt hc] at h
    have h1 := totalPossible_modifyCell cells p (fun c => dropTile c id) c hc
    have h2 := count_set_false c.possible_ id h
    have h3 : (dropTile c id).possible_ = c.possible_.set id false := rfl
    simp only [h3] at h1
    omega

end total

theorem count_le_of_imp : ∀ (l2 l : List Bool), l2.length = l.length →
    (∀ t, l2.getD t false = true → l.getD t false = true) → l2.count true ≤ l.count true := by
  intro l2
  induction l2 with
  | nil => intro l _ _; simp
  | cons x xs ih =>
    intro l hlen himp
    cases l with
    | nil => simp at hlen
    | cons y ys =>
      have hrec := ih ys (by simpa using hlen) (fun t ht => by
        have := himp (t + 1)
        simp only [List.getD_cons_succ] at this
        exact this ht)
      have h0 := himp 0
      simp only [List.getD_cons_zero] at h0
      cases x <;> cases y <;> simp [List.count_cons] at h0 ⊢ <;> omega

theorem totalPossible_observe {F : Type} (A : Arith F) (pat : Pattern F) (cells : Grid F)
    (p : Nat × Nat) (c : Cell F) (id : Nat) (hc : cellAt cells p = some c) :
    totalPossible (modifyCell cells p (fun _ => (observeCell A pat c id).2))
      ≤ totalPossible cells := by
  have h1 := totalPossible_modifyCell cells p (fun _ => (observeCell A pat c id).2) c hc
  have h2 : (observeCell A pat c id).2.possible_.count true ≤ c.possible_.count true := by
    apply count_le_of_imp _ _ (observeCell_length A pat c id)
    intro t ht
    rw [observeCell_possible] at ht
    simp only [Bool.and_eq_true] at ht
    exact ht.1
  simp only [] at h1
  omega

section termination

variable {F : Type} {A : Arith F} {pat : Pattern F}

theorem propagateList_term {rm : Grid F → Nat × Nat → Nat → Option (Bool × Grid F)}
    {N : Nat} (hrm : RmTerm rm N) (p : Nat × Nat) (dir : Dir) :
    ∀ (l : List Nat) (cells : Grid F), totalPossible cells ≤ N →
      ∃ b cells2, propagateList rm p dir l cells = some (b, cells2) ∧
        totalPossible cells2 ≤ totalPossible cells := by
  intro l
  induction l with
  | nil => intro cells _; exact ⟨true, cells, rfl, le_refl _⟩
  | cons id rest ih =>
    intro cells hN
    have ht := totalPossible_decr cells p dir id
    simp only [propagateList]
    split
    · split
      · obtain ⟨b, c2, h1, h2⟩ := ih _ (by rw [ht]; exact hN)
        exact ⟨b, c2, h1, by omega⟩
      · rename_i hposs
        have hposs2 : possibleAt (modifyCell cells p (fun c => decrCompat c dir id)) p id
            = true := by simpa using hposs
        obtain ⟨b, c2, h1, h2⟩ := hrm _ p id hposs2 (by rw [ht]; exact hN)
        rw [h1]
        cases b with
        | false => exact ⟨false, c2, rfl, by omega⟩
        | true =>
          obtain ⟨b3, c3, h3, h4⟩ := ih c2 (by omega)
          exact ⟨b3, c3, h3, by omega⟩
    · obtain ⟨b, c2, h1, h2⟩ := ih _ (by rw [ht]; exact hN)
      exact ⟨b, c2, h1, by omega⟩

theorem propagateDirs_term {rm : Grid F → Nat × Nat → Nat → Option (Bool × Grid F)}
    {N : Nat} (hrm : RmTerm rm N) (p : Nat × Nat) (tile_id : Nat) :
    ∀ (l : List Dir) (cells : Grid F), totalPossible cells ≤ N →
      ∃ b cells2, propagateDirs pat rm p tile_id l cells = some (b, cells2) ∧
        totalPossible cells2 ≤ totalPossible cells := by
  intro l
  induction l with
  | nil => intro cells _; exact ⟨true, cells, rfl, le_refl _⟩
  | cons dir rest ih =>
    intro cells hN
    simp only [propagateDirs]
    split
    · rename_i q hq
      obtain ⟨b, c2, h1, h2⟩ := propagateList_term hrm q dir (pat.edgesAt tile_id dir) cells hN
      unfold PropagateToNeighbor
      rw [h1]
      cases b with
      | false => exact ⟨false, c2, rfl, h2⟩
      | true =>
        obtain ⟨b3, c3, h3, h4⟩ := ih c2 (by omega)
        exact ⟨b3, c3, h3, by omega⟩
    · exact ih cells hN

theorem RemoveFromState_term (A : Arith F) (pat : Pattern F) :
    ∀ fuel, RmTerm (RemoveFromState A pat fuel) fuel := by
  intro fuel
  induction fuel with
  | zero =>
    intro cells q id hposs hN
    have := totalPossible_drop cells q id hposs
    omega
  | succ fuel ih =>
    intro cells q id hposs hN
    have hd := totalPossible_drop cells q id hposs
    simp only [RemoveFromState]
    split
    · exact ⟨false, _, rfl, by omega⟩
    · have he := totalPossible_ent A pat (modifyCell cells q (fun c => dropTile c id)) q id
      obtain ⟨b, c2, h1, h2⟩ := propagateDirs_term ih q id allDirs
        (modifyCell (modifyCell cells q (fun c => dropTile c id)) q
          (fun c => updateEntropy A pat c id)) (by omega)
      exact ⟨b, c2, h1, by omega⟩

theorem observeLoop_term {rm : Grid F → Nat × Nat → Nat → Option (Bool × Grid F)}
    {N : Nat} (hrm : RmTerm rm N) (p : Nat × Nat) :
    ∀ (l : List Nat) (cells : Grid F), totalPossible cells ≤ N →
      ∃ b cells2, observeLoop pat rm p l cells = some (b, cells2) ∧
        totalPossible cells2 ≤ totalPossible cells := by
  intro l
  induction l with
  | nil => intro cells _; exact ⟨true, cells, rfl, le_refl _⟩
  | cons id rest ih =>
    intro cells hN
    simp only [observeLoop]
    obtain ⟨b, c2, h1, h2⟩ := propagateDirs_term hrm p id allDirs cells hN
    unfold PropagateToNeighbors
    rw [h1]
    cases b with
    | false => exact ⟨false, c2, rfl, h2⟩
    | true =>
      obtain ⟨b3, c3, h3, h4⟩ := ih c2 (by omega)
      exact ⟨b3, c3, h3, by omega⟩

theorem Observe_term (A : Arith F) (pat : Pattern F) (fuel : Nat) (cells : Grid F)
    (p : Nat × Nat) (id : Nat) (hN : totalPossible cells ≤ fuel) :
    ∃ b cells2, Cell.Observe A pat fuel cells p id = some (b, cells2) ∧
      totalPossible cells2 ≤ totalPossible cells := by
  unfold Cell.Observe
  split
  · exact ⟨true, cells, rfl, le_refl _⟩
  · rename_i c hc
    have h0 := totalPossible_observe A pat cells p c id hc
    obtain ⟨b, c2, h1, h2⟩ := observeLoop_term (RemoveFromState_term A pat fuel) p
      (observeCell A pat c id).1
      (modifyCell cells p (fun _ => (observeCell A pat c id).2)) (by omega)
    exact ⟨b, c2, h1, by omega⟩

theorem initialIds_term {rm : Grid F → Nat × Nat → Nat → Option (Bool × Grid F)}
    {N : Nat} (hrm : RmTerm rm N) (p : Nat × Nat) (dir : Dir) :
    ∀ (l : List Nat) (cells : Grid F), totalPossible cells ≤ N →
      ∃ b cells2, initialIds rm p dir l cells = some (b, cells2) ∧
        totalPossible cells2 ≤ totalPossible cells := by
  intro l
  induction l with
  | nil => intro cells _; exact ⟨true, cells, rfl, le_refl _⟩
  | cons id rest ih =>
    intro cells hN
    simp only [initialIds]
    split
    · rename_i hc
      have hposs : possibleAt cells p id = true := by
        simp only [Bool.and_eq_true] at hc
        exact hc.1
      obtain ⟨b, c2, h1, h2⟩ := hrm cells p id hposs hN
      rw [h1]
      cases b with
      | false => exact ⟨false, c2, rfl, by omega⟩
      | true =>
        obtain ⟨b3, c3, h3, h4⟩ := ih c2 (by omega)
        exact ⟨b3, c3, h3, by omega⟩
    · exact ih cells hN

theorem initialDirs_term {rm : Grid F → Nat × Nat → Nat → Option (Bool × Grid F)}
    {N : Nat} (hrm : RmTerm rm N) (p : Nat × Nat) :
    ∀ (l : List Dir) (cells : Grid F), totalPossible cells ≤ N →
      ∃ b cells2, initialDirs rm p l cells = some (b, cells2) ∧
        totalPossible cells2 ≤ totalPossible cells := by
  intro l
  induction l with
  | nil => intro cells _; exact ⟨true, cells, rfl, le_refl _⟩
  | cons dir rest ih =>
    intro cells hN
    simp only [initialDirs]
    split
    · exact ih cells hN
    · obtain ⟨b, c2, h1, h2⟩ := initialIds_term hrm p dir
        (List.range (nCompatSize cells p dir)) cells hN
      rw [h1]
      cases b with
      | false => exact ⟨false, c2, rfl, h2⟩
      | true =>
        obtain ⟨b3, c3, h3, h4⟩ := ih c2 (by omega)
        exact ⟨b3, c3, h3, by omega⟩

theorem PropagateInitial_term (A : Arith F) (pat : Pattern F) (fuel : Nat) (cells : Grid F)
    (p : Nat × Nat) (hN : totalPossible cells ≤ fuel) :
    ∃ b cells2, PropagateInitial A pat fuel cells p = some (b, cells2) ∧
      totalPossible cells2 ≤ totalPossible cells :=
  initialDirs_term (RemoveFromState_term A pat fuel) p allDirs cells hN

end termination

end Wfc

namespace Wfc

/-! ## Positive counters after the initial propagation -/

section shape

variable {F : Type} (A : Arith F) (pat : Pattern F)

theorem SameShape_closed (cells0 : Grid F) :
    StepClosed A pat (fun cells => SameShape cells0 cells) True where
  decr := by
    intro cells q d id h q2 d2
    rw [neighborAt_decr, nCompatSize_decr]
    exact h q2 d2
  ent := by
    intro cells q id h q2 d2
    rw [neighborAt_ent, nCompatSize_ent]
    exact h q2 d2
  drop := by
    intro cells q id h _ _ q2 d2
    rw [neighborAt_drop, nCompatSize_drop]
    exact h q2 d2
  observe := by
    intro cells p c id h hc _ q2 d2
    rw [neighborAt_observe A pat cells p c id hc, nCompatSize_observe A pat cells p c id hc]
    exact h q2 d2

theorem SameShape_refl (cells : Grid F) : SameShape cells cells :=
  fun _ _ => ⟨rfl, rfl⟩

end shape

section positive

variable {F : Type} {A : Arith F} {pat : Pattern F}

theorem propagateList_pos {rm : Grid F → Nat × Nat → Nat → Option (Bool × Grid F)}
    (hrm : RmPos rm) (D : Nat × Nat → Dir → Nat → Prop) (p : Nat × Nat) (dir : Dir) :
    ∀ (l : List Nat) (cells cells2 : Grid F), PosOn cells D →
      propagateList rm p dir l cells = some (true, cells2) → PosOn cells2 D := by
  intro l
  induction l with
  | nil =>
    intro cells cells2 h hrun
    simp only [propagateList, Option.some.injEq, Prod.mk.injEq, true_and] at hrun
    rw [← hrun]
    exact h
  | cons id rest ih =>
    intro cells cells2 h hrun
    simp only [propagateList] at hrun
    split at hrun
    · rename_i hz
      split at hrun
      · rename_i hnp
        refine ih _ cells2 ?_ hrun
        intro q d t hD hposs
        by_cases hx : q = p ∧ d = dir ∧ t = id
        · obtain ⟨rfl, rfl, rfl⟩ := hx
          rw [hposs] at hnp
          simp at hnp
        · rw [possibleAt_decr] at hposs
          rw [nCompatAt_decr, if_neg (fun hh => hx ⟨hh.1, hh.2.1, hh.2.2.1⟩)]
          simpa using h q d t hD hposs
      · split at hrun
        · cases hrun
        · cases hrun
        · rename_i c2 hr
          refine ih c2 cells2 (hrm D _ p id c2 ?_ hr) hrun
          intro q d t hD hposs
          rw [possibleAt_decr] at hposs
          rw [nCompatAt_decr, if_neg (fun hh => hD.2 ⟨hh.1, hh.2.2.1⟩)]
          simpa using h q d t hD.1 hposs
    · rename_i hz
      refine ih _ cells2 ?_ hrun
      intro q d t hD hposs
      have hposs2 := hposs
      rw [possibleAt_decr] at hposs2
      have h0 := h q d t hD hposs2
      rw [nCompatAt_decr cells p q dir id d t]
      by_cases hx : q = p ∧ d = dir ∧ t = id ∧ id < nCompatSize cells p dir
      · rw [if_pos hx]
        rw [nCompatAt_decr cells p p dir id dir id, if_pos ⟨rfl, rfl, rfl, hx.2.2.2⟩] at hz
        obtain ⟨h1, h2, h3, -⟩ := hx
        subst h1 h2 h3
        omega
      · rw [if_neg hx]
        simpa using h0

theorem propagateDirs_pos {rm : Grid F → Nat × Nat → Nat → Option (Bool × Grid F)}
    (hrm : RmPos rm) (D : Nat × Nat → Dir → Nat → Prop) (p : Nat × Nat) (tile_id : Nat) :
    ∀ (l : List Dir) (cells cells2 : Grid F), PosOn cells D →
      propagateDirs pat rm p tile_id l cells = some (true, cells2) → PosOn cells2 D := by
  intro l
  induction l with
  | nil =>
    intro cells cells2 h hrun
    simp only [propagateDirs, Option.some.injEq, Prod.mk.injEq, true_and] at hrun
    rw [← hrun]
    exact h
  | cons dir rest ih =>
    intro cells cells2 h hrun
    simp only [propagateDirs] at hrun
    split at hrun
    · rename_i q hq
      split at hrun
      · cases hrun
      · cases hrun
      · rename_i c2 hr
        exact ih c2 cells2 (propagateList_pos hrm D q dir _ cells c2 h hr) hrun
    · exact ih cells cells2 h hrun

theorem RemoveFromState_pos (A : Arith F) (pat : Pattern F) :
    ∀ fuel, RmPos (RemoveFromState A pat fuel) := by
  intro fuel
  induction fuel with
  | zero =>
    intro D cells q id cells2 _ hrun
    simp [RemoveFromState] at hrun
  | succ fuel ih =>
    intro D cells q id cells2 h hrun
    simp only [RemoveFromState] at hrun
    split at hrun
    · cases hrun
    · refine propagateDirs_pos ih D q id allDirs _ cells2 ?_ hrun
      intro q2 d t hD hposs
      rw [possibleAt_ent, possibleAt_drop] at hposs
      rw [nCompatAt_ent, nCompatAt_drop]
      split at hposs
      · cases hposs
      · rename_i hne
        exact h q2 d t ⟨hD, hne⟩ hposs

theorem initialIds_pos {rm : Grid F → Nat × Nat → Nat → Option (Bool × Grid F)}
    (hrm : RmPos rm) (p : Nat × Nat) (dir : Dir) :
    ∀ (l : List Nat) (D : Nat × Nat → Dir → Nat → Prop) (cells cells2 : Grid F),
      PosOn cells D → initialIds rm p dir l cells = some (true, cells2) →
      PosOn cells2 (fun q d t => D q d t ∨ (q = p ∧ d = dir ∧ t ∈ l)) := by
  intro l
  induction l with
  | nil =>
    intro D cells cells2 h hrun
    simp only [initialIds, Option.some.injEq, Prod.mk.injEq, true_and] at hrun
    rw [← hrun]
    intro q d t hD
    rcases hD with hD | ⟨_, _, hmem⟩
    · exact h q d t hD
    · cases hmem
  | cons id rest ih =>
    intro D cells cells2 h hrun
    have hwiden : ∀ c2 : Grid F,
        PosOn c2 (fun q d t => (D q d t ∨ (q = p ∧ d = dir ∧ t = id)) ∨
          (q = p ∧ d = dir ∧ t ∈ rest)) →
        PosOn c2 (fun q d t => D q d t ∨ (q = p ∧ d = dir ∧ t ∈ id :: rest)) := by
      intro c2 hc2 q d t hD
      apply hc2 q d t
      rcases hD with hD | ⟨h1, h2, h3⟩
      · exact Or.inl (Or.inl hD)
      · rcases List.mem_cons.1 h3 with h3 | h3
        · exact Or.inl (Or.inr ⟨h1, h2, h3⟩)
        · exact Or.inr ⟨h1, h2, h3⟩
    simp only [initialIds] at hrun
    split at hrun
    · split at hrun
      · cases hrun
      · cases hrun
      · rename_i c2 hr
        apply hwiden
        refine ih _ c2 cells2 (hrm _ cells p id c2 ?_ hr) hrun
        intro q d t hD hposs
        rcases hD with ⟨hD | ⟨h1, _, h3⟩, hne⟩
        · exact h q d t hD hposs
        · exact absurd ⟨h1, h3⟩ hne
    · rename_i hc
      apply hwiden
      refine ih _ cells cells2 ?_ hrun
      intro q d t hD hposs
      rcases hD with hD | ⟨rfl, rfl, rfl⟩
      · exact h q d t hD hposs
      · rw [hposs] at hc
        simpa using hc

theorem initialDirs_pos (fuel : Nat) (p : Nat × Nat) :
    ∀ (l : List Dir) (D : Nat × Nat → Dir → Nat → Prop) (cells cells2 : Grid F),
      PosOn cells D →
      initialDirs (RemoveFromState A pat fuel) p l cells = some (true, cells2) →
      PosOn cells2 (fun q d t => D q d t ∨
        (q = p ∧ d ∈ l ∧ (neighborAt cells p (InverseDir d)).isSome = true ∧
          t < nCompatSize cells p d)) ∧ SameShape cells cells2 := by
  intro l
  induction l with
  | nil =>
    intro D cells cells2 h hrun
    simp only [initialDirs, Option.some.injEq, Prod.mk.injEq, true_and] at hrun
    rw [← hrun]
    refine ⟨?_, SameShape_refl cells⟩
    intro q d t hD
    rcases hD with hD | ⟨_, hmem, _⟩
    · exact h q d t hD
    · cases hmem
  | cons dir rest ih =>
    intro D cells cells2 h hrun
    simp only [initialDirs] at hrun
    split at hrun
    · rename_i hnone
      obtain ⟨h1, h2⟩ := ih D cells cells2 h hrun
      refine ⟨?_, h2⟩
      intro q d t hD
      apply h1 q d t
      rcases hD with hD | ⟨hq, hmem, hsome, ht⟩
      · exact Or.inl hD
      · rcases List.mem_cons.1 hmem with hd | hd
        · subst hd
          rw [Option.isNone_iff_eq_none] at hnone
          rw [hnone] at hsome
          cases hsome
        · exact Or.inr ⟨hq, hd, hsome, ht⟩
    · split at hrun
      · cases hrun
      · cases hrun
      · rename_i c2 hr
        have hpos := initialIds_pos (RemoveFromState_pos A pat fuel) p dir _ D cells c2 h hr
        have hshape : SameShape cells c2 :=
          initialIds_closed (RemoveFromState_closed (SameShape_closed A pat cells) fuel)
            p dir _ cells true c2 (SameShape_refl cells) hr (Or.inl trivial)
        obtain ⟨h1, h2⟩ := ih _ c2 cells2 hpos hrun
        refine ⟨?_, fun q d => ⟨((h2 q d).1).trans (hshape q d).1,
          ((h2 q d).2).trans (hshape q d).2⟩⟩
        intro q d t hD
        apply h1 q d t
        rcases hD with hD | ⟨hq, hmem, hsome, ht⟩
        · exact Or.inl (Or.inl hD)
        · rcases List.mem_cons.1 hmem with hd | hd
          · subst hd
            exact Or.inl (Or.inr ⟨hq, rfl, List.mem_range.2 ht⟩)
          · refine Or.inr ⟨hq, hd, ?_, ?_⟩
            · rw [(hshape p (InverseDir d)).1]
              exact hsome
            · rw [(hshape p d).2]
              exact ht

theorem initialAll_pos (fuel : Nat) :
    ∀ (l : List (Nat × Nat)) (D : Nat × Nat → Dir → Nat → Prop) (cells cells2 : Grid F),
      PosOn cells D →
      initialAll A pat fuel l cells = some (true, cells2) →
      PosOn cells2 (fun q d t => D q d t ∨
        (q ∈ l ∧ (neighborAt cells q (InverseDir d)).isSome = true ∧
          t < nCompatSize cells q d)) ∧ SameShape cells cells2 := by
  intro l
  induction l with
  | nil =>
    intro D cells cells2 h hrun
    simp only [initialAll, Option.some.injEq, Prod.mk.injEq, true_and] at hrun
    rw [← hrun]
    refine ⟨?_, SameShape_refl cells⟩
    intro q d t hD
    rcases hD with hD | ⟨hmem, _⟩
    · exact h q d t hD
    · cases hmem
  | cons p rest ih =>
    intro D cells cells2 h hrun
    simp only [initialAll] at hrun
    split at hrun
    · cases hrun
    · cases hrun
    · rename_i c2 hr
      obtain ⟨hpos, hshape⟩ := initialDirs_pos fuel p allDirs D cells c2 h hr
      obtain ⟨h1, h2⟩ := ih _ c2 cells2 hpos hrun
      refine ⟨?_, fun q d => ⟨((h2 q d).1).trans (hshape q d).1,
        ((h2 q d).2).trans (hshape q d).2⟩⟩
      intro q d t hD
      apply h1 q d t
      rcases hD with hD | ⟨hmem, hsome, ht⟩
      · exact Or.inl (Or.inl hD)
      · rcases List.mem_cons.1 hmem with hq | hq
        · refine Or.inl (Or.inr ⟨hq, ?_, ?_, ?_⟩)
          · cases d <;> simp [allDirs]
          · rw [← hq]; exact hsome
          · rw [← hq]; exact ht
        · refine Or.inr ⟨hq, ?_, ?_⟩
          · rw [(hshape q (InverseDir d)).1]
            exact hsome
          · rw [(hshape q d).2]
            exact ht

end positive

end Wfc

namespace Wfc

/-! ## The grid at quiescence -/

section wired

variable {F : Type} (A : Arith F) (pat : Pattern F) (n m : Nat)

theorem wire_cell_fields (q : Nat × Nat) (c : Cell F)
    (hc : cellAt (wire n m (List.replicate n (List.replicate m (Cell.new A pat)))) q = some c) :
    c.possible_ = List.replicate pat.edges.length true ∧
      c.n_possible_ = pat.edges.length % 2 ^ 32 := by
  rcases wire_cells n m (Cell.new A pat) (fun _ => rfl) q with ⟨_, _, c2, h1, h2, _⟩ | ⟨_, h1⟩
  · rw [h1] at hc
    cases hc
    exact ⟨h2.1, h2.2.2.1⟩
  · rw [h1] at hc
    cases hc

theorem CountOk_wire (hT : pat.edges.length < 2 ^ 32) :
    CountOk (wire n m (List.replicate n (List.replicate m (Cell.new A pat)))) := by
  intro q c hc
  obtain ⟨h1, h2⟩ := wire_cell_fields A pat n m q c hc
  rw [h1, h2]
  simp only [List.count_replicate_self, List.length_replicate]
  exact ⟨Nat.mod_eq_of_lt hT, hT⟩

theorem Alive_wire (hT : 0 < pat.edges.length) :
    Alive (wire n m (List.replicate n (List.replicate m (Cell.new A pat)))) := by
  intro q c hc
  obtain ⟨h1, h2⟩ := wire_cell_fields A pat n m q c hc
  rw [h1, h2]
  simp only [List.count_replicate_self]
  exact ⟨trivial, hT⟩

end wired

section quiescence

variable {F : Type} {A : Arith F} {pat : Pattern F} {fuel n m : Nat}

theorem Reach_inv (hs : pat.Symmetric) (hd : pat.DupFree) (hn : n < 2 ^ 64)
    (hm : m < 2 ^ 64) {cells : Grid F} (h : Reach A pat fuel n m cells) :
    Inv pat cells (fun _ _ _ => 0) (Dmain pat n m) ∧ Linked pat cells ∧
      Wired cells n m ∧ GridRect cells n m := by
  induction h with
  | init cells hrun =>
    obtain ⟨h1, h2, h3, h4⟩ := initial_phase A hs hd fuel n m hn hm cells hrun
    refine ⟨h1, ?_, h2, h3⟩
    intro p q d i k _ hobs
    rw [h4 p] at hobs
    cases hobs
  | observe cells cells2 p id _ hp hun hposs hrun ih =>
    obtain ⟨hinv, hlink, hwired, hrect⟩ := ih
    have hnbr : ∀ q d, neighborAt cells p d = some q →
        InGrid n m q ∧ nbrPos n m q (InverseDir d) = some p ∧ q ≠ p := by
      intro q d hq
      rw [hwired p d] at hq
      have hq2 : nbrPos n m p d = some q := by
        rw [← hq]; exact (if_pos hp).symm
      exact nbrPos_inverse n m hn hm p q d hp hq2
    obtain ⟨hinv2, hlink2, -, hnb2, hrect2, -, -⟩ :=
      Observe_step A hs fuel hinv hlink p id ((cellAt_isSome_iff hrect p).2 hp) hun hposs
        (fun q d hq => (hnbr q d hq).2.2)
        (fun q d k hq hk => ⟨(hnbr q d hq).1, by rw [(hnbr q d hq).2.1]; rfl, hk⟩)
        cells2 hrun
    refine ⟨hinv2, hlink2, ?_, hrect2 n m hrect⟩
    intro q d
    rw [hnb2, hwired q d]

theorem Reach_alive (hT : 0 < pat.edges.length) {cells : Grid F}
    (h : Reach A pat fuel n m cells) : Alive cells := by
  induction h with
  | init cells hrun =>
    exact initialAll_closed (Alive_closed A pat) fuel _ _ true cells (Alive_wire A pat n m hT)
      hrun (Or.inr rfl)
  | observe cells cells2 p id _ _ _ hposs hrun ih =>
    exact Observe_closed (Alive_closed A pat) fuel cells p id true cells2 ih hposs hrun
      (Or.inr rfl)

end quiescence

/-! ## Counting supporters -/

theorem sum_map_indicator_eq_filter (l : List Nat) (P : Nat → Bool) :
    (l.map (fun j => if P j then 1 else 0)).sum = (l.filter P).length := by
  induction l with
  | nil => rfl
  | cons x xs ih =>
    simp only [List.map_cons, List.sum_cons, ih, List.filter_cons]
    split
    · simp
      omega
    · simp

theorem suppCount_eq_supporters {F : Type} (pat : Pattern F) (hd : pat.DupFree)
    (cells : Grid F) (p : Nat × Nat) (d : Dir) (k : Nat) :
    suppCount pat cells p d k = supporters pat cells p d k := by
  unfold suppCount supporters
  rw [← sum_map_indicator_eq_filter]
  congr 1
  apply List.map_congr_left
  intro j _
  by_cases hp : possibleAt cells p j = true
  · by_cases hk : k ∈ pat.edgesAt j d
    · simp [hp, hk, List.count_eq_one_of_mem (hd j d) hk]
    · simp [hp, hk, List.count_eq_zero_of_not_mem hk]
  · simp [hp]

theorem exists_of_suppCount_pos {F : Type} (pat : Pattern F) (cells : Grid F)
    (p : Nat × Nat) (d : Dir) (k : Nat) (h : 0 < suppCount pat cells p d k) :
    ∃ j, possibleAt cells p j = true ∧ k ∈ pat.edgesAt j d := by
  unfold suppCount at h
  by_contra hne
  have hz : ∀ x ∈ (List.range pat.T).map (fun j =>
      if possibleAt cells p j then (pat.edgesAt j d).count k else 0), x = 0 := by
    intro x hx
    rw [List.mem_map] at hx
    obtain ⟨j, _, rfl⟩ := hx
    split
    · rename_i hp
      by_contra hc
      exact hne ⟨j, hp, List.count_pos_iff.1 (Nat.pos_of_ne_zero hc)⟩
    · rfl
  rw [List.sum_eq_zero hz] at h
  omega

section atQuiescence

variable {F : Type} {A : Arith F} {pat : Pattern F} {fuel n m : Nat}

theorem Reach_counter (hs : pat.Symmetric) (hd : pat.DupFree) (hn : n < 2 ^ 64)
    (hm : m < 2 ^ 64) {cells : Grid F} (h : Reach A pat fuel n m cells)
    (C N : Nat × Nat) (dir : Dir) (k : Nat) (hun : observedAt cells C = false)
    (hnb : neighborAt cells C (InverseDir dir) = some N) (hk : k < pat.T) :
    nCompatAt cells C dir k = (supporters pat cells N dir k : Int) := by
  obtain ⟨hinv, -, -, -⟩ := Reach_inv hs hd hn hm h
  have hback : neighborAt cells N dir = some C := by
    have := hinv.geo C N (InverseDir dir) hnb
    rw [InverseDir_inverse] at this
    exact this
  rw [hinv.exact N C dir k hback hun hk, suppCount_eq_supporters pat hd]
  simp

theorem Reach_arc (hs : pat.Symmetric) (hd : pat.DupFree) (hn : n < 2 ^ 64)
    (hm : m < 2 ^ 64) {cells : Grid F} (h : Reach A pat fuel n m cells)
    (C N : Nat × Nat) (d : Dir) (k : Nat) (hnb : neighborAt cells C d = some N)
    (hk : possibleAt cells C k = true) :
    ∃ j, possibleAt cells N j = true ∧ j ∈ pat.edgesAt k d := by
  obtain ⟨hinv, hlink, hwired, hrect⟩ := Reach_inv hs hd hn hm h
  have hkT : k < pat.T := hinv.plen C k hk
  have hback : neighborAt cells N (InverseDir d) = some C := hinv.geo C N d hnb
  have hC : InGrid n m C := by
    have h1 := hwired C d
    rw [hnb] at h1
    by_contra hc
    rw [if_neg (show ¬ (C.1 < n ∧ C.2 < m) from hc)] at h1
    cases h1
  cases hobs : observedAt cells C with
  | true =>
    have hN : (cellAt cells N).isSome := by
      cases hc : cellAt cells N with
      | none =>
        unfold neighborAt at hback
        rw [hc] at hback
        cases hback
      | some c => rfl
    cases hc : cellAt cells N with
    | none => rw [hc] at hN; cases hN
    | some c =>
      have halive := Reach_alive (by unfold Pattern.T at hkT; omega) h N c hc
      obtain ⟨j, hj⟩ := exists_possible_of_count_pos c.possible_ halive.2
      have hj2 : possibleAt cells N j = true := by
        rw [possibleAt_eq_of_cellAt hc]
        exact hj
      exact ⟨j, hj2, hlink C N d k j hnb hobs hk hj2⟩
  | false =>
    have hD : Dmain pat n m C (InverseDir d) k := by
      refine ⟨hC, ?_, hkT⟩
      rw [InverseDir_inverse]
      have h1 := hwired C d
      rw [hnb, if_pos (show C.1 < n ∧ C.2 < m from hC)] at h1
      rw [← h1]
      rfl
    have hpos := hinv.pos C (InverseDir d) k hD hobs hk
    rw [hinv.exact N C (InverseDir d) k hback hobs hkT] at hpos
    have hpos2 : 0 < suppCount pat cells N (InverseDir d) k := by
      simpa using hpos
    obtain ⟨j, hj1, hj2⟩ := exists_of_suppCount_pos pat cells N (InverseDir d) k hpos2
    refine ⟨j, hj1, ?_⟩
    have := (hs j k (InverseDir d)).1 hj2
    rw [InverseDir_inverse] at this
    exact this

end atQuiescence

end Wfc

namespace Wfc

/-! ## Removals that need no propagation -/

section quietRemoval

variable {F : Type} (A : Arith F) (pat : Pattern F)

theorem nPossibleAt_drop_self (cells : Grid F) (p : Nat × Nat) (id : Nat) :
    nPossibleAt (modifyCell cells p (fun c => dropTile c id)) p
      = if (cellAt cells p).isSome then (nPossibleAt cells p + (2 ^ 32 - 1)) % 2 ^ 32
        else 0 := by
  unfold nPossibleAt
  rw [cellAt_modifyCell, if_pos rfl]
  cases cellAt cells p with
  | none => simp
  | some c => simp only [Option.map_some', Option.isSome_some, if_true, dropTile]

theorem nPossibleAt_ent (cells : Grid F) (p q : Nat × Nat) (id : Nat) :
    nPossibleAt (modifyCell cells p (fun c => updateEntropy A pat c id)) q
      = nPossibleAt cells q := by
  unfold nPossibleAt
  rw [cellAt_modifyCell]
  by_cases hqp : q = p
  · rw [if_pos hqp, hqp]
    cases cellAt cells p with
    | none => rfl
    | some c =>
      simp only [Option.map_some']
      unfold updateEntropy
      split <;> rfl
  · rw [if_neg hqp]

theorem cellAt_isSome_ent (cells : Grid F) (p q : Nat × Nat) (id : Nat) :
    (cellAt (modifyCell cells p (fun c => updateEntropy A pat c id)) q).isSome
      = (cellAt cells q).isSome := by
  rw [cellAt_modifyCell]
  by_cases hqp : q = p
  · rw [if_pos hqp, hqp]
    cases cellAt cells p <;> rfl
  · rw [if_neg hqp]

theorem cellAt_isSome_drop (cells : Grid F) (p q : Nat × Nat) (id : Nat) :
    (cellAt (modifyCell cells p (fun c => dropTile c id)) q).isSome
      = (cellAt cells q).isSome := by
  rw [cellAt_modifyCell]
  by_cases hqp : q = p
  · rw [if_pos hqp, hqp]
    cases cellAt cells p <;> rfl
  · rw [if_neg hqp]

theorem propagateDirs_quiet (rm : Grid F → Nat × Nat → Nat → Option (Bool × Grid F))
    (cells : Grid F) (p : Nat × Nat) (id : Nat) :
    ∀ dirs : List Dir,
      (∀ d ∈ dirs, ∀ q, neighborAt cells p d = some q → pat.edgesAt id d = []) →
      propagateDirs pat rm p id dirs cells = some (true, cells) := by
  intro dirs
  induction dirs with
  | nil => intro _; rfl
  | cons d rest ih =>
    intro h
    have hrest := ih (fun d2 hd2 => h d2 (List.mem_cons_of_mem _ hd2))
    simp only [propagateDirs]
    cases hq : neighborAt cells p d with
    | none => exact hrest
    | some q =>
      simp only [PropagateToNeighbor, h d (List.mem_cons_self _ _) q hq, propagateList]
      exact hrest

theorem RemoveFromState_quiet (fuel : Nat) (cells : Grid F) (p : Nat × Nat) (id : Nat)
    (hn : nPossibleAt (modifyCell cells p (fun c => dropTile c id)) p ≠ 0)
    (hq : ∀ d q, neighborAt cells p d = some q → pat.edgesAt id d = []) :
    RemoveFromState A pat (fuel + 1) cells p id
      = some (true, modifyCell (modifyCell cells p (fun c => dropTile c id)) p
          (fun c => updateEntropy A pat c id)) := by
  simp only [RemoveFromState]
  rw [if_neg hn]
  apply propagateDirs_quiet
  intro d _ q hq2
  rw [neighborAt_ent, neighborAt_drop] at hq2
  exact hq d q hq2

theorem RemoveFromState_last (fuel : Nat) (cells : Grid F) (p : Nat × Nat) (id : Nat)
    (hn : nPossibleAt (modifyCell cells p (fun c => dropTile c id)) p = 0) :
    RemoveFromState A pat (fuel + 1) cells p id
      = some (false, modifyCell cells p (fun c => dropTile c id)) := by
  simp only [RemoveFromState]
  rw [if_pos hn]

end quietRemoval

end Wfc

namespace Wfc

/-! ## A `1 × 2` grid whose tiles have no right neighbour -/

section steps

variable {F : Type} (rm : Grid F → Nat × Nat → Nat → Option (Bool × Grid F))
  (cells : Grid F) (p : Nat × Nat) (dir : Dir)

theorem initialIds_cons_remove (id : Nat) (rest : List Nat) (b : Bool) (cells2 : Grid F)
    (hp : possibleAt cells p id = true) (hc : nCompatAt cells p dir id ≤ 0)
    (hrm : rm cells p id = some (b, cells2)) :
    initialIds rm p dir (id :: rest) cells
      = if b then initialIds rm p dir rest cells2 else some (false, cells2) := by
  rw [initialIds, if_pos (by rw [hp]; simpa using hc), hrm]
  cases b <;> rfl

theorem initialDirs_cons_skip (rest : List Dir)
    (h : neighborAt cells p (InverseDir dir) = none) :
    initialDirs rm p (dir :: rest) cells = initialDirs rm p rest cells := by
  rw [initialDirs, if_pos (by rw [h]; rfl)]

theorem initialDirs_cons_fail (rest : List Dir) (q : Nat × Nat) (cells2 : Grid F)
    (h : neighborAt cells p (InverseDir dir) = some q)
    (hids : initialIds rm p dir (List.range (nCompatSize cells p dir)) cells
      = some (false, cells2)) :
    initialDirs rm p (dir :: rest) cells = some (false, cells2) := by
  rw [initialDirs, if_neg (by rw [h]; simp), hids]

theorem initialDirs_no_neighbours (h : ∀ d, neighborAt cells p d = none) :
    ∀ dirs : List Dir, initialDirs rm p dirs cells = some (true, cells) := by
  intro dirs
  induction dirs with
  | nil => rfl
  | cons d rest ih => rw [initialDirs_cons_skip rm cells p d rest (h _), ih]

end steps

theorem Collapse_absent_of_initial {F : Type} (A : Arith F) (pat : Pattern F) (fuel : Nat)
    (gen : Nat → F) (n m : Nat) (hn : n ≠ 0) (hm : m ≠ 0) (cells2 : Grid F)
    (h : initialAll A pat fuel (positions n m)
      (wire n m (List.replicate n (List.replicate m (Cell.new A pat)))) = some (false, cells2)) :
    Collapse A pat fuel gen n m = Outcome.absent := by
  unfold Collapse Wfc_Observe
  rw [if_neg (by omega)]
  simp only []
  rw [h]

theorem Collapse_no_right {F : Type} (A : Arith F) (pat : Pattern F) (fuel : Nat)
    (gen : Nat → F) (hT : pat.edges.length = 2) (e0 : pat.edgesAt 0 Dir.kRight = [])
    (e1 : pat.edgesAt 1 Dir.kRight = []) :
    Collapse A pat (fuel + 1) gen 1 2 = Outcome.absent := by
  have hrect : GridRect (wire 1 2 (List.replicate 1 (List.replicate 2 (Cell.new A pat)))) 1 2 :=
    GridRect_wire 1 2 (GridRect_replicate 1 2 _)
  obtain ⟨hposs, -, hcnt, hsize, hnb⟩ := wire_reads A pat 1 2 (0, 0)
  have hnp : nPossibleAt (wire 1 2 (List.replicate 1 (List.replicate 2 (Cell.new A pat))))
      (0, 0) = 2 := by
    rcases wire_cells 1 2 (Cell.new A pat) (fun _ => rfl) (0, 0) with
      ⟨_, _, c, h1, h2, _⟩ | ⟨hout, _⟩
    · rw [nPossibleAt_eq_of_cellAt h1, h2.2.2.1]
      show pat.edges.length % 2 ^ 32 = 2
      rw [hT]
      norm_num
    · exact absurd ⟨by decide, by decide⟩ hout
  have hpos : positions 1 2 = [(0, 0), (0, 1)] := rfl
  unfold Collapse Wfc_Observe
  rw [if_neg (by decide)]
  simp only []
  rw [hpos]
  generalize wire 1 2 (List.replicate 1 (List.replicate 2 (Cell.new A pat))) = G1 at *
  have hin : (cellAt G1 (0, 0)).isSome = true :=
    (cellAt_isSome_iff hrect (0, 0)).2 ⟨by decide, by decide⟩
  have hcond : (0 : Nat) < 1 ∧ (0 : Nat) < 2 := ⟨by decide, by decide⟩
  have nbD : neighborAt G1 (0, 0) Dir.kDown = none := by
    rw [hnb, if_pos hcond]
    decide!
  have nbL : neighborAt G1 (0, 0) Dir.kLeft = none := by
    rw [hnb, if_pos hcond]
    decide!
  have nbU : neighborAt G1 (0, 0) Dir.kUp = none := by
    rw [hnb, if_pos hcond]
    decide!
  have nbR : neighborAt G1 (0, 0) Dir.kRight = some (0, 1) := by
    rw [hnb, if_pos hcond]
    decide!
  have nb : ∀ d q, neighborAt G1 (0, 0) d = some q → d = Dir.kRight := by
    intro d q h
    cases d
    · rw [nbD] at h; cases h
    · rw [nbL] at h; cases h
    · rw [nbU] at h; cases h
    · rfl
  have p0 : possibleAt G1 (0, 0) 0 = true := by
    rw [hposs]
    simp [Pattern.T, hT]
  have p1 : possibleAt G1 (0, 0) 1 = true := by
    rw [hposs]
    simp [Pattern.T, hT]
  have c0 : nCompatAt G1 (0, 0) Dir.kLeft 0 = 0 := by
    rw [hcnt, if_pos ⟨hcond.1, hcond.2, by rw [Pattern.T, hT]; decide⟩]
    show ((pat.edgesAt 0 Dir.kRight).length : Int) = 0
    rw [e0]
    rfl
  have c1 : nCompatAt G1 (0, 0) Dir.kLeft 1 = 0 := by
    rw [hcnt, if_pos ⟨hcond.1, hcond.2, by rw [Pattern.T, hT]; decide⟩]
    show ((pat.edgesAt 1 Dir.kRight).length : Int) = 0
    rw [e1]
    rfl
  have hsz : nCompatSize G1 (0, 0) Dir.kLeft = 2 := by
    rw [hsize, if_pos hcond, Pattern.T, hT]
  have step1 : RemoveFromState A pat (fuel + 1) G1 (0, 0) 0
      = some (true, modifyCell (modifyCell G1 (0, 0) (fun c => dropTile c 0)) (0, 0)
          (fun c => updateEntropy A pat c 0)) := by
    apply RemoveFromState_quiet
    · rw [nPossibleAt_drop_self, if_pos hin, hnp]
      norm_num
    · intro d q h
      rw [nb d q h]
      exact e0
  have step2 : RemoveFromState A pat (fuel + 1)
      (modifyCell (modifyCell G1 (0, 0) (fun c => dropTile c 0)) (0, 0)
        (fun c => updateEntropy A pat c 0)) (0, 0) 1
      = some (false, modifyCell (modifyCell (modifyCell G1 (0, 0) (fun c => dropTile c 0))
          (0, 0) (fun c => updateEntropy A pat c 0)) (0, 0) (fun c => dropTile c 1)) := by
    apply RemoveFromState_last
    rw [nPossibleAt_drop_self, cellAt_isSome_ent, cellAt_isSome_drop, if_pos hin,
      nPossibleAt_ent, nPossibleAt_drop_self, if_pos hin, hnp]
    norm_num
  have p1b : possibleAt (modifyCell (modifyCell G1 (0, 0) (fun c => dropTile c 0)) (0, 0)
      (fun c => updateEntropy A pat c 0)) (0, 0) 1 = true := by
    rw [possibleAt_ent, possibleAt_drop, if_neg (by decide)]
    exact p1
  have c1b : nCompatAt (modifyCell (modifyCell G1 (0, 0) (fun c => dropTile c 0)) (0, 0)
      (fun c => updateEntropy A pat c 0)) (0, 0) Dir.kLeft 1 = 0 := by
    rw [nCompatAt_ent, nCompatAt_drop]
    exact c1
  have hIds : initialIds (RemoveFromState A pat (fuel + 1)) (0, 0) Dir.kLeft
      (List.range (nCompatSize G1 (0, 0) Dir.kLeft)) G1
      = some (false, modifyCell (modifyCell (modifyCell G1 (0, 0) (fun c => dropTile c 0))
          (0, 0) (fun c => updateEntropy A pat c 0)) (0, 0) (fun c => dropTile c 1)) := by
    rw [hsz, show List.range 2 = [0, 1] from rfl,
      initialIds_cons_remove _ G1 (0, 0) Dir.kLeft 0 [1] true _ p0 (le_of_eq c0) step1,
      if_pos rfl,
      initialIds_cons_remove _ _ (0, 0) Dir.kLeft 1 [] false _ p1b (le_of_eq c1b) step2]
    rfl
  have hPI : PropagateInitial A pat (fuel + 1) G1 (0, 0)
      = some (false, modifyCell (modifyCell (modifyCell G1 (0, 0) (fun c => dropTile c 0))
          (0, 0) (fun c => updateEntropy A pat c 0)) (0, 0) (fun c => dropTile c 1)) := by
    unfold PropagateInitial allDirs
    rw [initialDirs_cons_skip _ G1 (0, 0) Dir.kDown _ nbU]
    exact initialDirs_cons_fail _ G1 (0, 0) Dir.kLeft _ (0, 1) _ nbR hIds
  unfold initialAll
  rw [hPI]

end Wfc

namespace Wfc

/-! ## The windows that `Fit` extracts -/

theorem extractions_eq_windowsOf {α : Type} [Inhabited α] (pattern : List (List α))
    (k : Nat) (hwrap vwrap rotate : Bool) :
    extractions pattern k hwrap vwrap rotate
      = windowsOf pattern k
          (if vwrap then pattern.length else pattern.length - k + 1)
          (if hwrap then (pattern.getD 0 []).length else (pattern.getD 0 []).length - k + 1)
          (if rotate then 4 else 1) := by
  unfold extractions windowsOf cornerWindows upperBound
  cases rotate <;> simp [List.range_succ]

theorem mem_windowsOf {α : Type} [Inhabited α] (pattern : List (List α))
    (k Ui Uj R : Nat) (w : List α) :
    w ∈ windowsOf pattern k Ui Uj R ↔
      ∃ i j rot, i < Ui ∧ j < Uj ∧ rot < R ∧ w = flatten_submat pattern k i j rot := by
  unfold windowsOf
  simp only [List.mem_flatMap, List.mem_range, List.mem_map]
  constructor
  · rintro ⟨i, hi, j, hj, rot, hrot, rfl⟩
    exact ⟨i, j, rot, hi, hj, hrot, rfl⟩
  · rintro ⟨i, j, rot, hi, hj, hrot, rfl⟩
    exact ⟨i, hi, j, hj, rot, hrot, rfl⟩

theorem map_range_getD {β γ : Type} (l : List β) (d : β) (f : β → γ) :
    (List.range l.length).map (fun i => f (l.getD i d)) = l.map f := by
  apply List.ext_getElem
  · simp
  · intro i h1 h2
    simp only [List.length_map, List.length_range] at h1
    simp only [List.getElem_map, List.getElem_range]
    rw [List.getD_eq_getElem _ _ h1]

theorem Fit_probs {F α : Type} [DecidableEq α] [Inhabited α] (A : Arith F)
    (pattern : List (List α)) (k : Nat) (hwrap vwrap rotate : Bool) (hne : pattern ≠ []) :
    (Fit A pattern k hwrap vwrap rotate).1.probs
      = (countWindows pattern k hwrap vwrap rotate).occ_cnt.map (fun o =>
          A.div (A.ofNat o) (A.ofNat
            (((if vwrap then pattern.length else pattern.length - k + 1)
              * (if hwrap then (pattern.getD 0 []).length
                  else (pattern.getD 0 []).length - k + 1)) % 2 ^ 64))) := by
  unfold Fit
  rw [if_neg (by simpa using hne)]
  simp only [upperBound, SIZE_MOD]
  exact map_range_getD (countWindows pattern k hwrap vwrap rotate).occ_cnt 0 (fun o =>
    A.div (A.ofNat o) (A.ofNat
      (((if vwrap then pattern.length else pattern.length - k + 1)
        * (if hwrap then (pattern.getD 0 []).length
            else (pattern.getD 0 []).length - k + 1)) % 2 ^ 64)))

/-! ## A contradiction leaves an emptied cell -/

theorem all_false_of_count_zero (l : List Bool) (h : l.count true = 0) :
    ∀ t, l.getD t false = false := by
  induction l with
  | nil => intro t; simp
  | cons x xs ih =>
    intro t
    cases x with
    | true => simp at h
    | false =>
      have h2 : xs.count true = 0 := by simpa using h
      cases t with
      | zero => rfl
      | succ t => simpa using ih h2 t

section fails

variable {F : Type} {A : Arith F} {pat : Pattern F}

theorem propagateList_fail {rm : Grid F → Nat × Nat → Nat → Option (Bool × Grid F)}
    (hrm : RmFails rm) (p : Nat × Nat) (dir : Dir) :
    ∀ (l : List Nat) (cells cells2 : Grid F),
      propagateList rm p dir l cells = some (false, cells2) → Emptied cells2 := by
  intro l
  induction l with
  | nil =>
    intro cells cells2 hrun
    simp [propagateList] at hrun
  | cons id rest ih =>
    intro cells cells2 hrun
    simp only [propagateList] at hrun
    split at hrun
    · split at hrun
      · exact ih _ cells2 hrun
      · rename_i hposs
        have hposs2 : possibleAt (modifyCell cells p (fun c => decrCompat c dir id)) p id
            = true := by simpa using hposs
        split at hrun
        · cases hrun
        · rename_i c2 hr
          simp only [Option.some.injEq, Prod.mk.injEq, true_and] at hrun
          rw [← hrun]
          exact hrm _ p id c2 hposs2 hr
        · rename_i c2 hr
          exact ih c2 cells2 hrun
    · exact ih _ cells2 hrun

theorem propagateDirs_fail {rm : Grid F → Nat × Nat → Nat → Option (Bool × Grid F)}
    (hrm : RmFails rm) (p : Nat × Nat) (tile_id : Nat) :
    ∀ (l : List Dir) (cells cells2 : Grid F),
      propagateDirs pat rm p tile_id l cells = some (false, cells2) → Emptied cells2 := by
  intro l
  induction l with
  | nil =>
    intro cells cells2 hrun
    simp [propagateDirs] at hrun
  | cons dir rest ih =>
    intro cells cells2 hrun
    simp only [propagateDirs] at hrun
    split at hrun
    · rename_i q hq
      split at hrun
      · cases hrun
      · rename_i c2 hr
        simp only [Option.some.injEq, Prod.mk.injEq, true_and] at hrun
        rw [← hrun]
        exact propagateList_fail hrm q dir _ cells c2 hr
      · rename_i c2 hr
        exact ih c2 cells2 hrun
    · exact ih cells cells2 hrun

theorem RemoveFromState_fail (A : Arith F) (pat : Pattern F) :
    ∀ fuel, RmFails (RemoveFromState A pat fuel) := by
  intro fuel
  induction fuel with
  | zero =>
    intro cells q id cells2 _ hrun
    simp [RemoveFromState] at hrun
  | succ fuel ih =>
    intro cells q id cells2 hposs hrun
    simp only [RemoveFromState] at hrun
    split at hrun
    · rename_i hz
      simp only [Option.some.injEq, Prod.mk.injEq, true_and] at hrun
      rw [← hrun]
      cases hc : cellAt cells q with
      | none =>
        unfold possibleAt at hposs
        rw [hc] at hposs
        cases hposs
      | some c =>
        have hcell : cellAt (modifyCell cells q (fun c => dropTile c id)) q
            = some (dropTile c id) := by
          rw [cellAt_modifyCell, if_pos rfl, hc]
          rfl
        refine ⟨q, dropTile c id, hcell, ?_⟩
        rw [nPossibleAt_eq_of_cellAt hcell] at hz
        exact hz
    · exact propagateDirs_fail ih q id allDirs _ cells2 hrun

theorem initialIds_fail {rm : Grid F → Nat × Nat → Nat → Option (Bool × Grid F)}
    (hrm : RmFails rm) (p : Nat × Nat) (dir : Dir) :
    ∀ (l : List Nat) (cells cells2 : Grid F),
      initialIds rm p dir l cells = some (false, cells2) → Emptied cells2 := by
  intro l
  induction l with
  | nil =>
    intro cells cells2 hrun
    simp [initialIds] at hrun
  | cons id rest ih =>
    intro cells cells2 hrun
    simp only [initialIds] at hrun
    split at hrun
    · rename_i hc
      have hposs : possibleAt cells p id = true := by
        simp only [Bool.and_eq_true] at hc
        exact hc.1
      split at hrun
      · cases hrun
      · rename_i c2 hr
        simp only [Option.some.injEq, Prod.mk.injEq, true_and] at hrun
        rw [← hrun]
        exact hrm cells p id c2 hposs hr
      · rename_i c2 hr
        exact ih c2 cells2 hrun
    · exact ih cells cells2 hrun

theorem initialDirs_fail {rm : Grid F → Nat × Nat → Nat → Option (Bool × Grid F)}
    (hrm : RmFails rm) (p : Nat × Nat) :
    ∀ (l : List Dir) (cells cells2 : Grid F),
      initialDirs rm p l cells = some (false, cells2) → Emptied cells2 := by
  intro l
  induction l with
  | nil =>
    intro cells cells2 hrun
    simp [initialDirs] at hrun
  | cons dir rest ih =>
    intro cells cells2 hrun
    simp only [initialDirs] at hrun
    split at hrun
    · exact ih cells cells2 hrun
    · split at hrun
      · cases hrun
      · rename_i c2 hr
        simp only [Option.some.injEq, Prod.mk.injEq, true_and] at hrun
        rw [← hrun]
        exact initialIds_fail hrm p dir _ cells c2 hr
      · rename_i c2 hr
        exact ih c2 cells2 hrun

theorem initialAll_fail (A : Arith F) (pat : Pattern F) (fuel : Nat) :
    ∀ (l : List (Nat × Nat)) (cells cells2 : Grid F),
      initialAll A pat fuel l cells = some (false, cells2) → Emptied cells2 := by
  intro l
  induction l with
  | nil =>
    intro cells cells2 hrun
    simp [initialAll] at hrun
  | cons p rest ih =>
    intro cells cells2 hrun
    simp only [initialAll] at hrun
    split at hrun
    · cases hrun
    · rename_i c2 hr
      simp only [Option.some.injEq, Prod.mk.injEq, true_and] at hrun
      rw [← hrun]
      exact initialDirs_fail (RemoveFromState_fail A pat fuel) p allDirs cells c2 hr
    · rename_i c2 hr
      exact ih c2 cells2 hrun

theorem initialAll_term (A : Arith F) (pat : Pattern F) (fuel : Nat) :
    ∀ (l : List (Nat × Nat)) (cells : Grid F), totalPossible cells ≤ fuel →
      ∃ b cells2, initialAll A pat fuel l cells = some (b, cells2) ∧
        totalPossible cells2 ≤ totalPossible cells := by
  intro l
  induction l with
  | nil => intro cells _; exact ⟨true, cells, rfl, le_refl _⟩
  | cons p rest ih =>
    intro cells hN
    obtain ⟨b, c2, h1, h2⟩ := PropagateInitial_term A pat fuel cells p hN
    rw [initialAll, h1]
    cases b with
    | false => exact ⟨false, c2, rfl, h2⟩
    | true =>
      obtain ⟨b3, c3, h3, h4⟩ := ih c2 (by omega)
      exact ⟨b3, c3, h3, by omega⟩

end fails

/-- The initial propagation of `Wfc::Observe`: when it returns `true` every
cell still has a possible tile and a non-zero `n_possible_`; when it returns
`false` some cell has no possible tile left and `n_possible_ = 0`. -/
theorem initial_phase_cells {F : Type} (A : Arith F) (pat : Pattern F) (fuel n m : Nat)
    (hT0 : 0 < pat.edges.length) (hT : pat.edges.length < 2 ^ 32) :
    (∀ cells2, initialAll A pat fuel (positions n m)
        (wire n m (List.replicate n (List.replicate m (Cell.new A pat)))) = some (true, cells2) →
      ∀ q c, cellAt cells2 q = some c →
        c.n_possible_ ≠ 0 ∧ ∃ t, possibleAt cells2 q t = true) ∧
    (∀ cells2, initialAll A pat fuel (positions n m)
        (wire n m (List.replicate n (List.replicate m (Cell.new A pat)))) = some (false, cells2) →
      ∃ q c, cellAt cells2 q = some c ∧ c.n_possible_ = 0 ∧
        ∀ t, possibleAt cells2 q t = false) := by
  constructor
  · intro cells2 hrun q c hc
    have h1 := initialAll_closed (Alive_closed A pat) fuel _ _ true cells2
      (Alive_wire A pat n m hT0) hrun (Or.inr rfl) q c hc
    have h2 := initialAll_closed (CountOk_closed A pat) fuel _ _ true cells2
      (CountOk_wire A pat n m hT) hrun (Or.inl trivial) q c hc
    refine ⟨by rw [h2.1]; omega, ?_⟩
    obtain ⟨t, ht⟩ := exists_possible_of_count_pos c.possible_ h1.2
    exact ⟨t, by rw [possibleAt_eq_of_cellAt hc]; exact ht⟩
  · intro cells2 hrun
    obtain ⟨q, c, hc, hz⟩ := initialAll_fail A pat fuel _ _ cells2 hrun
    have h2 := initialAll_closed (CountOk_closed A pat) fuel _ _ false cells2
      (CountOk_wire A pat n m hT) hrun (Or.inl trivial) q c hc
    refine ⟨q, c, hc, hz, fun t => ?_⟩
    rw [possibleAt_eq_of_cellAt hc]
    exact all_false_of_count_zero c.possible_ (by rw [← h2.1]; exact hz) t

theorem Collapse_of_initial_true {F : Type} (A : Arith F) (pat : Pattern F) (fuel : Nat)
    (gen : Nat → F) (n m : Nat) (hn : n ≠ 0) (hm : m ≠ 0) (cells2 : Grid F)
    (h : initialAll A pat fuel (positions n m)
      (wire n m (List.replicate n (List.replicate m (Cell.new A pat)))) = some (true, cells2)) :
    Collapse A pat fuel gen n m
      = mainLoop A pat fuel gen n m (n * m) cells2
          (List.replicate n (List.replicate m 0)) 0 := by
  unfold Collapse Wfc_Observe
  rw [if_neg (by omega)]
  simp only []
  rw [h]

/-- With a recursion bound of at least the number of set possible flags, the
initial propagation of `Wfc::Observe` either empties a cell, and `Collapse`
returns absent, or leaves every cell non-empty, and `Collapse` goes on with
the main loop. -/
theorem Collapse_initial_cases {F : Type} (A : Arith F) (pat : Pattern F) (fuel : Nat)
    (gen : Nat → F) (n m : Nat) (hn : n ≠ 0) (hm : m ≠ 0)
    (hT0 : 0 < pat.edges.length) (hT : pat.edges.length < 2 ^ 32)
    (hfuel : totalPossible (wire n m (List.replicate n (List.replicate m (Cell.new A pat))))
      ≤ fuel) :
    (∃ cells2, initialAll A pat fuel (positions n m)
        (wire n m (List.replicate n (List.replicate m (Cell.new A pat)))) = some (false, cells2) ∧
      (∃ q c, cellAt cells2 q = some c ∧ c.n_possible_ = 0 ∧
        ∀ t, possibleAt cells2 q t = false) ∧
      Collapse A pat fuel gen n m = Outcome.absent) ∨
    (∃ cells2, initialAll A pat fuel (positions n m)
        (wire n m (List.replicate n (List.replicate m (Cell.new A pat)))) = some (true, cells2) ∧
      (∀ q c, cellAt cells2 q = some c →
        c.n_possible_ ≠ 0 ∧ ∃ t, possibleAt cells2 q t = true) ∧
      Collapse A pat fuel gen n m
        = mainLoop A pat fuel gen n m (n * m) cells2
            (List.replicate n (List.replicate m 0)) 0) := by
  obtain ⟨b, c2, h, -⟩ := initialAll_term A pat fuel (positions n m) _ hfuel
  obtain ⟨h1, h2⟩ := initial_phase_cells A pat fuel n m hT0 hT
  cases b with
  | false =>
    exact Or.inl ⟨c2, h, h2 c2 h, Collapse_absent_of_initial A pat fuel gen n m hn hm c2 h⟩
  | true =>
    exact Or.inr ⟨c2, h, h1 c2 h, Collapse_of_initial_true A pat fuel gen n m hn hm c2 h⟩

end Wfc

namespace Wfc

/-! ## One-tile patterns whose tile lacks a neighbour -/

section singleFail

variable {F : Type} (A : Arith F) (pat : Pattern F) (fuel : Nat)

theorem initialDirs_cons_pass (rm : Grid F → Nat × Nat → Nat → Option (Bool × Grid F))
    (cells : Grid F) (p : Nat × Nat) (dir : Dir) (rest : List Dir) (q : Nat × Nat)
    (cells2 : Grid F) (h : neighborAt cells p (InverseDir dir) = some q)
    (hids : initialIds rm p dir (List.range (nCompatSize cells p dir)) cells
      = some (true, cells2)) :
    initialDirs rm p (dir :: rest) cells = initialDirs rm p rest cells2 := by
  rw [initialDirs, if_neg (by rw [h]; simp), hids]

/-- In a cell that holds only tile 0, the initial propagation returns `false`
as soon as tile 0 has a non-positive counter in a direction with a neighbour
behind it. -/
theorem initialDirs_single_fail (cells : Grid F) (p : Nat × Nat) (c : Cell F)
    (hc : cellAt cells p = some c) (h1 : c.possible_ = [true]) (h2 : c.n_possible_ = 1)
    (hsize : ∀ d, nCompatSize cells p d = 1) :
    ∀ dirs : List Dir,
      (∃ d ∈ dirs, (neighborAt cells p (InverseDir d)).isSome = true ∧
        nCompatAt cells p d 0 ≤ 0) →
      ∃ cells2, initialDirs (RemoveFromState A pat (fuel + 1)) p dirs cells
        = some (false, cells2) := by
  have hposs : possibleAt cells p 0 = true := by
    rw [possibleAt_eq_of_cellAt hc, h1]
    rfl
  have hlast : RemoveFromState A pat (fuel + 1) cells p 0
      = some (false, modifyCell cells p (fun c => dropTile c 0)) := by
    apply RemoveFromState_last
    rw [nPossibleAt_drop_self, if_pos (by rw [hc]; rfl), nPossibleAt_eq_of_cellAt hc, h2]
    norm_num
  intro dirs
  induction dirs with
  | nil =>
    rintro ⟨d, hd, -⟩
    cases hd
  | cons d rest ih =>
    intro hbad
    cases hnb : neighborAt cells p (InverseDir d) with
    | none =>
      rw [initialDirs_cons_skip _ cells p d rest hnb]
      apply ih
      obtain ⟨d2, hd2, hs, hle⟩ := hbad
      rcases List.mem_cons.1 hd2 with rfl | hd2
      · rw [hnb] at hs
        cases hs
      · exact ⟨d2, hd2, hs, hle⟩
    | some q =>
      by_cases hle : nCompatAt cells p d 0 ≤ 0
      · refine ⟨modifyCell cells p (fun c => dropTile c 0), ?_⟩
        apply initialDirs_cons_fail _ cells p d rest q _ hnb
        rw [hsize d, show List.range 1 = [0] from rfl,
          initialIds_cons_remove _ cells p d 0 [] false _ hposs hle hlast]
        rfl
      · have hidle : initialIds (RemoveFromState A pat (fuel + 1)) p d
            (List.range (nCompatSize cells p d)) cells = some (true, cells) := by
          apply initialIds_idle
          intro id hid _
          rw [hsize d] at hid
          have : id = 0 := by
            have := List.mem_range.1 hid
            omega
          subst this
          omega
        rw [initialDirs_cons_pass _ cells p d rest q cells hnb hidle]
        apply ih
        obtain ⟨d2, hd2, hs, hle2⟩ := hbad
        rcases List.mem_cons.1 hd2 with rfl | hd2
        · exact absurd hle2 hle
        · exact ⟨d2, hd2, hs, hle2⟩

theorem initialAll_single_fail (cells : Grid F)
    (hcells : ∀ p c, cellAt cells p = some c → c.possible_ = [true] ∧ c.n_possible_ = 1)
    (hsize : ∀ p d, (cellAt cells p).isSome = true → nCompatSize cells p d = 1) :
    ∀ l : List (Nat × Nat),
      (∃ p ∈ l, (cellAt cells p).isSome = true ∧
        ∃ d, (neighborAt cells p (InverseDir d)).isSome = true ∧
          nCompatAt cells p d 0 ≤ 0) →
      ∃ cells2, initialAll A pat (fuel + 1) l cells = some (false, cells2) := by
  intro l
  induction l with
  | nil =>
    rintro ⟨p, hp, -⟩
    cases hp
  | cons p rest ih =>
    intro hbad
    by_cases hp : (cellAt cells p).isSome = true ∧
        ∃ d, (neighborAt cells p (InverseDir d)).isSome = true ∧ nCompatAt cells p d 0 ≤ 0
    · obtain ⟨hsome, d, hs, hle⟩ := hp
      obtain ⟨c, hc⟩ := Option.isSome_iff_exists.1 hsome
      obtain ⟨c2, hc2⟩ := initialDirs_single_fail A pat fuel cells p c hc (hcells p c hc).1
        (hcells p c hc).2 (fun d => hsize p d hsome) allDirs
        ⟨d, by cases d <;> simp [allDirs], hs, hle⟩
      refine ⟨c2, ?_⟩
      rw [initialAll]
      unfold PropagateInitial
      rw [hc2]
    · have hidle : PropagateInitial A pat (fuel + 1) cells p = some (true, cells) := by
        unfold PropagateInitial
        apply initialDirs_idle
        intro d id hs hid _
        by_contra hle
        cases hsome : cellAt cells p with
        | none =>
          unfold neighborAt at hs
          rw [hsome] at hs
          cases hs
        | some c =>
          have hsome2 : (cellAt cells p).isSome = true := by rw [hsome]; rfl
          rw [hsize p d hsome2] at hid
          have hid0 : id = 0 := by omega
          subst hid0
          exact hp ⟨hsome2, d, hs, by omega⟩
      rw [initialAll, hidle]
      apply ih
      obtain ⟨p2, hp2, hrest⟩ := hbad
      rcases List.mem_cons.1 hp2 with rfl | hp2
      · exact absurd hrest hp
      · exact ⟨p2, hp2, hrest⟩

/-- A one-tile pattern whose tile has an empty edge list in a direction in
which some cell of the grid has a neighbour collapses to absent. -/
theorem Collapse_single_absent (hT : pat.edges.length = 1) (gen : Nat → F) (n m : Nat)
    (p q : Nat × Nat) (d : Dir) (hp : p.1 < n ∧ p.2 < m) (hq : nbrPos n m p d = some q)
    (he : pat.edgesAt 0 d = []) :
    Collapse A pat (fuel + 1) gen n m = Outcome.absent := by
  have hn : n ≠ 0 := by omega
  have hm : m ≠ 0 := by omega
  have hgrid := SingleTileGrid_wire A pat hT n m
  obtain ⟨c2, hc2⟩ := initialAll_single_fail A pat fuel
    (wire n m (List.replicate n (List.replicate m (Cell.new A pat))))
    (fun p c hc => ⟨(hgrid p c hc).1, (hgrid p c hc).2.1⟩)
    (by
      intro p2 d2 hs
      have hin := (cellAt_isSome_iff (GridRect_wire n m (GridRect_replicate n m _)) p2).1 hs
      rw [(wire_reads A pat n m p2).2.2.2.1 d2, if_pos hin]
      exact hT)
    (positions n m)
    ⟨p, (mem_positions n m p).2 hp,
      (cellAt_isSome_iff (GridRect_wire n m (GridRect_replicate n m _)) p).2 hp,
      InverseDir d, by
        rw [InverseDir_inverse, (wire_reads A pat n m p).2.2.2.2 d, if_pos hp, hq]
        rfl, by
        rw [(wire_reads A pat n m p).2.2.1 (InverseDir d) 0,
          if_pos ⟨hp.1, hp.2, by unfold Pattern.T; omega⟩, InverseDir_inverse, he]
        rfl⟩
  exact Collapse_absent_of_initial A pat (fuel + 1) gen n m hn hm c2 hc2

/-- A one-tile pattern whose tile has an empty edge list in a horizontal
direction, on a grid with two columns or more, or in a vertical direction, on
a grid with two rows or more, collapses to absent. -/
theorem Collapse_single_absent_dims (hT : pat.edges.length = 1) (gen : Nat → F) (n m : Nat)
    (hn0 : 0 < n) (hm0 : 0 < m) (hn : n < 2 ^ 64) (hm : m < 2 ^ 64)
    (h : (2 ≤ m ∧ (pat.edgesAt 0 Dir.kLeft = [] ∨ pat.edgesAt 0 Dir.kRight = [])) ∨
      (2 ≤ n ∧ (pat.edgesAt 0 Dir.kUp = [] ∨ pat.edgesAt 0 Dir.kDown = []))) :
    Collapse A pat (fuel + 1) gen n m = Outcome.absent := by
  rcases h with ⟨h2, he | he⟩ | ⟨h2, he | he⟩
  · exact Collapse_single_absent A pat fuel hT gen n m (0, 1) (0, 0) Dir.kLeft
      ⟨hn0, h2⟩
      ((nbrPos_eq_some_iff n m hn hm (0, 1) (0, 0) Dir.kLeft hn0 h2).2
        ⟨by simp [dirDn], by simp [dirDm], hn0, hm0⟩) he
  · exact Collapse_single_absent A pat fuel hT gen n m (0, 0) (0, 1) Dir.kRight
      ⟨hn0, hm0⟩
      ((nbrPos_eq_some_iff n m hn hm (0, 0) (0, 1) Dir.kRight hn0 hm0).2
        ⟨by simp [dirDn], by simp [dirDm], hn0, h2⟩) he
  · exact Collapse_single_absent A pat fuel hT gen n m (1, 0) (0, 0) Dir.kUp
      ⟨h2, hm0⟩
      ((nbrPos_eq_some_iff n m hn hm (1, 0) (0, 0) Dir.kUp h2 hm0).2
        ⟨by simp [dirDn], by simp [dirDm], hn0, hm0⟩) he
  · exact Collapse_single_absent A pat fuel hT gen n m (0, 0) (1, 0) Dir.kDown
      ⟨hn0, hm0⟩
      ((nbrPos_eq_some_iff n m hn hm (0, 0) (1, 0) Dir.kDown hn0 hm0).2
        ⟨by simp [dirDn], by simp [dirDm], h2, hm0⟩) he

end singleFail

end Wfc

namespace Wfc

/-! ## Theorems about the pattern encoder -/

/-- C2. Local indistinguishability of the output: in the image decoded from
any `H × W` wave of valid tile ids whose adjacent pairs all satisfy the edges
of the pattern returned by `Fit`, the `k × k` window with top-left corner
`(i, j)`, `i < H`, `j < W`, equals the stored window of tile `wave[i][j]`, and
that stored window is a window that `Fit` extracted from the sample (at some
visited corner, in one of the rotations that `rotate` allows). -/
theorem Decode_locally_sample {F α : Type} [DecidableEq α] [Inhabited α] (A : Arith F)
    (pattern : List (List α)) (k : Nat) (hwrap vwrap rotate : Bool) (hk : k < 2 ^ 64)
    (wave : Wave) (H W : Nat) (hwave : Rect wave H W)
    (hids : ∀ i j, i < H → j < W →
      at2 wave i j < (Fit A pattern k hwrap vwrap rotate).1.edges.length)
    (hvalid : WaveValid (Fit A pattern k hwrap vwrap rotate).1 wave H W)
    (i j : Nat) (hi : i < H) (hj : j < W) :
    (∀ a b, a < k → b < k →
      at2 (Decode (Fit A pattern k hwrap vwrap rotate).2 wave) (i + a) (j + b)
        = windowAt k ((Fit A pattern k hwrap vwrap rotate).2.id_to_submat_.getD
            (at2 wave i j) []) a b) ∧
    (∃ ci cj rot, ci < upperBound vwrap pattern.length k ∧
      cj < upperBound hwrap (pattern.getD 0 []).length k ∧
      rot < (if rotate then 4 else 1) ∧
      (Fit A pattern k hwrap vwrap rotate).2.id_to_submat_.getD (at2 wave i j) []
        = flatten_submat pattern k ci cj rot) := by
  refine ⟨fun a b ha hb =>
    Decode_window A pattern k hwrap vwrap rotate hk wave H W hwave hvalid i j a b hi hj ha hb,
    ?_⟩
  have hlt := hids i j hi hj
  rw [Fit_edges_length] at hlt
  have hne : pattern ≠ [] := by
    rintro rfl
    simp [Fit] at hlt
  rw [Fit_ids A pattern k hwrap vwrap rotate hne] at hlt ⊢
  rw [← mem_extractions]
  apply ((countWindows_inv pattern k hwrap vwrap rotate).2.2.1 _).1
  rw [getD_eq_getElem_of_lt _ _ _ hlt]
  exact List.getElem_mem _

/-- The hypotheses of `Decode_locally_sample` hold for the 2 × 2 wave of the
four windows of a 3 × 3 sample. -/
theorem Decode_locally_sample_witness :
    (∀ a b, a < 2 → b < 2 →
      at2 (Decode (Fit (ratArith (fun _ => 0)) [[1, 2, 3], [4, 5, 6], [7, 8, 9]]
          2 false false false).2 [[0, 1], [2, 3]]) (1 + a) (1 + b)
        = windowAt 2 ((Fit (ratArith (fun _ => 0)) [[1, 2, 3], [4, 5, 6], [7, 8, 9]]
          2 false false false).2.id_to_submat_.getD (at2 [[0, 1], [2, 3]] 1 1) []) a b) ∧
    (∃ ci cj rot, ci < upperBound false [[1, 2, 3], [4, 5, 6], [7, 8, 9]].length 2 ∧
      cj < upperBound false ([[1, 2, 3], [4, 5, 6], [7, 8, 9]].getD 0 []).length 2 ∧
      rot < (if false = true then 4 else 1) ∧
      (Fit (ratArith (fun _ => 0)) [[1, 2, 3], [4, 5, 6], [7, 8, 9]]
          2 false false false).2.id_to_submat_.getD (at2 [[0, 1], [2, 3]] 1 1) []
        = flatten_submat [[1, 2, 3], [4, 5, 6], [7, 8, 9]] 2 ci cj rot) :=
  Decode_locally_sample (ratArith (fun _ => 0)) [[1, 2, 3], [4, 5, 6], [7, 8, 9]] 2
    false false false (by norm_num) [[0, 1], [2, 3]] 2 2 (by decide)
    (by
      intro i j hi hj
      have hi' : i = 0 ∨ i = 1 := by omega
      have hj' : j = 0 ∨ j = 1 := by omega
      rcases hi' with rfl | rfl <;> rcases hj' with rfl | rfl <;> decide) (by
      intro i j i2 j2 dir hi hj hi2 hj2 e1 e2
      have hi' : i = 0 ∨ i = 1 := by omega
      have hj' : j = 0 ∨ j = 1 := by omega
      have hi2' : i2 = 0 ∨ i2 = 1 := by omega
      have hj2' : j2 = 0 ∨ j2 = 1 := by omega
      rcases hi' with rfl | rfl <;> rcases hj' with rfl | rfl <;>
        rcases hi2' with rfl | rfl <;> rcases hj2' with rfl | rfl <;>
        cases dir <;> simp [dirDn, dirDm] at e1 e2 <;> decide)
    1 1 (by decide) (by decide)

/-- C3. Adjacency symmetry: in the pattern returned by `Fit`, for all tile
ids `i`, `j` and every direction, `j ∈ edges[i][dir]` if and only if
`i ∈ edges[j][inverse(dir)]`. -/
theorem Fit_edges_symmetric {F α : Type} [DecidableEq α] [Inhabited α] (A : Arith F)
    (pattern : List (List α)) (k : Nat) (hwrap vwrap rotate : Bool) (hk : k < 2 ^ 64)
    (i j : Nat) (dir : Dir) :
    j ∈ (Fit A pattern k hwrap vwrap rotate).1.edgesAt i dir ↔
      i ∈ (Fit A pattern k hwrap vwrap rotate).1.edgesAt j (InverseDir dir) :=
  Fit_Symmetric A pattern k hwrap vwrap rotate hk i j dir

/-- The theorem `Fit_edges_symmetric` at the checkerboard sample. -/
theorem Fit_edges_symmetric_witness :
    (2 : Nat) < 2 ^ 64 ∧
    (1 ∈ (Fit (ratArith (fun _ => 0)) [[0, 1, 0], [1, 0, 1], [0, 1, 0]]
        2 false false false).1.edgesAt 0 Dir.kRight ↔
      0 ∈ (Fit (ratArith (fun _ => 0)) [[0, 1, 0], [1, 0, 1], [0, 1, 0]]
        2 false false false).1.edgesAt 1 (InverseDir Dir.kRight)) :=
  ⟨by norm_num,
   Fit_edges_symmetric (ratArith (fun _ => 0)) [[0, 1, 0], [1, 0, 1], [0, 1, 0]] 2
     false false false (by norm_num) 0 1 Dir.kRight⟩

/-- C4. Adjacency equals the overlap definition: in the pattern returned by
`Fit`, for every tile id `p` and direction `dir`, `edges[p][dir]` is strictly
ascending (so duplicate-free) and holds exactly the tile ids `q` whose window
agrees with the window of `p` at every local coordinate `(a, b)` of `p` for
which `(a - dn, b - dm)` lies in the window of `q`. -/
theorem Fit_edges_overlap {F α : Type} [DecidableEq α] [Inhabited α] (A : Arith F)
    (pattern : List (List α)) (k : Nat) (hwrap vwrap rotate : Bool) (hk : k < 2 ^ 64)
    (p : Nat) (dir : Dir) (hp : p < (Fit A pattern k hwrap vwrap rotate).1.edges.length) :
    List.Sorted (fun x y => x < y) ((Fit A pattern k hwrap vwrap rotate).1.edgesAt p dir) ∧
    ∀ q, q ∈ (Fit A pattern k hwrap vwrap rotate).1.edgesAt p dir ↔
      q < (Fit A pattern k hwrap vwrap rotate).1.edges.length ∧
      Overlaps k ((Fit A pattern k hwrap vwrap rotate).2.id_to_submat_.getD p [])
        ((Fit A pattern k hwrap vwrap rotate).2.id_to_submat_.getD q []) dir := by
  constructor
  · rw [Fit_edgesAt, if_pos hp]
    exact List.Sorted.filter _ (List.sorted_lt_range _)
  · intro q
    rw [mem_Fit_edgesAt A pattern k hk]
    simp [hp]

/-- The theorem `Fit_edges_overlap` at the checkerboard sample. -/
theorem Fit_edges_overlap_witness :
    ((2 : Nat) < 2 ^ 64 ∧
      0 < (Fit (ratArith (fun _ => 0)) [[0, 1, 0], [1, 0, 1], [0, 1, 0]]
        2 false false false).1.edges.length) ∧
    (List.Sorted (fun x y => x < y)
      ((Fit (ratArith (fun _ => 0)) [[0, 1, 0], [1, 0, 1], [0, 1, 0]]
        2 false false false).1.edgesAt 0 Dir.kDown) ∧
    ∀ q, q ∈ (Fit (ratArith (fun _ => 0)) [[0, 1, 0], [1, 0, 1], [0, 1, 0]]
        2 false false false).1.edgesAt 0 Dir.kDown ↔
      q < (Fit (ratArith (fun _ => 0)) [[0, 1, 0], [1, 0, 1], [0, 1, 0]]
        2 false false false).1.edges.length ∧
      Overlaps 2 ((Fit (ratArith (fun _ => 0)) [[0, 1, 0], [1, 0, 1], [0, 1, 0]]
          2 false false false).2.id_to_submat_.getD 0 [])
        ((Fit (ratArith (fun _ => 0)) [[0, 1, 0], [1, 0, 1], [0, 1, 0]]
          2 false false false).2.id_to_submat_.getD q []) Dir.kDown) :=
  ⟨⟨by norm_num, by decide⟩,
   Fit_edges_overlap (ratArith (fun _ => 0)) [[0, 1, 0], [1, 0, 1], [0, 1, 0]] 2
     false false false (by norm_num) 0 Dir.kDown (by decide)⟩

/-- C5. Round trip of `Fit` and `Decode`: decoding the wave of the sample
itself (cell `(i, j)` holds the id `Fit` gave to the unrotated window at
corner `(i, j)`) gives an image whose pixel `(x, y)` is
`sample[x mod rows][y mod cols]`; without wrapping the image is the sample. -/
theorem Fit_Decode_roundtrip {F α : Type} [DecidableEq α] [Inhabited α] (A : Arith F)
    (pattern : List (List α)) (k : Nat) (hwrap vwrap rotate : Bool) (rows cols : Nat)
    (hrect : Rect pattern rows cols) (hk : 1 ≤ k) (hrows : k ≤ rows) (hcols : k ≤ cols) :
    Rect (Decode (Fit A pattern k hwrap vwrap rotate).2
        (sampleWave pattern k hwrap vwrap rotate))
      (upperBound vwrap rows k + k - 1) (upperBound hwrap cols k + k - 1) ∧
    (∀ x y, x < upperBound vwrap rows k + k - 1 → y < upperBound hwrap cols k + k - 1 →
      at2 (Decode (Fit A pattern k hwrap vwrap rotate).2
          (sampleWave pattern k hwrap vwrap rotate)) x y
        = at2 pattern (x % rows) (y % cols)) ∧
    (hwrap = false → vwrap = false →
      Decode (Fit A pattern k hwrap vwrap rotate).2
        (sampleWave pattern k hwrap vwrap rotate) = pattern) := by
  have hn : pattern.length = rows := hrect.1
  have hm : (pattern.getD 0 []).length = cols := rect_row_length hrect (by omega)
  have hne : pattern ≠ [] := by
    rintro rfl
    simp at hn
    omega
  have hkk := Fit_k A pattern k hwrap vwrap rotate
  have hH : 0 < upperBound vwrap rows k := by unfold upperBound; split <;> omega
  have hW : 0 < upperBound hwrap cols k := by unfold upperBound; split <;> omega
  have hwave := rect_sampleWave pattern k hwrap vwrap rotate
  rw [hn, hm] at hwave
  have hshape : Rect (Decode (Fit A pattern k hwrap vwrap rotate).2
      (sampleWave pattern k hwrap vwrap rotate))
      (upperBound vwrap rows k + k - 1) (upperBound hwrap cols k + k - 1) := by
    have := (Decode_regions (Fit A pattern k hwrap vwrap rotate).2 _ _ _ hwave hH hW
      (by rw [hkk]; omega)).1
    rwa [hkk] at this
  have hpix : ∀ x y, x < upperBound vwrap rows k + k - 1 →
      y < upperBound hwrap cols k + k - 1 →
      at2 (Decode (Fit A pattern k hwrap vwrap rotate).2
          (sampleWave pattern k hwrap vwrap rotate)) x y
        = at2 pattern (x % rows) (y % cols) := by
    intro x y hx hy
    have h0 := Decode_pixel (Fit A pattern k hwrap vwrap rotate).2 _ _ _ hwave hH hW
      (by rw [hkk]; omega) x y (by rw [hkk]; exact hx) (by rw [hkk]; exact hy)
    rw [hkk] at h0
    rw [h0, at2_sampleWave pattern k hwrap vwrap rotate _ _ (by rw [hn]; omega)
      (by rw [hm]; omega), Fit_ids A pattern k hwrap vwrap rotate hne]
    have hw : flatten_submat pattern k (min x (upperBound vwrap rows k - 1))
        (min y (upperBound hwrap cols k - 1)) 0 ∈ extractions pattern k hwrap vwrap rotate :=
      (mem_extractions pattern k hwrap vwrap rotate _).2
        ⟨_, _, 0, by rw [hn]; omega, by rw [hm]; omega, by split <;> omega, rfl⟩
    rw [(assignedId_spec pattern k hwrap vwrap rotate _ hw).2,
      windowAt_flatten_zero pattern k _ _ _ _ (by omega) (by omega), hn, hm]
    congr 2 <;> omega
  refine ⟨hshape, hpix, ?_⟩
  intro h1 h2
  subst h1; subst h2
  have e1 : upperBound false rows k + k - 1 = rows := by simp [upperBound]; omega
  have e2 : upperBound false cols k + k - 1 = cols := by simp [upperBound]; omega
  rw [e1, e2] at hshape hpix
  apply rect_ext _ _ rows cols hshape hrect
  intro x y hx hy
  rw [hpix x y hx hy, Nat.mod_eq_of_lt hx, Nat.mod_eq_of_lt hy]

/-- The theorem `Fit_Decode_roundtrip` at a 3 × 3 sample with `k = 2`. -/
theorem Fit_Decode_roundtrip_witness :
    Decode (Fit (ratArith (fun _ => 0)) [[1, 2, 3], [4, 5, 6], [7, 8, 9]]
        2 false false false).2
      (sampleWave [[1, 2, 3], [4, 5, 6], [7, 8, 9]] 2 false false false)
      = [[1, 2, 3], [4, 5, 6], [7, 8, 9]] :=
  (Fit_Decode_roundtrip (ratArith (fun _ => 0)) [[1, 2, 3], [4, 5, 6], [7, 8, 9]] 2
    false false false 3 3 (by decide) (by decide) (by decide) (by decide)).2.2 rfl rfl

/-- C6. Layout of `Decode`: for a non-empty rectangular `H × W` wave decoded
after a `Fit` with window size `k ≥ 1`, the image has shape
`(H + k - 1) × (W + k - 1)`; pixel `(i, j)` with `i < H`, `j < W` is
`window(wave[i][j])` at local `(0, 0)`; pixel `(i, W + dj)` is
`window(wave[i][W-1])` at local `(0, dj + 1)`; pixel `(H + di, j)` is
`window(wave[H-1][j])` at local `(di + 1, 0)`; pixel `(H + di, W + dj)` is
`window(wave[H-1][W-1])` at local `(di + 1, dj + 1)`, for `di, dj < k - 1`. -/
theorem Decode_layout {F α : Type} [DecidableEq α] [Inhabited α] (A : Arith F)
    (pattern : List (List α)) (k : Nat) (hwrap vwrap rotate : Bool) (wave : Wave)
    (H W : Nat) (hwave : Rect wave H W) (hH : 0 < H) (hW : 0 < W) (hk : 0 < k) :
    Rect (Decode (Fit A pattern k hwrap vwrap rotate).2 wave) (H + k - 1) (W + k - 1) ∧
    (∀ i j, i < H → j < W →
      at2 (Decode (Fit A pattern k hwrap vwrap rotate).2 wave) i j
        = windowAt k ((Fit A pattern k hwrap vwrap rotate).2.id_to_submat_.getD
            (at2 wave i j) []) 0 0) ∧
    (∀ i dj, i < H → dj < k - 1 →
      at2 (Decode (Fit A pattern k hwrap vwrap rotate).2 wave) i (W + dj)
        = windowAt k ((Fit A pattern k hwrap vwrap rotate).2.id_to_submat_.getD
            (at2 wave i (W - 1)) []) 0 (dj + 1)) ∧
    (∀ di j, di < k - 1 → j < W →
      at2 (Decode (Fit A pattern k hwrap vwrap rotate).2 wave) (H + di) j
        = windowAt k ((Fit A pattern k hwrap vwrap rotate).2.id_to_submat_.getD
            (at2 wave (H - 1) j) []) (di + 1) 0) ∧
    (∀ di dj, di < k - 1 → dj < k - 1 →
      at2 (Decode (Fit A pattern k hwrap vwrap rotate).2 wave) (H + di) (W + dj)
        = windowAt k ((Fit A pattern k hwrap vwrap rotate).2.id_to_submat_.getD
            (at2 wave (H - 1) (W - 1)) []) (di + 1) (dj + 1)) := by
  have hkk := Fit_k A pattern k hwrap vwrap rotate
  obtain ⟨h0, h1, h2, h3, h4⟩ := Decode_regions (Fit A pattern k hwrap vwrap rotate).2
    wave H W hwave hH hW (by rw [hkk]; exact hk)
  rw [hkk] at h0 h2 h3 h4
  refine ⟨h0, ?_, ?_, ?_, ?_⟩
  · intro i j hi hj
    rw [h1 i j hi hj]
    simp [windowAt, MatrixEncoder.pixel]
  · intro i dj hi hdj
    rw [h2 i dj hi hdj]
    simp [windowAt, MatrixEncoder.pixel]
  · intro di j hdi hj
    rw [h3 di j hdi hj]
    simp [windowAt, MatrixEncoder.pixel]
  · intro di dj hdi hdj
    rw [h4 di dj hdi hdj]
    simp [windowAt, MatrixEncoder.pixel, Nat.add_assoc]

/-- The theorem `Decode_layout` at a 2 × 2 wave over a 3 × 3 sample: the
bottom-right pixel of the 3 × 3 image. -/
theorem Decode_layout_witness :
    at2 (Decode (Fit (ratArith (fun _ => 0)) [[1, 2, 3], [4, 5, 6], [7, 8, 9]]
        2 false false false).2 [[0, 1], [2, 3]]) (2 + 0) (2 + 0)
      = windowAt 2 ((Fit (ratArith (fun _ => 0)) [[1, 2, 3], [4, 5, 6], [7, 8, 9]]
          2 false false false).2.id_to_submat_.getD
            (at2 [[0, 1], [2, 3]] (2 - 1) (2 - 1)) []) (0 + 1) (0 + 1) :=
  (Decode_layout (ratArith (fun _ => 0)) [[1, 2, 3], [4, 5, 6], [7, 8, 9]] 2
    false false false [[0, 1], [2, 3]] 2 2 (by decide) (by decide) (by decide)
    (by decide)).2.2.2.2 0 0 (by decide) (by decide)

/-- C7, at a failing input. With `rotate` set, the one window of a 1 × 1
sample is counted four times and divided by `upper_i * upper_j = 1`: the
stored probability is 4, not 1. -/
theorem Fit_probs_rotate_not_normalised :
    (Fit (ratArith (fun _ => 0)) [[(0 : Nat)]] 1 false false true).1.probs = [4] := by
  simp [Fit, countWindows, upperBound, processCorner, process, mapFind, flatten_submat,
    incrAt, ratArith, SIZE_MOD, List.range_succ, at2]

/-- C8. Deduplication and counts: for a sample with `rows` rows and `cols`
columns, `1 ≤ k ≤ rows, cols`, let `upper_i = rows if vwrap else rows - k + 1`,
`upper_j = cols if hwrap else cols - k + 1` and `R = 4 if rotate else 1`, and
let the extracted windows be `flatten_submat(i, j, rot)` for `i < upper_i`,
`j < upper_j`, `rot < R`. After `Fit` the stored windows are pairwise
distinct and listed in the order of their first sighting among the extracted
windows; every extracted window is stored at exactly one id and every stored
window is an extracted one; `occ[i]` (the vector `occ_cnt` at the end of the
counting loop, whose entries `Fit` divides by `upper_i * upper_j` to fill
`probs`) is the number of extractions equal to stored window `i`; and the
counts add up to `upper_i * upper_j * R`. -/
theorem Fit_dedup_counts {F α : Type} [DecidableEq α] [Inhabited α] (A : Arith F)
    (pattern : List (List α)) (k rows cols : Nat) (hwrap vwrap rotate : Bool)
    (hrows : pattern.length = rows) (hcols : (pattern.getD 0 []).length = cols)
    (hk : 1 ≤ k) (hkr : k ≤ rows) (_hkc : k ≤ cols) (upper_i upper_j R : Nat)
    (hi : upper_i = if vwrap then rows else rows - k + 1)
    (hj : upper_j = if hwrap then cols else cols - k + 1)
    (hR : R = if rotate then 4 else 1) :
    (Fit A pattern k hwrap vwrap rotate).2.id_to_submat_.Nodup ∧
    (Fit A pattern k hwrap vwrap rotate).2.id_to_submat_.Pairwise (fun u v =>
      firstIdx u (windowsOf pattern k upper_i upper_j R)
        < firstIdx v (windowsOf pattern k upper_i upper_j R)) ∧
    (∀ i j rot, i < upper_i → j < upper_j → rot < R →
      ∃! id : Nat, (Fit A pattern k hwrap vwrap rotate).2.id_to_submat_[id]?
        = some (flatten_submat pattern k i j rot)) ∧
    (∀ w ∈ (Fit A pattern k hwrap vwrap rotate).2.id_to_submat_,
      ∃ i j rot, i < upper_i ∧ j < upper_j ∧ rot < R ∧
        w = flatten_submat pattern k i j rot) ∧
    (countWindows pattern k hwrap vwrap rotate).occ_cnt.length
      = (Fit A pattern k hwrap vwrap rotate).2.id_to_submat_.length ∧
    (∀ id, id < (Fit A pattern k hwrap vwrap rotate).2.id_to_submat_.length →
      (countWindows pattern k hwrap vwrap rotate).occ_cnt.getD id 0
        = (windowsOf pattern k upper_i upper_j R).count
            ((Fit A pattern k hwrap vwrap rotate).2.id_to_submat_.getD id [])) ∧
    (countWindows pattern k hwrap vwrap rotate).occ_cnt.sum = upper_i * upper_j * R ∧
    (Fit A pattern k hwrap vwrap rotate).1.probs
      = (countWindows pattern k hwrap vwrap rotate).occ_cnt.map (fun o =>
          A.div (A.ofNat o) (A.ofNat ((upper_i * upper_j) % 2 ^ 64))) := by
  have hne : pattern ≠ [] := by
    rintro rfl
    simp at hrows
    omega
  have hws : extractions pattern k hwrap vwrap rotate
      = windowsOf pattern k upper_i upper_j R := by
    rw [extractions_eq_windowsOf, hrows, hcols, ← hi, ← hj, ← hR]
  have hprobs := Fit_probs A pattern k hwrap vwrap rotate hne
  rw [hrows, hcols, ← hi, ← hj] at hprobs
  obtain ⟨hlen, hnd, hmem, hmap, hocc, hord, hsum⟩ :=
    countWindows_inv pattern k hwrap vwrap rotate
  rw [hws] at hmem hocc hord hsum
  rw [Fit_ids A pattern k hwrap vwrap rotate hne]
  have hlenws : (windowsOf pattern k upper_i upper_j R).length = upper_i * upper_j * R := by
    rw [← hws, length_extractions, hi, hj, hR, hrows, hcols]
    rfl
  refine ⟨hnd, hord, ?_, ?_, hlen, hocc, by rw [hsum, hlenws], hprobs⟩
  · intro i j rot hi2 hj2 hrot
    have hw : flatten_submat pattern k i j rot ∈ windowsOf pattern k upper_i upper_j R :=
      (mem_windowsOf pattern k upper_i upper_j R _).2 ⟨i, j, rot, hi2, hj2, hrot, rfl⟩
    obtain ⟨id, hid⟩ := List.mem_iff_getElem?.1 ((hmem _).2 hw)
    refine ⟨id, hid, ?_⟩
    intro id2 hid2
    have hlt : id2 < (countWindows pattern k hwrap vwrap rotate).id_to_submat.length := by
      by_contra hc
      rw [List.getElem?_eq_none (by omega)] at hid2
      cases hid2
    exact List.getElem?_inj hlt hnd (hid2.trans hid.symm)
  · intro w hw
    exact (mem_windowsOf pattern k upper_i upper_j R w).1 ((hmem w).1 hw)

/-- The theorem `Fit_dedup_counts` at a 2 × 3 sample with vertical wrapping
and rotation: 2 · 2 corners in 4 rotations, 16 extractions. -/
theorem Fit_dedup_counts_witness :
    (Fit (ratArith (fun _ => 0)) [[(1 : Nat), 1, 2], [1, 2, 2]] 2 false true true).2.id_to_submat_.Nodup ∧
    (countWindows [[(1 : Nat), 1, 2], [1, 2, 2]] 2 false true true).occ_cnt.sum = 2 * 2 * 4 :=
  ⟨(Fit_dedup_counts (ratArith (fun _ => 0)) [[(1 : Nat), 1, 2], [1, 2, 2]] 2 2 3
      false true true rfl rfl (by decide) (by decide) (by decide) 2 2 4 rfl rfl rfl).1,
   (Fit_dedup_counts (ratArith (fun _ => 0)) [[(1 : Nat), 1, 2], [1, 2, 2]] 2 2 3
      false true true rfl rfl (by decide) (by decide) (by decide) 2 2 4 rfl rfl
      rfl).2.2.2.2.2.2.1⟩

end Wfc

namespace Wfc

/-! ## Theorems about the collapse engine -/

/-- C1. Wave validity: for every pattern whose edge lists are symmetric and
duplicate-free, all dimensions and every sequence of random draws (and every
interpretation of the floating-point operations), if `Collapse` returns a
wave, then the wave has shape `H × W` and for every cell holding tile `i` and
every horizontally or vertically adjacent cell holding tile `j`, in direction
`dir` from the first to the second, `j` is in `edges[i][dir]`. -/
theorem Collapse_wave_valid {F : Type} (A : Arith F) (pat : Pattern F)
    (hs : pat.Symmetric) (hd : pat.DupFree) (fuel : Nat) (gen : Nat → F) (H W : Nat)
    (hH : H < 2 ^ 64) (hW : W < 2 ^ 64) (w : Wave)
    (hrun : Collapse A pat fuel gen H W = Outcome.wave w) :
    Rect w H W ∧ WaveValid pat w H W :=
  Collapse_wave A pat fuel gen H W hs hd hH hW w hrun

/-- The theorem `Collapse_wave_valid` at the pattern of a 3 × 3 checkerboard
with `k = 2`, a 2 × 2 grid and all draws equal to 1/2. -/
theorem Collapse_wave_valid_witness :
    Collapse (ratArith (fun _ => 0))
        (Fit (ratArith (fun _ => 0)) [[0, 1, 0], [1, 0, 1], [0, 1, 0]]
          2 false false false).1 8 (fun _ => 1 / 2) 2 2
      = Outcome.wave [[0, 1], [1, 0]] ∧
    Rect [[0, 1], [1, 0]] 2 2 ∧
    WaveValid (Fit (ratArith (fun _ => 0)) [[0, 1, 0], [1, 0, 1], [0, 1, 0]]
      2 false false false).1 [[0, 1], [1, 0]] 2 2 :=
  ⟨by decide!,
   Collapse_wave_valid (ratArith (fun _ => 0))
    (Fit (ratArith (fun _ => 0)) [[0, 1, 0], [1, 0, 1], [0, 1, 0]] 2 false false false).1
    (Fit_Symmetric _ _ _ _ _ _ (by norm_num)) (Fit_DupFree _ _ _ _ _ _)
    8 (fun _ => 1 / 2) 2 2 (by norm_num) (by norm_num) [[0, 1], [1, 0]] (by decide!)⟩

/-- C9, at a failing input. With the draw `r = 0` the loop of `RandomState`
is never entered, `poss_idx` keeps its start value `-1` and the "sanity
check" assertion fails, whatever the cell and the pattern. -/
theorem RandomState_zero_draw (logf : ℚ → ℚ) (pat : Pattern ℚ) (c : Cell ℚ) :
    randomIdx (ratArith logf) pat c 0 = NEG_ONE ∧
    RandomState (ratArith logf) pat c 0 = none := by
  have h : randomIdx (ratArith logf) pat c 0 = NEG_ONE := by
    unfold randomIdx
    cases List.range c.possible_.length with
    | nil => rfl
    | cons i rest => simp [randomScan, ratArith]
  refine ⟨h, ?_⟩
  unfold RandomState
  rw [h]
  simp

/-- C10 as stated fails: the 2 × 2 sample with four different pixels gives a
one-tile pattern whose tile has no neighbour, and `Collapse` on a 1 × 2 grid
returns absent. -/
theorem Collapse_single_tile_absent :
    (Fit (ratArith (fun _ => 0)) [[0, 1], [2, 3]] 2 false false false).1.edges.length = 1 ∧
    Collapse (ratArith (fun _ => 0))
        (Fit (ratArith (fun _ => 0)) [[0, 1], [2, 3]] 2 false false false).1
        8 (fun _ => 1 / 2) 1 2
      = Outcome.absent := by
  constructor
  · decide
  · decide!

/-- C10, amended. For every pattern with exactly one tile id, all output
dimensions `H, W ≥ 1` (below `2 ^ 64`), every interpretation of the
floating-point operations and every sequence of draws: if `edges[0][Left]`
and `edges[0][Right]` are non-empty whenever `W ≥ 2`, and `edges[0][Up]` and
`edges[0][Down]` are non-empty whenever `H ≥ 2`, then `Collapse` never returns
absent (it returns the `H × W` wave of zeros or stops at a failed assertion),
and it returns the wave of zeros when the initial cell entropy compares
`<= DBL_MAX` and every scaled draw `r * sum_p` of `RandomState` is greater
than 0, `sum_p` being the sum of `probs` that the constructor of `Cell`
computes. In the opposite case (an edge list of the tile is empty in a
direction in which the grid has adjacent cells) `Collapse` returns absent,
for every recursion bound of at least 1. -/
theorem Collapse_single_tile {F : Type} (A : Arith F) (pat : Pattern F)
    (hT : pat.edges.length = 1) (fuel : Nat) (gen : Nat → F) (H W : Nat)
    (hH : 1 ≤ H) (hW : 1 ≤ W) (hH2 : H < 2 ^ 64) (hW2 : W < 2 ^ 64) :
    ((2 ≤ W → pat.edgesAt 0 Dir.kLeft ≠ [] ∧ pat.edgesAt 0 Dir.kRight ≠ []) →
      (2 ≤ H → pat.edgesAt 0 Dir.kUp ≠ [] ∧ pat.edgesAt 0 Dir.kDown ≠ []) →
      (Collapse A pat fuel gen H W = Outcome.wave (List.replicate H (List.replicate W 0)) ∨
        Collapse A pat fuel gen H W = Outcome.aborted) ∧
      (A.le (entropyVal A (initEntropy A pat)) A.dblMax = true →
        (∀ i, A.gt (A.mul (gen i) (initEntropy A pat).sum_p) A.zero = true) →
        Collapse A pat fuel gen H W
          = Outcome.wave (List.replicate H (List.replicate W 0)))) ∧
    ((2 ≤ W ∧ (pat.edgesAt 0 Dir.kLeft = [] ∨ pat.edgesAt 0 Dir.kRight = [])) ∨
        (2 ≤ H ∧ (pat.edgesAt 0 Dir.kUp = [] ∨ pat.edgesAt 0 Dir.kDown = [])) →
      1 ≤ fuel → Collapse A pat fuel gen H W = Outcome.absent) := by
  refine ⟨fun hrow hcol => ⟨?_, fun hsel hdraw => ?_⟩, fun hbad hfuel => ?_⟩
  · exact Collapse_single_cases A pat hT fuel gen H W hH2 hW2 hrow hcol
  · exact Collapse_single A pat hT fuel gen hsel hdraw H W hH hW hH2 hW2 hrow hcol
  · obtain ⟨f, rfl⟩ : ∃ f, fuel = f + 1 := ⟨fuel - 1, by omega⟩
    exact Collapse_single_absent_dims A pat f hT gen H W hH hW hH2 hW2 hbad

/-- The theorem `Collapse_single_tile` at the pattern of a constant 2 × 2
sample, a 2 × 3 grid, exact rational arithmetic and all draws equal to 1/2. -/
theorem Collapse_single_tile_witness :
    Collapse (ratArith (fun _ => 0))
        (Fit (ratArith (fun _ => 0)) [[7, 7], [7, 7]] 2 false false false).1
        0 (fun _ => 1 / 2) 2 3
      = Outcome.wave (List.replicate 2 (List.replicate 3 0)) :=
  ((Collapse_single_tile (ratArith (fun _ => 0))
    (Fit (ratArith (fun _ => 0)) [[7, 7], [7, 7]] 2 false false false).1
    (by decide) 0 (fun _ => 1 / 2) 2 3 (by decide) (by decide) (by norm_num)
    (by norm_num)).1
    (fun _ => ⟨by decide, by decide⟩) (fun _ => ⟨by decide, by decide⟩)).2
    (by decide!) (by intro i; decide!)

end Wfc

namespace Wfc

/-! ## Theorems about scenarios, propagation and rotation -/

/-- C11 as stated fails: in `chainPattern` tile 0 has no right neighbour and
tile 1 has no left neighbour, the edge lists are symmetric and duplicate-free,
and `Collapse` on a 1 × 2 grid returns the wave `[[1, 0]]` instead of absent. -/
theorem Collapse_chain_pattern_wave :
    chainPattern.edges.length = 2 ∧ chainPattern.edgesAt 0 Dir.kRight = [] ∧
    chainPattern.edgesAt 1 Dir.kLeft = [] ∧ chainPattern.Symmetric ∧ chainPattern.DupFree ∧
    Collapse (ratArith (fun _ => 0)) chainPattern 8 (fun _ => 1 / 2) 1 2
      = Outcome.wave [[1, 0]] := by
  refine ⟨rfl, rfl, rfl, ?_, ?_, by decide!⟩
  · intro i j d
    rcases i with _ | _ | i <;> rcases j with _ | _ | j <;> cases d <;>
      simp [chainPattern, Pattern.edgesAt, InverseDir]
  · intro i d
    rcases i with _ | _ | i <;> cases d <;> simp [chainPattern, Pattern.edgesAt]

/-- C11, amended. For every pattern with two tile ids in which neither tile
has a right neighbour (`edges[0][Right]` and `edges[1][Right]` are empty),
`Collapse` on a 1 × 2 grid returns absent, for every sequence of random draws
and every interpretation of the floating-point operations: the initial
propagation removes both tiles from the left cell. -/
theorem Collapse_no_right_neighbour_absent {F : Type} (A : Arith F) (pat : Pattern F)
    (fuel : Nat) (gen : Nat → F) (hT : pat.edges.length = 2)
    (h0 : pat.edgesAt 0 Dir.kRight = []) (h1 : pat.edgesAt 1 Dir.kRight = []) :
    Collapse A pat (fuel + 1) gen 1 2 = Outcome.absent :=
  Collapse_no_right A pat fuel gen hT h0 h1

/-- The theorem `Collapse_no_right_neighbour_absent` at `isolatedPattern`. -/
theorem Collapse_no_right_neighbour_absent_witness :
    Collapse (ratArith (fun _ => 0)) isolatedPattern 1 (fun _ => 1 / 2) 1 2
      = Outcome.absent :=
  Collapse_no_right_neighbour_absent (ratArith (fun _ => 0)) isolatedPattern 0
    (fun _ => 1 / 2) rfl rfl rfl

/-- C12. Self-compatibility on uniform samples: for a constant sample with at
least `k` rows and `k` columns, `1 ≤ k`, and any setting of the wrap and
rotate flags, `Fit` produces exactly one tile id, and `edges[0][dir] = {0}`
in all four directions. -/
theorem Fit_constant_sample {F α : Type} [DecidableEq α] [Inhabited α] (A : Arith F)
    (pattern : List (List α)) (k rows cols : Nat) (v : α) (hwrap vwrap rotate : Bool)
    (hrect : Rect pattern rows cols) (hkr : k ≤ rows) (hkc : k ≤ cols) (hk1 : 1 ≤ k)
    (hk : k < 2 ^ 64)
    (hconst : ∀ r c, r < rows → c < cols → at2 pattern r c = v) :
    (Fit A pattern k hwrap vwrap rotate).1.edges.length = 1 ∧
    ∀ dir, (Fit A pattern k hwrap vwrap rotate).1.edgesAt 0 dir = [0] :=
  Fit_const A pattern k rows cols v hwrap vwrap rotate hrect hkr hkc hk1 hk hconst

/-- The theorem `Fit_constant_sample` at the 2 × 3 sample of sevens with
`k = 2` and all flags set. -/
theorem Fit_constant_sample_witness :
    (Fit (ratArith (fun _ => 0)) [[7, 7, 7], [7, 7, 7]] 2 true true true).1.edges.length = 1 ∧
    ∀ dir, (Fit (ratArith (fun _ => 0)) [[7, 7, 7], [7, 7, 7]] 2 true true true).1.edgesAt
      0 dir = [0] :=
  Fit_constant_sample (ratArith (fun _ => 0)) [[7, 7, 7], [7, 7, 7]] 2 2 3 7 true true true
    (by decide) (by decide) (by decide) (by decide) (by norm_num)
    (by
      intro r c hr hc
      have hr2 : r = 0 ∨ r = 1 := by omega
      have hc2 : c = 0 ∨ c = 1 ∨ c = 2 := by omega
      rcases hr2 with rfl | rfl <;> rcases hc2 with rfl | rfl | rfl <;> rfl)

/-- C13 as stated fails: for the checkerboard of the colours 0 and 1 the
list `edges[0][Left]` is `{1}`, not `{0}`. -/
theorem Fit_checkerboard_left :
    (Fit (ratArith (fun _ => 0)) (checkerboard 0 1) 2 false false false).1.edges.length = 2 ∧
    (Fit (ratArith (fun _ => 0)) (checkerboard 0 1) 2 false false false).1.edgesAt 0 Dir.kLeft
      = [1] ∧
    (Fit (ratArith (fun _ => 0)) (checkerboard 0 1) 2 false false false).1.edgesAt 0 Dir.kLeft
      ≠ [0] := by
  refine ⟨by decide, by decide, by decide⟩

/-- C13, amended. For the 4 × 4 checkerboard sample of two distinct colours,
`Fit` with `k = 2`, no wrapping and no rotation yields exactly two tile ids,
and for each tile `i` the lists `edges[i][Left]` and `edges[i][Right]` (and
likewise `edges[i][Up]` and `edges[i][Down]`) equal `{1 - i}`: a tile is
adjacent to the other tile only, never to itself. -/
theorem Fit_checkerboard_edges {F α : Type} [DecidableEq α] [Inhabited α] (A : Arith F)
    (a b : α) (hab : a ≠ b) :
    (Fit A (checkerboard a b) 2 false false false).1.edges.length = 2 ∧
    ∀ dir, (Fit A (checkerboard a b) 2 false false false).1.edgesAt 0 dir = [1] ∧
      (Fit A (checkerboard a b) 2 false false false).1.edgesAt 1 dir = [0] :=
  Fit_checkerboard A a b hab

/-- The theorem `Fit_checkerboard_edges` at the colours 0 and 1. -/
theorem Fit_checkerboard_edges_witness :
    (Fit (ratArith (fun _ => 0)) (checkerboard 0 1) 2 false false false).1.edges.length = 2 ∧
    ∀ dir,
      (Fit (ratArith (fun _ => 0)) (checkerboard 0 1) 2 false false false).1.edgesAt 0 dir
        = [1] ∧
      (Fit (ratArith (fun _ => 0)) (checkerboard 0 1) 2 false false false).1.edgesAt 1 dir
        = [0] :=
  Fit_checkerboard_edges (ratArith (fun _ => 0)) 0 1 (by decide)

/-- C14. Monotonic possibilities: whatever the pattern, the grid, the cell,
the tile and the result (success or contradiction), after `PropagateInitial`,
`Observe`, `PropagateToNeighbor` and `RemoveFromState` every possible flag
that is set was set before: no flag changes from false to true, and the
possible set of each cell is a subset of what it was. -/
theorem possible_flags_never_return {F : Type} (A : Arith F) (pat : Pattern F) (fuel : Nat)
    (cells : Grid F) (p : Nat × Nat) :
    (∀ b cells2, PropagateInitial A pat fuel cells p = some (b, cells2) →
      Mono cells cells2) ∧
    (∀ id b cells2, Cell.Observe A pat fuel cells p id = some (b, cells2) →
      Mono cells cells2) ∧
    (∀ dir id b cells2,
      PropagateToNeighbor pat (RemoveFromState A pat fuel) cells p dir id = some (b, cells2) →
      Mono cells cells2) ∧
    (∀ id b cells2, RemoveFromState A pat fuel cells p id = some (b, cells2) →
      Mono cells cells2) := by
  have hrefl : Mono cells cells := fun _ _ h => h
  refine ⟨?_, ?_, ?_, ?_⟩
  · intro b cells2 hrun
    exact PropagateInitial_closed (Mono_closed A pat cells) fuel cells p b cells2 hrefl hrun
      (Or.inl trivial)
  · intro id b cells2 hrun
    exact Observe_mono A pat fuel cells p id b cells2 hrun
  · intro dir id b cells2 hrun
    exact propagateList_closed (Mono_closed A pat cells)
      (RemoveFromState_closed (Mono_closed A pat cells) fuel) p dir _ cells b cells2 hrefl hrun
      (Or.inl trivial)
  · intro id b cells2 hrun
    exact RemoveFromState_mono A pat fuel cells p id b cells2 hrun

/-- The theorem `possible_flags_never_return` at the initial propagation of
the left cell of `stripGrid`, which removes tile 1 and returns `true`. -/
theorem possible_flags_never_return_witness :
    (PropagateInitial (ratArith (fun _ => 0)) stripPattern 8 stripGrid (0, 0)).map
        (fun r => (r.1, possibleAt r.2 (0, 0) 1)) = some (true, false) ∧
    Mono stripGrid
      ((PropagateInitial (ratArith (fun _ => 0)) stripPattern 8 stripGrid (0, 0)).getD
        (false, [])).2 :=
  ⟨by decide!,
   (possible_flags_never_return (ratArith (fun _ => 0)) stripPattern 8 stripGrid (0, 0)).1
    true _ (eq_some_of_map_fst _ _ true (by decide!))⟩

/-- C15 as stated fails: after the initial propagation of the 1 × 2 grid for
`stripPattern` (symmetric and duplicate-free), the unobserved left cell has
its neighbour in direction Right, its counter `n_compatible[Right][0]` is 1,
but two tiles `j` are still possible in that neighbour with
`0 ∈ edges[j][Left]`. -/
theorem counter_of_left_cell :
    stripPattern.Symmetric ∧ stripPattern.DupFree ∧
    (initialAll (ratArith (fun _ => 0)) stripPattern 8 (positions 1 2) stripGrid).map
      Prod.fst = some true ∧
    observedAt stripQuiet (0, 0) = false ∧
    neighborAt stripQuiet (0, 0) Dir.kRight = some (0, 1) ∧
    nCompatAt stripQuiet (0, 0) Dir.kRight 0 = 1 ∧
    supporters stripPattern stripQuiet (0, 1) (InverseDir Dir.kRight) 0 = 2 :=
  ⟨Fit_Symmetric _ _ _ _ _ _ (by norm_num), Fit_DupFree _ _ _ _ _ _,
    by decide!, by decide!, by decide!, by decide!, by decide!⟩

/-- C15, amended. For every pattern with symmetric, duplicate-free edge
lists, at propagation quiescence (after a successful initial propagation and
after every successful `Observe` of an unobserved cell with a tile possible
in it), for every unobserved cell `C` that has a neighbour `N` in direction
`InverseDir dir` and every tile `k`, `C.n_compatible[dir][k]` equals the
number of tiles `j` still possible in `N` with `k ∈ edges[j][dir]`. -/
theorem counters_count_supporters {F : Type} (A : Arith F) (pat : Pattern F)
    (fuel n m : Nat) (hs : pat.Symmetric) (hd : pat.DupFree) (hn : n < 2 ^ 64)
    (hm : m < 2 ^ 64) (cells : Grid F) (h : Reach A pat fuel n m cells)
    (C N : Nat × Nat) (dir : Dir) (k : Nat) (hun : observedAt cells C = false)
    (hnb : neighborAt cells C (InverseDir dir) = some N) (hk : k < pat.T) :
    nCompatAt cells C dir k = (supporters pat cells N dir k : Int) :=
  Reach_counter hs hd hn hm h C N dir k hun hnb hk

/-- The theorem `counters_count_supporters` at the right cell of `stripQuiet`,
whose neighbour in direction Left is the left cell. -/
theorem counters_count_supporters_witness :
    nCompatAt stripQuiet (0, 1) Dir.kRight 0
      = (supporters stripPattern stripQuiet (0, 0) Dir.kRight 0 : Int) :=
  counters_count_supporters (ratArith (fun _ => 0)) stripPattern 8 1 2
    (Fit_Symmetric _ _ _ _ _ _ (by norm_num)) (Fit_DupFree _ _ _ _ _ _)
    (by norm_num) (by norm_num) stripQuiet
    (Reach.init _ (eq_some_of_map_fst _ _ true (by decide!)))
    (0, 1) (0, 0) Dir.kRight 0 (by decide!) (by decide!) (by decide!)

/-- C16. Arc consistency at quiescence: for every pattern with symmetric,
duplicate-free edge lists, after the initial propagation has succeeded and
after every `Observe` that returned `true`, for every cell `C`, every tile `k`
still possible in `C` and every direction `d` in which `C` has a neighbour
`N`, some tile `j` still possible in `N` has `j ∈ edges[k][d]`. -/
theorem arc_consistent_at_quiescence {F : Type} (A : Arith F) (pat : Pattern F)
    (fuel n m : Nat) (hs : pat.Symmetric) (hd : pat.DupFree) (hn : n < 2 ^ 64)
    (hm : m < 2 ^ 64) (cells : Grid F) (h : Reach A pat fuel n m cells)
    (C N : Nat × Nat) (d : Dir) (k : Nat) (hnb : neighborAt cells C d = some N)
    (hk : possibleAt cells C k = true) :
    ∃ j, possibleAt cells N j = true ∧ j ∈ pat.edgesAt k d :=
  Reach_arc hs hd hn hm h C N d k hnb hk

/-- The theorem `arc_consistent_at_quiescence` at tile 0 of the left cell of
`stripQuiet` and its neighbour in direction Right. -/
theorem arc_consistent_at_quiescence_witness :
    ∃ j, possibleAt stripQuiet (0, 1) j = true ∧ j ∈ stripPattern.edgesAt 0 Dir.kRight :=
  arc_consistent_at_quiescence (ratArith (fun _ => 0)) stripPattern 8 1 2
    (Fit_Symmetric _ _ _ _ _ _ (by norm_num)) (Fit_DupFree _ _ _ _ _ _)
    (by norm_num) (by norm_num) stripQuiet
    (Reach.init _ (eq_some_of_map_fst _ _ true (by decide!)))
    (0, 0) (0, 1) Dir.kRight 0 (by decide!) (by decide!)

/-- C17 as stated fails: the only cell of the 1 × 1 grid for `lonePattern`
has no neighbour in any direction and its tile 0 has `n_compatible[dir][0] = 0`
in every direction, yet `PropagateInitial` returns `true` with tile 0 still
possible, and `Collapse` returns the wave `[[0]]` instead of absent. -/
theorem PropagateInitial_lone_cell :
    (∀ d ∈ allDirs, neighborAt loneGrid (0, 0) d = none ∧
      nCompatAt loneGrid (0, 0) d 0 = 0) ∧
    possibleAt loneGrid (0, 0) 0 = true ∧
    (PropagateInitial (ratArith (fun _ => 0)) lonePattern 4 loneGrid (0, 0)).map
      (fun r => (r.1, possibleAt r.2 (0, 0) 0)) = some (true, true) ∧
    Collapse (ratArith (fun _ => 0)) lonePattern 4 (fun _ => 1 / 2) 1 1
      = Outcome.wave [[0]] :=
  ⟨by decide!, by decide!, by decide!, by decide!⟩

/-- C17, amended. During initialisation, for every cell `q` visited and each
direction `dir` such that the cell has a neighbour in direction
`InverseDir dir`, every still-possible tile whose `n_compatible[dir]` is zero
or less is eliminated: when the initial propagation loops return `true`, every
tile still possible in `q` has a positive counter in that direction. A
direction `dir` with no neighbour in direction `InverseDir dir` (grid
boundary) is skipped: a cell whose still-possible tiles have positive counters
in the directions with a neighbour behind them is left unchanged, whatever its
counters in the boundary directions. For a pattern with `1 ≤ T < 2 ^ 32` tile
ids the initial propagation of `Wfc::Observe` returns `true` only with a
possible tile and a non-zero `n_possible_` in every cell, and returns `false`
only with a cell that has no possible tile and `n_possible_ = 0`; when it
returns `false`, `Collapse` returns absent. With a recursion bound of at least
the number of set possible flags it returns one of the two, so that either a
cell has been emptied and `Collapse` returns absent, or no cell is empty and
`Collapse` goes on with the main loop. -/
theorem initial_propagation_eliminates {F : Type} (A : Arith F) (pat : Pattern F)
    (fuel : Nat) :
    (∀ (l : List (Nat × Nat)) (cells cells2 : Grid F),
      initialAll A pat fuel l cells = some (true, cells2) →
      ∀ q ∈ l, ∀ dir t, (neighborAt cells q (InverseDir dir)).isSome = true →
        t < nCompatSize cells q dir → possibleAt cells2 q t = true →
        0 < nCompatAt cells2 q dir t) ∧
    (∀ (cells : Grid F) (p : Nat × Nat),
      (∀ dir t, (neighborAt cells p (InverseDir dir)).isSome = true →
        t < nCompatSize cells p dir → possibleAt cells p t = true →
        0 < nCompatAt cells p dir t) →
      PropagateInitial A pat fuel cells p = some (true, cells)) ∧
    (∀ n m : Nat, 0 < pat.edges.length → pat.edges.length < 2 ^ 32 →
      (∀ cells2, initialAll A pat fuel (positions n m)
          (wire n m (List.replicate n (List.replicate m (Cell.new A pat))))
          = some (true, cells2) →
        ∀ q c, cellAt cells2 q = some c →
          c.n_possible_ ≠ 0 ∧ ∃ t, possibleAt cells2 q t = true) ∧
      (∀ cells2, initialAll A pat fuel (positions n m)
          (wire n m (List.replicate n (List.replicate m (Cell.new A pat))))
          = some (false, cells2) →
        ∃ q c, cellAt cells2 q = some c ∧ c.n_possible_ = 0 ∧
          ∀ t, possibleAt cells2 q t = false)) ∧
    (∀ (gen : Nat → F) (n m : Nat) (cells2 : Grid F), n ≠ 0 → m ≠ 0 →
      initialAll A pat fuel (positions n m)
        (wire n m (List.replicate n (List.replicate m (Cell.new A pat))))
        = some (false, cells2) →
      Collapse A pat fuel gen n m = Outcome.absent) ∧
    (∀ (gen : Nat → F) (n m : Nat), n ≠ 0 → m ≠ 0 → 0 < pat.edges.length →
      pat.edges.length < 2 ^ 32 →
      totalPossible (wire n m (List.replicate n (List.replicate m (Cell.new A pat)))) ≤ fuel →
      (∃ cells2, initialAll A pat fuel (positions n m)
          (wire n m (List.replicate n (List.replicate m (Cell.new A pat))))
          = some (false, cells2) ∧
        (∃ q c, cellAt cells2 q = some c ∧ c.n_possible_ = 0 ∧
          ∀ t, possibleAt cells2 q t = false) ∧
        Collapse A pat fuel gen n m = Outcome.absent) ∨
      (∃ cells2, initialAll A pat fuel (positions n m)
          (wire n m (List.replicate n (List.replicate m (Cell.new A pat))))
          = some (true, cells2) ∧
        (∀ q c, cellAt cells2 q = some c →
          c.n_possible_ ≠ 0 ∧ ∃ t, possibleAt cells2 q t = true) ∧
        Collapse A pat fuel gen n m
          = mainLoop A pat fuel gen n m (n * m) cells2
              (List.replicate n (List.replicate m 0)) 0)) := by
  refine ⟨?_, ?_, ?_, ?_, ?_⟩
  · intro l cells cells2 hrun q hq dir t hsome ht hposs
    have h := (initialAll_pos fuel l (fun _ _ _ => False) cells cells2
      (fun _ _ _ hF => hF.elim) hrun).1
    exact h q dir t (Or.inr ⟨hq, hsome, ht⟩) hposs
  · intro cells p h
    exact initialDirs_idle _ cells p h allDirs
  · intro n m hT0 hT
    exact initial_phase_cells A pat fuel n m hT0 hT
  · intro gen n m cells2 hn hm h
    exact Collapse_absent_of_initial A pat fuel gen n m hn hm cells2 h
  · intro gen n m hn hm hT0 hT hfuel
    exact Collapse_initial_cases A pat fuel gen n m hn hm hT0 hT hfuel

/-- The theorem `initial_propagation_eliminates` at the left cell of the 1 × 2
grid for `stripPattern`, direction Left and tile 0. -/
theorem initial_propagation_eliminates_witness :
    0 < nCompatAt stripQuiet (0, 0) Dir.kLeft 0 :=
  (initial_propagation_eliminates (ratArith (fun _ => 0)) stripPattern 8).1
    (positions 1 2) stripGrid stripQuiet (eq_some_of_map_fst _ _ true (by decide!))
    (0, 0) (by decide) Dir.kLeft 0 (by decide!) (by decide!) (by decide!)

/-- C18. The counter `n_possible`: for patterns with fewer than `2 ^ 32` tile
ids (`n_possible_` is a `uint32_t`), in every cell after construction and
wiring `n_possible` is the number of tile ids whose possible flag is set, and
this property of all cells is kept by every call of `PropagateInitial`,
`RemoveFromState` (for a tile possible in the cell), `PropagateToNeighbor` and
`Observe` (for an unobserved cell and a tile possible in it), whether the call
returns `true` or `false`. -/
theorem n_possible_counts_flags {F : Type} (A : Arith F) (pat : Pattern F) (fuel : Nat) :
    (pat.edges.length < 2 ^ 32 →
      (Cell.new A pat).n_possible_ = (Cell.new A pat).possible_.count true ∧
      ∀ n m, CountOk (wire n m (List.replicate n (List.replicate m (Cell.new A pat))))) ∧
    (∀ (cells : Grid F) (p : Nat × Nat), CountOk cells →
      (∀ b cells2, PropagateInitial A pat fuel cells p = some (b, cells2) →
        CountOk cells2) ∧
      (∀ id b cells2, possibleAt cells p id = true →
        RemoveFromState A pat fuel cells p id = some (b, cells2) → CountOk cells2) ∧
      (∀ dir id b cells2,
        PropagateToNeighbor pat (RemoveFromState A pat fuel) cells p dir id
          = some (b, cells2) → CountOk cells2) ∧
      (∀ id b cells2, observedAt cells p = false → possibleAt cells p id = true →
        Cell.Observe A pat fuel cells p id = some (b, cells2) → CountOk cells2)) := by
  refine ⟨?_, ?_⟩
  · intro hT
    refine ⟨?_, fun n m => CountOk_wire A pat n m hT⟩
    show pat.edges.length % 2 ^ 32 = (List.replicate pat.edges.length true).count true
    rw [List.count_replicate_self]
    exact Nat.mod_eq_of_lt hT
  · intro cells p h
    refine ⟨?_, ?_, ?_, ?_⟩
    · intro b cells2 hrun
      exact PropagateInitial_closed (CountOk_closed A pat) fuel cells p b cells2 h hrun
        (Or.inl trivial)
    · intro id b cells2 hposs hrun
      exact RemoveFromState_closed (CountOk_closed A pat) fuel cells p id b cells2 h hposs
        hrun (Or.inl trivial)
    · intro dir id b cells2 hrun
      exact propagateList_closed (CountOk_closed A pat)
        (RemoveFromState_closed (CountOk_closed A pat) fuel) p dir _ cells b cells2 h hrun
        (Or.inl trivial)
    · intro id b cells2 _ hposs hrun
      exact Observe_closed (CountOk_closed A pat) fuel cells p id b cells2 h hposs hrun
        (Or.inl trivial)

/-- The theorem `n_possible_counts_flags` at `stripGrid` and at the grid after
observing tile 0 in its right cell. -/
theorem n_possible_counts_flags_witness :
    CountOk stripGrid ∧
    CountOk ((Cell.Observe (ratArith (fun _ => 0)) stripPattern 8 stripGrid (0, 1) 0).getD
      (false, [])).2 :=
  ⟨((n_possible_counts_flags (ratArith (fun _ => 0)) stripPattern 8).1 (by decide!)).2 1 2,
   ((n_possible_counts_flags (ratArith (fun _ => 0)) stripPattern 8).2 stripGrid (0, 1)
      (((n_possible_counts_flags (ratArith (fun _ => 0)) stripPattern 8).1
        (by decide!)).2 1 2)).2.2.2 0 true _ (by decide!) (by decide!)
      (eq_some_of_map_fst _ _ true (by decide!))⟩

/-- C19. Rotation convention: with `W0 = flatten_submat(i, j, 0)`, the element
at local `(a, b)` of `flatten_submat(i, j, 1)` is `W0[k-1-b][a]`, of
`flatten_submat(i, j, 2)` is `W0[k-1-a][k-1-b]`, and of
`flatten_submat(i, j, 3)` is `W0[b][k-1-a]`; equivalently rotation `r` is the
`r`-fold application of the clockwise quarter turn `rotateCW` to `W0`, and
four applications give `W0` back. -/
theorem flatten_submat_rotations {α : Type} [Inhabited α] (pattern : List (List α))
    (k i j : Nat) :
    (∀ a b, a < k → b < k →
      windowAt k (flatten_submat pattern k i j 1) a b
          = windowAt k (flatten_submat pattern k i j 0) (k - 1 - b) a ∧
      windowAt k (flatten_submat pattern k i j 2) a b
          = windowAt k (flatten_submat pattern k i j 0) (k - 1 - a) (k - 1 - b) ∧
      windowAt k (flatten_submat pattern k i j 3) a b
          = windowAt k (flatten_submat pattern k i j 0) b (k - 1 - a)) ∧
    flatten_submat pattern k i j 1 = rotateCW k (flatten_submat pattern k i j 0) ∧
    flatten_submat pattern k i j 2
      = rotateCW k (rotateCW k (flatten_submat pattern k i j 0)) ∧
    flatten_submat pattern k i j 3
      = rotateCW k (rotateCW k (rotateCW k (flatten_submat pattern k i j 0))) ∧
    rotateCW k (rotateCW k (rotateCW k (rotateCW k (flatten_submat pattern k i j 0))))
      = flatten_submat pattern k i j 0 := by
  refine ⟨fun a b ha hb => windowAt_flatten_rot pattern k i j a b ha hb, ?_, ?_, ?_, ?_⟩
  · rw [rotateCW_flatten_zero]
  · rw [rotateCW_flatten_zero, rotateCW_flatten_one]
  · rw [rotateCW_flatten_zero, rotateCW_flatten_one, rotateCW_flatten_two]
  · rw [rotateCW_flatten_zero, rotateCW_flatten_one, rotateCW_flatten_two,
      rotateCW_flatten_three]

/-- The theorem `flatten_submat_rotations` at the 3 × 3 sample of the numbers
1 to 9 with `k = 2`, corner `(0, 0)` and the local position `(0, 1)`. -/
theorem flatten_submat_rotations_witness :
    windowAt 2 (flatten_submat [[1, 2, 3], [4, 5, 6], [7, 8, 9]] 2 0 0 1) 0 1
        = windowAt 2 (flatten_submat [[1, 2, 3], [4, 5, 6], [7, 8, 9]] 2 0 0 0) (2 - 1 - 1) 0 ∧
    windowAt 2 (flatten_submat [[1, 2, 3], [4, 5, 6], [7, 8, 9]] 2 0 0 2) 0 1
        = windowAt 2 (flatten_submat [[1, 2, 3], [4, 5, 6], [7, 8, 9]] 2 0 0 0)
            (2 - 1 - 0) (2 - 1 - 1) ∧
    windowAt 2 (flatten_submat [[1, 2, 3], [4, 5, 6], [7, 8, 9]] 2 0 0 3) 0 1
        = windowAt 2 (flatten_submat [[1, 2, 3], [4, 5, 6], [7, 8, 9]] 2 0 0 0) 1 (2 - 1 - 0) :=
  (flatten_submat_rotations [[1, 2, 3], [4, 5, 6], [7, 8, 9]] 2 0 0).1 0 1
    (by decide) (by decide)

/-- C20. Propagation terminates: for every pattern and grid state, a call of
`RemoveFromState` for a possible tile turns exactly one set possible flag off
before it recurses, so that the number of set flags in the grid bounds the
depth of the recursion: with a depth bound of at least that number, every call
of `RemoveFromState`, and hence of `Observe` and of `PropagateInitial`,
returns, and leaves fewer (respectively no more) flags set. -/
theorem propagation_terminates {F : Type} (A : Arith F) (pat : Pattern F) (fuel : Nat)
    (cells : Grid F) (p : Nat × Nat) (hfuel : totalPossible cells ≤ fuel) :
    (∀ id, possibleAt cells p id = true →
      totalPossible (modifyCell cells p (fun c => dropTile c id)) + 1
        = totalPossible cells) ∧
    (∀ id, possibleAt cells p id = true →
      ∃ b cells2, RemoveFromState A pat fuel cells p id = some (b, cells2) ∧
        totalPossible cells2 < totalPossible cells) ∧
    (∀ id, ∃ b cells2, Cell.Observe A pat fuel cells p id = some (b, cells2) ∧
      totalPossible cells2 ≤ totalPossible cells) ∧
    (∃ b cells2, PropagateInitial A pat fuel cells p = some (b, cells2) ∧
      totalPossible cells2 ≤ totalPossible cells) :=
  ⟨fun id hposs => totalPossible_drop cells p id hposs,
   fun id hposs => RemoveFromState_term A pat fuel cells p id hposs hfuel,
   fun id => Observe_term A pat fuel cells p id hfuel,
   PropagateInitial_term A pat fuel cells p hfuel⟩

/-- The theorem `propagation_terminates` at `stripGrid`, which has four set
possible flags, with the depth bound 4. -/
theorem propagation_terminates_witness :
    totalPossible stripGrid = 4 ∧
    ∃ b cells2, RemoveFromState (ratArith (fun _ => 0)) stripPattern 4 stripGrid (0, 0) 1
        = some (b, cells2) ∧
      totalPossible cells2 < totalPossible stripGrid :=
  ⟨by decide!,
   (propagation_terminates (ratArith (fun _ => 0)) stripPattern 4 stripGrid (0, 0)
      (by decide!)).2.1 1 (by decide!)⟩

end Wfc
